import Mathlib

/-!
# A shallow embedding of the trading-language compiler and its stack VM

The development follows the C sources file by file:

* `ast.h`    : tokens, expression trees, statements, rules, opcodes, chunks, contexts;
* `lexer.c`  : the scanner (`next_token`);
* `parser.c` : the recursive-descent parser (`parse_program`);
* `vm.c`     : the single-pass compiler (`compile_program`) and the stack machine (`vm_run`).

Conventions.

* A C `double` is an IEEE-754 binary64 bit pattern (`Double`); arithmetic is computed
  exactly on integers and rounded to nearest, ties to even.  The payload and sign of
  a NaN produced by an operation are not modelled: such a result is the canonical
  quiet NaN.
* A C `int` / `int32_t` is an integer in the 32-bit range (`CInt`).
* `exit(1)` after a diagnostic is an error value carrying the diagnostic line;
  lines (diagnostics and trade lines) are kept without their terminating newline.
* Behaviour that C leaves undefined (evaluation stack overflow or underflow, reading
  the chunk past `count`) is an explicit `undefined` outcome.
* Loops and the mutual recursion of the parser take a fuel argument.
-/

/-! ## `double` -/

structure Double where
  bits : Nat
  isLt : bits < 18446744073709551616
deriving DecidableEq

namespace Double

def ofBits (n : Nat) : Double := ⟨n % 18446744073709551616, Nat.mod_lt _ (by decide)⟩

def signBit (d : Double) : Bool := decide (9223372036854775808 ≤ d.bits)
def expField (d : Double) : Nat := d.bits / 4503599627370496 % 2048
def fracField (d : Double) : Nat := d.bits % 4503599627370496

def isNaN (d : Double) : Bool := d.expField == 2047 && d.fracField != 0
def isInf (d : Double) : Bool := d.expField == 2047 && d.fracField == 0
def isZero (d : Double) : Bool := d.expField == 0 && d.fracField == 0

/-- Significand of a finite double: its magnitude is `mant * 2 ^ expo`. -/
def mant (d : Double) : Nat :=
  if d.expField = 0 then d.fracField else 4503599627370496 + d.fracField

/-- Binary exponent of the unit in the last place of a finite double. -/
def expo (d : Double) : Int :=
  if d.expField = 0 then -1074 else (d.expField : Int) - 1075

def nan : Double := ofBits 0x7FF8000000000000
def inf (neg : Bool) : Double := ofBits ((if neg then 9223372036854775808 else 0) + 0x7FF0000000000000)
def zero (neg : Bool) : Double := ofBits (if neg then 9223372036854775808 else 0)

/-- Round-half-even quotient of naturals. -/
def divRoundEven (n d : Nat) : Nat :=
  let q := n / d
  let r := n % d
  if 2 * r < d then q
  else if d < 2 * r then q + 1
  else if q % 2 = 0 then q else q + 1

/-- Doubling search for a width `w` with `n < 2 ^ w`. -/
def log2_width : Nat → Nat → Nat → Nat
  | 0, w, _ => w
  | fuel + 1, w, n => if n < 2 ^ w then w else log2_width fuel (2 * w) n

/-- Binary search for the largest `lo` with `2 ^ lo ≤ n`. -/
def log2_search : Nat → Nat → Nat → Nat → Nat
  | 0, lo, _, _ => lo
  | fuel + 1, lo, step, n =>
      log2_search fuel (if 2 ^ (lo + step) ≤ n then lo + step else lo) (step / 2) n

/-- Position of the leading one bit of a positive natural. -/
def ilog2 (n : Nat) : Nat := log2_search 64 0 (log2_width 64 1 n / 2) n

/-- The bits (without sign) of the double nearest to `num / den`, ties to even
    (`den` positive); overflow gives the bits of infinity. -/
def roundMag (num den : Nat) : Nat :=
  if num = 0 then 0
  else
    let e0 : Int := (ilog2 num : Int) - (ilog2 den : Int)
    -- exponent e with 2^e ≤ num/den < 2^(e+1)
    let e : Int :=
      if 0 ≤ e0 then (if den * 2 ^ e0.toNat ≤ num then e0 else e0 - 1)
      else (if den ≤ num * 2 ^ (-e0).toNat then e0 else e0 - 1)
    if 1024 ≤ e then 0x7FF0000000000000
    else
      let k : Int := if e < -1022 then -1074 else e - 52
      let m : Nat :=
        if 0 ≤ k then divRoundEven num (den * 2 ^ k.toNat)
        else divRoundEven (num * 2 ^ (-k).toNat) den
      if e < -1022 then m
      else
        let b := (e + 1022).toNat * 4503599627370496 + m
        if 0x7FF0000000000000 ≤ b then 0x7FF0000000000000 else b

/-- The double of the given sign nearest to `num / den`. -/
def ofSignMag (neg : Bool) (num den : Nat) : Double :=
  ofBits ((if neg then 9223372036854775808 else 0) + roundMag num den)

/-- The double of the given sign nearest to `num * 2 ^ x`. -/
def ofSignMagExp (neg : Bool) (num : Nat) (x : Int) : Double :=
  if 0 ≤ x then ofSignMag neg (num * 2 ^ x.toNat) 1 else ofSignMag neg num (2 ^ (-x).toNat)

/-- Signed significand of a finite double. -/
def smant (d : Double) : Int := if d.signBit then -(d.mant : Int) else d.mant

def neg (d : Double) : Double :=
  ofBits (if d.signBit then d.bits - 9223372036854775808 else d.bits + 9223372036854775808)

def add (a b : Double) : Double :=
  if a.isNaN || b.isNaN then nan
  else if a.isInf then (if b.isInf && (a.signBit != b.signBit) then nan else a)
  else if b.isInf then b
  else
    let x := min a.expo b.expo
    let s := a.smant * 2 ^ (a.expo - x).toNat + b.smant * 2 ^ (b.expo - x).toNat
    if s = 0 then zero (if a.isZero && b.isZero then a.signBit && b.signBit else false)
    else ofSignMagExp (decide (s < 0)) s.natAbs x

def sub (a b : Double) : Double := add a (neg b)

def mul (a b : Double) : Double :=
  let sg := a.signBit != b.signBit
  if a.isNaN || b.isNaN then nan
  else if a.isInf then (if b.isZero then nan else inf sg)
  else if b.isInf then (if a.isZero then nan else inf sg)
  else ofSignMagExp sg (a.mant * b.mant) (a.expo + b.expo)

def div (a b : Double) : Double :=
  let sg := a.signBit != b.signBit
  if a.isNaN || b.isNaN then nan
  else if a.isInf then (if b.isInf then nan else inf sg)
  else if b.isInf then zero sg
  else if b.isZero then (if a.isZero then nan else inf sg)
  else if 0 ≤ a.expo - b.expo then ofSignMag sg (a.mant * 2 ^ (a.expo - b.expo).toNat) b.mant
  else ofSignMag sg a.mant (b.mant * 2 ^ (b.expo - a.expo).toNat)

/-- Order key of a non-NaN double: the bit pattern is monotone in the magnitude. -/
def ordKey (d : Double) : Int :=
  if d.signBit then -((d.bits - 9223372036854775808 : Nat) : Int) else (d.bits : Int)

def lt (a b : Double) : Bool := !(a.isNaN || b.isNaN) && decide (a.ordKey < b.ordKey)
def le (a b : Double) : Bool := !(a.isNaN || b.isNaN) && decide (a.ordKey ≤ b.ordKey)
def eq (a b : Double) : Bool := !(a.isNaN || b.isNaN) && decide (a.ordKey = b.ordKey)

/-- Conversion `(double)i` of an integer. -/
def ofInt (i : Int) : Double := ofSignMag (decide (i < 0)) i.natAbs 1

/-- Value of a C truth value (`int` 0 or 1) converted to double. -/
def ofBool (b : Bool) : Double := if b then ofInt 1 else ofInt 0

/-- Integer part of a finite double (truncation toward zero); `none` for NaN and the
    infinities. -/
def trunc? (d : Double) : Option Int :=
  if d.expField = 2047 then none
  else
    let m : Nat := if 0 ≤ d.expo then d.mant * 2 ^ d.expo.toNat else d.mant / 2 ^ (-d.expo).toNat
    some (if d.signBit then -(m : Int) else (m : Int))

end Double

/-- Greater-than, as C evaluates `a > b`. -/
def Double.gt (a b : Double) : Bool := Double.lt b a
/-- Greater-or-equal, as C evaluates `a >= b`. -/
def Double.ge (a b : Double) : Bool := Double.le b a
/-- Inequality, as C evaluates `a != b` (true when an operand is NaN). -/
def Double.ne (a b : Double) : Bool := !Double.eq a b
/-- Truth of a double in a C condition: `!d` holds exactly when `d == 0.0`. -/
def Double.truthy (d : Double) : Bool := !Double.eq d (Double.ofInt 0)

/-! ## `int` -/

/-- A C `int` (32 bits, two's complement). -/
structure CInt where
  toInt : Int
  lo : -2147483648 ≤ toInt
  hi : toInt < 2147483648
deriving DecidableEq

/-- Reduction of an integer into the 32-bit signed range. -/
def CInt.wrap (i : Int) : CInt :=
  ⟨(i + 2147483648) % 4294967296 - 2147483648, by omega, by omega⟩

/-! ## `ast.h` -/

inductive TokenType where
  | TOK_EOF | TOK_ERROR
  | TOK_SYMBOL | TOK_IF | TOK_THEN | TOK_END | TOK_BUY | TOK_SELL
  | TOK_AND | TOK_OR | TOK_NOT
  | TOK_IDENT | TOK_NUMBER | TOK_STRING
  | TOK_PLUS | TOK_MINUS | TOK_STAR | TOK_SLASH
  | TOK_GT | TOK_LT | TOK_GE | TOK_LE | TOK_EQ | TOK_NE
  | TOK_LPAREN | TOK_RPAREN | TOK_COMMA
deriving DecidableEq, Repr

structure Token where
  type : TokenType
  lexeme : String
  number : Double
deriving DecidableEq

inductive OpKind where
  | OP_ADD | OP_SUB | OP_MUL | OP_DIV
  | OP_GT_OP | OP_LT_OP | OP_GE_OP | OP_LE_OP | OP_EQ_OP | OP_NE_OP
  | OP_AND_OP | OP_OR_OP
  | OP_NEG_OP | OP_NOT_OP
deriving DecidableEq, Repr

/-- Expression nodes.  `arg_count` of a call is the length of `args`. -/
inductive Expr where
  | number (value : Double)
  | ident (name : String)
  | string (value : String)
  | call (func_name : String) (args : List Expr)
  | binary (op : OpKind) (left right : Expr)
  | unary (op : OpKind) (left : Expr)

inductive StmtKind where
  | STMT_BUY | STMT_SELL
deriving DecidableEq, Repr

structure Stmt where
  kind : StmtKind
  quantity : CInt
deriving DecidableEq

structure Rule where
  condition : Expr
  action : Stmt

structure Program where
  symbol : String
  rules : List Rule

inductive OpCode where
  | BC_HALT | BC_PUSH_CONST | BC_LOAD_VAR | BC_CALL_FUNC
  | BC_ADD | BC_SUB | BC_MUL | BC_DIV
  | BC_GT | BC_LT | BC_GE | BC_LE | BC_EQ | BC_NE
  | BC_AND | BC_OR | BC_NEG | BC_NOT
  | BC_JUMP_IF_FALSE | BC_JUMP | BC_BUY | BC_SELL
deriving DecidableEq, Repr

/-- Numeric value of an opcode (the enumeration starts at `BC_HALT = 0`). -/
def OpCode.toByte : OpCode → Nat
  | .BC_HALT => 0 | .BC_PUSH_CONST => 1 | .BC_LOAD_VAR => 2 | .BC_CALL_FUNC => 3
  | .BC_ADD => 4 | .BC_SUB => 5 | .BC_MUL => 6 | .BC_DIV => 7
  | .BC_GT => 8 | .BC_LT => 9 | .BC_GE => 10 | .BC_LE => 11 | .BC_EQ => 12 | .BC_NE => 13
  | .BC_AND => 14 | .BC_OR => 15 | .BC_NEG => 16 | .BC_NOT => 17
  | .BC_JUMP_IF_FALSE => 18 | .BC_JUMP => 19 | .BC_BUY => 20 | .BC_SELL => 21

/-- Decoding of a byte read as `(OpCode)(*vm->ip++)`; `none` is the `default:` case. -/
def OpCode.ofByte (b : Nat) : Option OpCode :=
  if b = 0 then some .BC_HALT else if b = 1 then some .BC_PUSH_CONST
  else if b = 2 then some .BC_LOAD_VAR else if b = 3 then some .BC_CALL_FUNC
  else if b = 4 then some .BC_ADD else if b = 5 then some .BC_SUB
  else if b = 6 then some .BC_MUL else if b = 7 then some .BC_DIV
  else if b = 8 then some .BC_GT else if b = 9 then some .BC_LT
  else if b = 10 then some .BC_GE else if b = 11 then some .BC_LE
  else if b = 12 then some .BC_EQ else if b = 13 then some .BC_NE
  else if b = 14 then some .BC_AND else if b = 15 then some .BC_OR
  else if b = 16 then some .BC_NEG else if b = 17 then some .BC_NOT
  else if b = 18 then some .BC_JUMP_IF_FALSE else if b = 19 then some .BC_JUMP
  else if b = 20 then some .BC_BUY else if b = 21 then some .BC_SELL
  else none

inductive VarId where
  | VAR_OPEN | VAR_HIGH | VAR_LOW | VAR_CLOSE | VAR_VOLUME
  | VAR_DATE | VAR_TIME | VAR_HOUR | VAR_MINUTE | VAR_WEEKDAY
deriving DecidableEq, Repr

def VarId.toByte : VarId → Nat
  | .VAR_OPEN => 0 | .VAR_HIGH => 1 | .VAR_LOW => 2 | .VAR_CLOSE => 3 | .VAR_VOLUME => 4
  | .VAR_DATE => 5 | .VAR_TIME => 6 | .VAR_HOUR => 7 | .VAR_MINUTE => 8 | .VAR_WEEKDAY => 9

inductive FuncId where
  | FUNC_SMA | FUNC_EMA | FUNC_RSI
deriving DecidableEq, Repr

def FuncId.toByte : FuncId → Nat
  | .FUNC_SMA => 0 | .FUNC_EMA => 1 | .FUNC_RSI => 2

/-- The byte buffer of a chunk: `code` holds the first `count` bytes. -/
structure Chunk where
  code : List Nat
  capacity : Nat
deriving DecidableEq

def Chunk.count (chunk : Chunk) : Nat := chunk.code.length

structure VMContext where
  «open» : Double
  high : Double
  low : Double
  close : Double
  volume : Double
  date : CInt
  time : CInt
  hour : CInt
  minute : CInt
  weekday : CInt

/-! ## `vm.c`: chunk helpers -/

def init_chunk : Chunk := { code := [], capacity := 0 }

/-- Appends one byte (the argument is converted to `uint8_t`), growing the buffer first
    when it is full.  The fields `count` and `capacity` are unbounded numbers here: this
    is the function as long as they stay in the range of `int`, which holds for chunks of
    up to `2 ^ 30` bytes; `write_byte_int` adds that range and is undefined beyond it. -/
def write_byte (chunk : Chunk) (byte : Nat) : Chunk :=
  let capacity :=
    if chunk.count + 1 > chunk.capacity then
      (if chunk.capacity ≠ 0 then chunk.capacity * 2 else 64)
    else chunk.capacity
  { code := chunk.code ++ [byte % 256], capacity := capacity }

/-- Byte `i` of a 32-bit value: `(uint8_t)((val >> (i * 8)) & 0xFF)`, the shift being
    arithmetic. -/
def int32_byte (val : Int) (i : Nat) : Nat := (val / 2 ^ (i * 8) % 256).toNat

def write_int32 (chunk : Chunk) (val : CInt) : Chunk :=
  [0, 1, 2, 3].foldl (fun c i => write_byte c (int32_byte val.toInt i)) chunk

/-- Byte `i` of the object representation of a double (little-endian). -/
def double_byte (val : Double) (i : Nat) : Nat := val.bits / 2 ^ (i * 8) % 256

def write_double (chunk : Chunk) (val : Double) : Chunk :=
  [0, 1, 2, 3, 4, 5, 6, 7].foldl (fun c i => write_byte c (double_byte val i)) chunk

/-! ## `vm.c`: name tables -/

def is_builtin_var (name : String) : Option VarId :=
  if name = "open" then some .VAR_OPEN
  else if name = "high" then some .VAR_HIGH
  else if name = "low" then some .VAR_LOW
  else if name = "close" then some .VAR_CLOSE
  else if name = "volume" then some .VAR_VOLUME
  else if name = "date" then some .VAR_DATE
  else if name = "time" then some .VAR_TIME
  else if name = "hour" then some .VAR_HOUR
  else if name = "minute" then some .VAR_MINUTE
  else if name = "weekday" then some .VAR_WEEKDAY
  else none

def is_builtin_func (name : String) : Option FuncId :=
  if name = "sma" then some .FUNC_SMA
  else if name = "ema" then some .FUNC_EMA
  else if name = "rsi" then some .FUNC_RSI
  else none

/-! ## `vm.c`: the compiler -/

/-- The `switch` of `compile_binary`: the opcode written after both operands. -/
def compile_binary_op (chunk : Chunk) (op : OpKind) : Chunk :=
  match op with
  | .OP_ADD => write_byte chunk OpCode.BC_ADD.toByte
  | .OP_SUB => write_byte chunk OpCode.BC_SUB.toByte
  | .OP_MUL => write_byte chunk OpCode.BC_MUL.toByte
  | .OP_DIV => write_byte chunk OpCode.BC_DIV.toByte
  | .OP_GT_OP => write_byte chunk OpCode.BC_GT.toByte
  | .OP_LT_OP => write_byte chunk OpCode.BC_LT.toByte
  | .OP_GE_OP => write_byte chunk OpCode.BC_GE.toByte
  | .OP_LE_OP => write_byte chunk OpCode.BC_LE.toByte
  | .OP_EQ_OP => write_byte chunk OpCode.BC_EQ.toByte
  | .OP_NE_OP => write_byte chunk OpCode.BC_NE.toByte
  | .OP_AND_OP => write_byte chunk OpCode.BC_AND.toByte
  | .OP_OR_OP => write_byte chunk OpCode.BC_OR.toByte
  | _ => chunk

/-- The `switch` of `compile_unary`: the opcode written after the operand. -/
def compile_unary_op (chunk : Chunk) (op : OpKind) : Chunk :=
  match op with
  | .OP_NEG_OP => write_byte chunk OpCode.BC_NEG.toByte
  | .OP_NOT_OP => write_byte chunk OpCode.BC_NOT.toByte
  | _ => chunk

mutual
/-- Compilation of an expression.  `compile_binary` and `compile_unary` are unfolded in
    their two cases; `compile_args` is the loop over the arguments of a call. -/
def compile_expr (chunk : Chunk) : Expr → Except String Chunk
  | .number value =>
      .ok (write_double (write_byte chunk OpCode.BC_PUSH_CONST.toByte) value)
  | .ident name =>
      match is_builtin_var name with
      | none => .error ("Unknown identifier: " ++ name)
      | some id => .ok (write_byte (write_byte chunk OpCode.BC_LOAD_VAR.toByte) id.toByte)
  | .string _ => .error "Bare string literal in expression not supported in skeleton."
  | .call func_name args =>
      match is_builtin_func func_name with
      | none => .error ("Unknown function: " ++ func_name)
      | some f =>
          match compile_args chunk args with
          | .error msg => .error msg
          | .ok c =>
              .ok (write_byte (write_byte (write_byte c OpCode.BC_CALL_FUNC.toByte) f.toByte)
                    args.length)
  | .binary op left right =>
      match compile_expr chunk left with
      | .error msg => .error msg
      | .ok c1 =>
          match compile_expr c1 right with
          | .error msg => .error msg
          | .ok c2 => .ok (compile_binary_op c2 op)
  | .unary op left =>
      match compile_expr chunk left with
      | .error msg => .error msg
      | .ok c1 => .ok (compile_unary_op c1 op)
def compile_args (chunk : Chunk) : List Expr → Except String Chunk
  | [] => .ok chunk
  | e :: es =>
      match compile_expr chunk e with
      | .error msg => .error msg
      | .ok c => compile_args c es
end

/-- Overwrites the four bytes at `pos` with the little-endian bytes of `val`. -/
def patch_int32 (chunk : Chunk) (pos : Nat) (val : CInt) : Chunk :=
  { chunk with
    code := [0, 1, 2, 3].foldl (fun code i => code.set (pos + i) (int32_byte val.toInt i))
      chunk.code }

def compile_rule (chunk : Chunk) (r : Rule) : Except String Chunk :=
  match compile_expr chunk r.condition with
  | .error msg => .error msg
  | .ok c1 =>
      let c2 := write_byte c1 OpCode.BC_JUMP_IF_FALSE.toByte
      let jmp_pos := c2.count
      let c3 := write_int32 c2 (CInt.wrap 0)
      let c4 :=
        match r.action.kind with
        | .STMT_BUY => write_int32 (write_byte c3 OpCode.BC_BUY.toByte) r.action.quantity
        | .STMT_SELL => write_int32 (write_byte c3 OpCode.BC_SELL.toByte) r.action.quantity
      let after := c4.count
      let offset := CInt.wrap ((after : Int) - ((jmp_pos : Int) + 4))
      .ok (patch_int32 c4 jmp_pos offset)

/-- The `while (r)` loop of `compile_program` over the rule list. -/
def compile_rules (chunk : Chunk) : List Rule → Except String Chunk
  | [] => .ok chunk
  | r :: rs =>
      match compile_rule chunk r with
      | .error msg => .error msg
      | .ok c => compile_rules c rs

def compile_program (program : Program) : Except String Chunk :=
  match compile_rules init_chunk program.rules with
  | .error msg => .error msg
  | .ok c => .ok (write_byte c OpCode.BC_HALT.toByte)

/-! ## `vm.c`: the stack machine -/

def STACK_MAX : Nat := 256

/-- The mutable part of the machine: `stack` lists the live slots, top first (so `sp` is
    its length), `ip` is an index into the code of the chunk, `out` holds the trade lines
    printed so far. -/
structure VM where
  stack : List Double
  ip : Nat
  out : List String

/-- Ways in which the interpreter loop stops. -/
inductive Stop where
  | halt
  | unknown_opcode (op : Nat)
  | exit (msg : String)
  | undefined (what : String)
deriving DecidableEq

def pop (vm : VM) : Except Stop (Double × VM) :=
  match vm.stack with
  | [] => .error (.undefined "pop from an empty stack")
  | v :: rest => .ok (v, { vm with stack := rest })

def push (vm : VM) (v : Double) : Except Stop VM :=
  if vm.stack.length < STACK_MAX then .ok { vm with stack := v :: vm.stack }
  else .error (.undefined "push onto a full stack")

/-- The read `*vm->ip++`. -/
def fetch (chunk : Chunk) (vm : VM) : Except Stop (Nat × VM) :=
  match chunk.code.get? vm.ip with
  | none => .error (.undefined "read past the end of the chunk")
  | some b => .ok (b, { vm with ip := vm.ip + 1 })

/-- The loop `for i in 0..n: acc |= byte << (i * 8)` reading `n` operand bytes. -/
def fetch_le (chunk : Chunk) : Nat → Nat → Nat → VM → Except Stop (Nat × VM)
  | 0, _, acc, vm => .ok (acc, vm)
  | n + 1, i, acc, vm =>
      match fetch chunk vm with
      | .error s => .error s
      | .ok (b, vm1) => fetch_le chunk n (i + 1) (acc + b * 2 ^ (i * 8)) vm1

/-- A 4-byte operand, read as `int32_t`. -/
def fetch_int32 (chunk : Chunk) (vm : VM) : Except Stop (CInt × VM) :=
  match fetch_le chunk 4 0 0 vm with
  | .error s => .error s
  | .ok (n, vm1) => .ok (CInt.wrap n, vm1)

/-- An 8-byte operand, read through the union as `double`. -/
def fetch_double (chunk : Chunk) (vm : VM) : Except Stop (Double × VM) :=
  match fetch_le chunk 8 0 0 vm with
  | .error s => .error s
  | .ok (n, vm1) => .ok (Double.ofBits n, vm1)

def builtin_sma (series _period : Double) : Double := series
def builtin_ema (series _period : Double) : Double := series
def builtin_rsi (_period : Double) : Double := Double.ofInt 50

/-- The inner `switch (id)` of `BC_LOAD_VAR`. -/
def load_var (ctx : VMContext) (id : Nat) : Double :=
  if id = 0 then ctx.open
  else if id = 1 then ctx.high
  else if id = 2 then ctx.low
  else if id = 3 then ctx.close
  else if id = 4 then ctx.volume
  else if id = 5 then Double.ofInt ctx.date.toInt
  else if id = 6 then Double.ofInt ctx.time.toInt
  else if id = 7 then Double.ofInt ctx.hour.toInt
  else if id = 8 then Double.ofInt ctx.minute.toInt
  else if id = 9 then Double.ofInt ctx.weekday.toInt
  else Double.ofInt 0

/-- Cases of the form `double b = pop(vm), a = pop(vm); push(vm, f a b)`. -/
def binary_case (vm : VM) (f : Double → Double → Double) : Except Stop VM :=
  match pop vm with
  | .error s => .error s
  | .ok (b, vm1) =>
      match pop vm1 with
      | .error s => .error s
      | .ok (a, vm2) => push vm2 (f a b)

/-- Cases of the form `double a = pop(vm); push(vm, f a)`. -/
def unary_case (vm : VM) (f : Double → Double) : Except Stop VM :=
  match pop vm with
  | .error s => .error s
  | .ok (a, vm1) => push vm1 (f a)

/-- The body of `BC_CALL_FUNC` once `fid` and `argc` are read. -/
def call_case (vm : VM) (fid argc : Nat) : Except Stop VM :=
  if fid = FuncId.FUNC_SMA.toByte then
    if argc ≠ 2 then .error (.exit "sma expects 2 args")
    else binary_case vm (fun series period => builtin_sma series period)
  else if fid = FuncId.FUNC_EMA.toByte then
    if argc ≠ 2 then .error (.exit "ema expects 2 args")
    else binary_case vm (fun series period => builtin_ema series period)
  else if fid = FuncId.FUNC_RSI.toByte then
    if argc ≠ 1 then .error (.exit "rsi expects 1 arg")
    else unary_case vm (fun period => builtin_rsi period)
  else push vm (Double.ofInt 0)

/-- The pointer update `vm->ip += offset`. -/
def jump (vm : VM) (offset : CInt) : Except Stop VM :=
  if 0 ≤ (vm.ip : Int) + offset.toInt then
    .ok { vm with ip := ((vm.ip : Int) + offset.toInt).toNat }
  else .error (.undefined "jump before the start of the chunk")

/-- The line printed by `BC_BUY` / `BC_SELL`. -/
def trade_line (symbol : String) (kind : StmtKind) (qty : CInt) : String :=
  match kind with
  | .STMT_BUY => "SYMBOL " ++ symbol ++ ": BUY " ++ toString qty.toInt
  | .STMT_SELL => "SYMBOL " ++ symbol ++ ": SELL " ++ toString qty.toInt

def trade_case (chunk : Chunk) (symbol : String) (kind : StmtKind) (vm : VM) :
    Except Stop VM :=
  match fetch_int32 chunk vm with
  | .error s => .error s
  | .ok (qty, vm1) => .ok { vm1 with out := vm1.out ++ [trade_line symbol kind qty] }

/-- One iteration of the `for (;;)` loop of `vm_run`: fetch an opcode and dispatch. -/
def vm_step (chunk : Chunk) (ctx : VMContext) (symbol : String) (vm : VM) :
    Except Stop VM :=
  match fetch chunk vm with
  | .error s => .error s
  | .ok (b, vm0) =>
    match OpCode.ofByte b with
    | none => .error (.unknown_opcode b)
    | some .BC_HALT => .error .halt
    | some .BC_PUSH_CONST =>
        match fetch_double chunk vm0 with
        | .error s => .error s
        | .ok (d, vm1) => push vm1 d
    | some .BC_LOAD_VAR =>
        match fetch chunk vm0 with
        | .error s => .error s
        | .ok (id, vm1) => push vm1 (load_var ctx id)
    | some .BC_CALL_FUNC =>
        match fetch chunk vm0 with
        | .error s => .error s
        | .ok (fid, vm1) =>
            match fetch chunk vm1 with
            | .error s => .error s
            | .ok (argc, vm2) => call_case vm2 fid argc
    | some .BC_ADD => binary_case vm0 Double.add
    | some .BC_SUB => binary_case vm0 Double.sub
    | some .BC_MUL => binary_case vm0 Double.mul
    | some .BC_DIV => binary_case vm0 Double.div
    | some .BC_GT => binary_case vm0 (fun a b => Double.ofBool (Double.gt a b))
    | some .BC_LT => binary_case vm0 (fun a b => Double.ofBool (Double.lt a b))
    | some .BC_GE => binary_case vm0 (fun a b => Double.ofBool (Double.ge a b))
    | some .BC_LE => binary_case vm0 (fun a b => Double.ofBool (Double.le a b))
    | some .BC_EQ => binary_case vm0 (fun a b => Double.ofBool (Double.eq a b))
    | some .BC_NE => binary_case vm0 (fun a b => Double.ofBool (Double.ne a b))
    | some .BC_AND =>
        binary_case vm0 (fun a b =>
          Double.ofBool (Double.ne a (Double.ofInt 0) && Double.ne b (Double.ofInt 0)))
    | some .BC_OR =>
        binary_case vm0 (fun a b =>
          Double.ofBool (Double.ne a (Double.ofInt 0) || Double.ne b (Double.ofInt 0)))
    | some .BC_NEG => unary_case vm0 Double.neg
    | some .BC_NOT => unary_case vm0 (fun a => Double.ofBool (Double.eq a (Double.ofInt 0)))
    | some .BC_JUMP_IF_FALSE =>
        match fetch_int32 chunk vm0 with
        | .error s => .error s
        | .ok (offset, vm1) =>
            match pop vm1 with
            | .error s => .error s
            | .ok (cond, vm2) => if Double.truthy cond then .ok vm2 else jump vm2 offset
    | some .BC_JUMP =>
        match fetch_int32 chunk vm0 with
        | .error s => .error s
        | .ok (offset, vm1) => jump vm1 offset
    | some .BC_BUY => trade_case chunk symbol .STMT_BUY vm0
    | some .BC_SELL => trade_case chunk symbol .STMT_SELL vm0

/-- The interpreter loop, at most `fuel` iterations; `none` when the fuel runs out,
    otherwise the reason for stopping and the trade lines printed. -/
def vm_loop (chunk : Chunk) (ctx : VMContext) (symbol : String) :
    Nat → VM → Option (Stop × List String)
  | 0, _ => none
  | fuel + 1, vm =>
      match vm_step chunk ctx symbol vm with
      | .error s => some (s, vm.out)
      | .ok vm1 => vm_loop chunk ctx symbol fuel vm1

def vm_run (fuel : Nat) (chunk : Chunk) (ctx : VMContext) (symbol : String) :
    Option (Stop × List String) :=
  vm_loop chunk ctx symbol fuel { stack := [], ip := 0, out := [] }

def run_chunk (fuel : Nat) (chunk : Chunk) (ctx : VMContext) (symbol : String) :
    Option (Stop × List String) :=
  vm_run fuel chunk ctx symbol

/-! ## `lexer.c`

The source is a list of characters, one per byte; the terminating NUL of the C string is
the end of the list (a NUL inside the list also ends the input).  The scanner state is
the pointer `current`, here the remaining input; `start` only delimits the lexeme, which
the functions below return directly. -/

/-- The byte `*current`. -/
def cur_char (current : List Char) : Char := current.headD (Char.ofNat 0)

def skip_whitespace : List Char → List Char
  | [] => []
  | c :: rest =>
      if c = ' ' ∨ c = '\t' ∨ c = '\r' ∨ c = '\n' then skip_whitespace rest else c :: rest

def is_alpha (c : Char) : Bool :=
  ('a' ≤ c && c ≤ 'z') || ('A' ≤ c && c ≤ 'Z') || c == '_'

def is_digit (c : Char) : Bool := '0' ≤ c && c ≤ '9'

/-- A token of the given type whose lexeme is the scanned text. -/
def make_token (type : TokenType) (lexeme : List Char) : Token :=
  { type := type, lexeme := String.mk lexeme, number := Double.ofInt 0 }

def error_token (msg : String) : Token :=
  { type := .TOK_ERROR, lexeme := msg, number := Double.ofInt 0 }

/-- The scanning loops `while (p(*current)) current++`: the text passed over and the rest.
    A NUL never satisfies the predicates used, so the loop stops at the end of input. -/
def scan_while (p : Char → Bool) : List Char → List Char × List Char
  | [] => ([], [])
  | c :: rest =>
      if p c && c ≠ Char.ofNat 0 then
        let r := scan_while p rest
        (c :: r.1, r.2)
      else ([], c :: rest)

/-- Scans a string once the opening quote is consumed. -/
def string_token (current : List Char) : Token × List Char :=
  let r := scan_while (fun c => c ≠ '"') current
  if cur_char r.2 = Char.ofNat 0 then (error_token "Unterminated string", r.2)
  else (make_token .TOK_STRING ('"' :: r.1 ++ ['"']), r.2.tail)

/-- Value of a digit string read as a decimal natural. -/
def decimal_value (digits : List Char) : Nat :=
  digits.foldl (fun acc c => 10 * acc + (c.toNat - '0'.toNat)) 0

/-- The conversion `atof` on a lexeme made of digits, optionally followed by a point and
    more digits: the nearest double to the decimal value. -/
def atof (lexeme : List Char) : Double :=
  let ip := scan_while is_digit lexeme
  let fp := if cur_char ip.2 = '.' then (scan_while is_digit ip.2.tail).1 else []
  Double.ofSignMag false (decimal_value (ip.1 ++ fp)) (10 ^ fp.length)

/-- Scans a number starting at its first digit. -/
def number_token (current : List Char) : Token × List Char :=
  let ip := scan_while is_digit current
  let r : List Char × List Char :=
    if cur_char ip.2 = '.' then
      let fp := scan_while is_digit ip.2.tail
      (ip.1 ++ '.' :: fp.1, fp.2)
    else ip
  ({ type := .TOK_NUMBER, lexeme := String.mk r.1, number := atof r.1 }, r.2)

def identifier_type (text : String) : TokenType :=
  if text = "symbol" then .TOK_SYMBOL
  else if text = "if" then .TOK_IF
  else if text = "then" then .TOK_THEN
  else if text = "end" then .TOK_END
  else if text = "buy" then .TOK_BUY
  else if text = "sell" then .TOK_SELL
  else if text = "and" then .TOK_AND
  else if text = "or" then .TOK_OR
  else if text = "not" then .TOK_NOT
  else .TOK_IDENT

/-- Scans an identifier or reserved word starting at its first character. -/
def identifier_token (current : List Char) : Token × List Char :=
  let r := scan_while (fun c => is_alpha c || is_digit c) current
  ({ type := identifier_type (String.mk r.1), lexeme := String.mk r.1,
     number := Double.ofInt 0 }, r.2)

/-- The scanner: the next token and the new value of `current`. -/
def next_token (current0 : List Char) : Token × List Char :=
  match skip_whitespace current0 with
  | [] => (make_token .TOK_EOF [], [])
  | c :: rest =>
      if c = Char.ofNat 0 then (make_token .TOK_EOF [], c :: rest)
      else if c = '+' then (make_token .TOK_PLUS [c], rest)
      else if c = '-' then (make_token .TOK_MINUS [c], rest)
      else if c = '*' then (make_token .TOK_STAR [c], rest)
      else if c = '/' then (make_token .TOK_SLASH [c], rest)
      else if c = '(' then (make_token .TOK_LPAREN [c], rest)
      else if c = ')' then (make_token .TOK_RPAREN [c], rest)
      else if c = ',' then (make_token .TOK_COMMA [c], rest)
      else if c = '>' then
        (if cur_char rest = '=' then (make_token .TOK_GE [c, '='], rest.tail)
         else (make_token .TOK_GT [c], rest))
      else if c = '<' then
        (if cur_char rest = '=' then (make_token .TOK_LE [c, '='], rest.tail)
         else (make_token .TOK_LT [c], rest))
      else if c = '=' ∧ cur_char rest = '=' then (make_token .TOK_EQ [c, '='], rest.tail)
      else if c = '!' ∧ cur_char rest = '=' then (make_token .TOK_NE [c, '='], rest.tail)
      else if c = '"' then string_token rest
      else if is_digit c then number_token (c :: rest)
      else if is_alpha c then identifier_token (c :: rest)
      else (error_token "Unexpected character", rest)

/-! ## `parser.c` -/

/-- Parser state: the global `current_token` and the scanner position `current`. -/
structure PState where
  current_token : Token
  current : List Char

/-- Outcome of a parsing function: a value and the new state, `exit(1)` after the
    diagnostic `msg`, undefined behaviour, or exhausted fuel. -/
inductive PResult (α : Type) where
  | ok (val : α) (s : PState)
  | error (msg : String)
  | undefined (what : String)
  | nofuel

/-- Sequencing of two parsing steps: the second runs on the value and state of the first;
    a failure of the first is the failure of the whole. -/
def PResult.bind {α β : Type} (r : PResult α) (k : α → PState → PResult β) : PResult β :=
  match r with
  | .ok val s => k val s
  | .error msg => .error msg
  | .undefined what => .undefined what
  | .nofuel => .nofuel

def advance (s : PState) : PState :=
  let r := next_token s.current
  { current_token := r.1, current := r.2 }

/-- The diagnostic printed by `error` before `exit(1)`. -/
def parse_error (s : PState) (msg : String) : String :=
  "Parse error: " ++ msg ++ " (token: " ++ s.current_token.lexeme ++ ")"

def consume (s : PState) (type : TokenType) (msg : String) : PResult Unit :=
  if s.current_token.type ≠ type then .error (parse_error s msg)
  else .ok () (advance s)

/-- The operator of a comparison token (the `switch (op_tok)` of `parse_cmp`). -/
def cmp_op (op_tok : TokenType) : OpKind :=
  match op_tok with
  | .TOK_GT => .OP_GT_OP
  | .TOK_LT => .OP_LT_OP
  | .TOK_GE => .OP_GE_OP
  | .TOK_LE => .OP_LE_OP
  | .TOK_EQ => .OP_EQ_OP
  | .TOK_NE => .OP_NE_OP
  | _ => .OP_EQ_OP

/-- The test opening the `if` of `parse_cmp`. -/
def is_cmp_token (t : TokenType) : Bool :=
  t == .TOK_GT || t == .TOK_LT || t == .TOK_GE || t == .TOK_LE || t == .TOK_EQ || t == .TOK_NE

mutual
def parse_primary : Nat → PState → PResult Expr
  | 0, _ => .nofuel
  | fuel + 1, s =>
      if s.current_token.type = .TOK_NUMBER then
        .ok (.number s.current_token.number) (advance s)
      else if s.current_token.type = .TOK_IDENT then
        let name := s.current_token.lexeme
        let s1 := advance s
        if s1.current_token.type = .TOK_LPAREN then
          let s2 := advance s1
          if s2.current_token.type ≠ .TOK_RPAREN then
            (parse_args fuel [] s2).bind fun args s3 =>
            (consume s3 .TOK_RPAREN "Expected ')' after function arguments").bind fun _ s4 =>
            .ok (.call name args) s4
          else
            (consume s2 .TOK_RPAREN "Expected ')' after function arguments").bind fun _ s4 =>
            .ok (.call name []) s4
        else .ok (.ident name) s1
      else if s.current_token.type = .TOK_STRING then
        .ok (.string s.current_token.lexeme) (advance s)
      else if s.current_token.type = .TOK_LPAREN then
        (parse_expr fuel (advance s)).bind fun e s1 =>
        (consume s1 .TOK_RPAREN "Expected ')'").bind fun _ s2 =>
        .ok e s2
      else .error (parse_error s "Expected expression")
/-- The argument loop of `parse_primary`; `args` holds the arguments parsed so far. -/
def parse_args : Nat → List Expr → PState → PResult (List Expr)
  | 0, _, _ => .nofuel
  | fuel + 1, args, s =>
      (parse_expr fuel s).bind fun e s1 =>
      if s1.current_token.type = .TOK_COMMA then parse_args fuel (args ++ [e]) (advance s1)
      else .ok (args ++ [e]) s1
def parse_mul : Nat → PState → PResult Expr
  | 0, _ => .nofuel
  | fuel + 1, s =>
      (parse_primary fuel s).bind fun left s1 => parse_mul_loop fuel left s1
/-- The `for (;;)` loop of `parse_mul`. -/
def parse_mul_loop : Nat → Expr → PState → PResult Expr
  | 0, _, _ => .nofuel
  | fuel + 1, left, s =>
      if s.current_token.type = .TOK_STAR then
        (parse_primary fuel (advance s)).bind fun right s1 =>
        parse_mul_loop fuel (.binary .OP_MUL left right) s1
      else if s.current_token.type = .TOK_SLASH then
        (parse_primary fuel (advance s)).bind fun right s1 =>
        parse_mul_loop fuel (.binary .OP_DIV left right) s1
      else .ok left s
def parse_add : Nat → PState → PResult Expr
  | 0, _ => .nofuel
  | fuel + 1, s =>
      (parse_mul fuel s).bind fun left s1 => parse_add_loop fuel left s1
/-- The `for (;;)` loop of `parse_add`. -/
def parse_add_loop : Nat → Expr → PState → PResult Expr
  | 0, _, _ => .nofuel
  | fuel + 1, left, s =>
      if s.current_token.type = .TOK_PLUS then
        (parse_mul fuel (advance s)).bind fun right s1 =>
        parse_add_loop fuel (.binary .OP_ADD left right) s1
      else if s.current_token.type = .TOK_MINUS then
        (parse_mul fuel (advance s)).bind fun right s1 =>
        parse_add_loop fuel (.binary .OP_SUB left right) s1
      else .ok left s
def parse_cmp : Nat → PState → PResult Expr
  | 0, _ => .nofuel
  | fuel + 1, s =>
      (parse_add fuel s).bind fun left s1 =>
      if is_cmp_token s1.current_token.type then
        (parse_add fuel (advance s1)).bind fun right s2 =>
        .ok (.binary (cmp_op s1.current_token.type) left right) s2
      else .ok left s1
def parse_not : Nat → PState → PResult Expr
  | 0, _ => .nofuel
  | fuel + 1, s =>
      if s.current_token.type = .TOK_NOT then
        (parse_not fuel (advance s)).bind fun e s1 => .ok (.unary .OP_NOT_OP e) s1
      else parse_cmp fuel s
def parse_and : Nat → PState → PResult Expr
  | 0, _ => .nofuel
  | fuel + 1, s =>
      (parse_not fuel s).bind fun left s1 => parse_and_loop fuel left s1
/-- The `while` loop of `parse_and`. -/
def parse_and_loop : Nat → Expr → PState → PResult Expr
  | 0, _, _ => .nofuel
  | fuel + 1, left, s =>
      if s.current_token.type = .TOK_AND then
        (parse_not fuel (advance s)).bind fun right s1 =>
        parse_and_loop fuel (.binary .OP_AND_OP left right) s1
      else .ok left s
def parse_or : Nat → PState → PResult Expr
  | 0, _ => .nofuel
  | fuel + 1, s =>
      (parse_and fuel s).bind fun left s1 => parse_or_loop fuel left s1
/-- The `while` loop of `parse_or`. -/
def parse_or_loop : Nat → Expr → PState → PResult Expr
  | 0, _, _ => .nofuel
  | fuel + 1, left, s =>
      if s.current_token.type = .TOK_OR then
        (parse_and fuel (advance s)).bind fun right s1 =>
        parse_or_loop fuel (.binary .OP_OR_OP left right) s1
      else .ok left s
def parse_expr : Nat → PState → PResult Expr
  | 0, _ => .nofuel
  | fuel + 1, s => parse_or fuel s
end

/-- The conversion `(int)current_token.number`: truncation toward zero; the conversion
    is undefined when the truncated value does not fit an `int`. -/
def double_to_int (d : Double) : Option CInt :=
  match d.trunc? with
  | none => none
  | some i =>
      if h : -2147483648 ≤ i ∧ i < 2147483648 then some ⟨i, h.1, h.2⟩ else none

/-- The common tail of the two branches of `parse_action`, after `buy` / `sell` is
    consumed. -/
def parse_quantity (s : PState) (kind : StmtKind) (msg : String) : PResult Stmt :=
  if s.current_token.type ≠ .TOK_NUMBER then .error (parse_error s msg)
  else
    match double_to_int s.current_token.number with
    | none => .undefined "conversion of an out-of-range double to int"
    | some qty => .ok { kind := kind, quantity := qty } (advance s)

def parse_action (s : PState) : PResult Stmt :=
  if s.current_token.type = .TOK_BUY then
    parse_quantity (advance s) .STMT_BUY "Expected number after 'buy'"
  else if s.current_token.type = .TOK_SELL then
    parse_quantity (advance s) .STMT_SELL "Expected number after 'sell'"
  else .error (parse_error s "Expected 'buy' or 'sell'")

/-- The `while` loop of `parse_rule_list`; `rules` holds the rules parsed so far, in
    order (the linked list from `head` to `tail`). -/
def parse_rule_list_loop : Nat → List Rule → PState → PResult (List Rule)
  | 0, _, _ => .nofuel
  | fuel + 1, rules, s =>
      if s.current_token.type = .TOK_IF then
        (parse_expr fuel (advance s)).bind fun cond s1 =>
        (consume s1 .TOK_THEN "Expected 'then'").bind fun _ s2 =>
        (parse_action s2).bind fun act s3 =>
        (consume s3 .TOK_END "Expected 'end'").bind fun _ s4 =>
        parse_rule_list_loop fuel (rules ++ [{ condition := cond, action := act }]) s4
      else .ok rules s

def parse_rule_list (fuel : Nat) (s : PState) : PResult (List Rule) :=
  parse_rule_list_loop fuel [] s

/-- The state after `init_lexer(source); advance()`. -/
def start_parser_state (source : List Char) : PState :=
  advance { current_token := make_token .TOK_EOF [], current := source }

def parse_program (fuel : Nat) (source : List Char) : PResult Program :=
  (consume (start_parser_state source) .TOK_SYMBOL "Expected 'symbol' at beginning").bind fun _ s1 =>
  if s1.current_token.type ≠ .TOK_STRING then
    .error (parse_error s1 "Expected string literal after 'symbol'")
  else
    let sym := s1.current_token.lexeme
    (parse_rule_list fuel (advance s1)).bind fun rules s2 =>
    if s2.current_token.type ≠ .TOK_EOF then
      .error (parse_error s2 "Expected end of input")
    else .ok { symbol := sym, rules := rules } s2

/-! ## Reference semantics of expressions and rules

What follows is not taken from the C sources: these are the notions the properties are
stated with (the value of a condition, the class of well-formed conditions, the stack
space a condition needs, the output expected of a program). -/

/-- Iteration of `vm_step`: the machine state after `n` instructions, or the reason the
    machine stopped before. -/
def vm_steps (chunk : Chunk) (ctx : VMContext) (symbol : String) :
    Nat → VM → Except Stop VM
  | 0, vm => .ok vm
  | n + 1, vm =>
      match vm_step chunk ctx symbol vm with
      | .error s => .error s
      | .ok vm1 => vm_steps chunk ctx symbol n vm1

/-- The function a binary operator denotes (`none` for the two unary operators). -/
def binary_fn (op : OpKind) : Option (Double → Double → Double) :=
  match op with
  | .OP_ADD => some Double.add
  | .OP_SUB => some Double.sub
  | .OP_MUL => some Double.mul
  | .OP_DIV => some Double.div
  | .OP_GT_OP => some fun a b => Double.ofBool (Double.gt a b)
  | .OP_LT_OP => some fun a b => Double.ofBool (Double.lt a b)
  | .OP_GE_OP => some fun a b => Double.ofBool (Double.ge a b)
  | .OP_LE_OP => some fun a b => Double.ofBool (Double.le a b)
  | .OP_EQ_OP => some fun a b => Double.ofBool (Double.eq a b)
  | .OP_NE_OP => some fun a b => Double.ofBool (Double.ne a b)
  | .OP_AND_OP => some fun a b => Double.ofBool (Double.truthy a && Double.truthy b)
  | .OP_OR_OP => some fun a b => Double.ofBool (Double.truthy a || Double.truthy b)
  | .OP_NEG_OP => none
  | .OP_NOT_OP => none

/-- The function a unary operator denotes (`none` for the binary operators). -/
def unary_fn (op : OpKind) : Option (Double → Double) :=
  match op with
  | .OP_NEG_OP => some Double.neg
  | .OP_NOT_OP => some fun a => Double.ofBool (!Double.truthy a)
  | _ => none

/-- The value of a builtin call on evaluated arguments, when the arity is right. -/
def call_value (f : FuncId) (args : List Double) : Option Double :=
  match f, args with
  | .FUNC_SMA, [series, period] => some (builtin_sma series period)
  | .FUNC_EMA, [series, period] => some (builtin_ema series period)
  | .FUNC_RSI, [period] => some (builtin_rsi period)
  | _, _ => none

mutual
/-- The value of an expression in a context: numbers denote themselves, builtin variables
    the context field of that name, calls the indicator applied to the values of the
    arguments, operators their function.  Undefined on strings, unknown names, calls of
    the wrong arity and operators used at the wrong arity. -/
def eval (ctx : VMContext) : Expr → Option Double
  | .number value => some value
  | .ident name =>
      match is_builtin_var name with
      | none => none
      | some id => some (load_var ctx id.toByte)
  | .string _ => none
  | .call func_name args =>
      match is_builtin_func func_name, eval_args ctx args with
      | some f, some vals => call_value f vals
      | _, _ => none
  | .binary op left right =>
      match binary_fn op, eval ctx left, eval ctx right with
      | some f, some a, some b => some (f a b)
      | _, _, _ => none
  | .unary op left =>
      match unary_fn op, eval ctx left with
      | some f, some a => some (f a)
      | _, _ => none
/-- The values of an argument list, left to right. -/
def eval_args (ctx : VMContext) : List Expr → Option (List Double)
  | [] => some []
  | e :: es =>
      match eval ctx e, eval_args ctx es with
      | some v, some vs => some (v :: vs)
      | _, _ => none
end

mutual
/-- Conditions built only from number literals, the ten builtin variables, `sma` / `ema`
    calls with two arguments, `rsi` calls with one argument, binary operators with two
    operands and unary operators with one. -/
def well_formed : Expr → Bool
  | .number _ => true
  | .ident name => (is_builtin_var name).isSome
  | .string _ => false
  | .call func_name args =>
      (match is_builtin_func func_name with
       | some .FUNC_SMA => args.length == 2
       | some .FUNC_EMA => args.length == 2
       | some .FUNC_RSI => args.length == 1
       | none => false) && well_formed_args args
  | .binary op left right => (binary_fn op).isSome && well_formed left && well_formed right
  | .unary op left => (unary_fn op).isSome && well_formed left
def well_formed_args : List Expr → Bool
  | [] => true
  | e :: es => well_formed e && well_formed_args es
end

mutual
/-- Number of evaluation-stack slots the code of an expression uses above the depth at
    which it starts. -/
def stack_need : Expr → Nat
  | .number _ => 1
  | .ident _ => 1
  | .string _ => 0
  | .call _ args => max (stack_need_args args) 1
  | .binary _ left right => max (stack_need left) (1 + stack_need right)
  | .unary _ left => stack_need left
/-- Slots used by an argument list: argument `i` starts `i` slots up. -/
def stack_need_args : List Expr → Nat
  | [] => 0
  | e :: es => max (stack_need e) (1 + stack_need_args es)
end

mutual
/-- Number of instructions in the code of an expression. -/
def instr_count : Expr → Nat
  | .number _ => 1
  | .ident _ => 1
  | .string _ => 0
  | .call _ args => instr_count_args args + 1
  | .binary _ left right => instr_count left + instr_count right + 1
  | .unary _ left => instr_count left + 1
def instr_count_args : List Expr → Nat
  | [] => 0
  | e :: es => instr_count e + instr_count_args es
end

/-- The trade lines a program is expected to print in a context: the actions of the
    rules whose condition has a non-zero value, in the order of the rules. -/
def expected_output (ctx : VMContext) (symbol : String) : List Rule → List String
  | [] => []
  | r :: rs =>
      (match eval ctx r.condition with
       | some v =>
           if Double.truthy v then [trade_line symbol r.action.kind r.action.quantity] else []
       | none => []) ++ expected_output ctx symbol rs

/-! ## Auxiliary definitions

Code layouts, invariants and the inputs of the examples. -/

open Expr OpKind

/-- The code bytes of a successfully compiled binary operator. -/
def binary_op_code (op : OpKind) : List Nat := (compile_binary_op init_chunk op).code

/-- The code bytes of a successfully compiled unary operator. -/
def unary_op_code (op : OpKind) : List Nat := (compile_unary_op init_chunk op).code

/-- The four bytes `write_int32` appends. -/
def int32_bytes (val : CInt) : List Nat :=
  [int32_byte val.toInt 0, int32_byte val.toInt 1, int32_byte val.toInt 2, int32_byte val.toInt 3]

/-- The eight bytes `write_double` appends. -/
def double_bytes (val : Double) : List Nat :=
  [double_byte val 0, double_byte val 1, double_byte val 2, double_byte val 3,
   double_byte val 4, double_byte val 5, double_byte val 6, double_byte val 7]

mutual
/-- The bytes `compile_expr` appends for an expression it accepts. -/
def expr_code : Expr → List Nat
  | .number value => OpCode.BC_PUSH_CONST.toByte :: double_bytes value
  | .ident name =>
      match is_builtin_var name with
      | none => []
      | some id => [OpCode.BC_LOAD_VAR.toByte, id.toByte]
  | .string _ => []
  | .call func_name args =>
      match is_builtin_func func_name with
      | none => []
      | some f => args_code args ++ [OpCode.BC_CALL_FUNC.toByte, f.toByte, args.length % 256]
  | .binary op left right => expr_code left ++ expr_code right ++ binary_op_code op
  | .unary op left => expr_code left ++ unary_op_code op
def args_code : List Expr → List Nat
  | [] => []
  | e :: es => expr_code e ++ args_code es
end

/-- Little-endian value of a byte list, the first byte weighing `2 ^ (i * 8)`. -/
def le_value : Nat → List Nat → Nat
  | _, [] => 0
  | i, b :: bs => b * 2 ^ (i * 8) + le_value (i + 1) bs

/-- The opcode byte of an action. -/
def action_opcode (kind : StmtKind) : OpCode :=
  match kind with
  | .STMT_BUY => .BC_BUY
  | .STMT_SELL => .BC_SELL

/-- The bytes `compile_rule` appends for a rule whose condition it accepts: the condition,
    `JumpIfFalse` with the patched offset 5, and the action with its quantity. -/
def rule_code (r : Rule) : List Nat :=
  expr_code r.condition ++ OpCode.BC_JUMP_IF_FALSE.toByte :: int32_bytes (CInt.wrap 5) ++
    (action_opcode r.action.kind).toByte :: int32_bytes r.action.quantity

/-- The bytes of a rule list, in order. -/
def rules_code : List Rule → List Nat
  | [] => []
  | r :: rs => rule_code r ++ rules_code rs

/-- The trade lines one rule contributes, given the value of its condition. -/
def rule_output (symbol : String) (r : Rule) (v : Double) : List String :=
  if Double.truthy v then [trade_line symbol r.action.kind r.action.quantity] else []

/-- Number of instructions executed for one rule, given the value of its condition. -/
def rule_steps (r : Rule) (v : Double) : Nat :=
  instr_count r.condition + 1 + (if Double.truthy v then 1 else 0)

/-- The ten builtin variable names. -/
def builtin_variable_names : List String :=
  ["open", "high", "low", "close", "volume", "date", "time", "hour", "minute", "weekday"]

/-- The three builtin function names. -/
def builtin_function_names : List String := ["sma", "ema", "rsi"]

mutual
/-- The nodes of an expression tree, in the order the compiler visits them. -/
def nodes : Expr → List Expr
  | .number value => [.number value]
  | .ident name => [.ident name]
  | .string value => [.string value]
  | .call func_name args => .call func_name args :: nodes_args args
  | .binary op left right => .binary op left right :: (nodes left ++ nodes right)
  | .unary op left => .unary op left :: nodes left
def nodes_args : List Expr → List Expr
  | [] => []
  | e :: es => nodes e ++ nodes_args es
end

/-- The compile-time diagnostic a single node gives rise to, if any. -/
def node_diagnostic (node : Expr) : Option String :=
  match node with
  | .ident name =>
      if name ∈ builtin_variable_names then none else some ("Unknown identifier: " ++ name)
  | .call func_name _ =>
      if func_name ∈ builtin_function_names then none
      else some ("Unknown function: " ++ func_name)
  | .string _ => some "Bare string literal in expression not supported in skeleton."
  | _ => none

/-- All condition nodes of a rule list, in compilation order. -/
def rules_nodes : List Rule → List Expr
  | [] => []
  | r :: rs => nodes r.condition ++ rules_nodes rs

/-- The outcome of compilation read off the first diagnostic among the nodes. -/
def Agrees (r : Except String Chunk) (d : Option String) : Prop :=
  match d with
  | none => ∃ c, r = .ok c
  | some msg => r = .error msg

/-- The outcome of a run that stops on an evaluation-stack overflow. -/
def Overflows (chunk : Chunk) (ctx : VMContext) (symbol : String) (vm : VM) : Prop :=
  ∃ n, ∀ k, vm_loop chunk ctx symbol (n + k) vm =
    some (.undefined "push onto a full stack", vm.out)

/-- The candle built in `main`. -/
def example_context : VMContext :=
  { «open» := Double.ofInt 100, high := Double.ofInt 110, low := Double.ofInt 95,
    close := Double.ofInt 108, volume := Double.ofInt 1000000,
    date := CInt.wrap 20251117, time := CInt.wrap 940, hour := CInt.wrap 9,
    minute := CInt.wrap 40, weekday := CInt.wrap 1 }

/-- The sum `1 + (1 + (... + 1))` with `n + 1` literals, nested to the right, as the parser
    builds it from the parenthesised source. -/
def deep_sum : Nat → Expr
  | 0 => number (Double.ofInt 1)
  | n + 1 => binary OP_ADD (number (Double.ofInt 1)) (deep_sum n)

/-- One rule whose condition is a right-nested sum of 257 literals. -/
def deep_program : Program :=
  { symbol := "S",
    rules := [{ condition := deep_sum 256,
                action := { kind := .STMT_BUY, quantity := CInt.wrap 1 } }] }

/-- The program of the two-rule scenario. -/
def two_rule_program : Program :=
  { symbol := "\"X\"",
    rules := [
      { condition := binary OP_AND_OP
          (binary OP_GT_OP (ident "close") (number (Double.ofInt 0)))
          (binary OP_EQ_OP (ident "hour") (number (Double.ofInt 9))),
        action := { kind := .STMT_SELL, quantity := CInt.wrap 5 } },
      { condition := binary OP_EQ_OP (ident "weekday") (number (Double.ofInt 1)),
        action := { kind := .STMT_BUY, quantity := CInt.wrap 1 } }] }

/-- The rule `if rsi() then buy 1 end`. -/
def rsi_without_argument_rule : Rule :=
  { condition := call "rsi" [], action := { kind := .STMT_BUY, quantity := CInt.wrap 1 } }

/-- The rule `if close > 100 then buy 10 end`. -/
def close_above_100_rule : Rule :=
  { condition := binary OP_GT_OP (ident "close") (number (Double.ofInt 100)),
    action := { kind := .STMT_BUY, quantity := CInt.wrap 10 } }

/-- The chunk `compile_program` produces for `two_rule_program`. -/
def two_rule_chunk : Chunk :=
  { code := [2, 3, 1, 0, 0, 0, 0, 0, 0, 0, 0, 8, 2, 7, 1, 0, 0, 0, 0, 0, 0, 34, 64, 12, 14,
      18, 5, 0, 0, 0, 21, 5, 0, 0, 0, 2, 9, 1, 0, 0, 0, 0, 0, 0, 240, 63, 12, 18, 5, 0, 0, 0,
      20, 1, 0, 0, 0, 0],
    capacity := 64 }

/-- Fuel order on outcomes: running out of fuel is below every outcome. -/
def PResult.le {α : Type} (r1 r2 : PResult α) : Prop := r1 = .nofuel ∨ r1 = r2

/-- The statement that one more unit of fuel does not change a finished parse, for all
    the functions of the expression grammar at fuel `n`. -/
def ParserMono (n : Nat) : Prop :=
  (∀ s, (parse_primary n s).le (parse_primary (n + 1) s)) ∧
  (∀ a s, (parse_args n a s).le (parse_args (n + 1) a s)) ∧
  (∀ s, (parse_mul n s).le (parse_mul (n + 1) s)) ∧
  (∀ l s, (parse_mul_loop n l s).le (parse_mul_loop (n + 1) l s)) ∧
  (∀ s, (parse_add n s).le (parse_add (n + 1) s)) ∧
  (∀ l s, (parse_add_loop n l s).le (parse_add_loop (n + 1) l s)) ∧
  (∀ s, (parse_cmp n s).le (parse_cmp (n + 1) s)) ∧
  (∀ s, (parse_not n s).le (parse_not (n + 1) s)) ∧
  (∀ s, (parse_and n s).le (parse_and (n + 1) s)) ∧
  (∀ l s, (parse_and_loop n l s).le (parse_and_loop (n + 1) l s)) ∧
  (∀ s, (parse_or n s).le (parse_or (n + 1) s)) ∧
  (∀ l s, (parse_or_loop n l s).le (parse_or_loop (n + 1) l s)) ∧
  (∀ s, (parse_expr n s).le (parse_expr (n + 1) s))

/-- Advancing from the first state reaches the second, and no token passed over on the
    way is an error token. -/
inductive CleanPath : PState → PState → Prop where
  | refl (s : PState) : CleanPath s s
  | step (s s1 : PState) : s.current_token.type ≠ .TOK_ERROR → CleanPath (advance s) s1 →
      CleanPath s s1

mutual
/-- Every unary node of the tree is a logical not: no node is a negation. -/
def no_negate : Expr → Bool
  | .number _ => true
  | .ident _ => true
  | .string _ => true
  | .call _ args => no_negate_args args
  | .binary _ left right => no_negate left && no_negate right
  | .unary op left => op == .OP_NOT_OP && no_negate left
def no_negate_args : List Expr → Bool
  | [] => true
  | e :: es => no_negate e && no_negate_args es
end

/-- What a successful parse guarantees, for all the functions of the expression grammar at
    fuel `n`: the tokens consumed are not error tokens and the tree has no negation. -/
def ParserSound (n : Nat) : Prop :=
  (∀ s v s1, parse_primary n s = .ok v s1 → CleanPath s s1 ∧ no_negate v = true) ∧
  (∀ a s v s1, parse_args n a s = .ok v s1 → no_negate_args a = true →
    CleanPath s s1 ∧ no_negate_args v = true) ∧
  (∀ s v s1, parse_mul n s = .ok v s1 → CleanPath s s1 ∧ no_negate v = true) ∧
  (∀ l s v s1, parse_mul_loop n l s = .ok v s1 → no_negate l = true →
    CleanPath s s1 ∧ no_negate v = true) ∧
  (∀ s v s1, parse_add n s = .ok v s1 → CleanPath s s1 ∧ no_negate v = true) ∧
  (∀ l s v s1, parse_add_loop n l s = .ok v s1 → no_negate l = true →
    CleanPath s s1 ∧ no_negate v = true) ∧
  (∀ s v s1, parse_cmp n s = .ok v s1 → CleanPath s s1 ∧ no_negate v = true) ∧
  (∀ s v s1, parse_not n s = .ok v s1 → CleanPath s s1 ∧ no_negate v = true) ∧
  (∀ s v s1, parse_and n s = .ok v s1 → CleanPath s s1 ∧ no_negate v = true) ∧
  (∀ l s v s1, parse_and_loop n l s = .ok v s1 → no_negate l = true →
    CleanPath s s1 ∧ no_negate v = true) ∧
  (∀ s v s1, parse_or n s = .ok v s1 → CleanPath s s1 ∧ no_negate v = true) ∧
  (∀ l s v s1, parse_or_loop n l s = .ok v s1 → no_negate l = true →
    CleanPath s s1 ∧ no_negate v = true) ∧
  (∀ s v s1, parse_expr n s = .ok v s1 → CleanPath s s1 ∧ no_negate v = true)

/-- The rule loop, entered at the first state, is back at its test in the second state
    after parsing zero or more whole rules. -/
inductive RuleLoopReaches : PState → PState → Prop where
  | start (s : PState) : RuleLoopReaches s s
  | next (fuel : Nat) (s s1 s2 s3 s4 s5 : PState) (cond : Expr) (act : Stmt) (u1 u2 : Unit) :
      s.current_token.type = .TOK_IF →
      parse_expr fuel (advance s) = .ok cond s1 →
      consume s1 .TOK_THEN "Expected 'then'" = .ok u1 s2 →
      parse_action s2 = .ok act s3 →
      consume s3 .TOK_END "Expected 'end'" = .ok u2 s4 →
      RuleLoopReaches s4 s5 → RuleLoopReaches s s5

/-- The state in which `parse_program` enters the rule loop, after `symbol` and the
    string. -/
def rule_loop_entry (source : List Char) : PState :=
  advance (advance (start_parser_state source))

/-- The source of the first precedence scenario. -/
def sum_product_source : List Char := "1 + 2 * 3".toList

/-- The tree of `1 + (2 * 3)`. -/
def sum_product_tree : Expr :=
  binary OP_ADD (number (Double.ofInt 1))
    (binary OP_MUL (number (Double.ofInt 2)) (number (Double.ofInt 3)))

/-- The source of the second precedence scenario. -/
def comparison_and_source : List Char := "2 + 3 > 4 and 1 < 2".toList

/-- The tree of `((2 + 3) > 4) and (1 < 2)`. -/
def comparison_and_tree : Expr :=
  binary OP_AND_OP
    (binary OP_GT_OP (binary OP_ADD (number (Double.ofInt 2)) (number (Double.ofInt 3)))
      (number (Double.ofInt 4)))
    (binary OP_LT_OP (number (Double.ofInt 1)) (number (Double.ofInt 2)))

/-- The source `symbol "X" if 1 < 2 < 3 then buy 1 end`. -/
def chained_comparison_source : List Char :=
  "symbol \"X\" if 1 < 2 < 3 then buy 1 end".toList

/-- Number of arguments each builtin function expects. -/
def arity (f : FuncId) : Nat :=
  match f with
  | .FUNC_SMA => 2
  | .FUNC_EMA => 2
  | .FUNC_RSI => 1

/-- The diagnostic of an arity mismatch. -/
def arity_message (f : FuncId) : String :=
  match f with
  | .FUNC_SMA => "sma expects 2 args"
  | .FUNC_EMA => "ema expects 2 args"
  | .FUNC_RSI => "rsi expects 1 arg"

/-- The fixed table of builtin variables: name, id, and the context field promoted to
    double. -/
def variable_table : List (String × Nat × (VMContext → Double)) :=
  [("open", 0, fun ctx => ctx.open),
   ("high", 1, fun ctx => ctx.high),
   ("low", 2, fun ctx => ctx.low),
   ("close", 3, fun ctx => ctx.close),
   ("volume", 4, fun ctx => ctx.volume),
   ("date", 5, fun ctx => Double.ofInt ctx.date.toInt),
   ("time", 6, fun ctx => Double.ofInt ctx.time.toInt),
   ("hour", 7, fun ctx => Double.ofInt ctx.hour.toInt),
   ("minute", 8, fun ctx => Double.ofInt ctx.minute.toInt),
   ("weekday", 9, fun ctx => Double.ofInt ctx.weekday.toInt)]

/-- Code that can follow an instruction boundary of a compiled chunk: a sequence of whole
    instructions ending with `Halt`, in which every `JumpIfFalse` carries the offset 5 and
    is followed by a five-byte action. -/
inductive CodeTail : List Nat → Prop where
  | halt : CodeTail [OpCode.BC_HALT.toByte]
  | push_const (bs t : List Nat) : bs.length = 8 → CodeTail t →
      CodeTail (OpCode.BC_PUSH_CONST.toByte :: bs ++ t)
  | load_var (id : Nat) (t : List Nat) : CodeTail t →
      CodeTail (OpCode.BC_LOAD_VAR.toByte :: id :: t)
  | call_func (fid argc : Nat) (t : List Nat) : CodeTail t →
      CodeTail (OpCode.BC_CALL_FUNC.toByte :: fid :: argc :: t)
  | operator (b : Nat) (t : List Nat) : 4 ≤ b → b ≤ 17 → CodeTail t → CodeTail (b :: t)
  | jump_if_false (t1 t : List Nat) : t1.length = 5 → CodeTail (t1 ++ t) → CodeTail t →
      CodeTail (OpCode.BC_JUMP_IF_FALSE.toByte :: int32_bytes (CInt.wrap 5) ++ t1 ++ t)
  | trade (a : Nat) (qs t : List Nat) : a = 20 ∨ a = 21 → qs.length = 4 → CodeTail t →
      CodeTail (a :: qs ++ t)

/-- The instruction pointer is at an instruction boundary of well-shaped code. -/
def Boundary (chunk : Chunk) (ip : Nat) : Prop :=
  ∃ pre t, chunk.code = pre ++ t ∧ CodeTail t ∧ ip = pre.length

/-- The form `digit+ ('.' digit+)?` of the specification, decided on a lexeme. -/
def spec_number_form (lexeme : List Char) : Bool :=
  let ip := lexeme.takeWhile is_digit
  let rest := lexeme.dropWhile is_digit
  !ip.isEmpty && (rest.isEmpty ||
    (rest.head? == some '.' && !rest.tail.isEmpty && rest.tail.all is_digit))

/-- The nine reserved words. -/
def reserved_words : List String :=
  ["symbol", "if", "then", "end", "buy", "sell", "and", "or", "not"]

/-- The reserved-word table: each word with the token kind it is given. -/
def reserved_table : List (String × TokenType) :=
  [("symbol", .TOK_SYMBOL), ("if", .TOK_IF), ("then", .TOK_THEN), ("end", .TOK_END),
   ("buy", .TOK_BUY), ("sell", .TOK_SELL), ("and", .TOK_AND), ("or", .TOK_OR),
   ("not", .TOK_NOT)]

/-- The source is rejected with the diagnostic `msg`: with enough fuel `parse_program`
    stops with that parse error, and with no fuel does it return a program. -/
def Rejected (source : List Char) (msg : String) : Prop :=
  (∃ n, ∀ fuel, n ≤ fuel → parse_program fuel source = .error msg) ∧
  ∀ fuel p st, parse_program fuel source ≠ .ok p st

/-- The scanner state after `i + 1` calls of `next_token` from the start of the source. -/
def scan_state : Nat → List Char → PState
  | 0, source => start_parser_state source
  | i + 1, source => advance (scan_state i source)

/-- The token number `i` of the stream the scanner produces, counting from 0. -/
def token_at (source : List Char) (i : Nat) : Token := (scan_state i source).current_token

/-- A bound on the number of tokens left: the bytes not yet scanned, plus one when the
    current token is not the end of the stream. -/
def remaining (s : PState) : Nat :=
  s.current.length + (if s.current_token.type = .TOK_EOF then 0 else 1)

/-- Fuel that suffices for each function of the expression grammar: ten units for each
    token left, plus the depth of the function in the grammar. -/
def ParserTotal (n : Nat) : Prop :=
  (∀ s, 10 * remaining s + 1 ≤ n → parse_primary n s ≠ .nofuel) ∧
  (∀ a s, 10 * remaining s + 9 ≤ n → parse_args n a s ≠ .nofuel) ∧
  (∀ s, 10 * remaining s + 2 ≤ n → parse_mul n s ≠ .nofuel) ∧
  (∀ l s, 10 * remaining s + 1 ≤ n → parse_mul_loop n l s ≠ .nofuel) ∧
  (∀ s, 10 * remaining s + 3 ≤ n → parse_add n s ≠ .nofuel) ∧
  (∀ l s, 10 * remaining s + 1 ≤ n → parse_add_loop n l s ≠ .nofuel) ∧
  (∀ s, 10 * remaining s + 4 ≤ n → parse_cmp n s ≠ .nofuel) ∧
  (∀ s, 10 * remaining s + 5 ≤ n → parse_not n s ≠ .nofuel) ∧
  (∀ s, 10 * remaining s + 6 ≤ n → parse_and n s ≠ .nofuel) ∧
  (∀ l s, 10 * remaining s + 1 ≤ n → parse_and_loop n l s ≠ .nofuel) ∧
  (∀ s, 10 * remaining s + 7 ≤ n → parse_or n s ≠ .nofuel) ∧
  (∀ l s, 10 * remaining s + 1 ≤ n → parse_or_loop n l s ≠ .nofuel) ∧
  (∀ s, 10 * remaining s + 8 ≤ n → parse_expr n s ≠ .nofuel)

/-- How a run of `main` on a source text ends. -/
inductive MainResult where
  | parse_error (msg : String)
  | parse_undefined (what : String)
  | compile_error (msg : String)
  | finished (stop : Stop) (out : List String)
  | nofuel

/-- The pipeline of `main`: parse the source, compile the program, run the chunk on the
    candle `example_context` with the symbol of the program.  The fuel bounds the parser
    and the interpreter loop. -/
def Tlc.main (fuel : Nat) (source : List Char) : MainResult :=
  match parse_program fuel source with
  | .error msg => .parse_error msg
  | .undefined what => .parse_undefined what
  | .nofuel => .nofuel
  | .ok prog _ =>
      match compile_program prog with
      | .error msg => .compile_error msg
      | .ok chunk =>
          match run_chunk fuel chunk example_context prog.symbol with
          | none => .nofuel
          | some (stop, out) => .finished stop out

/-- The source of the two-rule scenario. -/
def two_rule_source : List Char :=
  "symbol \"X\" if close > 0 and hour == 9 then sell 5 end if weekday == 1 then buy 1 end".toList

/-- A sequence of `write_byte` calls, one for each byte of the list in turn. -/
def write_bytes (chunk : Chunk) (bytes : List Nat) : Chunk := bytes.foldl write_byte chunk

/-- The capacity of a chunk grown by `write_byte` from the empty chunk: nothing before
    the first write, afterwards `64 * 2 ^ k` with room for `count` and `k` least. -/
def GrowthInvariant (c : Chunk) : Prop :=
  (c.count = 0 ∧ c.capacity = 0) ∨
  (1 ≤ c.count ∧ ∃ k, c.capacity = 64 * 2 ^ k ∧ c.count ≤ c.capacity ∧
    (k = 0 ∨ 64 * 2 ^ (k - 1) < c.count))

mutual
/-- Short-circuit evaluation of a condition, as the specification describes it: the right
    operand of `and` is skipped when the left is zero, the right operand of `or` is
    skipped when the left is non-zero; everything else is evaluated left to right.  A call
    with the wrong number of arguments fails with the diagnostic of the arity guard; the
    nodes the compiler rejects, and operators used at the wrong arity, have no value. -/
def short_circuit_eval (ctx : VMContext) : Expr → Except Stop Double
  | .number value => .ok value
  | .ident name =>
      match is_builtin_var name with
      | none => .error (.undefined "unknown identifier")
      | some id => .ok (load_var ctx id.toByte)
  | .string _ => .error (.undefined "string literal")
  | .call func_name args =>
      match is_builtin_func func_name with
      | none => .error (.undefined "unknown function")
      | some f =>
          match short_circuit_args ctx args with
          | .error s => .error s
          | .ok vals =>
              match call_value f vals with
              | some v => .ok v
              | none => .error (.exit (arity_message f))
  | .binary op left right =>
      match short_circuit_eval ctx left with
      | .error s => .error s
      | .ok a =>
          if op = .OP_AND_OP ∧ Double.truthy a = false then .ok (Double.ofBool false)
          else if op = .OP_OR_OP ∧ Double.truthy a = true then .ok (Double.ofBool true)
          else
            match short_circuit_eval ctx right with
            | .error s => .error s
            | .ok b =>
                match binary_fn op with
                | some f => .ok (f a b)
                | none => .error (.undefined "operator used at the wrong arity")
  | .unary op left =>
      match short_circuit_eval ctx left with
      | .error s => .error s
      | .ok a =>
          match unary_fn op with
          | some f => .ok (f a)
          | none => .error (.undefined "operator used at the wrong arity")
/-- Short-circuit evaluation of an argument list, left to right. -/
def short_circuit_args (ctx : VMContext) : List Expr → Except Stop (List Double)
  | [] => .ok []
  | e :: es =>
      match short_circuit_eval ctx e with
      | .error s => .error s
      | .ok v =>
          match short_circuit_args ctx es with
          | .error s => .error s
          | .ok vs => .ok (v :: vs)
end

/-- The outcome of a program under short-circuit evaluation: the rules are taken in
    order, a rule whose condition fails ends the run with that failure, a rule whose
    condition is non-zero prints its trade line; after the last rule the run halts.
    `out` holds the lines printed so far. -/
def short_circuit_run (ctx : VMContext) (symbol : String) :
    List Rule → List String → Stop × List String
  | [], out => (.halt, out)
  | r :: rs, out =>
      match short_circuit_eval ctx r.condition with
      | .error s => (s, out)
      | .ok v =>
          short_circuit_run ctx symbol rs
            (out ++ if Double.truthy v then
              [trade_line symbol r.action.kind r.action.quantity] else [])

/-- The program of `symbol "X" if close < 0 and sma(close) > 1 then buy 1 end
    if close > 0 then sell 2 end`. -/
def guarded_call_program : Program :=
  { symbol := "\"X\"",
    rules := [
      { condition := binary OP_AND_OP
          (binary OP_LT_OP (ident "close") (number (Double.ofInt 0)))
          (binary OP_GT_OP (call "sma" [ident "close"]) (number (Double.ofInt 1))),
        action := { kind := .STMT_BUY, quantity := CInt.wrap 1 } },
      { condition := binary OP_GT_OP (ident "close") (number (Double.ofInt 0)),
        action := { kind := .STMT_SELL, quantity := CInt.wrap 2 } }] }

/-- The chunk `compile_program` produces for `guarded_call_program`. -/
def guarded_call_chunk : Chunk :=
  { code := [2, 3, 1, 0, 0, 0, 0, 0, 0, 0, 0, 9, 2, 3, 3, 0, 1, 1, 0, 0, 0, 0, 0, 0, 240, 63,
      8, 14, 18, 5, 0, 0, 0, 20, 1, 0, 0, 0, 2, 3, 1, 0, 0, 0, 0, 0, 0, 0, 0, 8, 18, 5, 0, 0,
      0, 21, 2, 0, 0, 0, 0],
    capacity := 64 }

/-- One rule whose condition is `0 and (1 + (1 + ...))`, the sum having 256 literals. -/
def guarded_deep_program : Program :=
  { symbol := "S",
    rules := [{ condition := binary OP_AND_OP (number (Double.ofInt 0)) (deep_sum 255),
                action := { kind := .STMT_BUY, quantity := CInt.wrap 1 } }] }

/-- White space as `sscanf` skips it before a conversion (`isspace` in the C locale). -/
def is_space (c : Char) : Bool :=
  c == ' ' || c == '\t' || c == '\n' || c == Char.ofNat 11 || c == Char.ofNat 12 || c == '\r'

/-- The conversion `%d` of `sscanf`: white space is skipped, then an optional sign and a
    non-empty run of decimal digits are read.  The result is the value read and the rest of
    the input; `none` is a matching failure (no digit). -/
def scan_int (s : List Char) : Option (Int × List Char) :=
  let s1 := s.dropWhile is_space
  let signed : Bool × List Char :=
    match s1 with
    | '-' :: r => (true, r)
    | '+' :: r => (false, r)
    | _ => (false, s1)
  let r := scan_while is_digit signed.2
  if r.1 = [] then none
  else some (if signed.1 then -(decimal_value r.1 : Int) else (decimal_value r.1 : Int), r.2)

/-- An integer as an `int`, when it is in range. -/
def CInt.ofInt? (i : Int) : Option CInt :=
  if h : -2147483648 ≤ i ∧ i < 2147483648 then some ⟨i, h.1, h.2⟩ else none

/-- The function `strstr`, as a test: whether `needle` occurs in `haystack`. -/
def strstr : List Char → List Char → Bool
  | [], needle => needle.isEmpty
  | c :: rest, needle => needle.isPrefixOf (c :: rest) || strstr rest needle

/-- The helper `parse_date_string`: `sscanf(s, "\"%d-%d-%d\"", &y, &m, &d)`, and
    `y * 10000 + m * 100 + d` when the three conversions succeed, else 0.  `none` when a
    value read, or the arithmetic, leaves the range of `int`, which C leaves undefined. -/
def parse_date_string (s : List Char) : Option CInt :=
  match s with
  | '"' :: r0 =>
      match scan_int r0 with
      | none => some (CInt.wrap 0)
      | some (y, r1) =>
          if (CInt.ofInt? y).isNone then none
          else
            match r1 with
            | '-' :: r2 =>
                match scan_int r2 with
                | none => some (CInt.wrap 0)
                | some (m, r3) =>
                    if (CInt.ofInt? m).isNone then none
                    else
                      match r3 with
                      | '-' :: r4 =>
                          match scan_int r4 with
                          | none => some (CInt.wrap 0)
                          | some (d, _) =>
                              if (CInt.ofInt? d).isNone || (CInt.ofInt? (y * 10000)).isNone ||
                                  (CInt.ofInt? (m * 100)).isNone ||
                                  (CInt.ofInt? (y * 10000 + m * 100)).isNone then none
                              else CInt.ofInt? (y * 10000 + m * 100 + d)
                      | _ => some (CInt.wrap 0)
            | _ => some (CInt.wrap 0)
  | _ => some (CInt.wrap 0)

/-- The helper `parse_time_string`: `sscanf(s, "\"%d:%d\"", &h, &m)`, and `h * 100 + m`
    when the two conversions succeed, else 0; `none` as for `parse_date_string`. -/
def parse_time_string (s : List Char) : Option CInt :=
  match s with
  | '"' :: r0 =>
      match scan_int r0 with
      | none => some (CInt.wrap 0)
      | some (h, r1) =>
          if (CInt.ofInt? h).isNone then none
          else
            match r1 with
            | ':' :: r2 =>
                match scan_int r2 with
                | none => some (CInt.wrap 0)
                | some (m, _) =>
                    if (CInt.ofInt? m).isNone || (CInt.ofInt? (h * 100)).isNone then none
                    else CInt.ofInt? (h * 100 + m)
            | _ => some (CInt.wrap 0)
  | _ => some (CInt.wrap 0)

/-- The helper `parse_weekday_string`: the first of `Mon` .. `Sun` found in the string. -/
def parse_weekday_string (s : List Char) : CInt :=
  if strstr s "Mon".toList then CInt.wrap 1
  else if strstr s "Tue".toList then CInt.wrap 2
  else if strstr s "Wed".toList then CInt.wrap 3
  else if strstr s "Thu".toList then CInt.wrap 4
  else if strstr s "Fri".toList then CInt.wrap 5
  else if strstr s "Sat".toList then CInt.wrap 6
  else if strstr s "Sun".toList then CInt.wrap 7
  else CInt.wrap 0

/-- The program `symbol "X" if <name> == <literal> then buy 1 end`, the literal being a
    string token with its quotes. -/
def string_comparison_program (name literal : String) : Program :=
  { symbol := "\"X\"",
    rules := [{ condition := binary OP_EQ_OP (ident name) (string literal),
                action := { kind := .STMT_BUY, quantity := CInt.wrap 1 } }] }

/-- The binary exponent `roundMag` computes for `num / den`: the `e` with
    `2 ^ e ≤ num / den < 2 ^ (e + 1)`. -/
def Double.roundExp (num den : Nat) : Int :=
  let e0 : Int := (Double.ilog2 num : Int) - (Double.ilog2 den : Int)
  if 0 ≤ e0 then (if den * 2 ^ e0.toNat ≤ num then e0 else e0 - 1)
  else (if den ≤ num * 2 ^ (-e0).toNat then e0 else e0 - 1)

/-- The bits `roundMag` builds once the exponent `e` is known. -/
def Double.roundAt (e : Int) (num den : Nat) : Nat :=
  if 1024 ≤ e then 0x7FF0000000000000
  else
    let k : Int := if e < -1022 then -1074 else e - 52
    let m : Nat :=
      if 0 ≤ k then Double.divRoundEven num (den * 2 ^ k.toNat)
      else Double.divRoundEven (num * 2 ^ (-k).toNat) den
    if e < -1022 then m
    else
      let b := (e + 1022).toNat * 4503599627370496 + m
      if 0x7FF0000000000000 ≤ b then 0x7FF0000000000000 else b

/-- A source whose two actions carry the fractional quantities `2.9` and `0.5`. -/
def fractional_quantity_source : List Char :=
  "symbol \"X\" if 1 then buy 2.9 end if 1 then sell 0.5 end".toList

/-- A source whose quantity is the largest literal range still converted, just below
    `2 ^ 31`. -/
def largest_quantity_source : List Char :=
  "symbol \"X\" if 1 then buy 2147483647.9 end".toList

/-- A source whose quantity is the literal `2 ^ 31`, outside the range of `int`. -/
def out_of_range_quantity_source : List Char :=
  "symbol \"X\" if 1 then buy 2147483648 end".toList

/-- The ways a run of compiled code can stop: the `Halt` instruction, a fatal error of the
    machine (the arity guard of a call), a push onto the full evaluation stack or a pop
    of the empty one. -/
def CompiledStop (s : Stop) : Prop :=
  s = .halt ∨ (∃ f, s = .exit (arity_message f)) ∨
    s = .undefined "push onto a full stack" ∨ s = .undefined "pop from an empty stack"

/-- The largest value of the C type `int`. -/
def INT_MAX : Nat := 2147483647

/-- The function `write_byte` with the `int` range of the fields `count` and `capacity`:
    the result of `write_byte` when `count + 1` and `old_cap * 2` are representable, and
    `none` when one of them overflows `int`, which C leaves undefined. -/
def write_byte_int (chunk : Chunk) (byte : Nat) : Option Chunk :=
  if INT_MAX < chunk.count + 1 then none
  else if chunk.count + 1 > chunk.capacity then
    (if chunk.capacity ≠ 0 then
      (if INT_MAX < chunk.capacity * 2 then none
       else some { code := chunk.code ++ [byte % 256], capacity := chunk.capacity * 2 })
     else some { code := chunk.code ++ [byte % 256], capacity := 64 })
  else some { code := chunk.code ++ [byte % 256], capacity := chunk.capacity }

/-- A sequence of `write_byte` calls with the `int` range of the fields; `none` as soon as
    one call is undefined. -/
def write_bytes_int : Chunk → List Nat → Option Chunk
  | c, [] => some c
  | c, b :: bs =>
      match write_byte_int c b with
      | none => none
      | some c1 => write_bytes_int c1 bs

/-- A source whose quantity literal is below 1 and rounds to the double 1. -/
def rounded_up_quantity_source : List Char :=
  "symbol \"X\" if 1 then buy 0.99999999999999999999 end".toList

/-- A source whose quantity literal is below `2 ^ 31` and rounds to the double `2 ^ 31`. -/
def rounded_to_limit_quantity_source : List Char :=
  "symbol \"X\" if 1 then buy 2147483647.99999999999 end".toList

mutual
/-- Conditions in which every operator stands in a node of its own arity: a binary node
    carries one of the twelve binary operators, a unary node `-` or `not`.  The parser
    builds no other node. -/
def operators_placed : Expr → Bool
  | .number _ => true
  | .ident _ => true
  | .string _ => true
  | .call _ args => operators_placed_args args
  | .binary op left right =>
      (binary_fn op).isSome && operators_placed left && operators_placed right
  | .unary op left => (unary_fn op).isSome && operators_placed left
def operators_placed_args : List Expr → Bool
  | [] => true
  | e :: es => operators_placed e && operators_placed_args es
end

mutual
/-- Conditions without a string literal, an unknown identifier or an unknown function:
    the conditions `compile_expr` accepts. -/
def names_resolve : Expr → Bool
  | .number _ => true
  | .ident name => (is_builtin_var name).isSome
  | .string _ => false
  | .call func_name args => (is_builtin_func func_name).isSome && names_resolve_args args
  | .binary _ left right => names_resolve left && names_resolve right
  | .unary _ left => names_resolve left
def names_resolve_args : List Expr → Bool
  | [] => true
  | e :: es => names_resolve e && names_resolve_args es
end

mutual
/-- Eager evaluation of a condition, the reference for what the compiled code computes:
    every operand and every argument is evaluated, left to right, also both operands of
    `and` and `or`.  A call with the wrong number of arguments fails with the diagnostic
    of the arity guard once its arguments are evaluated; the nodes the compiler rejects,
    and operators used at the wrong arity, have no value. -/
def eager_eval (ctx : VMContext) : Expr → Except Stop Double
  | .number value => .ok value
  | .ident name =>
      match is_builtin_var name with
      | none => .error (.undefined "unknown identifier")
      | some id => .ok (load_var ctx id.toByte)
  | .string _ => .error (.undefined "string literal")
  | .call func_name args =>
      match is_builtin_func func_name with
      | none => .error (.undefined "unknown function")
      | some f =>
          match eager_args ctx args with
          | .error s => .error s
          | .ok vals =>
              match call_value f vals with
              | some v => .ok v
              | none => .error (.exit (arity_message f))
  | .binary op left right =>
      match eager_eval ctx left with
      | .error s => .error s
      | .ok a =>
          match eager_eval ctx right with
          | .error s => .error s
          | .ok b =>
              match binary_fn op with
              | some f => .ok (f a b)
              | none => .error (.undefined "operator used at the wrong arity")
  | .unary op left =>
      match eager_eval ctx left with
      | .error s => .error s
      | .ok a =>
          match unary_fn op with
          | some f => .ok (f a)
          | none => .error (.undefined "operator used at the wrong arity")
/-- Eager evaluation of an argument list, left to right. -/
def eager_args (ctx : VMContext) : List Expr → Except Stop (List Double)
  | [] => .ok []
  | e :: es =>
      match eager_eval ctx e with
      | .error s => .error s
      | .ok v =>
          match eager_args ctx es with
          | .error s => .error s
          | .ok vs => .ok (v :: vs)
end

/-- The outcome of a program under eager evaluation: the rules are taken in order, a rule
    whose condition fails ends the run with that failure, a rule whose condition is
    non-zero prints its trade line; after the last rule the run halts.  `out` holds the
    lines printed so far. -/
def eager_run (ctx : VMContext) (symbol : String) :
    List Rule → List String → Stop × List String
  | [], out => (.halt, out)
  | r :: rs, out =>
      match eager_eval ctx r.condition with
      | .error s => (s, out)
      | .ok v =>
          eager_run ctx symbol rs
            (out ++ if Double.truthy v then
              [trade_line symbol r.action.kind r.action.quantity] else [])

mutual
/-- No operand that short-circuit evaluation of the condition skips fails when it is
    evaluated: where the left operand of `and` is zero, or the left operand of `or` is
    non-zero, the right operand has a value under eager evaluation.  Operands after a
    failure are evaluated by neither and are not looked at. -/
def skipped_operands_succeed (ctx : VMContext) : Expr → Bool
  | .number _ => true
  | .ident _ => true
  | .string _ => true
  | .call _ args => skipped_arguments_succeed ctx args
  | .binary op left right =>
      skipped_operands_succeed ctx left &&
      (match short_circuit_eval ctx left with
       | .error _ => true
       | .ok a =>
           if (op = .OP_AND_OP ∧ Double.truthy a = false) ∨
               (op = .OP_OR_OP ∧ Double.truthy a = true) then
             (match eager_eval ctx right with
              | .ok _ => true
              | .error _ => false)
           else skipped_operands_succeed ctx right)
  | .unary _ left => skipped_operands_succeed ctx left
def skipped_arguments_succeed (ctx : VMContext) : List Expr → Bool
  | [] => true
  | e :: es =>
      skipped_operands_succeed ctx e &&
      (match short_circuit_eval ctx e with
       | .error _ => true
       | .ok _ => skipped_arguments_succeed ctx es)
end

/-- The same for the rules of a program, up to the first rule whose condition fails. -/
def skipped_operands_succeed_in (ctx : VMContext) : List Rule → Bool
  | [] => true
  | r :: rs =>
      skipped_operands_succeed ctx r.condition &&
      (match short_circuit_eval ctx r.condition with
       | .error _ => true
       | .ok _ => skipped_operands_succeed_in ctx rs)

/-- A run of `n` instructions from `vm` with the result `r` (the state reached, or the
    reason the machine stopped within the `n` instructions), during which the
    instruction pointer stays below `limit` and nothing is printed. -/
def Runs (chunk : Chunk) (ctx : VMContext) (symbol : String) (vm : VM) (n limit : Nat)
    (r : Except Stop VM) : Prop :=
  vm_steps chunk ctx symbol n vm = r ∧
  ∀ k, k < n → ∀ vmk, vm_steps chunk ctx symbol k vm = .ok vmk →
    vmk.ip < limit ∧ vmk.out = vm.out

/-- The rule of `misplaced_operator_program`: a binary node carrying `not`. -/
def misplaced_operator_rule : Rule :=
  { condition := binary OP_NOT_OP (number (Double.ofInt 1)) (number (Double.ofInt 2)),
    action := { kind := .STMT_BUY, quantity := CInt.wrap 1 } }

/-- The rule of `deep_program`: a right-nested sum of 257 literals. -/
def deep_rule : Rule :=
  { condition := deep_sum 256, action := { kind := .STMT_BUY, quantity := CInt.wrap 1 } }

/-- The program `symbol "X" if close > 0 then sell 2 end if sma(close) > 1 then buy 1 end`:
    its second condition fails under eager and under short-circuit evaluation alike. -/
def late_arity_error_program : Program :=
  { symbol := "\"X\"",
    rules := [
      { condition := binary OP_GT_OP (ident "close") (number (Double.ofInt 0)),
        action := { kind := .STMT_SELL, quantity := CInt.wrap 2 } },
      { condition := binary OP_GT_OP (call "sma" [ident "close"]) (number (Double.ofInt 1)),
        action := { kind := .STMT_BUY, quantity := CInt.wrap 1 } }] }

/-! ## Lemmas and theorems -/

set_option maxRecDepth 10000

theorem write_byte_code (c : Chunk) (b : Nat) : (write_byte c b).code = c.code ++ [b % 256] := rfl

theorem int32_byte_lt (v : Int) (i : Nat) : int32_byte v i < 256 := by
  unfold int32_byte
  have h : 0 ≤ v / 2 ^ (i * 8) % 256 := Int.emod_nonneg _ (by norm_num)
  have h2 : v / 2 ^ (i * 8) % 256 < 256 := Int.emod_lt_of_pos _ (by norm_num)
  omega

theorem double_byte_lt (v : Double) (i : Nat) : double_byte v i < 256 := by
  unfold double_byte
  exact Nat.mod_lt _ (by norm_num)

theorem write_int32_code (c : Chunk) (v : CInt) :
    (write_int32 c v).code = c.code ++ int32_bytes v := by
  simp [write_int32, write_byte_code, int32_bytes, Nat.mod_eq_of_lt (int32_byte_lt _ _)]

theorem write_double_code (c : Chunk) (v : Double) :
    (write_double c v).code = c.code ++ double_bytes v := by
  simp [write_double, write_byte_code, double_bytes, Nat.mod_eq_of_lt (double_byte_lt _ _)]

theorem compile_binary_op_code (c : Chunk) (op : OpKind) :
    (compile_binary_op c op).code = c.code ++ binary_op_code op := by
  cases op <;> simp [compile_binary_op, binary_op_code, write_byte_code, init_chunk]

theorem compile_unary_op_code (c : Chunk) (op : OpKind) :
    (compile_unary_op c op).code = c.code ++ unary_op_code op := by
  cases op <;> simp [compile_unary_op, unary_op_code, write_byte_code, init_chunk]

mutual
theorem compile_expr_code : ∀ (e : Expr) (c c1 : Chunk),
    compile_expr c e = .ok c1 → c1.code = c.code ++ expr_code e
  | .number v, c, c1, h => by
      simp only [compile_expr, Except.ok.injEq] at h
      subst h
      simp [write_double_code, write_byte_code, expr_code, OpCode.toByte]
  | .ident name, c, c1, h => by
      simp only [compile_expr] at h
      cases hv : is_builtin_var name with
      | none => simp [hv] at h
      | some id =>
          simp only [hv, Except.ok.injEq] at h
          subst h
          cases id <;> simp [write_byte_code, expr_code, hv, OpCode.toByte, VarId.toByte]
  | .string _, c, c1, h => by simp [compile_expr] at h
  | .call f args, c, c1, h => by
      simp only [compile_expr] at h
      cases hf : is_builtin_func f with
      | none => simp [hf] at h
      | some fid =>
          simp only [hf] at h
          cases ha : compile_args c args with
          | error m => simp [ha] at h
          | ok c2 =>
              simp only [ha, Except.ok.injEq] at h
              subst h
              have := compile_args_code args c c2 ha
              cases fid <;>
                simp [write_byte_code, expr_code, hf, this, OpCode.toByte, FuncId.toByte]
  | .binary op l r, c, c1, h => by
      simp only [compile_expr] at h
      cases hl : compile_expr c l with
      | error m => simp [hl] at h
      | ok c2 =>
          simp only [hl] at h
          cases hr : compile_expr c2 r with
          | error m => simp [hr] at h
          | ok c3 =>
              simp only [hr, Except.ok.injEq] at h
              subst h
              simp [compile_binary_op_code, compile_expr_code l c c2 hl,
                compile_expr_code r c2 c3 hr, expr_code]
  | .unary op l, c, c1, h => by
      simp only [compile_expr] at h
      cases hl : compile_expr c l with
      | error m => simp [hl] at h
      | ok c2 =>
          simp only [hl, Except.ok.injEq] at h
          subst h
          simp [compile_unary_op_code, compile_expr_code l c c2 hl, expr_code]
theorem compile_args_code : ∀ (es : List Expr) (c c1 : Chunk),
    compile_args c es = .ok c1 → c1.code = c.code ++ args_code es
  | [], c, c1, h => by
      simp only [compile_args, Except.ok.injEq] at h
      subst h
      simp [args_code]
  | e :: es, c, c1, h => by
      simp only [compile_args] at h
      cases he : compile_expr c e with
      | error m => simp [he] at h
      | ok c2 =>
          simp only [he] at h
          simp [compile_expr_code e c c2 he, compile_args_code es c2 c1 h, args_code]
end

theorem get_append_cons (pre : List Nat) (b : Nat) (post : List Nat) :
    (pre ++ b :: post).get? pre.length = some b := by
  induction pre with
  | nil => rfl
  | cons a pre ih => simpa using ih

/-- Reading the byte at `ip` when the code splits there. -/
theorem fetch_at (chunk : Chunk) (vm : VM) (pre post : List Nat) (b : Nat)
    (hc : chunk.code = pre ++ b :: post) (hip : vm.ip = pre.length) :
    fetch chunk vm = .ok (b, { vm with ip := vm.ip + 1 }) := by
  simp only [fetch, hc, hip, get_append_cons]

theorem fetch_le_at (chunk : Chunk) : ∀ (bs : List Nat) (pre post : List Nat) (i acc : Nat)
    (vm : VM), chunk.code = pre ++ bs ++ post → vm.ip = pre.length →
    fetch_le chunk bs.length i acc vm =
      .ok (acc + le_value i bs, { vm with ip := vm.ip + bs.length })
  | [], pre, post, i, acc, vm, _, _ => by simp [fetch_le, le_value]
  | b :: bs, pre, post, i, acc, vm, hc, hip => by
      have h1 : fetch chunk vm = .ok (b, { vm with ip := vm.ip + 1 }) :=
        fetch_at chunk vm pre (bs ++ post) b (by simpa using hc) hip
      have h2 := fetch_le_at chunk bs (pre ++ [b]) post (i + 1) (acc + b * 2 ^ (i * 8))
        { vm with ip := vm.ip + 1 } (by simpa using hc) (by simp [hip])
      simp only [List.length_cons, fetch_le, h1, h2, le_value]
      simp only [Nat.add_assoc, Nat.add_comm 1]

theorem int32_roundtrip (v : CInt) : CInt.wrap (le_value 0 (int32_bytes v)) = v := by
  obtain ⟨x, lo, hi⟩ := v
  simp only [CInt.wrap, int32_bytes, le_value, int32_byte, CInt.mk.injEq]
  norm_num
  omega

theorem double_roundtrip (v : Double) : Double.ofBits (le_value 0 (double_bytes v)) = v := by
  obtain ⟨x, hx⟩ := v
  simp only [Double.ofBits, double_bytes, le_value, double_byte, Double.mk.injEq]
  norm_num
  omega

theorem vm_steps_add (chunk : Chunk) (ctx : VMContext) (symbol : String) :
    ∀ (n m : Nat) (vm vm1 : VM), vm_steps chunk ctx symbol n vm = .ok vm1 →
      vm_steps chunk ctx symbol (n + m) vm = vm_steps chunk ctx symbol m vm1
  | 0, m, vm, vm1, h => by
      simp only [vm_steps, Except.ok.injEq] at h
      subst h
      simp
  | n + 1, m, vm, vm1, h => by
      have e : n + 1 + m = (n + m) + 1 := by omega
      rw [e]
      simp only [vm_steps] at h ⊢
      cases hs : vm_step chunk ctx symbol vm with
      | error s => simp [hs] at h
      | ok vm2 =>
          simp only [hs] at h ⊢
          exact vm_steps_add chunk ctx symbol n m vm2 vm1 h

theorem vm_steps_one (chunk : Chunk) (ctx : VMContext) (symbol : String) (vm : VM) :
    vm_steps chunk ctx symbol 1 vm = vm_step chunk ctx symbol vm := by
  simp only [vm_steps]
  cases vm_step chunk ctx symbol vm <;> rfl

theorem fetch_int32_at (chunk : Chunk) (vm : VM) (pre post : List Nat) (v : CInt)
    (hc : chunk.code = pre ++ int32_bytes v ++ post) (hip : vm.ip = pre.length) :
    fetch_int32 chunk vm = .ok (v, { vm with ip := vm.ip + 4 }) := by
  have h := fetch_le_at chunk (int32_bytes v) pre post 0 0 vm hc hip
  have hl : (int32_bytes v).length = 4 := rfl
  rw [hl] at h
  simp only [fetch_int32, h, Nat.zero_add, int32_roundtrip]

theorem fetch_double_at (chunk : Chunk) (vm : VM) (pre post : List Nat) (v : Double)
    (hc : chunk.code = pre ++ double_bytes v ++ post) (hip : vm.ip = pre.length) :
    fetch_double chunk vm = .ok (v, { vm with ip := vm.ip + 8 }) := by
  have h := fetch_le_at chunk (double_bytes v) pre post 0 0 vm hc hip
  have hl : (double_bytes v).length = 8 := rfl
  rw [hl] at h
  simp only [fetch_double, h, Nat.zero_add, double_roundtrip]

theorem step_push_const (chunk : Chunk) (ctx : VMContext) (symbol : String)
    (pre post : List Nat) (v : Double) (stk : List Double) (out : List String)
    (hc : chunk.code = pre ++ (OpCode.BC_PUSH_CONST.toByte :: double_bytes v) ++ post)
    (hs : stk.length < STACK_MAX) :
    vm_step chunk ctx symbol { stack := stk, ip := pre.length, out := out } =
      .ok { stack := v :: stk, ip := pre.length + 9, out := out } := by
  have h1 := fetch_at chunk { stack := stk, ip := pre.length, out := out } pre
    (double_bytes v ++ post) _ (by simpa using hc) rfl
  have h2 := fetch_double_at chunk { stack := stk, ip := pre.length + 1, out := out }
    (pre ++ [OpCode.BC_PUSH_CONST.toByte]) post v (by simpa using hc) (by simp)
  simp only [vm_step, h1, h2, OpCode.ofByte, OpCode.toByte, push, hs]
  simp

theorem step_load_var (chunk : Chunk) (ctx : VMContext) (symbol : String)
    (pre post : List Nat) (id : Nat) (stk : List Double) (out : List String)
    (hc : chunk.code = pre ++ [OpCode.BC_LOAD_VAR.toByte, id] ++ post)
    (hs : stk.length < STACK_MAX) :
    vm_step chunk ctx symbol { stack := stk, ip := pre.length, out := out } =
      .ok { stack := load_var ctx id :: stk, ip := pre.length + 2, out := out } := by
  have h1 := fetch_at chunk { stack := stk, ip := pre.length, out := out } pre
    (id :: post) _ (by simpa using hc) rfl
  have h2 := fetch_at chunk { stack := stk, ip := pre.length + 1, out := out }
    (pre ++ [OpCode.BC_LOAD_VAR.toByte]) post id (by simpa using hc) (by simp)
  simp only [vm_step, h1, h2, OpCode.ofByte, OpCode.toByte, push, hs]
  simp

theorem step_call (chunk : Chunk) (ctx : VMContext) (symbol : String)
    (pre post : List Nat) (fid argc : Nat) (stk : List Double) (out : List String)
    (hc : chunk.code = pre ++ [OpCode.BC_CALL_FUNC.toByte, fid, argc] ++ post) :
    vm_step chunk ctx symbol { stack := stk, ip := pre.length, out := out } =
      call_case { stack := stk, ip := pre.length + 3, out := out } fid argc := by
  have h1 := fetch_at chunk { stack := stk, ip := pre.length, out := out } pre
    (fid :: argc :: post) _ (by simpa using hc) rfl
  have h2 := fetch_at chunk { stack := stk, ip := pre.length + 1, out := out }
    (pre ++ [OpCode.BC_CALL_FUNC.toByte]) (argc :: post) fid (by simpa using hc) (by simp)
  have h3 := fetch_at chunk { stack := stk, ip := pre.length + 1 + 1, out := out }
    (pre ++ [OpCode.BC_CALL_FUNC.toByte, fid]) post argc (by simpa using hc) (by simp)
  simp only [vm_step, h1, h2, h3, OpCode.ofByte, OpCode.toByte]
  simp

theorem binary_case_ok (stk : List Double) (a b : Double) (ip : Nat) (out : List String)
    (f : Double → Double → Double) (hs : stk.length < STACK_MAX) :
    binary_case { stack := b :: a :: stk, ip := ip, out := out } f =
      .ok { stack := f a b :: stk, ip := ip, out := out } := by
  simp [binary_case, pop, push, hs]

theorem unary_case_ok (stk : List Double) (a : Double) (ip : Nat) (out : List String)
    (f : Double → Double) (hs : stk.length < STACK_MAX) :
    unary_case { stack := a :: stk, ip := ip, out := out } f =
      .ok { stack := f a :: stk, ip := ip, out := out } := by
  simp [unary_case, pop, push, hs]

theorem step_binary (chunk : Chunk) (ctx : VMContext) (symbol : String)
    (pre post : List Nat) (op : OpKind) (f : Double → Double → Double)
    (hf : binary_fn op = some f) (a b : Double) (stk : List Double) (out : List String)
    (hc : chunk.code = pre ++ binary_op_code op ++ post)
    (hs : stk.length < STACK_MAX) :
    vm_step chunk ctx symbol { stack := b :: a :: stk, ip := pre.length, out := out } =
      .ok { stack := f a b :: stk, ip := pre.length + (binary_op_code op).length,
            out := out } := by
  cases op <;> simp [binary_fn] at hf <;> subst hf <;>
    (have h1 := fetch_at chunk { stack := b :: a :: stk, ip := pre.length, out := out } pre
      post _ (by simpa [binary_op_code, compile_binary_op, write_byte, init_chunk] using hc)
      rfl
     simp only [vm_step, h1, OpCode.ofByte, OpCode.toByte, binary_case_ok _ _ _ _ _ _ hs]
     simp [binary_op_code, compile_binary_op, write_byte, init_chunk, Double.truthy,
       Double.ne])

theorem step_unary (chunk : Chunk) (ctx : VMContext) (symbol : String)
    (pre post : List Nat) (op : OpKind) (f : Double → Double)
    (hf : unary_fn op = some f) (a : Double) (stk : List Double) (out : List String)
    (hc : chunk.code = pre ++ unary_op_code op ++ post)
    (hs : stk.length < STACK_MAX) :
    vm_step chunk ctx symbol { stack := a :: stk, ip := pre.length, out := out } =
      .ok { stack := f a :: stk, ip := pre.length + (unary_op_code op).length,
            out := out } := by
  cases op <;> simp [unary_fn] at hf <;> subst hf <;>
    (have h1 := fetch_at chunk { stack := a :: stk, ip := pre.length, out := out } pre
      post _ (by simpa [unary_op_code, compile_unary_op, write_byte, init_chunk] using hc)
      rfl
     simp only [vm_step, h1, OpCode.ofByte, OpCode.toByte, unary_case_ok _ _ _ _ _ hs]
     simp [unary_op_code, compile_unary_op, write_byte, init_chunk, Double.truthy,
       Double.ne])

theorem call_value_step (f : FuncId) (vals : List Double) (v : Double)
    (hv : call_value f vals = some v) (stk : List Double) (ip : Nat) (out : List String)
    (hs : stk.length < STACK_MAX) :
    call_case { stack := vals.reverse ++ stk, ip := ip, out := out } f.toByte vals.length =
      .ok { stack := v :: stk, ip := ip, out := out } := by
  cases f with
  | FUNC_SMA =>
      match vals, hv with
      | [x, y], hv =>
          simp only [call_value, Option.some.injEq] at hv
          subst hv
          simp [call_case, FuncId.toByte, binary_case_ok _ _ _ _ _ _ hs]
  | FUNC_EMA =>
      match vals, hv with
      | [x, y], hv =>
          simp only [call_value, Option.some.injEq] at hv
          subst hv
          simp [call_case, FuncId.toByte, binary_case_ok _ _ _ _ _ _ hs]
  | FUNC_RSI =>
      match vals, hv with
      | [x], hv =>
          simp only [call_value, Option.some.injEq] at hv
          subst hv
          simp [call_case, FuncId.toByte, unary_case_ok _ _ _ _ _ hs]

theorem eval_args_length (ctx : VMContext) : ∀ (es : List Expr) (vs : List Double),
    eval_args ctx es = some vs → vs.length = es.length
  | [], vs, h => by
      simp only [eval_args, Option.some.injEq] at h
      subst h
      rfl
  | e :: es, vs, h => by
      simp only [eval_args] at h
      cases he : eval ctx e with
      | none => simp [he] at h
      | some v =>
          cases hes : eval_args ctx es with
          | none => simp [he, hes] at h
          | some vs1 =>
              simp only [he, hes, Option.some.injEq] at h
              subst h
              simp [eval_args_length ctx es vs1 hes]

theorem stack_need_pos : ∀ (e : Expr), well_formed e = true → 1 ≤ stack_need e
  | .number _, _ => by simp [stack_need]
  | .ident _, _ => by simp [stack_need]
  | .string _, h => by simp [well_formed] at h
  | .call _ _, _ => by simp [stack_need]
  | .binary _ _ _, _ => by simp only [stack_need]; omega
  | .unary _ left, h => by
      simp only [well_formed, Bool.and_eq_true] at h
      simpa [stack_need] using stack_need_pos left h.2

mutual
theorem exec_expr (chunk : Chunk) (ctx : VMContext) (symbol : String) :
    ∀ (e : Expr), well_formed e = true →
    ∀ (pre post : List Nat) (stk : List Double) (out : List String),
      chunk.code = pre ++ expr_code e ++ post →
      stk.length + stack_need e ≤ STACK_MAX →
      ∃ v, eval ctx e = some v ∧
        vm_steps chunk ctx symbol (instr_count e) { stack := stk, ip := pre.length, out := out }
          = .ok { stack := v :: stk, ip := pre.length + (expr_code e).length, out := out }
  | .number value, _, pre, post, stk, out, hc, hs => by
      simp only [stack_need] at hs
      refine ⟨value, by simp [eval], ?_⟩
      simp only [instr_count, vm_steps_one, expr_code] at hc ⊢
      rw [step_push_const chunk ctx symbol pre post value stk out hc (by omega)]
      simp [double_bytes]
  | .ident name, hw, pre, post, stk, out, hc, hs => by
      simp only [stack_need] at hs
      simp only [well_formed] at hw
      cases hv : is_builtin_var name with
      | none => simp [hv] at hw
      | some id =>
          refine ⟨load_var ctx id.toByte, by simp [eval, hv], ?_⟩
          simp only [instr_count, vm_steps_one, expr_code, hv] at hc ⊢
          rw [step_load_var chunk ctx symbol pre post id.toByte stk out hc (by omega)]
          simp
  | .string _, hw, _, _, _, _, _, _ => by simp [well_formed] at hw
  | .call func_name args, hw, pre, post, stk, out, hc, hs => by
      simp only [well_formed, Bool.and_eq_true] at hw
      simp only [stack_need] at hs
      cases hf : is_builtin_func func_name with
      | none => simp [hf] at hw
      | some f =>
          simp only [expr_code, hf] at hc ⊢
          obtain ⟨vs, hvs, hrun⟩ := exec_args chunk ctx symbol args hw.2 pre
            ([OpCode.BC_CALL_FUNC.toByte, f.toByte, args.length % 256] ++ post) stk out
            (by simpa using hc) (by omega)
          have hlen := eval_args_length ctx args vs hvs
          have harity : ∃ v, call_value f vs = some v ∧ args.length % 256 = vs.length := by
            have h1 := hw.1
            simp only [hf] at h1
            cases f <;> simp only [beq_iff_eq] at h1 <;> rw [h1] at hlen
            · match vs, hlen with
              | [x, y], _ => exact ⟨_, rfl, by simp [h1]⟩
            · match vs, hlen with
              | [x, y], _ => exact ⟨_, rfl, by simp [h1]⟩
            · match vs, hlen with
              | [x], _ => exact ⟨_, rfl, by simp [h1]⟩
          obtain ⟨v, hv, hargc⟩ := harity
          refine ⟨v, by simp [eval, hf, hvs, hv], ?_⟩
          simp only [instr_count]
          rw [vm_steps_add chunk ctx symbol _ 1 _ _ hrun, vm_steps_one]
          have hstep := step_call chunk ctx symbol (pre ++ args_code args) post f.toByte
            (args.length % 256) (vs.reverse ++ stk) out (by simpa using hc)
          simp only [List.length_append] at hstep
          rw [hstep, hargc, call_value_step f vs v hv stk _ out (by omega)]
          simp [Nat.add_assoc]
  | .binary op left right, hw, pre, post, stk, out, hc, hs => by
      simp only [well_formed, Bool.and_eq_true] at hw
      simp only [stack_need] at hs
      simp only [expr_code] at hc ⊢
      cases hf : binary_fn op with
      | none => simp [hf] at hw
      | some f =>
          obtain ⟨a, ha, hra⟩ := exec_expr chunk ctx symbol left hw.1.2 pre
            (expr_code right ++ binary_op_code op ++ post) stk out (by simpa using hc)
            (by omega)
          obtain ⟨b, hb, hrb⟩ := exec_expr chunk ctx symbol right hw.2 (pre ++ expr_code left)
            (binary_op_code op ++ post) (a :: stk) out (by simpa using hc)
            (by simp only [List.length_cons]; omega)
          refine ⟨f a b, by simp [eval, hf, ha, hb], ?_⟩
          simp only [instr_count]
          rw [Nat.add_assoc, vm_steps_add chunk ctx symbol _ _ _ _ hra]
          simp only [List.length_append] at hrb
          rw [vm_steps_add chunk ctx symbol _ 1 _ _ hrb, vm_steps_one]
          have hstep := step_binary chunk ctx symbol (pre ++ expr_code left ++ expr_code right)
            post op f hf a b stk out (by simpa using hc) (by omega)
          simp only [List.length_append] at hstep
          rw [hstep]
          simp [Nat.add_assoc]
  | .unary op left, hw, pre, post, stk, out, hc, hs => by
      simp only [well_formed, Bool.and_eq_true] at hw
      simp only [stack_need] at hs
      simp only [expr_code] at hc ⊢
      cases hf : unary_fn op with
      | none => simp [hf] at hw
      | some f =>
          obtain ⟨a, ha, hra⟩ := exec_expr chunk ctx symbol left hw.2 pre
            (unary_op_code op ++ post) stk out (by simpa using hc) (by omega)
          refine ⟨f a, by simp [eval, hf, ha], ?_⟩
          simp only [instr_count]
          rw [vm_steps_add chunk ctx symbol _ 1 _ _ hra, vm_steps_one]
          have hpos := stack_need_pos left hw.2
          have hstep := step_unary chunk ctx symbol (pre ++ expr_code left)
            post op f hf a stk out (by simpa using hc) (by omega)
          simp only [List.length_append] at hstep
          rw [hstep]
          simp [Nat.add_assoc]
theorem exec_args (chunk : Chunk) (ctx : VMContext) (symbol : String) :
    ∀ (es : List Expr), well_formed_args es = true →
    ∀ (pre post : List Nat) (stk : List Double) (out : List String),
      chunk.code = pre ++ args_code es ++ post →
      stk.length + stack_need_args es ≤ STACK_MAX →
      ∃ vs, eval_args ctx es = some vs ∧
        vm_steps chunk ctx symbol (instr_count_args es)
            { stack := stk, ip := pre.length, out := out }
          = .ok { stack := vs.reverse ++ stk, ip := pre.length + (args_code es).length,
                  out := out }
  | [], _, pre, post, stk, out, _, _ => by
      exact ⟨[], by simp [eval_args], by simp [instr_count_args, vm_steps, args_code]⟩
  | e :: es, hw, pre, post, stk, out, hc, hs => by
      simp only [well_formed_args, Bool.and_eq_true] at hw
      simp only [stack_need_args] at hs
      simp only [args_code] at hc ⊢
      obtain ⟨v, hv, hrv⟩ := exec_expr chunk ctx symbol e hw.1 pre (args_code es ++ post)
        stk out (by simpa using hc) (by omega)
      obtain ⟨vs, hvs, hrvs⟩ := exec_args chunk ctx symbol es hw.2 (pre ++ expr_code e) post
        (v :: stk) out (by simpa using hc) (by simp only [List.length_cons]; omega)
      refine ⟨v :: vs, by simp [eval_args, hv, hvs], ?_⟩
      simp only [instr_count_args]
      rw [vm_steps_add chunk ctx symbol _ _ _ _ hrv]
      simp only [List.length_append] at hrvs
      rw [hrvs]
      simp [Nat.add_assoc]
end

theorem set4_append (x0 x1 x2 x3 y0 y1 y2 y3 : Nat) (B : List Nat) : ∀ (A : List Nat),
    ((((A ++ x0 :: x1 :: x2 :: x3 :: B).set (A.length + 0) y0).set (A.length + 1) y1).set
      (A.length + 2) y2).set (A.length + 3) y3 = A ++ y0 :: y1 :: y2 :: y3 :: B
  | [] => by simp
  | a :: A => by
      have h := set4_append x0 x1 x2 x3 y0 y1 y2 y3 B A
      simp only [List.cons_append, List.length_cons, Nat.add_zero] at h ⊢
      have e1 : A.length + 1 + 1 = (A.length + 1) + 1 := rfl
      have e2 : A.length + 1 + 2 = (A.length + 2) + 1 := by omega
      have e3 : A.length + 1 + 3 = (A.length + 3) + 1 := by omega
      rw [e2, e3]
      simp only [List.set_cons_succ, h]

theorem patch_int32_code (c : Chunk) (A B : List Nat) (x0 x1 x2 x3 : Nat) (v : CInt)
    (hc : c.code = A ++ x0 :: x1 :: x2 :: x3 :: B) :
    (patch_int32 c A.length v).code = A ++ int32_bytes v ++ B := by
  simp only [patch_int32, hc, List.foldl_cons, List.foldl_nil, set4_append, int32_bytes]
  simp

theorem compile_rule_code (c c1 : Chunk) (r : Rule) (h : compile_rule c r = .ok c1) :
    c1.code = c.code ++ rule_code r := by
  simp only [compile_rule] at h
  cases he : compile_expr c r.condition with
  | error m => simp [he] at h
  | ok c2 =>
      have hcode := compile_expr_code r.condition c c2 he
      simp only [he, Except.ok.injEq] at h
      subst h
      have hcount : (write_byte c2 OpCode.BC_JUMP_IF_FALSE.toByte).count =
          (c.code ++ expr_code r.condition ++ [OpCode.BC_JUMP_IF_FALSE.toByte]).length := by
        simp [Chunk.count, write_byte_code, hcode, OpCode.toByte]
      rw [hcount]
      cases hk : r.action.kind <;>
        (simp only [hk]
         rw [patch_int32_code _ (c.code ++ expr_code r.condition ++
              [OpCode.BC_JUMP_IF_FALSE.toByte])
              ((action_opcode r.action.kind).toByte :: int32_bytes r.action.quantity)
              (int32_byte (CInt.wrap 0).toInt 0) (int32_byte (CInt.wrap 0).toInt 1)
              (int32_byte (CInt.wrap 0).toInt 2) (int32_byte (CInt.wrap 0).toInt 3) _
              (by simp [write_int32_code, write_byte_code, hcode, int32_bytes, hk,
                    action_opcode, OpCode.toByte])]
         simp only [Chunk.count, write_int32_code, write_byte_code, hcode, rule_code, hk,
           List.length_append, List.length_cons, List.length_nil, int32_bytes]
         have hoff : ((c.code.length + (expr_code r.condition).length + (0 + 1) +
             (0 + 1 + 1 + 1 + 1) + (0 + 1) + (0 + 1 + 1 + 1 + 1) : Nat) : Int) -
             (((c.code.length + (expr_code r.condition).length + (0 + 1) : Nat) : Int) + 4)
             = 5 := by omega
         rw [hoff]
         simp)

theorem compile_rules_code : ∀ (rs : List Rule) (c c1 : Chunk),
    compile_rules c rs = .ok c1 → c1.code = c.code ++ rules_code rs
  | [], c, c1, h => by
      simp only [compile_rules, Except.ok.injEq] at h
      subst h
      simp [rules_code]
  | r :: rs, c, c1, h => by
      simp only [compile_rules] at h
      cases hr : compile_rule c r with
      | error m => simp [hr] at h
      | ok c2 =>
          simp only [hr] at h
          simp [compile_rules_code rs c2 c1 h, compile_rule_code c c2 r hr, rules_code]

theorem compile_program_code (p : Program) (c : Chunk) (h : compile_program p = .ok c) :
    c.code = rules_code p.rules ++ [OpCode.BC_HALT.toByte] := by
  simp only [compile_program] at h
  cases hr : compile_rules init_chunk p.rules with
  | error m => simp [hr] at h
  | ok c2 =>
      simp only [hr, Except.ok.injEq] at h
      subst h
      simp [write_byte_code, compile_rules_code p.rules init_chunk c2 hr, init_chunk,
        OpCode.toByte]

theorem step_jump_if_false (chunk : Chunk) (ctx : VMContext) (symbol : String)
    (pre post : List Nat) (offset : CInt) (v : Double) (stk : List Double) (out : List String)
    (hc : chunk.code = pre ++ (OpCode.BC_JUMP_IF_FALSE.toByte :: int32_bytes offset) ++ post) :
    vm_step chunk ctx symbol { stack := v :: stk, ip := pre.length, out := out } =
      if Double.truthy v then .ok { stack := stk, ip := pre.length + 5, out := out }
      else jump { stack := stk, ip := pre.length + 5, out := out } offset := by
  have h1 := fetch_at chunk { stack := v :: stk, ip := pre.length, out := out } pre
    (int32_bytes offset ++ post) _ (by simpa using hc) rfl
  have h2 := fetch_int32_at chunk { stack := v :: stk, ip := pre.length + 1, out := out }
    (pre ++ [OpCode.BC_JUMP_IF_FALSE.toByte]) post offset (by simpa using hc) (by simp)
  simp only [vm_step, h1, h2, OpCode.ofByte, OpCode.toByte, pop]
  simp

theorem step_trade (chunk : Chunk) (ctx : VMContext) (symbol : String)
    (pre post : List Nat) (kind : StmtKind) (qty : CInt) (stk : List Double)
    (out : List String)
    (hc : chunk.code = pre ++ ((action_opcode kind).toByte :: int32_bytes qty) ++ post) :
    vm_step chunk ctx symbol { stack := stk, ip := pre.length, out := out } =
      .ok { stack := stk, ip := pre.length + 5, out := out ++ [trade_line symbol kind qty] } := by
  have h1 := fetch_at chunk { stack := stk, ip := pre.length, out := out } pre
    (int32_bytes qty ++ post) _ (by simpa using hc) rfl
  have h2 := fetch_int32_at chunk { stack := stk, ip := pre.length + 1, out := out }
    (pre ++ [(action_opcode kind).toByte]) post qty (by simpa using hc) (by simp)
  cases kind <;>
    (simp only [vm_step, h1, h2, OpCode.ofByte, OpCode.toByte, action_opcode, trade_case]
     simp)

theorem step_halt (chunk : Chunk) (ctx : VMContext) (symbol : String)
    (pre post : List Nat) (stk : List Double) (out : List String)
    (hc : chunk.code = pre ++ OpCode.BC_HALT.toByte :: post) :
    vm_step chunk ctx symbol { stack := stk, ip := pre.length, out := out } = .error .halt := by
  have h1 := fetch_at chunk { stack := stk, ip := pre.length, out := out } pre post _ hc rfl
  simp only [vm_step, h1, OpCode.ofByte, OpCode.toByte]
  simp

theorem vm_loop_steps (chunk : Chunk) (ctx : VMContext) (symbol : String) :
    ∀ (n m : Nat) (vm vm1 : VM), vm_steps chunk ctx symbol n vm = .ok vm1 →
      vm_loop chunk ctx symbol (n + m) vm = vm_loop chunk ctx symbol m vm1
  | 0, m, vm, vm1, h => by
      simp only [vm_steps, Except.ok.injEq] at h
      subst h
      simp
  | n + 1, m, vm, vm1, h => by
      have e : n + 1 + m = (n + m) + 1 := by omega
      rw [e]
      simp only [vm_steps] at h
      simp only [vm_loop]
      cases hs : vm_step chunk ctx symbol vm with
      | error s => simp [hs] at h
      | ok vm2 =>
          simp only [hs] at h ⊢
          exact vm_loop_steps chunk ctx symbol n m vm2 vm1 h

/-- Once the loop has stopped, more fuel does not change the outcome. -/
theorem vm_loop_mono (chunk : Chunk) (ctx : VMContext) (symbol : String) :
    ∀ (n : Nat) (vm : VM) (r : Stop × List String), vm_loop chunk ctx symbol n vm = some r →
      ∀ k, vm_loop chunk ctx symbol (n + k) vm = some r
  | 0, vm, r, h => by simp [vm_loop] at h
  | n + 1, vm, r, h => by
      intro k
      have e : n + 1 + k = (n + k) + 1 := by omega
      rw [e]
      simp only [vm_loop] at h ⊢
      cases hs : vm_step chunk ctx symbol vm with
      | error s => simpa [hs] using h
      | ok vm2 =>
          simp only [hs] at h ⊢
          exact vm_loop_mono chunk ctx symbol n vm2 r h k

/-- The outcome of a run does not depend on the fuel, once there is enough. -/
theorem vm_loop_deterministic (chunk : Chunk) (ctx : VMContext) (symbol : String)
    (n m : Nat) (vm : VM) (r1 r2 : Stop × List String)
    (h1 : vm_loop chunk ctx symbol n vm = some r1)
    (h2 : vm_loop chunk ctx symbol m vm = some r2) : r1 = r2 := by
  have a := vm_loop_mono chunk ctx symbol n vm r1 h1 m
  have b := vm_loop_mono chunk ctx symbol m vm r2 h2 n
  rw [Nat.add_comm] at b
  rw [a] at b
  exact Option.some.inj b

theorem is_builtin_var_none (name : String) :
    is_builtin_var name = none ↔ name ∉ builtin_variable_names := by
  unfold is_builtin_var builtin_variable_names
  split_ifs <;> simp_all

theorem is_builtin_func_none (name : String) :
    is_builtin_func name = none ↔ name ∉ builtin_function_names := by
  unfold is_builtin_func builtin_function_names
  split_ifs <;> simp_all

theorem findSome_append {α β : Type} (f : α → Option β) (l1 l2 : List α) :
    (l1 ++ l2).findSome? f = match l1.findSome? f with
      | some b => some b
      | none => l2.findSome? f := by
  induction l1 with
  | nil => simp
  | cons a l ih =>
      simp only [List.cons_append, List.findSome?_cons]
      cases f a <;> simp [ih]

mutual
theorem compile_expr_diag : ∀ (e : Expr) (c : Chunk),
    Agrees (compile_expr c e) ((nodes e).findSome? node_diagnostic)
  | .number v, c => by simp [nodes, node_diagnostic, Agrees, compile_expr]
  | .ident name, c => by
      simp only [nodes, List.findSome?_cons, node_diagnostic, List.findSome?_nil, compile_expr]
      by_cases h : name ∈ builtin_variable_names
      · have h1 : is_builtin_var name ≠ none := fun hh => (is_builtin_var_none name).1 hh h
        cases hv : is_builtin_var name with
        | none => exact absurd hv h1
        | some id => simp [h, Agrees]
      · have h1 := (is_builtin_var_none name).2 h
        simp [h, h1, Agrees]
  | .string _, c => by simp [nodes, node_diagnostic, Agrees, compile_expr]
  | .call f args, c => by
      simp only [nodes, List.findSome?_cons, node_diagnostic, compile_expr]
      by_cases h : f ∈ builtin_function_names
      · have h1 : is_builtin_func f ≠ none := fun hh => (is_builtin_func_none f).1 hh h
        cases hv : is_builtin_func f with
        | none => exact absurd hv h1
        | some id =>
            simp only [h, if_true]
            have ih := compile_args_diag args c
            cases hd : (nodes_args args).findSome? node_diagnostic with
            | none =>
                simp only [hd, Agrees] at ih ⊢
                obtain ⟨c1, hc1⟩ := ih
                simp [hc1]
            | some msg =>
                simp only [hd, Agrees] at ih ⊢
                simp [ih]
      · have h1 := (is_builtin_func_none f).2 h
        simp [h, h1, Agrees]
  | .binary op l r, c => by
      simp only [nodes, List.findSome?_cons, node_diagnostic, compile_expr, findSome_append]
      have ihl := compile_expr_diag l c
      cases hd : (nodes l).findSome? node_diagnostic with
      | some msg =>
          simp only [hd, Agrees] at ihl ⊢
          simp [ihl]
      | none =>
          simp only [hd, Agrees] at ihl ⊢
          obtain ⟨c1, hc1⟩ := ihl
          have ihr := compile_expr_diag r c1
          cases hd2 : (nodes r).findSome? node_diagnostic with
          | some msg =>
              simp only [hd2, Agrees] at ihr ⊢
              simp [hc1, ihr]
          | none =>
              simp only [hd2, Agrees] at ihr ⊢
              obtain ⟨c2, hc2⟩ := ihr
              simp [hc1, hc2]
  | .unary op l, c => by
      simp only [nodes, List.findSome?_cons, node_diagnostic, compile_expr]
      have ihl := compile_expr_diag l c
      cases hd : (nodes l).findSome? node_diagnostic with
      | some msg =>
          simp only [hd, Agrees] at ihl ⊢
          simp [ihl]
      | none =>
          simp only [hd, Agrees] at ihl ⊢
          obtain ⟨c1, hc1⟩ := ihl
          simp [hc1]
theorem compile_args_diag : ∀ (es : List Expr) (c : Chunk),
    Agrees (compile_args c es) ((nodes_args es).findSome? node_diagnostic)
  | [], c => by simp [nodes_args, Agrees, compile_args]
  | e :: es, c => by
      simp only [nodes_args, compile_args, findSome_append]
      have ih := compile_expr_diag e c
      cases hd : (nodes e).findSome? node_diagnostic with
      | some msg =>
          simp only [hd, Agrees] at ih ⊢
          simp [ih]
      | none =>
          simp only [hd, Agrees] at ih ⊢
          obtain ⟨c1, hc1⟩ := ih
          simp only [hc1]
          exact compile_args_diag es c1
end

theorem compile_rules_diag : ∀ (rs : List Rule) (c : Chunk),
    Agrees (compile_rules c rs) ((rules_nodes rs).findSome? node_diagnostic)
  | [], c => by simp [rules_nodes, Agrees, compile_rules]
  | r :: rs, c => by
      simp only [rules_nodes, compile_rules, findSome_append]
      have ih := compile_expr_diag r.condition c
      cases hd : (nodes r.condition).findSome? node_diagnostic with
      | some msg =>
          simp only [hd, Agrees] at ih ⊢
          simp [compile_rule, ih]
      | none =>
          simp only [hd, Agrees] at ih ⊢
          obtain ⟨c1, hc1⟩ := ih
          simp only [compile_rule, hc1]
          exact compile_rules_diag rs _

theorem compile_program_diag (p : Program) :
    Agrees (compile_program p) ((rules_nodes p.rules).findSome? node_diagnostic) := by
  have h := compile_rules_diag p.rules init_chunk
  simp only [compile_program]
  cases hd : (rules_nodes p.rules).findSome? node_diagnostic with
  | some msg =>
      simp only [hd, Agrees] at h ⊢
      simp [h]
  | none =>
      simp only [hd, Agrees] at h ⊢
      obtain ⟨c1, hc1⟩ := h
      simp [hc1]

mutual
theorem well_formed_no_diag : ∀ (e : Expr), well_formed e = true →
    (nodes e).findSome? node_diagnostic = none
  | .number _, _ => by simp [nodes, node_diagnostic]
  | .ident name, h => by
      simp only [well_formed] at h
      have : name ∈ builtin_variable_names := by
        by_contra hn
        rw [(is_builtin_var_none name).2 hn] at h
        simp at h
      simp [nodes, node_diagnostic, this]
  | .string _, h => by simp [well_formed] at h
  | .call f args, h => by
      simp only [well_formed, Bool.and_eq_true] at h
      have : f ∈ builtin_function_names := by
        by_contra hn
        have h1 := h.1
        rw [(is_builtin_func_none f).2 hn] at h1
        simp at h1
      simp [nodes, node_diagnostic, this, well_formed_args_no_diag args h.2]
  | .binary _ l r, h => by
      simp only [well_formed, Bool.and_eq_true] at h
      simp [nodes, node_diagnostic, findSome_append, well_formed_no_diag l h.1.2,
        well_formed_no_diag r h.2]
  | .unary _ l, h => by
      simp only [well_formed, Bool.and_eq_true] at h
      simp [nodes, node_diagnostic, well_formed_no_diag l h.2]
theorem well_formed_args_no_diag : ∀ (es : List Expr), well_formed_args es = true →
    (nodes_args es).findSome? node_diagnostic = none
  | [], _ => by simp [nodes_args]
  | e :: es, h => by
      simp only [well_formed_args, Bool.and_eq_true] at h
      simp [nodes_args, findSome_append, well_formed_no_diag e h.1,
        well_formed_args_no_diag es h.2]
end

theorem compile_expr_well_formed (e : Expr) (h : well_formed e = true) (c : Chunk) :
    ∃ c1, compile_expr c e = .ok c1 := by
  have := compile_expr_diag e c
  rw [well_formed_no_diag e h] at this
  exact this

theorem rules_no_diag : ∀ (rs : List Rule), (∀ r ∈ rs, well_formed r.condition = true) →
    (rules_nodes rs).findSome? node_diagnostic = none
  | [], _ => by simp [rules_nodes]
  | r :: rs, h => by
      simp [rules_nodes, findSome_append, well_formed_no_diag r.condition (h r (by simp)),
        rules_no_diag rs (fun r1 h1 => h r1 (by simp [h1]))]

theorem vm_loop_stop (chunk : Chunk) (ctx : VMContext) (symbol : String) (vm : VM) (s : Stop)
    (h : vm_step chunk ctx symbol vm = .error s) (k : Nat) :
    vm_loop chunk ctx symbol (1 + k) vm = some (s, vm.out) := by
  rw [Nat.add_comm]
  simp [vm_loop, h]

theorem step_push_const_full (chunk : Chunk) (ctx : VMContext) (symbol : String)
    (pre post : List Nat) (v : Double) (stk : List Double) (out : List String)
    (hc : chunk.code = pre ++ (OpCode.BC_PUSH_CONST.toByte :: double_bytes v) ++ post)
    (hs : ¬ stk.length < STACK_MAX) :
    vm_step chunk ctx symbol { stack := stk, ip := pre.length, out := out } =
      .error (.undefined "push onto a full stack") := by
  have h1 := fetch_at chunk { stack := stk, ip := pre.length, out := out } pre
    (double_bytes v ++ post) _ (by simpa using hc) rfl
  have h2 := fetch_double_at chunk { stack := stk, ip := pre.length + 1, out := out }
    (pre ++ [OpCode.BC_PUSH_CONST.toByte]) post v (by simpa using hc) (by simp)
  simp only [vm_step, h1, h2, OpCode.ofByte, OpCode.toByte, push, hs]
  simp

theorem step_load_var_full (chunk : Chunk) (ctx : VMContext) (symbol : String)
    (pre post : List Nat) (id : Nat) (stk : List Double) (out : List String)
    (hc : chunk.code = pre ++ [OpCode.BC_LOAD_VAR.toByte, id] ++ post)
    (hs : ¬ stk.length < STACK_MAX) :
    vm_step chunk ctx symbol { stack := stk, ip := pre.length, out := out } =
      .error (.undefined "push onto a full stack") := by
  have h1 := fetch_at chunk { stack := stk, ip := pre.length, out := out } pre
    (id :: post) _ (by simpa using hc) rfl
  have h2 := fetch_at chunk { stack := stk, ip := pre.length + 1, out := out }
    (pre ++ [OpCode.BC_LOAD_VAR.toByte]) post id (by simpa using hc) (by simp)
  simp only [vm_step, h1, h2, OpCode.ofByte, OpCode.toByte, push, hs]
  simp

theorem overflows_after (chunk : Chunk) (ctx : VMContext) (symbol : String) (n : Nat)
    (vm vm1 : VM) (h : vm_steps chunk ctx symbol n vm = .ok vm1) (ho : vm1.out = vm.out)
    (h1 : Overflows chunk ctx symbol vm1) : Overflows chunk ctx symbol vm := by
  obtain ⟨m, hm⟩ := h1
  refine ⟨n + m, fun k => ?_⟩
  rw [Nat.add_assoc, vm_loop_steps chunk ctx symbol n _ vm vm1 h, hm k, ho]

mutual
theorem overflow_expr (chunk : Chunk) (ctx : VMContext) (symbol : String) :
    ∀ (e : Expr), well_formed e = true →
    ∀ (pre post : List Nat) (stk : List Double) (out : List String),
      chunk.code = pre ++ expr_code e ++ post →
      stk.length ≤ STACK_MAX → STACK_MAX < stk.length + stack_need e →
      Overflows chunk ctx symbol { stack := stk, ip := pre.length, out := out }
  | .number value, _, pre, post, stk, out, hc, _, hs => by
      simp only [stack_need] at hs
      simp only [expr_code] at hc
      exact ⟨1, fun k => vm_loop_stop chunk ctx symbol _ _
        (step_push_const_full chunk ctx symbol pre post value stk out hc (by omega)) k⟩
  | .ident name, hw, pre, post, stk, out, hc, _, hs => by
      simp only [stack_need] at hs
      simp only [well_formed] at hw
      cases hv : is_builtin_var name with
      | none => simp [hv] at hw
      | some id =>
          simp only [expr_code, hv] at hc
          exact ⟨1, fun k => vm_loop_stop chunk ctx symbol _ _
            (step_load_var_full chunk ctx symbol pre post id.toByte stk out hc (by omega)) k⟩
  | .string _, hw, _, _, _, _, _, _, _ => by simp [well_formed] at hw
  | .call func_name args, hw, pre, post, stk, out, hc, hl, hs => by
      simp only [well_formed, Bool.and_eq_true] at hw
      simp only [stack_need] at hs
      cases hf : is_builtin_func func_name with
      | none => simp [hf] at hw
      | some f =>
          simp only [expr_code, hf] at hc
          have hne : 1 ≤ stack_need_args args := by
            have h1 := hw.1
            simp only [hf] at h1
            cases args with
            | nil => cases f <;> simp at h1
            | cons a as => simp only [stack_need_args]; omega
          exact overflow_args chunk ctx symbol args hw.2 pre
            ([OpCode.BC_CALL_FUNC.toByte, f.toByte, args.length % 256] ++ post) stk out
            (by simpa using hc) hl (by omega)
  | .binary op left right, hw, pre, post, stk, out, hc, hl, hs => by
      simp only [well_formed, Bool.and_eq_true] at hw
      simp only [stack_need] at hs
      simp only [expr_code] at hc
      by_cases hleft : STACK_MAX < stk.length + stack_need left
      · exact overflow_expr chunk ctx symbol left hw.1.2 pre
          (expr_code right ++ binary_op_code op ++ post) stk out (by simpa using hc) hl hleft
      · obtain ⟨a, _, hra⟩ := exec_expr chunk ctx symbol left hw.1.2 pre
          (expr_code right ++ binary_op_code op ++ post) stk out (by simpa using hc)
          (by omega)
        have hpos := stack_need_pos left hw.1.2
        have hr := overflow_expr chunk ctx symbol right hw.2 (pre ++ expr_code left)
          (binary_op_code op ++ post) (a :: stk) out (by simpa using hc)
          (by simp only [List.length_cons]; omega) (by simp only [List.length_cons]; omega)
        simp only [List.length_append] at hr
        exact overflows_after chunk ctx symbol _ _ _ hra rfl hr
  | .unary op left, hw, pre, post, stk, out, hc, hl, hs => by
      simp only [well_formed, Bool.and_eq_true] at hw
      simp only [stack_need] at hs
      simp only [expr_code] at hc
      exact overflow_expr chunk ctx symbol left hw.2 pre (unary_op_code op ++ post) stk out
        (by simpa using hc) hl hs
theorem overflow_args (chunk : Chunk) (ctx : VMContext) (symbol : String) :
    ∀ (es : List Expr), well_formed_args es = true →
    ∀ (pre post : List Nat) (stk : List Double) (out : List String),
      chunk.code = pre ++ args_code es ++ post →
      stk.length ≤ STACK_MAX → STACK_MAX < stk.length + stack_need_args es →
      Overflows chunk ctx symbol { stack := stk, ip := pre.length, out := out }
  | [], _, _, _, stk, _, _, hl, hs => by
      simp only [stack_need_args] at hs
      omega
  | e :: es, hw, pre, post, stk, out, hc, hl, hs => by
      simp only [well_formed_args, Bool.and_eq_true] at hw
      simp only [stack_need_args] at hs
      simp only [args_code] at hc
      by_cases hfirst : STACK_MAX < stk.length + stack_need e
      · exact overflow_expr chunk ctx symbol e hw.1 pre (args_code es ++ post) stk out
          (by simpa using hc) hl hfirst
      · obtain ⟨a, _, hra⟩ := exec_expr chunk ctx symbol e hw.1 pre (args_code es ++ post)
          stk out (by simpa using hc) (by omega)
        have hpos := stack_need_pos e hw.1
        have hr := overflow_args chunk ctx symbol es hw.2 (pre ++ expr_code e) post
          (a :: stk) out (by simpa using hc)
          (by simp only [List.length_cons]; omega) (by simp only [List.length_cons]; omega)
        simp only [List.length_append] at hr
        exact overflows_after chunk ctx symbol _ _ _ hra rfl hr
end

theorem deep_sum_well_formed : ∀ n, well_formed (deep_sum n) = true
  | 0 => by simp [deep_sum, well_formed]
  | n + 1 => by simp [deep_sum, well_formed, binary_fn, deep_sum_well_formed n]

theorem deep_sum_stack_need : ∀ n, stack_need (deep_sum n) = n + 1
  | 0 => by simp [deep_sum, stack_need]
  | n + 1 => by
      simp only [deep_sum, stack_need, deep_sum_stack_need n]
      omega

theorem rules_code_append : ∀ (rs1 rs2 : List Rule),
    rules_code (rs1 ++ rs2) = rules_code rs1 ++ rules_code rs2
  | [], rs2 => by simp [rules_code]
  | r :: rs1, rs2 => by simp [rules_code, rules_code_append rs1 rs2]

theorem drop_append_length {α : Type} (l1 l2 : List α) : (l1 ++ l2).drop l1.length = l2 := by
  induction l1 with
  | nil => rfl
  | cons a l ih => simp [ih]

/-- C4: in the chunk of a compiled program, the `JumpIfFalse` of every rule is followed by
    the patched offset `offset` with `placeholder_pos + 4 + offset` equal to the index of
    the byte immediately after the action of that rule; this index lies inside the chunk,
    and the code from there on is the code of the remaining rules followed by `Halt`: the
    first opcode of the condition of the next rule, or the final `Halt`. -/
theorem jump_targets_end_of_rule (program : Program) (chunk : Chunk)
    (h : compile_program program = .ok chunk) (rs1 rs2 : List Rule) (r : Rule)
    (hr : program.rules = rs1 ++ r :: rs2) :
    ∃ (placeholder_pos after_action : Nat) (offset : CInt),
      placeholder_pos = (rules_code rs1).length + (expr_code r.condition).length + 1 ∧
      chunk.code = rules_code rs1 ++ expr_code r.condition ++
        [OpCode.BC_JUMP_IF_FALSE.toByte] ++ int32_bytes offset ++
        ((action_opcode r.action.kind).toByte :: int32_bytes r.action.quantity) ++
        (rules_code rs2 ++ [OpCode.BC_HALT.toByte]) ∧
      (∀ vm : VM, vm.ip = placeholder_pos →
        fetch_int32 chunk vm = .ok (offset, { vm with ip := vm.ip + 4 })) ∧
      after_action = placeholder_pos + 4 + 5 ∧
      (placeholder_pos : Int) + 4 + offset.toInt = after_action ∧
      after_action < chunk.count ∧
      chunk.code.drop after_action = rules_code rs2 ++ [OpCode.BC_HALT.toByte] ∧
      (rs2 = [] → chunk.code.get? after_action = some OpCode.BC_HALT.toByte ∧
        after_action + 1 = chunk.count) ∧
      (∀ r2 rs3, rs2 = r2 :: rs3 → ∃ tail,
        chunk.code.drop after_action = expr_code r2.condition ++ tail) := by
  have hcode := compile_program_code program chunk h
  rw [hr, rules_code_append] at hcode
  simp only [rules_code, rule_code] at hcode
  have hlayout : chunk.code = (rules_code rs1 ++ expr_code r.condition ++
      [OpCode.BC_JUMP_IF_FALSE.toByte]) ++ int32_bytes (CInt.wrap 5) ++
      (((action_opcode r.action.kind).toByte :: int32_bytes r.action.quantity) ++
      (rules_code rs2 ++ [OpCode.BC_HALT.toByte])) := by
    simpa using hcode
  have hsplit : chunk.code = (rules_code rs1 ++ expr_code r.condition ++
      [OpCode.BC_JUMP_IF_FALSE.toByte] ++ int32_bytes (CInt.wrap 5) ++
      ((action_opcode r.action.kind).toByte :: int32_bytes r.action.quantity)) ++
      (rules_code rs2 ++ [OpCode.BC_HALT.toByte]) := by
    simpa using hcode
  have hlen : (rules_code rs1 ++ expr_code r.condition ++
      [OpCode.BC_JUMP_IF_FALSE.toByte] ++ int32_bytes (CInt.wrap 5) ++
      ((action_opcode r.action.kind).toByte :: int32_bytes r.action.quantity)).length =
      (rules_code rs1).length + (expr_code r.condition).length + 1 + 4 + 5 := by
    simp [int32_bytes]
    omega
  have hdrop : chunk.code.drop ((rules_code rs1).length + (expr_code r.condition).length
      + 1 + 4 + 5) = rules_code rs2 ++ [OpCode.BC_HALT.toByte] := by
    rw [← hlen, hsplit, drop_append_length]
  refine ⟨_, _, CInt.wrap 5, rfl, by simpa using hcode, ?_, rfl, ?_, ?_, hdrop, ?_, ?_⟩
  · intro vm hip
    exact fetch_int32_at chunk vm _ _ (CInt.wrap 5) hlayout (by simp [hip]; omega)
  · have h5 : (CInt.wrap 5).toInt = 5 := rfl
    rw [h5]
    push_cast
    ring
  · rw [Chunk.count, hsplit, List.length_append, hlen]
    simp
  · intro hnil
    subst hnil
    constructor
    · rw [← hlen, hsplit]
      exact get_append_cons _ _ []
    · rw [Chunk.count, hsplit, List.length_append, hlen]
      simp [rules_code]
  · intro r2 rs3 h2
    subst h2
    rw [hdrop]
    refine ⟨OpCode.BC_JUMP_IF_FALSE.toByte :: int32_bytes (CInt.wrap 5) ++
      ((action_opcode r2.action.kind).toByte :: int32_bytes r2.action.quantity ++
        (rules_code rs3 ++ [OpCode.BC_HALT.toByte])), ?_⟩
    simp only [rules_code, rule_code, List.append_assoc]

theorem jump_targets_end_of_rule_witness :
    compile_program two_rule_program = .ok two_rule_chunk ∧
    ∃ (placeholder_pos after_action : Nat) (offset : CInt),
      placeholder_pos = (rules_code []).length +
        (expr_code (binary OP_AND_OP
          (binary OP_GT_OP (ident "close") (number (Double.ofInt 0)))
          (binary OP_EQ_OP (ident "hour") (number (Double.ofInt 9))))).length + 1 ∧
      two_rule_chunk.code = rules_code [] ++ expr_code (binary OP_AND_OP
          (binary OP_GT_OP (ident "close") (number (Double.ofInt 0)))
          (binary OP_EQ_OP (ident "hour") (number (Double.ofInt 9)))) ++
        [OpCode.BC_JUMP_IF_FALSE.toByte] ++ int32_bytes offset ++
        ((action_opcode .STMT_SELL).toByte :: int32_bytes (CInt.wrap 5)) ++
        (rules_code [{ condition := binary OP_EQ_OP (ident "weekday") (number (Double.ofInt 1)),
                       action := { kind := .STMT_BUY, quantity := CInt.wrap 1 } }] ++
          [OpCode.BC_HALT.toByte]) ∧
      (∀ vm : VM, vm.ip = placeholder_pos →
        fetch_int32 two_rule_chunk vm = .ok (offset, { vm with ip := vm.ip + 4 })) ∧
      after_action = placeholder_pos + 4 + 5 ∧
      (placeholder_pos : Int) + 4 + offset.toInt = after_action ∧
      after_action < two_rule_chunk.count ∧
      two_rule_chunk.code.drop after_action =
        rules_code [{ condition := binary OP_EQ_OP (ident "weekday") (number (Double.ofInt 1)),
                      action := { kind := .STMT_BUY, quantity := CInt.wrap 1 } }] ++
          [OpCode.BC_HALT.toByte] ∧
      (([{ condition := binary OP_EQ_OP (ident "weekday") (number (Double.ofInt 1)),
           action := { kind := .STMT_BUY, quantity := CInt.wrap 1 } }] : List Rule) = [] →
        two_rule_chunk.code.get? after_action = some OpCode.BC_HALT.toByte ∧
        after_action + 1 = two_rule_chunk.count) ∧
      (∀ r2 rs3,
        ([{ condition := binary OP_EQ_OP (ident "weekday") (number (Double.ofInt 1)),
            action := { kind := .STMT_BUY, quantity := CInt.wrap 1 } }] : List Rule) = r2 :: rs3 →
        ∃ tail, two_rule_chunk.code.drop after_action = expr_code r2.condition ++ tail) :=
  ⟨rfl, jump_targets_end_of_rule two_rule_program two_rule_chunk rfl []
      [{ condition := binary OP_EQ_OP (ident "weekday") (number (Double.ofInt 1)),
         action := { kind := .STMT_BUY, quantity := CInt.wrap 1 } }]
      { condition := binary OP_AND_OP
          (binary OP_GT_OP (ident "close") (number (Double.ofInt 0)))
          (binary OP_EQ_OP (ident "hour") (number (Double.ofInt 9))),
        action := { kind := .STMT_SELL, quantity := CInt.wrap 5 } } rfl⟩

theorem ofInt_zero_bits : Double.ofInt 0 = ⟨0, by decide⟩ := by decide

theorem ofInt_one_bits : Double.ofInt 1 = ⟨4607182418800017408, by decide⟩ := by decide

/-- Comparison with `0.0` holds exactly for the two zeros. -/
theorem eq_zero_iff_isZero (a : Double) : Double.eq a (Double.ofInt 0) = a.isZero := by
  obtain ⟨x, hx⟩ := a
  rw [ofInt_zero_bits]
  have hzero : (⟨0, by decide⟩ : Double).isNaN = false := rfl
  have hkey : (⟨0, by decide⟩ : Double).ordKey = 0 := rfl
  simp only [Double.eq, hzero, hkey, Bool.or_false]
  simp only [Double.isNaN, Double.isZero, Double.ordKey, Double.signBit,
    Double.expField, Double.fracField]
  by_cases hz : x / 4503599627370496 % 2048 = 0 ∧ x % 4503599627370496 = 0
  · have hx2 : x = 0 ∨ x = 9223372036854775808 := by omega
    rcases hx2 with h | h
    · subst h
      simp
    · subst h
      simp
  · have hk : ¬ ((if decide (9223372036854775808 ≤ x) = true then
        -((x - 9223372036854775808 : Nat) : Int) else (x : Int)) = 0) := by
      simp only [decide_eq_true_eq]
      split_ifs <;> omega
    have hr : (x / 4503599627370496 % 2048 == 0 && x % 4503599627370496 == 0) = false := by
      simpa using hz
    rw [hr]
    simp only [hk, decide_False, Bool.and_false]

theorem ofBool_bits (b : Bool) :
    (Double.ofBool b).bits = 0 ∨ (Double.ofBool b).bits = 4607182418800017408 := by
  cases b
  · left; simp [Double.ofBool, ofInt_zero_bits]
  · right; simp [Double.ofBool, ofInt_one_bits]

theorem ofBool_one_iff (b : Bool) :
    (Double.ofBool b).bits = 4607182418800017408 ↔ b = true := by
  cases b <;> simp [Double.ofBool, ofInt_zero_bits, ofInt_one_bits]

theorem fetch_of_get (chunk : Chunk) (vm : VM) (b : Nat)
    (h : chunk.code.get? vm.ip = some b) :
    fetch chunk vm = .ok (b, { vm with ip := vm.ip + 1 }) := by
  simp only [fetch, h]

/-- C8: for all operand values, infinities and NaN included, each of `BC_GT`, `BC_LT`,
    `BC_GE`, `BC_LE`, `BC_EQ`, `BC_NE`, `BC_AND`, `BC_OR` replaces its two operands by
    exactly `0.0` or `1.0`, and so does `BC_NOT` with its operand; `BC_AND` pushes `1.0`
    exactly when both operands are non-zero, `BC_OR` when one of them is, and `BC_NOT`
    exactly when its operand is a zero. -/
theorem comparison_and_logical_opcodes_push_boolean (chunk : Chunk) (ctx : VMContext)
    (symbol : String) (ip : Nat) (out : List String) (stk : List Double) (a b : Double)
    (hs : stk.length < STACK_MAX) :
    (∀ op ∈ [OpCode.BC_GT, .BC_LT, .BC_GE, .BC_LE, .BC_EQ, .BC_NE, .BC_AND, .BC_OR],
      chunk.code.get? ip = some op.toByte →
      ∃ r, vm_step chunk ctx symbol { stack := b :: a :: stk, ip := ip, out := out } =
          .ok { stack := r :: stk, ip := ip + 1, out := out } ∧
        (r.bits = 0 ∨ r.bits = 4607182418800017408) ∧
        (op = .BC_AND →
          (r.bits = 4607182418800017408 ↔ (a.isZero = false ∧ b.isZero = false))) ∧
        (op = .BC_OR →
          (r.bits = 4607182418800017408 ↔ (a.isZero = false ∨ b.isZero = false)))) ∧
    (chunk.code.get? ip = some OpCode.BC_NOT.toByte →
      ∃ r, vm_step chunk ctx symbol { stack := a :: stk, ip := ip, out := out } =
          .ok { stack := r :: stk, ip := ip + 1, out := out } ∧
        (r.bits = 0 ∨ r.bits = 4607182418800017408) ∧
        (r.bits = 4607182418800017408 ↔ a.isZero = true)) := by
  constructor
  · intro op hop hget
    have hf := fetch_of_get chunk { stack := b :: a :: stk, ip := ip, out := out } _ hget
    simp only [List.mem_cons, List.mem_singleton, List.not_mem_nil, or_false] at hop
    rcases hop with h | h | h | h | h | h | h | h <;> subst h <;>
      simp only [vm_step, hf, OpCode.ofByte, OpCode.toByte, binary_case_ok _ _ _ _ _ _ hs] <;>
      refine ⟨_, by simp; rfl, ofBool_bits _, ?_, ?_⟩ <;>
      simp [ofBool_one_iff, Double.ne, eq_zero_iff_isZero]
  · intro hget
    have hf := fetch_of_get chunk { stack := a :: stk, ip := ip, out := out } _ hget
    simp only [vm_step, hf, OpCode.ofByte, OpCode.toByte, unary_case_ok _ _ _ _ _ hs]
    refine ⟨_, by simp; rfl, ofBool_bits _, ?_⟩
    simp [ofBool_one_iff, eq_zero_iff_isZero]

theorem comparison_and_logical_opcodes_push_boolean_witness :
    ([] : List Double).length < STACK_MAX ∧
    (∀ op ∈ [OpCode.BC_GT, .BC_LT, .BC_GE, .BC_LE, .BC_EQ, .BC_NE, .BC_AND, .BC_OR],
      ({ code := [14], capacity := 64 } : Chunk).code.get? 0 = some op.toByte →
      ∃ r, vm_step { code := [14], capacity := 64 } example_context "X"
            { stack := Double.nan :: Double.inf true :: [], ip := 0, out := [] } =
          .ok { stack := r :: [], ip := 0 + 1, out := [] } ∧
        (r.bits = 0 ∨ r.bits = 4607182418800017408) ∧
        (op = .BC_AND → (r.bits = 4607182418800017408 ↔
          ((Double.inf true).isZero = false ∧ Double.nan.isZero = false))) ∧
        (op = .BC_OR → (r.bits = 4607182418800017408 ↔
          ((Double.inf true).isZero = false ∨ Double.nan.isZero = false)))) ∧
    (({ code := [14], capacity := 64 } : Chunk).code.get? 0 = some OpCode.BC_NOT.toByte →
      ∃ r, vm_step { code := [14], capacity := 64 } example_context "X"
            { stack := Double.inf true :: [], ip := 0, out := [] } =
          .ok { stack := r :: [], ip := 0 + 1, out := [] } ∧
        (r.bits = 0 ∨ r.bits = 4607182418800017408) ∧
        (r.bits = 4607182418800017408 ↔ (Double.inf true).isZero = true)) :=
  ⟨by decide,
    comparison_and_logical_opcodes_push_boolean { code := [14], capacity := 64 }
      example_context "X" 0 [] [] (Double.inf true) Double.nan (by decide)⟩

/-- C9: the chunk of every compiled program is non-empty and its last byte
    `code[count - 1]` is `Halt`; a program with no rules compiles to the single byte `Halt`,
    and running it halts without printing anything. -/
theorem compiled_program_ends_with_halt (program : Program) :
    (∀ chunk, compile_program program = .ok chunk →
      0 < chunk.count ∧
      chunk.code.get? (chunk.count - 1) = some OpCode.BC_HALT.toByte) ∧
    (program.rules = [] →
      ∃ chunk, compile_program program = .ok chunk ∧
        chunk.code = [OpCode.BC_HALT.toByte] ∧
        ∀ (ctx : VMContext) (fuel : Nat), 1 ≤ fuel →
          run_chunk fuel chunk ctx program.symbol = some (.halt, [])) := by
  constructor
  · intro chunk h
    have hcode := compile_program_code program chunk h
    constructor
    · simp [Chunk.count, hcode]
    · simp only [Chunk.count, hcode, List.length_append, List.length_singleton,
        Nat.add_sub_cancel]
      exact get_append_cons _ _ []
  · intro hnil
    refine ⟨{ code := [OpCode.BC_HALT.toByte], capacity := 64 }, ?_, rfl, ?_⟩
    · simp only [compile_program, hnil, compile_rules]
      rfl
    · intro ctx fuel hf
      obtain ⟨k, rfl⟩ : ∃ k, fuel = 1 + k := ⟨fuel - 1, by omega⟩
      have hh := step_halt { code := [OpCode.BC_HALT.toByte], capacity := 64 } ctx
        program.symbol [] [] [] [] rfl
      exact vm_loop_stop _ ctx program.symbol _ _ hh k

theorem PResult.le_refl {α : Type} (r : PResult α) : r.le r := Or.inr rfl

theorem PResult.le_trans {α : Type} {r1 r2 r3 : PResult α} (h1 : r1.le r2) (h2 : r2.le r3) :
    r1.le r3 := by
  rcases h1 with h | h
  · exact Or.inl h
  · subst h; exact h2

theorem PResult.bind_le {α β : Type} {r1 r2 : PResult α} {k1 k2 : α → PState → PResult β}
    (h : r1.le r2) (hk : ∀ a s, (k1 a s).le (k2 a s)) : (r1.bind k1).le (r2.bind k2) := by
  rcases h with h | h
  · subst h; exact Or.inl rfl
  · subst h
    cases r1 with
    | ok v s => exact hk v s
    | error m => exact Or.inr rfl
    | undefined w => exact Or.inr rfl
    | nofuel => exact Or.inl rfl

theorem parser_mono : ∀ n, ParserMono n
  | 0 => by
      refine ⟨?_, ?_, ?_, ?_, ?_, ?_, ?_, ?_, ?_, ?_, ?_, ?_, ?_⟩ <;> intros <;>
        exact Or.inl (by simp [parse_primary, parse_args, parse_mul, parse_mul_loop, parse_add,
          parse_add_loop, parse_cmp, parse_not, parse_and, parse_and_loop, parse_or,
          parse_or_loop, parse_expr])
  | n + 1 => by
      obtain ⟨hprim, hargs, hmul, hmull, hadd, haddl, hcmp, hnot, hand, handl, hor, horl,
        hexpr⟩ := parser_mono n
      refine ⟨?_, ?_, ?_, ?_, ?_, ?_, ?_, ?_, ?_, ?_, ?_, ?_, ?_⟩
      · intro s
        simp only [parse_primary]
        split_ifs
        · exact PResult.le_refl _
        · exact PResult.bind_le (hargs _ _) (fun _ _ => PResult.le_refl _)
        · exact PResult.le_refl _
        · exact PResult.le_refl _
        · exact PResult.le_refl _
        · exact PResult.bind_le (hexpr _) (fun _ _ => PResult.le_refl _)
        · exact PResult.le_refl _
      · intro a s
        simp only [parse_args]
        refine PResult.bind_le (hexpr _) (fun e s1 => ?_)
        split_ifs
        · exact hargs _ _
        · exact PResult.le_refl _
      · intro s
        simp only [parse_mul]
        exact PResult.bind_le (hprim _) (fun _ _ => hmull _ _)
      · intro l s
        simp only [parse_mul_loop]
        split_ifs
        · exact PResult.bind_le (hprim _) (fun _ _ => hmull _ _)
        · exact PResult.bind_le (hprim _) (fun _ _ => hmull _ _)
        · exact PResult.le_refl _
      · intro s
        simp only [parse_add]
        exact PResult.bind_le (hmul _) (fun _ _ => haddl _ _)
      · intro l s
        simp only [parse_add_loop]
        split_ifs
        · exact PResult.bind_le (hmul _) (fun _ _ => haddl _ _)
        · exact PResult.bind_le (hmul _) (fun _ _ => haddl _ _)
        · exact PResult.le_refl _
      · intro s
        simp only [parse_cmp]
        refine PResult.bind_le (hadd _) (fun l s1 => ?_)
        split_ifs
        · exact PResult.bind_le (hadd _) (fun _ _ => PResult.le_refl _)
        · exact PResult.le_refl _
      · intro s
        rw [parse_not, parse_not]
        split_ifs
        · exact PResult.bind_le (hnot _) (fun _ _ => PResult.le_refl _)
        · exact hcmp _
      · intro s
        simp only [parse_and]
        exact PResult.bind_le (hnot _) (fun _ _ => handl _ _)
      · intro l s
        simp only [parse_and_loop]
        split_ifs
        · exact PResult.bind_le (hnot _) (fun _ _ => handl _ _)
        · exact PResult.le_refl _
      · intro s
        simp only [parse_or]
        exact PResult.bind_le (hand _) (fun _ _ => horl _ _)
      · intro l s
        simp only [parse_or_loop]
        split_ifs
        · exact PResult.bind_le (hand _) (fun _ _ => horl _ _)
        · exact PResult.le_refl _
      · intro s
        simp only [parse_expr]
        exact hor _

theorem le_chain {α : Type} (f : Nat → PResult α) (h : ∀ n, (f n).le (f (n + 1)))
    (n : Nat) (r : PResult α) (hr : f n = r) (hne : r ≠ .nofuel) : ∀ k, f (n + k) = r
  | 0 => hr
  | k + 1 => by
      have ih := le_chain f h n r hr hne k
      rcases h (n + k) with h1 | h1
      · rw [ih] at h1; exact absurd h1 hne
      · rw [← Nat.add_assoc, ← h1, ih]

theorem le_chain_ge {α : Type} (f : Nat → PResult α) (h : ∀ n, (f n).le (f (n + 1)))
    (n : Nat) (r : PResult α) (hr : f n = r) (hne : r ≠ .nofuel) (m : Nat) (hm : n ≤ m) :
    f m = r := by
  obtain ⟨k, rfl⟩ : ∃ k, m = n + k := ⟨m - n, by omega⟩
  exact le_chain f h n r hr hne k

theorem CleanPath.trans {s1 s2 s3 : PState} (h1 : CleanPath s1 s2) (h2 : CleanPath s2 s3) :
    CleanPath s1 s3 := by
  induction h1 with
  | refl s => exact h2
  | step s s1 hne _ ih => exact CleanPath.step _ _ hne (ih h2)

theorem CleanPath.one (s : PState) (h : s.current_token.type ≠ .TOK_ERROR) :
    CleanPath s (advance s) :=
  CleanPath.step _ _ h (CleanPath.refl _)

theorem PResult.bind_ok {α β : Type} {r : PResult α} {k : α → PState → PResult β} {v : β}
    {s1 : PState} (h : r.bind k = .ok v s1) :
    ∃ a s, r = .ok a s ∧ k a s = .ok v s1 := by
  cases r with
  | ok a s => exact ⟨a, s, rfl, h⟩
  | error m => simp [PResult.bind] at h
  | undefined w => simp [PResult.bind] at h
  | nofuel => simp [PResult.bind] at h

theorem consume_ok {s s1 : PState} {t : TokenType} {msg : String} {u : Unit}
    (h : consume s t msg = .ok u s1) : s.current_token.type = t ∧ s1 = advance s := by
  unfold consume at h
  split_ifs at h with hc
  · simp only [PResult.ok.injEq] at h
    exact ⟨by simpa using hc, h.2.symm⟩

theorem consume_clean {s s1 : PState} {t : TokenType} {msg : String} {u : Unit}
    (h : consume s t msg = .ok u s1) (ht : t ≠ .TOK_ERROR) : CleanPath s s1 := by
  obtain ⟨h1, h2⟩ := consume_ok h
  subst h2
  exact CleanPath.one s (by rw [h1]; exact ht)

theorem no_negate_args_append (a : List Expr) (e : Expr) (ha : no_negate_args a = true)
    (he : no_negate e = true) : no_negate_args (a ++ [e]) = true := by
  induction a with
  | nil => simp [no_negate_args, he]
  | cons x xs ih =>
      simp only [no_negate_args, Bool.and_eq_true] at ha
      simp [no_negate_args, ha.1, ih ha.2]

theorem parser_sound : ∀ n, ParserSound n
  | 0 => by
      refine ⟨?_, ?_, ?_, ?_, ?_, ?_, ?_, ?_, ?_, ?_, ?_, ?_, ?_⟩ <;> intros <;>
        simp_all [parse_primary, parse_args, parse_mul, parse_mul_loop, parse_add,
          parse_add_loop, parse_cmp, parse_not, parse_and, parse_and_loop, parse_or,
          parse_or_loop, parse_expr]
  | n + 1 => by
      obtain ⟨hprim, hargs, hmul, hmull, hadd, haddl, hcmp, hnot, hand, handl, hor, horl,
        hexpr⟩ := parser_sound n
      refine ⟨?_, ?_, ?_, ?_, ?_, ?_, ?_, ?_, ?_, ?_, ?_, ?_, ?_⟩
      · intro s v s1 h
        simp only [parse_primary] at h
        split_ifs at h with h1 h2 h3 h4 h5 h6
        · simp only [PResult.ok.injEq] at h
          obtain ⟨rfl, rfl⟩ := h
          exact ⟨CleanPath.one s (by simp [h1]), rfl⟩
        · obtain ⟨args, s3, ha, h⟩ := PResult.bind_ok h
          obtain ⟨u, s4, hc, h⟩ := PResult.bind_ok h
          simp only [PResult.ok.injEq] at h
          obtain ⟨rfl, rfl⟩ := h
          obtain ⟨hp, hn⟩ := hargs _ _ _ _ ha rfl
          refine ⟨?_, by simpa [no_negate] using hn⟩
          exact (CleanPath.one s (by simp [h2])).trans
            ((CleanPath.one _ (by simp [h3])).trans
              (hp.trans (consume_clean hc (by decide))))
        · obtain ⟨u, s4, hc, h⟩ := PResult.bind_ok h
          simp only [PResult.ok.injEq] at h
          obtain ⟨rfl, rfl⟩ := h
          refine ⟨?_, by simp [no_negate, no_negate_args]⟩
          exact (CleanPath.one s (by simp [h2])).trans
            ((CleanPath.one _ (by simp [h3])).trans (consume_clean hc (by decide)))
        · simp only [PResult.ok.injEq] at h
          obtain ⟨rfl, rfl⟩ := h
          exact ⟨CleanPath.one s (by simp [h2]), rfl⟩
        · simp only [PResult.ok.injEq] at h
          obtain ⟨rfl, rfl⟩ := h
          exact ⟨CleanPath.one s (by simp [h5]), rfl⟩
        · obtain ⟨e, s2, he, h⟩ := PResult.bind_ok h
          obtain ⟨u, s4, hc, h⟩ := PResult.bind_ok h
          simp only [PResult.ok.injEq] at h
          obtain ⟨rfl, rfl⟩ := h
          obtain ⟨hp, hn⟩ := hexpr _ _ _ he
          exact ⟨(CleanPath.one s (by simp [h6])).trans (hp.trans (consume_clean hc
            (by decide))), hn⟩
      · intro a s v s1 h ha
        simp only [parse_args] at h
        obtain ⟨e, s2, he, h⟩ := PResult.bind_ok h
        obtain ⟨hp, hn⟩ := hexpr _ _ _ he
        split_ifs at h with h1
        · obtain ⟨hp2, hn2⟩ := hargs _ _ _ _ h (no_negate_args_append a e ha hn)
          exact ⟨hp.trans ((CleanPath.one _ (by simp [h1])).trans hp2), hn2⟩
        · simp only [PResult.ok.injEq] at h
          obtain ⟨rfl, rfl⟩ := h
          exact ⟨hp, no_negate_args_append a e ha hn⟩
      · intro s v s1 h
        simp only [parse_mul] at h
        obtain ⟨l, s2, hl, h⟩ := PResult.bind_ok h
        obtain ⟨hp, hn⟩ := hprim _ _ _ hl
        obtain ⟨hp2, hn2⟩ := hmull _ _ _ _ h hn
        exact ⟨hp.trans hp2, hn2⟩
      · intro l s v s1 h hl
        simp only [parse_mul_loop] at h
        split_ifs at h with h1 h2
        · obtain ⟨r, s2, hr, h⟩ := PResult.bind_ok h
          obtain ⟨hp, hn⟩ := hprim _ _ _ hr
          obtain ⟨hp2, hn2⟩ := hmull _ _ _ _ h (by simp [no_negate, hl, hn])
          exact ⟨(CleanPath.one s (by simp [h1])).trans (hp.trans hp2), hn2⟩
        · obtain ⟨r, s2, hr, h⟩ := PResult.bind_ok h
          obtain ⟨hp, hn⟩ := hprim _ _ _ hr
          obtain ⟨hp2, hn2⟩ := hmull _ _ _ _ h (by simp [no_negate, hl, hn])
          exact ⟨(CleanPath.one s (by simp [h2])).trans (hp.trans hp2), hn2⟩
        · simp only [PResult.ok.injEq] at h
          obtain ⟨rfl, rfl⟩ := h
          exact ⟨CleanPath.refl _, hl⟩
      · intro s v s1 h
        simp only [parse_add] at h
        obtain ⟨l, s2, hl, h⟩ := PResult.bind_ok h
        obtain ⟨hp, hn⟩ := hmul _ _ _ hl
        obtain ⟨hp2, hn2⟩ := haddl _ _ _ _ h hn
        exact ⟨hp.trans hp2, hn2⟩
      · intro l s v s1 h hl
        simp only [parse_add_loop] at h
        split_ifs at h with h1 h2
        · obtain ⟨r, s2, hr, h⟩ := PResult.bind_ok h
          obtain ⟨hp, hn⟩ := hmul _ _ _ hr
          obtain ⟨hp2, hn2⟩ := haddl _ _ _ _ h (by simp [no_negate, hl, hn])
          exact ⟨(CleanPath.one s (by simp [h1])).trans (hp.trans hp2), hn2⟩
        · obtain ⟨r, s2, hr, h⟩ := PResult.bind_ok h
          obtain ⟨hp, hn⟩ := hmul _ _ _ hr
          obtain ⟨hp2, hn2⟩ := haddl _ _ _ _ h (by simp [no_negate, hl, hn])
          exact ⟨(CleanPath.one s (by simp [h2])).trans (hp.trans hp2), hn2⟩
        · simp only [PResult.ok.injEq] at h
          obtain ⟨rfl, rfl⟩ := h
          exact ⟨CleanPath.refl _, hl⟩
      · intro s v s1 h
        simp only [parse_cmp] at h
        obtain ⟨l, s2, hl, h⟩ := PResult.bind_ok h
        obtain ⟨hp, hn⟩ := hadd _ _ _ hl
        split_ifs at h with h1
        · obtain ⟨r, s3, hr, h⟩ := PResult.bind_ok h
          obtain ⟨hp2, hn2⟩ := hadd _ _ _ hr
          simp only [PResult.ok.injEq] at h
          obtain ⟨rfl, rfl⟩ := h
          refine ⟨hp.trans ((CleanPath.one _ ?_).trans hp2), by simp [no_negate, hn, hn2]⟩
          intro he
          rw [he] at h1
          simp [is_cmp_token] at h1
        · simp only [PResult.ok.injEq] at h
          obtain ⟨rfl, rfl⟩ := h
          exact ⟨hp, hn⟩
      · intro s v s1 h
        rw [parse_not] at h
        split_ifs at h with h1
        · obtain ⟨e, s2, he, h⟩ := PResult.bind_ok h
          obtain ⟨hp, hn⟩ := hnot _ _ _ he
          simp only [PResult.ok.injEq] at h
          obtain ⟨rfl, rfl⟩ := h
          exact ⟨(CleanPath.one s (by simp [h1])).trans hp, by simp [no_negate, hn]⟩
        · exact hcmp _ _ _ h
      · intro s v s1 h
        simp only [parse_and] at h
        obtain ⟨l, s2, hl, h⟩ := PResult.bind_ok h
        obtain ⟨hp, hn⟩ := hnot _ _ _ hl
        obtain ⟨hp2, hn2⟩ := handl _ _ _ _ h hn
        exact ⟨hp.trans hp2, hn2⟩
      · intro l s v s1 h hl
        simp only [parse_and_loop] at h
        split_ifs at h with h1
        · obtain ⟨r, s2, hr, h⟩ := PResult.bind_ok h
          obtain ⟨hp, hn⟩ := hnot _ _ _ hr
          obtain ⟨hp2, hn2⟩ := handl _ _ _ _ h (by simp [no_negate, hl, hn])
          exact ⟨(CleanPath.one s (by simp [h1])).trans (hp.trans hp2), hn2⟩
        · simp only [PResult.ok.injEq] at h
          obtain ⟨rfl, rfl⟩ := h
          exact ⟨CleanPath.refl _, hl⟩
      · intro s v s1 h
        simp only [parse_or] at h
        obtain ⟨l, s2, hl, h⟩ := PResult.bind_ok h
        obtain ⟨hp, hn⟩ := hand _ _ _ hl
        obtain ⟨hp2, hn2⟩ := horl _ _ _ _ h hn
        exact ⟨hp.trans hp2, hn2⟩
      · intro l s v s1 h hl
        simp only [parse_or_loop] at h
        split_ifs at h with h1
        · obtain ⟨r, s2, hr, h⟩ := PResult.bind_ok h
          obtain ⟨hp, hn⟩ := hand _ _ _ hr
          obtain ⟨hp2, hn2⟩ := horl _ _ _ _ h (by simp [no_negate, hl, hn])
          exact ⟨(CleanPath.one s (by simp [h1])).trans (hp.trans hp2), hn2⟩
        · simp only [PResult.ok.injEq] at h
          obtain ⟨rfl, rfl⟩ := h
          exact ⟨CleanPath.refl _, hl⟩
      · intro s v s1 h
        simp only [parse_expr] at h
        exact hor _ _ _ h

theorem parse_expr_ge {n : Nat} {s : PState} {r : PResult Expr} (h : parse_expr n s = r)
    (hne : r ≠ .nofuel) {m : Nat} (hm : n ≤ m) : parse_expr m s = r :=
  le_chain_ge (fun k => parse_expr k s) (fun k => (parser_mono k).2.2.2.2.2.2.2.2.2.2.2.2 s)
    n r h hne m hm

theorem parse_add_ge {n : Nat} {s : PState} {r : PResult Expr} (h : parse_add n s = r)
    (hne : r ≠ .nofuel) {m : Nat} (hm : n ≤ m) : parse_add m s = r :=
  le_chain_ge (fun k => parse_add k s) (fun k => (parser_mono k).2.2.2.2.1 s) n r h hne m hm

theorem parse_primary_ge {n : Nat} {s : PState} {r : PResult Expr}
    (h : parse_primary n s = r) (hne : r ≠ .nofuel) {m : Nat} (hm : n ≤ m) :
    parse_primary m s = r :=
  le_chain_ge (fun k => parse_primary k s) (fun k => (parser_mono k).1 s) n r h hne m hm

theorem rule_loop_mono : ∀ (n : Nat) (rules : List Rule) (s : PState),
    (parse_rule_list_loop n rules s).le (parse_rule_list_loop (n + 1) rules s)
  | 0, _, _ => Or.inl (by simp [parse_rule_list_loop])
  | n + 1, rules, s => by
      simp only [parse_rule_list_loop]
      split_ifs
      · refine PResult.bind_le ((parser_mono n).2.2.2.2.2.2.2.2.2.2.2.2 _) (fun _ _ => ?_)
        refine PResult.bind_le (PResult.le_refl _) (fun _ _ => ?_)
        refine PResult.bind_le (PResult.le_refl _) (fun _ _ => ?_)
        refine PResult.bind_le (PResult.le_refl _) (fun _ _ => ?_)
        exact rule_loop_mono n _ _
      · exact PResult.le_refl _

theorem parse_program_mono (source : List Char) (n : Nat) :
    (parse_program n source).le (parse_program (n + 1) source) := by
  simp only [parse_program]
  refine PResult.bind_le (PResult.le_refl _) (fun _ s1 => ?_)
  split_ifs
  · exact PResult.le_refl _
  · exact PResult.bind_le (rule_loop_mono n _ _) (fun _ _ => PResult.le_refl _)

theorem parse_program_ge {n : Nat} {source : List Char} {r : PResult Program}
    (h : parse_program n source = r) (hne : r ≠ .nofuel) {m : Nat} (hm : n ≤ m) :
    parse_program m source = r :=
  le_chain_ge (fun k => parse_program k source) (parse_program_mono source) n r h hne m hm

/-- A result obtained with some fuel excludes every other finished result. -/
theorem parse_program_unique {n m : Nat} {source : List Char} {r1 r2 : PResult Program}
    (h1 : parse_program n source = r1) (hne1 : r1 ≠ .nofuel)
    (h2 : parse_program m source = r2) (hne2 : r2 ≠ .nofuel) : r1 = r2 := by
  have a := parse_program_ge h1 hne1 (Nat.le_max_left n m)
  have b := parse_program_ge h2 hne2 (Nat.le_max_right n m)
  rw [a] at b
  exact b

theorem rule_loop_ge {n : Nat} {rules : List Rule} {s : PState} {r : PResult (List Rule)}
    (h : parse_rule_list_loop n rules s = r) (hne : r ≠ .nofuel) {m : Nat} (hm : n ≤ m) :
    parse_rule_list_loop m rules s = r :=
  le_chain_ge (fun k => parse_rule_list_loop k rules s) (fun k => rule_loop_mono k rules s)
    n r h hne m hm

/-- A parse error met by the rule loop in a state it reaches is the outcome of the loop. -/
theorem rule_loop_error_of_reaches {s s5 : PState} (hr : RuleLoopReaches s s5) (msg : String)
    (h5 : ∃ n, ∀ rules, parse_rule_list_loop n rules s5 = .error msg) :
    ∃ n, ∀ rules, parse_rule_list_loop n rules s = .error msg := by
  induction hr with
  | start s => exact h5
  | next fuel s s1 s2 s3 s4 s5 cond act u1 u2 hif he hc1 ha hc2 _ ih =>
      obtain ⟨n, hn⟩ := ih h5
      refine ⟨max fuel n + 1, fun rules => ?_⟩
      simp only [parse_rule_list_loop, hif, if_true]
      rw [parse_expr_ge he (by simp) (Nat.le_max_left fuel n)]
      simp only [PResult.bind, hc1, ha, hc2]
      exact rule_loop_ge (hn _) (by simp) (Nat.le_max_right fuel n)

/-- A parse error in the rule loop is the outcome of `parse_program`. -/
theorem parse_program_error_of_loop (source : List Char) (msg : String)
    (hsym : (start_parser_state source).current_token.type = .TOK_SYMBOL)
    (hstr : (advance (start_parser_state source)).current_token.type = .TOK_STRING)
    (h : ∃ n, ∀ rules, parse_rule_list_loop n rules (rule_loop_entry source) = .error msg) :
    (∃ n, ∀ fuel, n ≤ fuel → parse_program fuel source = .error msg) ∧
    ∀ fuel p st, parse_program fuel source ≠ .ok p st := by
  obtain ⟨n, hn⟩ := h
  have herr : parse_program n source = .error msg := by
    simp only [parse_program, consume, hsym, ne_eq, not_true_eq_false, if_false, PResult.bind,
      hstr, parse_rule_list, rule_loop_entry] at hn ⊢
    rw [hn]
  refine ⟨⟨n, fun fuel hf => parse_program_ge herr (by simp) hf⟩, fun fuel p st hok => ?_⟩
  have := parse_program_unique herr (by simp) hok (by simp)
  simp at this

theorem parse_primary_first {n : Nat} {s s1 : PState} {v : Expr}
    (h : parse_primary n s = .ok v s1) :
    s.current_token.type = .TOK_NUMBER ∨ s.current_token.type = .TOK_IDENT ∨
    s.current_token.type = .TOK_STRING ∨ s.current_token.type = .TOK_LPAREN := by
  cases n with
  | zero => simp [parse_primary] at h
  | succ n =>
      simp only [parse_primary] at h
      by_cases h1 : s.current_token.type = .TOK_NUMBER
      · exact Or.inl h1
      · by_cases h2 : s.current_token.type = .TOK_IDENT
        · exact Or.inr (Or.inl h2)
        · by_cases h3 : s.current_token.type = .TOK_STRING
          · exact Or.inr (Or.inr (Or.inl h3))
          · by_cases h4 : s.current_token.type = .TOK_LPAREN
            · exact Or.inr (Or.inr (Or.inr h4))
            · simp [h1, h2, h3, h4] at h

theorem parse_add_first {n : Nat} {s s1 : PState} {v : Expr}
    (h : parse_add n s = .ok v s1) :
    s.current_token.type = .TOK_NUMBER ∨ s.current_token.type = .TOK_IDENT ∨
    s.current_token.type = .TOK_STRING ∨ s.current_token.type = .TOK_LPAREN := by
  match n, h with
  | 0, h => simp [parse_add] at h
  | 1, h => simp [parse_add, parse_mul, PResult.bind] at h
  | n + 2, h =>
      simp only [parse_add, parse_mul] at h
      obtain ⟨l, s2, hl, _⟩ := PResult.bind_ok h
      obtain ⟨l2, s3, hl2, _⟩ := PResult.bind_ok hl
      exact parse_primary_first hl2

theorem parse_mul_loop_stop (n : Nat) (l : Expr) (s : PState)
    (h1 : s.current_token.type ≠ .TOK_STAR) (h2 : s.current_token.type ≠ .TOK_SLASH) :
    parse_mul_loop (n + 1) l s = .ok l s := by
  simp [parse_mul_loop, h1, h2]

theorem parse_add_loop_stop (n : Nat) (l : Expr) (s : PState)
    (h1 : s.current_token.type ≠ .TOK_PLUS) (h2 : s.current_token.type ≠ .TOK_MINUS) :
    parse_add_loop (n + 1) l s = .ok l s := by
  simp [parse_add_loop, h1, h2]

theorem parse_and_loop_stop (n : Nat) (l : Expr) (s : PState)
    (h1 : s.current_token.type ≠ .TOK_AND) : parse_and_loop (n + 1) l s = .ok l s := by
  simp [parse_and_loop, h1]

theorem parse_or_loop_stop (n : Nat) (l : Expr) (s : PState)
    (h1 : s.current_token.type ≠ .TOK_OR) : parse_or_loop (n + 1) l s = .ok l s := by
  simp [parse_or_loop, h1]

/-- C5: multiplication binds tighter than addition.  When three primaries `a`, `b`, `c`
    are separated by `+` and `*` and followed by no further arithmetic operator,
    `parse_add` returns `Binary(add, a, Binary(mul, b, c))`; the source `1 + 2 * 3` parses
    as `1 + (2 * 3)`, and its compiled code leaves `7.0` on the stack. -/
theorem multiplication_binds_tighter_than_addition :
    (∀ (s0 s1 s2 s3 : PState) (a b c : Expr) (fa fb fc : Nat),
      parse_primary fa s0 = .ok a s1 → s1.current_token.type = .TOK_PLUS →
      parse_primary fb (advance s1) = .ok b s2 → s2.current_token.type = .TOK_STAR →
      parse_primary fc (advance s2) = .ok c s3 →
      s3.current_token.type ≠ .TOK_STAR → s3.current_token.type ≠ .TOK_SLASH →
      s3.current_token.type ≠ .TOK_PLUS → s3.current_token.type ≠ .TOK_MINUS →
      ∃ n, ∀ fuel, n ≤ fuel →
        parse_add fuel s0 = .ok (binary OP_ADD a (binary OP_MUL b c)) s3) ∧
    (∃ n s, ∀ fuel, n ≤ fuel →
      parse_expr fuel (start_parser_state sum_product_source) = .ok sum_product_tree s) ∧
    (∃ chunk, compile_expr init_chunk sum_product_tree = .ok chunk ∧
      ∀ ctx symbol, ∃ n, vm_steps chunk ctx symbol n { stack := [], ip := 0, out := [] } =
        .ok { stack := [Double.ofInt 7], ip := chunk.count, out := [] }) := by
  refine ⟨?_, ?_, ?_⟩
  · intro s0 s1 s2 s3 a b c fa fb fc ha hplus hb hstar hc h1 h2 h3 h4
    refine ⟨max fa (max fb fc) + 4, fun fuel hf => ?_⟩
    obtain ⟨k, rfl⟩ : ∃ k, fuel = k + 4 := ⟨fuel - 4, by omega⟩
    have hk : max fa (max fb fc) ≤ k := by omega
    have hA : ∀ m, k ≤ m → parse_primary m s0 = .ok a s1 :=
      fun m hm => parse_primary_ge ha (by simp) (by omega)
    have hB : ∀ m, k ≤ m → parse_primary m (advance s1) = .ok b s2 :=
      fun m hm => parse_primary_ge hb (by simp) (by omega)
    have hC : ∀ m, k ≤ m → parse_primary m (advance s2) = .ok c s3 :=
      fun m hm => parse_primary_ge hc (by simp) (by omega)
    have e1 : parse_mul (k + 3) s0 = .ok a s1 := by
      rw [parse_mul, hA (k + 2) (by omega)]
      exact parse_mul_loop_stop _ _ _ (by simp [hplus]) (by simp [hplus])
    have e2 : parse_mul_loop (k + 1) (binary OP_MUL b c) s3 =
        .ok (binary OP_MUL b c) s3 := parse_mul_loop_stop _ _ _ h1 h2
    have e3 : parse_mul (k + 2) (advance s1) = .ok (binary OP_MUL b c) s3 := by
      rw [parse_mul, hB (k + 1) (by omega)]
      simp only [PResult.bind]
      rw [parse_mul_loop]
      simp only [hstar, if_true, hC k (Nat.le_refl k), PResult.bind]
      cases k with
      | zero =>
          have h0 := hC 0 (Nat.le_refl 0)
          simp [parse_primary] at h0
      | succ k => exact parse_mul_loop_stop _ _ _ h1 h2
    rw [parse_add, e1]
    simp only [PResult.bind]
    rw [parse_add_loop]
    simp only [hplus, if_true, e3, PResult.bind]
    exact parse_add_loop_stop _ _ _ h3 h4
  · have h20 : parse_expr 20 (start_parser_state sum_product_source) =
        .ok sum_product_tree { current_token := make_token .TOK_EOF [], current := [] } := rfl
    exact ⟨20, _, fun fuel hf => parse_expr_ge h20 (by simp) hf⟩
  · refine ⟨_, rfl, fun ctx symbol => ⟨5, rfl⟩⟩

theorem parse_not_of_add_first {s : PState}
    (h : s.current_token.type = .TOK_NUMBER ∨ s.current_token.type = .TOK_IDENT ∨
      s.current_token.type = .TOK_STRING ∨ s.current_token.type = .TOK_LPAREN) (n : Nat) :
    parse_not (n + 1) s = parse_cmp n s := by
  rw [parse_not]
  have : s.current_token.type ≠ .TOK_NOT := by
    rcases h with h | h | h | h <;> simp [h]
  simp [this]

/-- A comparison of two additive operands, parsed at the level of `parse_not`. -/
theorem parse_not_comparison {s0 s1 s2 : PState} {a b : Expr} {fa fb : Nat}
    (ha : parse_add fa s0 = .ok a s1) (hop : is_cmp_token s1.current_token.type = true)
    (hb : parse_add fb (advance s1) = .ok b s2) (m : Nat) (hm : max fa fb ≤ m) :
    parse_not (m + 2) s0 = .ok (binary (cmp_op s1.current_token.type) a b) s2 := by
  rw [parse_not_of_add_first (parse_add_first ha), parse_cmp,
    parse_add_ge ha (by simp) (by omega : fa ≤ m)]
  simp only [PResult.bind, hop, if_true]
  rw [parse_add_ge hb (by simp) (by omega : fb ≤ m)]

/-- C6: additive operators bind tighter than comparisons, which bind tighter than `and`.
    When two comparisons of additive operands are joined by `and`, `parse_and` returns
    `Binary(and, Binary(op1, a, b), Binary(op2, c, d))`; the source `2 + 3 > 4 and 1 < 2`
    parses as `((2 + 3) > 4) and (1 < 2)`, and its compiled code leaves `1.0`, a non-zero
    value, on the stack. -/
theorem comparison_binds_tighter_than_and :
    (∀ (s0 s1 s2 s3 s4 : PState) (a b c d : Expr) (fa fb fc fd : Nat),
      parse_add fa s0 = .ok a s1 → is_cmp_token s1.current_token.type = true →
      parse_add fb (advance s1) = .ok b s2 → s2.current_token.type = .TOK_AND →
      parse_add fc (advance s2) = .ok c s3 → is_cmp_token s3.current_token.type = true →
      parse_add fd (advance s3) = .ok d s4 → s4.current_token.type ≠ .TOK_AND →
      ∃ n, ∀ fuel, n ≤ fuel →
        parse_and fuel s0 = .ok (binary OP_AND_OP
          (binary (cmp_op s1.current_token.type) a b)
          (binary (cmp_op s3.current_token.type) c d)) s4) ∧
    (∃ n s, ∀ fuel, n ≤ fuel →
      parse_expr fuel (start_parser_state comparison_and_source) =
        .ok comparison_and_tree s) ∧
    (∃ chunk, compile_expr init_chunk comparison_and_tree = .ok chunk ∧
      ∀ ctx symbol, ∃ n, vm_steps chunk ctx symbol n { stack := [], ip := 0, out := [] } =
        .ok { stack := [Double.ofInt 1], ip := chunk.count, out := [] }) ∧
    Double.truthy (Double.ofInt 1) = true ∧
    (Double.ofInt 1).bits = 4607182418800017408 := by
  refine ⟨?_, ?_, ?_, by decide, by decide⟩
  · intro s0 s1 s2 s3 s4 a b c d fa fb fc fd ha hop1 hb hand hc hop2 hd hend
    refine ⟨max (max fa fb) (max fc fd) + 4, fun fuel hf => ?_⟩
    obtain ⟨k, rfl⟩ : ∃ k, fuel = k + 4 := ⟨fuel - 4, by omega⟩
    have e1 := parse_not_comparison ha hop1 hb (k + 1) (by omega)
    have e2 := parse_not_comparison hc hop2 hd k (by omega)
    rw [parse_and, e1]
    simp only [PResult.bind]
    rw [parse_and_loop]
    simp only [hand, if_true, e2, PResult.bind]
    exact parse_and_loop_stop _ _ _ hend
  · have h20 : parse_expr 20 (start_parser_state comparison_and_source) =
        .ok comparison_and_tree { current_token := make_token .TOK_EOF [], current := [] } :=
      rfl
    exact ⟨20, _, fun fuel hf => parse_expr_ge h20 (by simp) hf⟩
  · refine ⟨_, rfl, fun ctx symbol => ⟨9, rfl⟩⟩

/-- C7: comparisons do not chain.  When the rule loop of `parse_program` reaches a rule
    whose condition starts with `a op1 b op2`, for additive operands `a`, `b` and
    comparison operators `op1`, `op2`, the program is rejected with the parse error
    `Expected 'then'` at the second operator, whatever the fuel; no tree is produced. -/
theorem comparisons_do_not_chain (source : List Char) (s s1 s2 : PState) (a b : Expr)
    (fa fb : Nat)
    (hsym : (start_parser_state source).current_token.type = .TOK_SYMBOL)
    (hstr : (advance (start_parser_state source)).current_token.type = .TOK_STRING)
    (hreach : RuleLoopReaches (rule_loop_entry source) s)
    (hif : s.current_token.type = .TOK_IF)
    (ha : parse_add fa (advance s) = .ok a s1)
    (hop1 : is_cmp_token s1.current_token.type = true)
    (hb : parse_add fb (advance s1) = .ok b s2)
    (hop2 : is_cmp_token s2.current_token.type = true) :
    (∃ n, ∀ fuel, n ≤ fuel →
      parse_program fuel source = .error (parse_error s2 "Expected 'then'")) ∧
    ∀ fuel p st, parse_program fuel source ≠ .ok p st := by
  apply parse_program_error_of_loop source _ hsym hstr
  apply rule_loop_error_of_reaches hreach
  refine ⟨max fa fb + 6, fun rules => ?_⟩
  have e1 := parse_not_comparison ha hop1 hb (max fa fb) (Nat.le_refl _)
  have hnand : s2.current_token.type ≠ .TOK_AND := by
    intro h; rw [h] at hop2; simp [is_cmp_token] at hop2
  have hnor : s2.current_token.type ≠ .TOK_OR := by
    intro h; rw [h] at hop2; simp [is_cmp_token] at hop2
  have hnthen : s2.current_token.type ≠ .TOK_THEN := by
    intro h; rw [h] at hop2; simp [is_cmp_token] at hop2
  have e2 : parse_and (max fa fb + 3) (advance s) =
      .ok (binary (cmp_op s1.current_token.type) a b) s2 := by
    rw [parse_and, e1]
    exact parse_and_loop_stop _ _ _ hnand
  have e3 : parse_expr (max fa fb + 5) (advance s) =
      .ok (binary (cmp_op s1.current_token.type) a b) s2 := by
    rw [parse_expr, parse_or, e2]
    exact parse_or_loop_stop _ _ _ hnor
  rw [parse_rule_list_loop]
  simp only [hif, if_true, e3, PResult.bind, consume, ne_eq, hnthen, not_false_eq_true]

theorem comparisons_do_not_chain_witness :
    (start_parser_state chained_comparison_source).current_token.type = .TOK_SYMBOL ∧
    (advance (start_parser_state chained_comparison_source)).current_token.type =
      .TOK_STRING ∧
    (rule_loop_entry chained_comparison_source).current_token.type = .TOK_IF ∧
    ((∃ n, ∀ fuel, n ≤ fuel → parse_program fuel chained_comparison_source =
        .error "Parse error: Expected 'then' (token: <)") ∧
      ∀ fuel p st, parse_program fuel chained_comparison_source ≠ .ok p st) :=
  ⟨rfl, rfl, rfl,
    comparisons_do_not_chain chained_comparison_source
      (rule_loop_entry chained_comparison_source)
      { current_token := make_token .TOK_LT ['<'], current := " 2 < 3 then buy 1 end".toList }
      { current_token := make_token .TOK_LT ['<'], current := " 3 then buy 1 end".toList }
      (number (Double.ofInt 1)) (number (Double.ofInt 2)) 3 3 rfl rfl
      (RuleLoopReaches.start _) rfl rfl rfl rfl rfl⟩

theorem call_case_arity_mismatch (vm : VM) (f : FuncId) (argc : Nat) (h : argc ≠ arity f) :
    call_case vm f.toByte argc = .error (.exit (arity_message f)) := by
  cases f <;> simp_all [call_case, FuncId.toByte, arity, arity_message]

theorem variable_table_lookup (name : String) (id : Nat) (field : VMContext → Double)
    (h : (name, id, field) ∈ variable_table) :
    ∃ v, is_builtin_var name = some v ∧ v.toByte = id ∧ ∀ ctx, load_var ctx id = field ctx := by
  simp only [variable_table, List.mem_cons, Prod.mk.injEq, List.mem_singleton,
    List.not_mem_nil, or_false] at h
  rcases h with h | h | h | h | h | h | h | h | h | h <;> obtain ⟨rfl, rfl, rfl⟩ := h
  · exact ⟨.VAR_OPEN, rfl, rfl, fun _ => rfl⟩
  · exact ⟨.VAR_HIGH, rfl, rfl, fun _ => rfl⟩
  · exact ⟨.VAR_LOW, rfl, rfl, fun _ => rfl⟩
  · exact ⟨.VAR_CLOSE, rfl, rfl, fun _ => rfl⟩
  · exact ⟨.VAR_VOLUME, rfl, rfl, fun _ => rfl⟩
  · exact ⟨.VAR_DATE, rfl, rfl, fun _ => rfl⟩
  · exact ⟨.VAR_TIME, rfl, rfl, fun _ => rfl⟩
  · exact ⟨.VAR_HOUR, rfl, rfl, fun _ => rfl⟩
  · exact ⟨.VAR_MINUTE, rfl, rfl, fun _ => rfl⟩
  · exact ⟨.VAR_WEEKDAY, rfl, rfl, fun _ => rfl⟩

/-- C12: for each of the ten builtin variable names, `compile_expr` on `Ident(name)` emits
    exactly the two bytes `LoadVar`, `id` with the id of the fixed table (open=0, high=1,
    low=2, close=3, volume=4, date=5, time=6, hour=7, minute=8, weekday=9), and executing
    them, on a stack with a free slot, pushes the context field of that name, converted to
    double when it is an integer; that field is the value of the expression in every
    context. -/
theorem builtin_variable_loads_context_field (name : String) (id : Nat)
    (field : VMContext → Double) (ctx : VMContext) (symbol : String) (stk : List Double)
    (out : List String) (c : Chunk)
    (h : (name, id, field) ∈ variable_table) (hs : stk.length < STACK_MAX) :
    variable_table.length = 10 ∧
    ∃ c1, compile_expr c (ident name) = .ok c1 ∧
      c1.code = c.code ++ [OpCode.BC_LOAD_VAR.toByte, id] ∧
      (∀ (full : Chunk) (post : List Nat), full.code = c1.code ++ post →
        vm_step full ctx symbol { stack := stk, ip := c.count, out := out } =
          .ok { stack := field ctx :: stk, ip := c1.count, out := out }) ∧
      eval ctx (ident name) = some (field ctx) := by
  obtain ⟨v, hv, hid, hload⟩ := variable_table_lookup name id field h
  subst hid
  have hc : compile_expr c (ident name) =
      .ok (write_byte (write_byte c OpCode.BC_LOAD_VAR.toByte) v.toByte) := by
    simp [compile_expr, hv]
  have hcode := compile_expr_code _ c _ hc
  simp only [expr_code, hv] at hcode
  refine ⟨rfl, _, hc, hcode, fun full post hfull => ?_, ?_⟩
  · rw [hcode] at hfull
    have hstep := step_load_var full ctx symbol c.code post v.toByte stk out hfull hs
    simp only [Chunk.count, hcode, List.length_append, List.length_cons, List.length_nil]
    rw [hstep, hload]
  · simp [eval, hv, hload]

theorem builtin_variable_loads_context_field_witness :
    ("close", 3, fun ctx : VMContext => ctx.close) ∈ variable_table ∧
    ([] : List Double).length < STACK_MAX ∧
    (variable_table.length = 10 ∧
    ∃ c1, compile_expr init_chunk (ident "close") = .ok c1 ∧
      c1.code = init_chunk.code ++ [OpCode.BC_LOAD_VAR.toByte, 3] ∧
      (∀ (full : Chunk) (post : List Nat), full.code = c1.code ++ post →
        vm_step full example_context "X" { stack := [], ip := init_chunk.count, out := [] } =
          .ok { stack := (fun ctx : VMContext => ctx.close) example_context :: [],
                ip := c1.count, out := [] }) ∧
      eval example_context (ident "close") =
        some ((fun ctx : VMContext => ctx.close) example_context)) :=
  ⟨by simp [variable_table], by decide,
    builtin_variable_loads_context_field "close" 3 (fun ctx => ctx.close) example_context "X"
      [] [] init_chunk (by simp [variable_table]) (by decide)⟩

theorem CodeTail.length_pos {t : List Nat} (h : CodeTail t) : 0 < t.length := by
  cases h <;> simp

theorem pop_ip {vm vm1 : VM} {v : Double} (h : pop vm = .ok (v, vm1)) : vm1.ip = vm.ip := by
  unfold pop at h
  split at h
  · simp at h
  · simp only [Except.ok.injEq, Prod.mk.injEq] at h
    rw [← h.2]

theorem push_ip {vm vm1 : VM} {v : Double} (h : push vm v = .ok vm1) : vm1.ip = vm.ip := by
  unfold push at h
  split_ifs at h
  simp only [Except.ok.injEq] at h
  rw [← h]

theorem binary_case_ip {vm vm1 : VM} {f : Double → Double → Double}
    (h : binary_case vm f = .ok vm1) : vm1.ip = vm.ip := by
  unfold binary_case at h
  cases h1 : pop vm with
  | error s => simp [h1] at h
  | ok p =>
      obtain ⟨b, vm2⟩ := p
      simp only [h1] at h
      cases h2 : pop vm2 with
      | error s => simp [h2] at h
      | ok q =>
          obtain ⟨a, vm3⟩ := q
          simp only [h2] at h
          rw [push_ip h, pop_ip h2, pop_ip h1]

theorem unary_case_ip {vm vm1 : VM} {f : Double → Double}
    (h : unary_case vm f = .ok vm1) : vm1.ip = vm.ip := by
  unfold unary_case at h
  cases h1 : pop vm with
  | error s => simp [h1] at h
  | ok p =>
      obtain ⟨b, vm2⟩ := p
      simp only [h1] at h
      rw [push_ip h, pop_ip h1]

theorem call_case_ip {vm vm1 : VM} {fid argc : Nat}
    (h : call_case vm fid argc = .ok vm1) : vm1.ip = vm.ip := by
  unfold call_case at h
  split_ifs at h
  · exact binary_case_ip h
  · exact binary_case_ip h
  · exact unary_case_ip h
  · exact push_ip h

theorem pop_known {vm : VM} (op : Nat) : pop vm ≠ .error (.unknown_opcode op) := by
  unfold pop
  split <;> simp

theorem push_known {vm : VM} {v : Double} (op : Nat) :
    push vm v ≠ .error (.unknown_opcode op) := by
  unfold push
  split_ifs <;> simp

theorem binary_case_known {vm : VM} {f : Double → Double → Double} (op : Nat) :
    binary_case vm f ≠ .error (.unknown_opcode op) := by
  unfold binary_case
  cases h1 : pop vm with
  | error s =>
      intro h
      simp only [Except.error.injEq] at h
      exact pop_known op (h1.trans (congrArg Except.error h))
  | ok p =>
      obtain ⟨b, vm2⟩ := p
      simp only
      cases h2 : pop vm2 with
      | error s =>
          intro h
          simp only [Except.error.injEq] at h
          exact pop_known op (h2.trans (congrArg Except.error h))
      | ok q =>
          obtain ⟨a, vm3⟩ := q
          exact push_known op

theorem unary_case_known {vm : VM} {f : Double → Double} (op : Nat) :
    unary_case vm f ≠ .error (.unknown_opcode op) := by
  unfold unary_case
  cases h1 : pop vm with
  | error s =>
      intro h
      simp only [Except.error.injEq] at h
      exact pop_known op (h1.trans (congrArg Except.error h))
  | ok p =>
      obtain ⟨b, vm2⟩ := p
      exact push_known op

theorem call_case_known {vm : VM} {fid argc : Nat} (op : Nat) :
    call_case vm fid argc ≠ .error (.unknown_opcode op) := by
  unfold call_case
  split_ifs
  · simp
  · exact binary_case_known op
  · simp
  · exact binary_case_known op
  · simp
  · exact unary_case_known op
  · exact push_known op

theorem fetch_int32_bytes (chunk : Chunk) (vm : VM) (pre bs post : List Nat)
    (hc : chunk.code = pre ++ bs ++ post) (hl : bs.length = 4) (hip : vm.ip = pre.length) :
    fetch_int32 chunk vm = .ok (CInt.wrap (le_value 0 bs), { vm with ip := vm.ip + 4 }) := by
  have h := fetch_le_at chunk bs pre post 0 0 vm hc hip
  rw [hl] at h
  simp only [fetch_int32, h, Nat.zero_add]

theorem fetch_double_bytes (chunk : Chunk) (vm : VM) (pre bs post : List Nat)
    (hc : chunk.code = pre ++ bs ++ post) (hl : bs.length = 8) (hip : vm.ip = pre.length) :
    fetch_double chunk vm =
      .ok (Double.ofBits (le_value 0 bs), { vm with ip := vm.ip + 8 }) := by
  have h := fetch_le_at chunk bs pre post 0 0 vm hc hip
  rw [hl] at h
  simp only [fetch_double, h, Nat.zero_add]

theorem Boundary.lt {chunk : Chunk} {ip : Nat} (h : Boundary chunk ip) :
    ip < chunk.code.length := by
  obtain ⟨pre, t, hc, ht, hip⟩ := h
  have := ht.length_pos
  rw [hc, hip, List.length_append]
  omega

theorem code_tail_step (chunk : Chunk) (ctx : VMContext) (symbol : String) (vm : VM)
    (hb : Boundary chunk vm.ip) :
    (∀ vm1, vm_step chunk ctx symbol vm = .ok vm1 → Boundary chunk vm1.ip ∧ vm.ip < vm1.ip) ∧
      ∀ op, vm_step chunk ctx symbol vm ≠ .error (.unknown_opcode op) := by
  obtain ⟨pre, t, hc, ht, hip⟩ := hb
  cases ht with
  | halt =>
      have h1 := fetch_at chunk vm pre [] _ hc hip
      have hstep : vm_step chunk ctx symbol vm = .error .halt := by
        simp only [vm_step, h1, OpCode.ofByte, OpCode.toByte]
        simp
      rw [hstep]
      simp
  | push_const bs t hl ht =>
      have h1 := fetch_at chunk vm pre (bs ++ t) _ (by simpa using hc) hip
      have h2 := fetch_double_bytes chunk { vm with ip := vm.ip + 1 }
        (pre ++ [OpCode.BC_PUSH_CONST.toByte]) bs t (by simpa using hc) hl (by simp [hip])
      have hstep : vm_step chunk ctx symbol vm =
          push { vm with ip := vm.ip + 1 + 8 } (Double.ofBits (le_value 0 bs)) := by
        simp only [vm_step, h1, h2, OpCode.ofByte, OpCode.toByte]
        simp
      rw [hstep]
      refine ⟨fun vm1 h => ?_, fun op => push_known op⟩
      have hi := push_ip h
      simp only at hi
      refine ⟨⟨pre ++ OpCode.BC_PUSH_CONST.toByte :: bs, t, by simpa using hc, ht, ?_⟩, by omega⟩
      rw [hi, hip]
      simp [hl]
  | load_var id t ht =>
      have h1 := fetch_at chunk vm pre (id :: t) _ hc hip
      have h2 := fetch_at chunk { vm with ip := vm.ip + 1 }
        (pre ++ [OpCode.BC_LOAD_VAR.toByte]) t id (by simpa using hc) (by simp [hip])
      have hstep : vm_step chunk ctx symbol vm =
          push { vm with ip := vm.ip + 1 + 1 } (load_var ctx id) := by
        simp only [vm_step, h1, h2, OpCode.ofByte, OpCode.toByte]
        simp
      rw [hstep]
      refine ⟨fun vm1 h => ?_, fun op => push_known op⟩
      have hi := push_ip h
      simp only at hi
      refine ⟨⟨pre ++ [OpCode.BC_LOAD_VAR.toByte, id], t, by simpa using hc, ht, ?_⟩, by omega⟩
      simp [hi, hip]
  | call_func fid argc t ht =>
      have h1 := fetch_at chunk vm pre (fid :: argc :: t) _ hc hip
      have h2 := fetch_at chunk { vm with ip := vm.ip + 1 }
        (pre ++ [OpCode.BC_CALL_FUNC.toByte]) (argc :: t) fid (by simpa using hc)
        (by simp [hip])
      have h3 := fetch_at chunk { vm with ip := vm.ip + 1 + 1 }
        (pre ++ [OpCode.BC_CALL_FUNC.toByte, fid]) t argc (by simpa using hc)
        (by simp [hip])
      have hstep : vm_step chunk ctx symbol vm =
          call_case { vm with ip := vm.ip + 1 + 1 + 1 } fid argc := by
        simp only [vm_step, h1, h2, h3, OpCode.ofByte, OpCode.toByte]
        simp
      rw [hstep]
      refine ⟨fun vm1 h => ?_, fun op => call_case_known op⟩
      have hi := call_case_ip h
      simp only at hi
      refine ⟨⟨pre ++ [OpCode.BC_CALL_FUNC.toByte, fid, argc], t, by simpa using hc, ht, ?_⟩,
        by omega⟩
      simp [hi, hip]
  | operator b t h4 h17 ht =>
      have h1 := fetch_at chunk vm pre t b hc hip
      have key : ∀ r : Except Stop VM, vm_step chunk ctx symbol vm = r →
          ((∃ f, r = binary_case { vm with ip := vm.ip + 1 } f) ∨
            ∃ f, r = unary_case { vm with ip := vm.ip + 1 } f) →
          (∀ vm1, r = .ok vm1 → Boundary chunk vm1.ip ∧ vm.ip < vm1.ip) ∧
            ∀ op, r ≠ .error (.unknown_opcode op) := by
        intro r _ hr
        rcases hr with ⟨f, rfl⟩ | ⟨f, rfl⟩
        · refine ⟨fun vm1 h => ?_, fun op => binary_case_known op⟩
          have hi := binary_case_ip h
          simp only at hi
          exact ⟨⟨pre ++ [b], t, by simpa using hc, ht, by simp [hi, hip]⟩, by omega⟩
        · refine ⟨fun vm1 h => ?_, fun op => unary_case_known op⟩
          have hi := unary_case_ip h
          simp only at hi
          exact ⟨⟨pre ++ [b], t, by simpa using hc, ht, by simp [hi, hip]⟩, by omega⟩
      apply key _ rfl
      interval_cases b <;> simp only [vm_step, h1, OpCode.ofByte] <;>
        first
          | exact Or.inl ⟨_, rfl⟩
          | exact Or.inr ⟨_, rfl⟩
  | jump_if_false t1 t hl ht1 ht =>
      have h1 := fetch_at chunk vm pre (int32_bytes (CInt.wrap 5) ++ t1 ++ t) _
        (by simpa using hc) hip
      have h2 := fetch_int32_at chunk { vm with ip := vm.ip + 1 }
        (pre ++ [OpCode.BC_JUMP_IF_FALSE.toByte]) (t1 ++ t) (CInt.wrap 5)
        (by simpa using hc) (by simp [hip])
      have hlen : (int32_bytes (CInt.wrap 5)).length = 4 := rfl
      cases hp : pop { vm with ip := vm.ip + 1 + 4 } with
      | error s =>
          have hstep : vm_step chunk ctx symbol vm = .error s := by
            simp only [vm_step, h1, h2, OpCode.ofByte, OpCode.toByte]
            simp [hp]
          rw [hstep]
          refine ⟨fun vm1 h => by simp at h, fun op h => ?_⟩
          simp only [Except.error.injEq] at h
          exact pop_known op (hp.trans (congrArg Except.error h))
      | ok p =>
          obtain ⟨cond, vm2⟩ := p
          have hi := pop_ip hp
          simp only at hi
          have hstep : vm_step chunk ctx symbol vm =
              if Double.truthy cond then .ok vm2 else jump vm2 (CInt.wrap 5) := by
            simp only [vm_step, h1, h2, OpCode.ofByte, OpCode.toByte]
            simp [hp]
          rw [hstep]
          split_ifs with htr
          · refine ⟨fun vm1 h => ?_, fun op h => by simp at h⟩
            simp only [Except.ok.injEq] at h
            subst h
            refine ⟨⟨pre ++ OpCode.BC_JUMP_IF_FALSE.toByte :: int32_bytes (CInt.wrap 5),
              t1 ++ t, by simpa using hc, ht1, ?_⟩, by omega⟩
            rw [hi, hip]
            simp [hlen]
          · have h5 : (CInt.wrap 5).toInt = 5 := by decide
            simp only [jump, h5]
            have hnn : (0 : Int) ≤ (vm2.ip : Int) + 5 := by omega
            simp only [hnn, if_true]
            refine ⟨fun vm1 h => ?_, fun op h => by simp at h⟩
            simp only [Except.ok.injEq] at h
            subst h
            have e : ((vm2.ip : Int) + 5).toNat = vm2.ip + 5 := by omega
            refine ⟨⟨pre ++ OpCode.BC_JUMP_IF_FALSE.toByte :: int32_bytes (CInt.wrap 5) ++ t1,
              t, by simpa using hc, ht, ?_⟩, ?_⟩
            · show ((vm2.ip : Int) + 5).toNat = _
              rw [e, hi, hip]
              simp [hlen, hl]
            · show vm.ip < ((vm2.ip : Int) + 5).toNat
              rw [e]
              omega
  | trade a qs t ha hl ht =>
      have h1 := fetch_at chunk vm pre (qs ++ t) a (by simpa using hc) hip
      have h2 := fetch_int32_bytes chunk { vm with ip := vm.ip + 1 }
        (pre ++ [a]) qs t (by simpa using hc) hl (by simp [hip])
      have key : ∀ kind, vm_step chunk ctx symbol vm = trade_case chunk symbol kind
            { vm with ip := vm.ip + 1 } →
          (∀ vm1, vm_step chunk ctx symbol vm = .ok vm1 → Boundary chunk vm1.ip ∧
            vm.ip < vm1.ip) ∧
            ∀ op, vm_step chunk ctx symbol vm ≠ .error (.unknown_opcode op) := by
        intro kind hk
        rw [hk]
        simp only [trade_case, h2]
        refine ⟨fun vm1 h => ?_, fun op h => by simp at h⟩
        simp only [Except.ok.injEq] at h
        subst h
        refine ⟨⟨pre ++ a :: qs, t, by simpa using hc, ht, ?_⟩, by simp only; omega⟩
        simp [hip, hl]
      rcases ha with rfl | rfl
      · exact key .STMT_BUY (by simp only [vm_step, h1, OpCode.ofByte]; rfl)
      · exact key .STMT_SELL (by simp only [vm_step, h1, OpCode.ofByte]; rfl)

theorem code_tail_binary_op (op : OpKind) (t : List Nat) (ht : CodeTail t) :
    CodeTail (binary_op_code op ++ t) := by
  cases op <;>
    first
      | exact ht
      | exact CodeTail.operator _ t (by decide) (by decide) ht

theorem code_tail_unary_op (op : OpKind) (t : List Nat) (ht : CodeTail t) :
    CodeTail (unary_op_code op ++ t) := by
  cases op <;>
    first
      | exact ht
      | exact CodeTail.operator _ t (by decide) (by decide) ht

mutual
theorem code_tail_expr : ∀ (e : Expr) (t : List Nat), CodeTail t → CodeTail (expr_code e ++ t)
  | .number value, t, ht => by
      simp only [expr_code, List.cons_append]
      exact CodeTail.push_const (double_bytes value) t rfl ht
  | .ident name, t, ht => by
      simp only [expr_code]
      cases is_builtin_var name with
      | none => exact ht
      | some id => exact CodeTail.load_var _ t ht
  | .string _, t, ht => by
      simp only [expr_code]
      exact ht
  | .call func_name args, t, ht => by
      simp only [expr_code]
      cases is_builtin_func func_name with
      | none => exact ht
      | some f =>
          simp only [List.append_assoc]
          exact code_tail_args args _ (CodeTail.call_func _ _ t ht)
  | .binary op left right, t, ht => by
      simp only [expr_code, List.append_assoc]
      exact code_tail_expr left _ (code_tail_expr right _ (code_tail_binary_op op t ht))
  | .unary op left, t, ht => by
      simp only [expr_code, List.append_assoc]
      exact code_tail_expr left _ (code_tail_unary_op op t ht)
theorem code_tail_args : ∀ (es : List Expr) (t : List Nat), CodeTail t →
    CodeTail (args_code es ++ t)
  | [], t, ht => by
      simp only [args_code]
      exact ht
  | e :: es, t, ht => by
      simp only [args_code, List.append_assoc]
      exact code_tail_expr e _ (code_tail_args es t ht)
end

theorem code_tail_rule (r : Rule) (t : List Nat) (ht : CodeTail t) :
    CodeTail (rule_code r ++ t) := by
  simp only [rule_code, List.append_assoc]
  apply code_tail_expr
  have h1 : CodeTail ((action_opcode r.action.kind).toByte :: int32_bytes r.action.quantity
      ++ t) := by
    refine CodeTail.trade _ _ t ?_ rfl ht
    cases r.action.kind
    · exact Or.inl rfl
    · exact Or.inr rfl
  exact CodeTail.jump_if_false
    ((action_opcode r.action.kind).toByte :: int32_bytes r.action.quantity) t rfl h1 ht

theorem code_tail_rules : ∀ (rs : List Rule) (t : List Nat), CodeTail t →
    CodeTail (rules_code rs ++ t)
  | [], t, ht => by
      simp only [rules_code]
      exact ht
  | r :: rs, t, ht => by
      simp only [rules_code, List.append_assoc]
      exact code_tail_rule r _ (code_tail_rules rs t ht)

theorem compiled_boundary (program : Program) (chunk : Chunk)
    (h : compile_program program = .ok chunk) : Boundary chunk 0 :=
  ⟨[], rules_code program.rules ++ [OpCode.BC_HALT.toByte],
    by simpa using compile_program_code program chunk h,
    code_tail_rules program.rules _ CodeTail.halt, rfl⟩

theorem boundary_steps (chunk : Chunk) (ctx : VMContext) (symbol : String) :
    ∀ (n : Nat) (vm vm1 : VM), Boundary chunk vm.ip →
      vm_steps chunk ctx symbol n vm = .ok vm1 → Boundary chunk vm1.ip
  | 0, vm, vm1, hb, h => by
      simp only [vm_steps, Except.ok.injEq] at h
      subst h
      exact hb
  | n + 1, vm, vm1, hb, h => by
      simp only [vm_steps] at h
      cases hs : vm_step chunk ctx symbol vm with
      | error s => simp [hs] at h
      | ok vm2 =>
          simp only [hs] at h
          exact boundary_steps chunk ctx symbol n vm2 vm1
            ((code_tail_step chunk ctx symbol vm hb).1 vm2 hs).1 h

theorem boundary_terminates (chunk : Chunk) (ctx : VMContext) (symbol : String) :
    ∀ (m : Nat) (vm : VM), Boundary chunk vm.ip → chunk.code.length - vm.ip ≤ m →
      ∃ r, vm_loop chunk ctx symbol m vm = some r ∧ ∀ op, r.1 ≠ .unknown_opcode op
  | 0, vm, hb, hm => by
      have := hb.lt
      omega
  | m + 1, vm, hb, hm => by
      have hstep := code_tail_step chunk ctx symbol vm hb
      simp only [vm_loop]
      cases hs : vm_step chunk ctx symbol vm with
      | error s =>
          refine ⟨(s, vm.out), rfl, fun op h => ?_⟩
          simp only at h
          exact hstep.2 op (by rw [hs, h])
      | ok vm2 =>
          have h2 := hstep.1 vm2 hs
          have := hb.lt
          exact boundary_terminates chunk ctx symbol m vm2 h2.1 (by omega)

theorem boundary_jump_offset (chunk : Chunk) (vm vm0 : VM) (b : Nat)
    (hb : Boundary chunk vm.ip) (hf : fetch chunk vm = .ok (b, vm0))
    (hj : b = OpCode.BC_JUMP_IF_FALSE.toByte ∨ b = OpCode.BC_JUMP.toByte) :
    ∃ vm1, fetch_int32 chunk vm0 = .ok (CInt.wrap 5, vm1) := by
  obtain ⟨pre, t, hc, ht, hip⟩ := hb
  have hne : ∀ (c : Nat) (t2 : List Nat), t = c :: t2 → b = c := by
    intro c t2 e
    have h1 := fetch_at chunk vm pre t2 c (by rw [hc, e]) hip
    rw [h1] at hf
    simp only [Except.ok.injEq, Prod.mk.injEq] at hf
    exact hf.1.symm
  cases ht with
  | halt =>
      have hbc := hne _ _ rfl
      simp only [OpCode.toByte] at hj
      try simp only [OpCode.toByte] at hbc
      omega
  | push_const bs t hl ht =>
      have hbc := hne _ _ rfl
      simp only [OpCode.toByte] at hj
      try simp only [OpCode.toByte] at hbc
      omega
  | load_var id t ht =>
      have hbc := hne _ _ rfl
      simp only [OpCode.toByte] at hj
      try simp only [OpCode.toByte] at hbc
      omega
  | call_func fid argc t ht =>
      have hbc := hne _ _ rfl
      simp only [OpCode.toByte] at hj
      try simp only [OpCode.toByte] at hbc
      omega
  | operator c t h4 h17 ht =>
      have hbc := hne _ _ rfl
      simp only [OpCode.toByte] at hj
      try simp only [OpCode.toByte] at hbc
      omega
  | trade a qs t ha hl ht =>
      have hbc := hne _ _ rfl
      simp only [OpCode.toByte] at hj
      try simp only [OpCode.toByte] at hbc
      omega
  | jump_if_false t1 t hl ht1 ht =>
      have h1 := fetch_at chunk vm pre (int32_bytes (CInt.wrap 5) ++ t1 ++ t) _
        (by simpa using hc) hip
      rw [h1] at hf
      simp only [Except.ok.injEq, Prod.mk.injEq] at hf
      rw [← hf.2]
      exact ⟨_, fetch_int32_at chunk { vm with ip := vm.ip + 1 }
        (pre ++ [OpCode.BC_JUMP_IF_FALSE.toByte]) (t1 ++ t) (CInt.wrap 5)
        (by simpa using hc) (by simp [hip])⟩

theorem compiled_run_stops (program : Program) (chunk : Chunk)
    (h : compile_program program = .ok chunk) (ctx : VMContext) (symbol : String) :
    ∃ r, run_chunk chunk.count chunk ctx symbol = some r ∧ ∀ op, r.1 ≠ .unknown_opcode op := by
  have hb := compiled_boundary program chunk h
  exact boundary_terminates chunk ctx symbol chunk.count { stack := [], ip := 0, out := [] }
    hb (by simp [Chunk.count])

/-- C13 as stated ("stops at Halt or at a fatal error") fails on `deep_program`: the
    program compiles, and its run stops within `count` iterations on a push onto the full
    evaluation stack, which is neither `Halt` nor a fatal error of the machine: C leaves
    the effect of that store undefined. -/
theorem deep_program_stops_at_undefined_push :
    ∃ chunk, compile_program deep_program = .ok chunk ∧
      run_chunk chunk.count chunk example_context deep_program.symbol =
        some (.undefined "push onto a full stack", []) := by
  have hw : ∀ r ∈ deep_program.rules, well_formed r.condition = true := by
    intro r hr
    simp only [deep_program, List.mem_singleton] at hr
    subst hr
    exact deep_sum_well_formed 256
  have hd := compile_program_diag deep_program
  rw [rules_no_diag deep_program.rules hw] at hd
  obtain ⟨chunk, hchunk⟩ := hd
  refine ⟨chunk, hchunk, ?_⟩
  have hcode := compile_program_code deep_program chunk hchunk
  have hov := overflow_expr chunk example_context deep_program.symbol (deep_sum 256)
    (deep_sum_well_formed 256) []
    (OpCode.BC_JUMP_IF_FALSE.toByte :: int32_bytes (CInt.wrap 5) ++
      (action_opcode .STMT_BUY).toByte :: int32_bytes (CInt.wrap 1) ++
      [OpCode.BC_HALT.toByte]) [] []
    (by simpa [deep_program, rules_code, rule_code] using hcode)
    (by simp [STACK_MAX]) (by simp [deep_sum_stack_need, STACK_MAX])
  obtain ⟨n, hn⟩ := hov
  obtain ⟨r, hr, _⟩ := compiled_run_stops deep_program chunk hchunk example_context
    deep_program.symbol
  have h2 := hn 0
  have := vm_loop_deterministic chunk example_context deep_program.symbol _ _ _ _ _ hr h2
  rw [hr, this]

theorem scan_while_append (p : Char → Bool) : ∀ (l : List Char),
    (scan_while p l).1 ++ (scan_while p l).2 = l
  | [] => by simp [scan_while]
  | c :: rest => by
      simp only [scan_while]
      split_ifs
      · simp [scan_while_append p rest]
      · simp

theorem scan_while_all (p : Char → Bool) : ∀ (l : List Char),
    ∀ c ∈ (scan_while p l).1, p c = true ∧ c ≠ Char.ofNat 0
  | [], c, h => by simp [scan_while] at h
  | d :: rest, c, h => by
      simp only [scan_while] at h
      split_ifs at h with hd
      · simp only [List.mem_cons] at h
        rcases h with rfl | h
        · simpa using hd
        · exact scan_while_all p rest c h
      · simp at h

theorem scan_while_stop (p : Char → Bool) : ∀ (l : List Char),
    (scan_while p l).2 = [] ∨ ∃ c t, (scan_while p l).2 = c :: t ∧
      ¬ (p c = true ∧ c ≠ Char.ofNat 0)
  | [] => by simp [scan_while]
  | d :: rest => by
      simp only [scan_while]
      split_ifs with hd
      · exact scan_while_stop p rest
      · exact Or.inr ⟨d, rest, rfl, by simpa using hd⟩

theorem scan_while_eq (p : Char → Bool) : ∀ (xs ys : List Char),
    (∀ c ∈ xs, p c = true ∧ c ≠ Char.ofNat 0) →
    (ys = [] ∨ ∃ c t, ys = c :: t ∧ ¬ (p c = true ∧ c ≠ Char.ofNat 0)) →
    scan_while p (xs ++ ys) = (xs, ys)
  | [], ys, _, hy => by
      rcases hy with rfl | ⟨c, t, rfl, hc⟩
      · simp [scan_while]
      · simp only [List.nil_append, scan_while]
        rw [if_neg (by simpa using hc)]
  | x :: xs, ys, hx, hy => by
      have h1 := hx x (List.mem_cons_self _ _)
      have h2 := scan_while_eq p xs ys (fun c hc => hx c (List.mem_cons_of_mem _ hc)) hy
      rw [List.cons_append, scan_while, if_pos (by simpa using h1), h2]

theorem is_digit_ne_nul {c : Char} (h : is_digit c = true) : c ≠ Char.ofNat 0 := by
  rintro rfl
  exact absurd h (by decide)

theorem is_alpha_ne_nul {c : Char} (h : is_alpha c = true) : c ≠ Char.ofNat 0 := by
  rintro rfl
  exact absurd h (by decide)

theorem identifier_type_ne_number (text : String) :
    identifier_type text ≠ .TOK_NUMBER := by
  unfold identifier_type
  split_ifs <;> simp

theorem string_token_ne_number (l : List Char) : (string_token l).1.type ≠ .TOK_NUMBER := by
  unfold string_token
  simp only
  split_ifs <;> simp [error_token, make_token]

/-- The lexeme and value of the token `number_token` returns, from a first digit. -/
theorem number_token_form (c : Char) (rest : List Char) (hc : is_digit c = true) :
    ∃ ip fp : List Char, ip ≠ [] ∧ (∀ d ∈ ip, is_digit d = true) ∧
      (∀ d ∈ fp, is_digit d = true) ∧
      (((number_token (c :: rest)).1.lexeme = String.mk ip ∧ fp = []) ∨
        (number_token (c :: rest)).1.lexeme = String.mk (ip ++ '.' :: fp)) ∧
      (number_token (c :: rest)).1.number =
        Double.ofSignMag false (decimal_value (ip ++ fp)) (10 ^ fp.length) := by
  have hall := scan_while_all is_digit (c :: rest)
  have hne : (scan_while is_digit (c :: rest)).1 ≠ [] := by
    simp only [scan_while]
    rw [if_pos (by simpa using ⟨hc, is_digit_ne_nul hc⟩)]
    simp
  have hnul : cur_char ([] : List Char) ≠ '.' := by decide
  by_cases hdot : cur_char (scan_while is_digit (c :: rest)).2 = '.'
  · have hall2 := scan_while_all is_digit (scan_while is_digit (c :: rest)).2.tail
    refine ⟨(scan_while is_digit (c :: rest)).1,
      (scan_while is_digit (scan_while is_digit (c :: rest)).2.tail).1, hne,
      fun d hd => (hall d hd).1, fun d hd => (hall2 d hd).1, Or.inr ?_, ?_⟩
    · simp only [number_token, hdot, if_true]
    · simp only [number_token, hdot, if_true, atof]
      have e1 := scan_while_eq is_digit (scan_while is_digit (c :: rest)).1
        ('.' :: (scan_while is_digit (scan_while is_digit (c :: rest)).2.tail).1) hall
        (Or.inr ⟨'.', _, rfl, by decide⟩)
      have e2 := scan_while_eq is_digit
        (scan_while is_digit (scan_while is_digit (c :: rest)).2.tail).1 [] hall2 (Or.inl rfl)
      rw [List.append_nil] at e2
      rw [e1]
      simp only [cur_char, List.headD_cons, List.tail_cons, if_true, e2]
  · refine ⟨(scan_while is_digit (c :: rest)).1, [], hne, fun d hd => (hall d hd).1,
      fun d hd => by simp at hd, Or.inl ⟨?_, rfl⟩, ?_⟩
    · simp only [number_token, hdot, if_false]
    · simp only [number_token, hdot, if_false, atof]
      have e1 := scan_while_eq is_digit (scan_while is_digit (c :: rest)).1 [] hall
        (Or.inl rfl)
      rw [List.append_nil] at e1
      rw [e1]
      simp only [hnul, if_false]

theorem next_token_cons (source : List Char) (c : Char) (rest : List Char)
    (hs : skip_whitespace source = c :: rest) :
    next_token source =
      if c = Char.ofNat 0 then (make_token .TOK_EOF [], c :: rest)
      else if c = '+' then (make_token .TOK_PLUS [c], rest)
      else if c = '-' then (make_token .TOK_MINUS [c], rest)
      else if c = '*' then (make_token .TOK_STAR [c], rest)
      else if c = '/' then (make_token .TOK_SLASH [c], rest)
      else if c = '(' then (make_token .TOK_LPAREN [c], rest)
      else if c = ')' then (make_token .TOK_RPAREN [c], rest)
      else if c = ',' then (make_token .TOK_COMMA [c], rest)
      else if c = '>' then
        (if cur_char rest = '=' then (make_token .TOK_GE [c, '='], rest.tail)
         else (make_token .TOK_GT [c], rest))
      else if c = '<' then
        (if cur_char rest = '=' then (make_token .TOK_LE [c, '='], rest.tail)
         else (make_token .TOK_LT [c], rest))
      else if c = '=' ∧ cur_char rest = '=' then (make_token .TOK_EQ [c, '='], rest.tail)
      else if c = '!' ∧ cur_char rest = '=' then (make_token .TOK_NE [c, '='], rest.tail)
      else if c = '"' then string_token rest
      else if is_digit c then number_token (c :: rest)
      else if is_alpha c then identifier_token (c :: rest)
      else (error_token "Unexpected character", rest) := by
  simp only [next_token, hs]

theorem next_token_number_branch (source : List Char)
    (h : (next_token source).1.type = .TOK_NUMBER) :
    ∃ c rest, is_digit c = true ∧ next_token source = number_token (c :: rest) := by
  cases hs : skip_whitespace source with
  | nil => simp [next_token, hs, make_token] at h
  | cons c rest =>
      rw [next_token_cons source c rest hs] at h ⊢
      by_cases h0 : c = Char.ofNat 0
      · rw [if_pos h0] at h
        simp [make_token] at h
      rw [if_neg h0] at h ⊢
      by_cases h1 : c = '+'
      · rw [if_pos h1] at h
        simp [make_token] at h
      rw [if_neg h1] at h ⊢
      by_cases h2 : c = '-'
      · rw [if_pos h2] at h
        simp [make_token] at h
      rw [if_neg h2] at h ⊢
      by_cases h3 : c = '*'
      · rw [if_pos h3] at h
        simp [make_token] at h
      rw [if_neg h3] at h ⊢
      by_cases h4 : c = '/'
      · rw [if_pos h4] at h
        simp [make_token] at h
      rw [if_neg h4] at h ⊢
      by_cases h5 : c = '('
      · rw [if_pos h5] at h
        simp [make_token] at h
      rw [if_neg h5] at h ⊢
      by_cases h6 : c = ')'
      · rw [if_pos h6] at h
        simp [make_token] at h
      rw [if_neg h6] at h ⊢
      by_cases h7 : c = ','
      · rw [if_pos h7] at h
        simp [make_token] at h
      rw [if_neg h7] at h ⊢
      by_cases h8 : c = '>'
      · rw [if_pos h8] at h
        split_ifs at h <;> simp [make_token] at h
      rw [if_neg h8] at h ⊢
      by_cases h9 : c = '<'
      · rw [if_pos h9] at h
        split_ifs at h <;> simp [make_token] at h
      rw [if_neg h9] at h ⊢
      by_cases h10 : c = '=' ∧ cur_char rest = '='
      · rw [if_pos h10] at h
        simp [make_token] at h
      rw [if_neg h10] at h ⊢
      by_cases h11 : c = '!' ∧ cur_char rest = '='
      · rw [if_pos h11] at h
        simp [make_token] at h
      rw [if_neg h11] at h ⊢
      by_cases h12 : c = '"'
      · rw [if_pos h12] at h
        exact absurd h (string_token_ne_number _)
      rw [if_neg h12] at h ⊢
      by_cases h13 : is_digit c = true
      · rw [if_pos h13]
        exact ⟨c, rest, h13, rfl⟩
      rw [if_neg h13] at h
      by_cases h14 : is_alpha c = true
      · rw [if_pos h14] at h
        exact absurd h (identifier_type_ne_number _)
      rw [if_neg h14] at h
      simp [error_token] at h

/-- C14 (amended): for every source, every number token `next_token` returns has a lexeme
    of the form `digit+ ('.' digit*)?`: a non-empty run of digits, optionally followed by
    a point and a possibly empty run of digits, with no sign; and its numeric value is the
    double nearest to the decimal value of that lexeme. -/
theorem number_token_lexeme_and_value (source : List Char)
    (h : (next_token source).1.type = .TOK_NUMBER) :
    ∃ ip fp : List Char, ip ≠ [] ∧ (∀ d ∈ ip, is_digit d = true) ∧
      (∀ d ∈ fp, is_digit d = true) ∧
      (((next_token source).1.lexeme = String.mk ip ∧ fp = []) ∨
        (next_token source).1.lexeme = String.mk (ip ++ '.' :: fp)) ∧
      (next_token source).1.number =
        Double.ofSignMag false (decimal_value (ip ++ fp)) (10 ^ fp.length) := by
  obtain ⟨c, rest, hc, he⟩ := next_token_number_branch source h
  rw [he]
  exact number_token_form c rest hc

/-- The source `12.5 then` starts with a number token. -/
theorem number_token_lexeme_and_value_witness :
    (next_token "12.5 then".toList).1.type = .TOK_NUMBER ∧
    ∃ ip fp : List Char, ip ≠ [] ∧ (∀ d ∈ ip, is_digit d = true) ∧
      (∀ d ∈ fp, is_digit d = true) ∧
      (((next_token "12.5 then".toList).1.lexeme = String.mk ip ∧ fp = []) ∨
        (next_token "12.5 then".toList).1.lexeme = String.mk (ip ++ '.' :: fp)) ∧
      (next_token "12.5 then".toList).1.number =
        Double.ofSignMag false (decimal_value (ip ++ fp)) (10 ^ fp.length) :=
  ⟨by decide, number_token_lexeme_and_value "12.5 then".toList (by decide)⟩

/-- C14 as stated fails on the source `1. then`: the scanner returns a number token whose
    lexeme is `1.`, a point followed by no digit, which is not of the form
    `digit+ ('.' digit+)?`; its value is 1. -/
theorem number_lexeme_may_end_with_point :
    (next_token "1. then".toList).1.type = .TOK_NUMBER ∧
    (next_token "1. then".toList).1.lexeme = "1." ∧
    spec_number_form "1.".toList = false ∧
    (next_token "1. then".toList).1.number = Double.ofInt 1 ∧
    (next_token "1. then".toList).2 = " then".toList := by
  refine ⟨by decide, by decide, by decide, ?_, by decide⟩
  rfl

theorem next_token_plain (source : List Char) (c : Char) (rest : List Char)
    (hs : skip_whitespace source = c :: rest)
    (hn : ∀ d ∈ [Char.ofNat 0, '+', '-', '*', '/', '(', ')', ',', '>', '<', '"'], c ≠ d)
    (he : ¬ (c = '=' ∧ cur_char rest = '=')) (hb : ¬ (c = '!' ∧ cur_char rest = '=')) :
    next_token source =
      if is_digit c then number_token (c :: rest)
      else if is_alpha c then identifier_token (c :: rest)
      else (error_token "Unexpected character", rest) := by
  rw [next_token_cons source c rest hs]
  rw [if_neg (hn _ (by simp)), if_neg (hn _ (by simp)), if_neg (hn _ (by simp)),
    if_neg (hn _ (by simp)), if_neg (hn _ (by simp)), if_neg (hn _ (by simp)),
    if_neg (hn _ (by simp)), if_neg (hn _ (by simp)), if_neg (hn _ (by simp)),
    if_neg (hn _ (by simp)), if_neg he, if_neg hb, if_neg (hn _ (by simp))]

theorem next_token_alpha (source : List Char) (c : Char) (rest : List Char)
    (hs : skip_whitespace source = c :: rest) (hc : is_alpha c = true) :
    next_token source = identifier_token (c :: rest) := by
  have hne : ∀ d : Char, is_alpha d = false → c ≠ d := by
    rintro d hd rfl
    rw [hc] at hd
    exact absurd hd (by decide)
  have hd : ¬ is_digit c = true := by
    intro h
    have : ∀ d : Char, is_digit d = true → is_alpha d = false := by
      intro d h1
      simp only [is_digit, is_alpha, Bool.and_eq_true, decide_eq_true_eq] at h1 ⊢
      have h2 : '0'.val ≤ d.val := h1.1
      have h3 : d.val ≤ '9'.val := h1.2
      simp only [Bool.or_eq_false_iff, Bool.and_eq_false_iff, decide_eq_false_iff_not,
        beq_eq_false_iff_ne]
      have e0 : '0'.val = 48 := rfl
      have e9 : '9'.val = 57 := rfl
      have ea : 'a'.val = 97 := rfl
      have eA : 'A'.val = 65 := rfl
      rw [e0] at h2
      rw [e9] at h3
      refine ⟨⟨Or.inl ?_, Or.inl ?_⟩, ?_⟩
      · intro h4
        have h5 : 'a'.val ≤ d.val := h4
        rw [ea] at h5
        have := UInt32.le_trans h5 h3
        exact absurd this (by decide)
      · intro h4
        have h5 : 'A'.val ≤ d.val := h4
        rw [eA] at h5
        have := UInt32.le_trans h5 h3
        exact absurd this (by decide)
      · rintro rfl
        exact absurd h3 (by decide)
    have h1 := this c h
    rw [hc] at h1
    exact absurd h1 (by decide)
  rw [next_token_plain source c rest hs
    (by
      intro d hd
      simp only [List.mem_cons, List.mem_singleton, List.not_mem_nil, or_false] at hd
      rcases hd with rfl | rfl | rfl | rfl | rfl | rfl | rfl | rfl | rfl | rfl | rfl <;>
        exact hne _ (by decide))
    (fun h => hne _ (by decide) h.1) (fun h => hne _ (by decide) h.1)]
  rw [if_neg hd, if_pos hc]

theorem identifier_type_ident (text : String) (hn : text ∉ reserved_words) :
    identifier_type text = .TOK_IDENT := by
  have hw : ∀ w ∈ reserved_words, text ≠ w := by
    rintro w hw rfl
    exact hn hw
  unfold identifier_type
  rw [if_neg (hw _ (by decide)), if_neg (hw _ (by decide)), if_neg (hw _ (by decide)),
    if_neg (hw _ (by decide)), if_neg (hw _ (by decide)), if_neg (hw _ (by decide)),
    if_neg (hw _ (by decide)), if_neg (hw _ (by decide)), if_neg (hw _ (by decide))]

theorem identifier_type_reserved (w : String) (k : TokenType) (hm : (w, k) ∈ reserved_table) :
    identifier_type w = k ∧ k ≠ .TOK_IDENT ∧ w ∈ reserved_words ∧
      ∀ w2 k2, (w2, k2) ∈ reserved_table → k2 = k → w2 = w := by
  simp only [reserved_table, List.mem_cons, Prod.mk.injEq, List.mem_singleton,
    List.not_mem_nil, or_false] at hm
  rcases hm with h | h | h | h | h | h | h | h | h <;> obtain ⟨hw, hk⟩ := h <;> subst hw hk <;>
  · refine ⟨by decide, by decide, by decide, ?_⟩
    intro w2 k2 h2 hk
    simp only [reserved_table, List.mem_cons, Prod.mk.injEq, List.mem_singleton,
      List.not_mem_nil, or_false] at h2
    rcases h2 with h | h | h | h | h | h | h | h | h <;> obtain ⟨hw2, hk2⟩ := h <;>
      subst hw2 hk2 <;> first | rfl | exact TokenType.noConfusion hk

theorem reserved_words_table (text : String) (h : text ∈ reserved_words) :
    ∃ k, (text, k) ∈ reserved_table := by
  simp only [reserved_words, List.mem_cons, List.mem_singleton, List.not_mem_nil,
    or_false] at h
  rcases h with rfl | rfl | rfl | rfl | rfl | rfl | rfl | rfl | rfl
  · exact ⟨.TOK_SYMBOL, by decide⟩
  · exact ⟨.TOK_IF, by decide⟩
  · exact ⟨.TOK_THEN, by decide⟩
  · exact ⟨.TOK_END, by decide⟩
  · exact ⟨.TOK_BUY, by decide⟩
  · exact ⟨.TOK_SELL, by decide⟩
  · exact ⟨.TOK_AND, by decide⟩
  · exact ⟨.TOK_OR, by decide⟩
  · exact ⟨.TOK_NOT, by decide⟩

theorem identifier_type_table (text : String) :
    (∀ w k, (w, k) ∈ reserved_table → (identifier_type text = k ↔ text = w)) ∧
    (identifier_type text = .TOK_IDENT ↔ text ∉ reserved_words) := by
  refine ⟨fun w k hm => ⟨fun h => ?_, fun h => ?_⟩, fun h hm => ?_, fun hn => ?_⟩
  · have hk := identifier_type_reserved w k hm
    by_cases hr : text ∈ reserved_words
    · obtain ⟨k2, h2⟩ := reserved_words_table text hr
      have h3 := identifier_type_reserved text k2 h2
      exact hk.2.2.2 text k2 h2 (h3.1.symm.trans h)
    · exact absurd ((identifier_type_ident text hr).symm.trans h).symm hk.2.1
  · subst h
    exact (identifier_type_reserved text k hm).1
  · obtain ⟨k2, h2⟩ := reserved_words_table text hm
    have h3 := identifier_type_reserved text k2 h2
    exact h3.2.1 (h3.1.symm.trans h)
  · exact identifier_type_ident text hn

/-- C17: when the next non-whitespace byte is a letter or underscore, `next_token` returns
    the maximal run of letters, digits and underscores from there as the lexeme; the token
    has a reserved-word kind if and only if the whole lexeme equals that reserved word
    exactly, and is an identifier if and only if the lexeme is none of the nine words. -/
theorem reserved_word_needs_exact_match (source : List Char) (c : Char) (rest : List Char)
    (hs : skip_whitespace source = c :: rest) (hc : is_alpha c = true) :
    (next_token source).1.lexeme =
      String.mk (scan_while (fun d => is_alpha d || is_digit d) (c :: rest)).1 ∧
    (next_token source).2 = (scan_while (fun d => is_alpha d || is_digit d) (c :: rest)).2 ∧
    (scan_while (fun d => is_alpha d || is_digit d) (c :: rest)).1 ++
      (scan_while (fun d => is_alpha d || is_digit d) (c :: rest)).2 = c :: rest ∧
    (∃ t, (scan_while (fun d => is_alpha d || is_digit d) (c :: rest)).1 = c :: t) ∧
    (∀ d ∈ (scan_while (fun d => is_alpha d || is_digit d) (c :: rest)).1,
      (is_alpha d || is_digit d) = true) ∧
    ((scan_while (fun d => is_alpha d || is_digit d) (c :: rest)).2 = [] ∨
      ∃ d t, (scan_while (fun d => is_alpha d || is_digit d) (c :: rest)).2 = d :: t ∧
        (is_alpha d || is_digit d) = false) ∧
    (∀ w k, (w, k) ∈ reserved_table →
      ((next_token source).1.type = k ↔ (next_token source).1.lexeme = w)) ∧
    ((next_token source).1.type = .TOK_IDENT ↔
      (next_token source).1.lexeme ∉ reserved_words) := by
  rw [next_token_alpha source c rest hs hc]
  have hnul : ∀ d : Char, (is_alpha d || is_digit d) = true → d ≠ Char.ofNat 0 := by
    rintro d hd rfl
    exact absurd hd (by decide)
  refine ⟨rfl, rfl, scan_while_append _ _, ?_,
    fun d hd => (scan_while_all _ _ d hd).1, ?_, ?_, ?_⟩
  · simp only [scan_while]
    rw [if_pos (by simpa using ⟨Or.inl hc, is_alpha_ne_nul hc⟩)]
    exact ⟨_, rfl⟩
  · rcases scan_while_stop (fun d => is_alpha d || is_digit d) (c :: rest) with h | ⟨d, t, h, hd⟩
    · exact Or.inl h
    · refine Or.inr ⟨d, t, h, ?_⟩
      by_contra hne
      have hp : (is_alpha d || is_digit d) = true := by
        cases hb : (is_alpha d || is_digit d)
        · exact absurd hb hne
        · rfl
      exact hd ⟨hp, hnul d hp⟩
  · exact (identifier_type_table _).1
  · exact (identifier_type_table _).2

/-- The lexemes `iff`, `end_` and `buy1` start with a reserved word and are identifiers;
    `end` followed by a space is the reserved word. -/
theorem reserved_word_needs_exact_match_witness :
    (next_token "iff x".toList).1.type = .TOK_IDENT ∧
    (next_token "end_".toList).1.type = .TOK_IDENT ∧
    (next_token " buy1 2".toList).1.type = .TOK_IDENT ∧
    (next_token "end if".toList).1.type = .TOK_END ∧
    (next_token "End if".toList).1.type = .TOK_IDENT :=
  ⟨(reserved_word_needs_exact_match "iff x".toList 'i' "ff x".toList (by decide)
      (by decide)).2.2.2.2.2.2.2.2 (by decide),
   (reserved_word_needs_exact_match "end_".toList 'e' "nd_".toList (by decide)
      (by decide)).2.2.2.2.2.2.2.2 (by decide),
   (reserved_word_needs_exact_match " buy1 2".toList 'b' "uy1 2".toList (by decide)
      (by decide)).2.2.2.2.2.2.2.2 (by decide),
   ((reserved_word_needs_exact_match "end if".toList 'e' "nd if".toList (by decide)
      (by decide)).2.2.2.2.2.2.1 "end" .TOK_END (by decide)).2 (by decide),
   (reserved_word_needs_exact_match "End if".toList 'E' "nd if".toList (by decide)
      (by decide)).2.2.2.2.2.2.2.2 (by decide)⟩

theorem rejected_of_error {source : List Char} {msg : String} {n : Nat}
    (h : parse_program n source = .error msg) : Rejected source msg := by
  refine ⟨⟨n, fun fuel hf => parse_program_ge h (by simp) hf⟩, fun fuel p st hok => ?_⟩
  have := parse_program_unique h (by simp) hok (by simp)
  simp at this

theorem parse_quantity_ok {s s3 : PState} {kind : StmtKind} {msg : String} {act : Stmt}
    (h : parse_quantity s kind msg = .ok act s3) :
    s.current_token.type = .TOK_NUMBER ∧ s3 = advance s ∧ act.kind = kind := by
  unfold parse_quantity at h
  split_ifs at h with hc
  cases hq : double_to_int s.current_token.number with
  | none => simp [hq] at h
  | some q =>
      simp only [hq, PResult.ok.injEq] at h
      exact ⟨by simpa using hc, h.2.symm, by rw [← h.1]⟩

theorem parse_action_ok {s s3 : PState} {act : Stmt} (h : parse_action s = .ok act s3) :
    (s.current_token.type = .TOK_BUY ∨ s.current_token.type = .TOK_SELL) ∧
    (advance s).current_token.type = .TOK_NUMBER ∧ s3 = advance (advance s) := by
  unfold parse_action at h
  split_ifs at h with h1 h2
  · have := parse_quantity_ok h
    exact ⟨Or.inl h1, this.1, this.2.1⟩
  · have := parse_quantity_ok h
    exact ⟨Or.inr h2, this.1, this.2.1⟩

theorem parse_action_clean {s s3 : PState} {act : Stmt} (h : parse_action s = .ok act s3) :
    CleanPath s s3 := by
  obtain ⟨h1, h2, rfl⟩ := parse_action_ok h
  refine CleanPath.trans (CleanPath.one s ?_) (CleanPath.one _ ?_)
  · rcases h1 with h1 | h1 <;> simp [h1]
  · simp [h2]

/-- What a successful run of the rule loop guarantees: the loop went through whole rules,
    stopped at a token other than `if`, passed over no error token, and added only
    conditions without negation. -/
theorem rule_loop_sound : ∀ (n : Nat) (rules rs : List Rule) (s s5 : PState),
    parse_rule_list_loop n rules s = .ok rs s5 →
    RuleLoopReaches s s5 ∧ s5.current_token.type ≠ .TOK_IF ∧ CleanPath s s5 ∧
      ((∀ r ∈ rules, no_negate r.condition = true) → ∀ r ∈ rs, no_negate r.condition = true)
  | 0, _, _, _, _, h => by simp [parse_rule_list_loop] at h
  | n + 1, rules, rs, s, s5, h => by
      simp only [parse_rule_list_loop] at h
      split_ifs at h with hif
      · obtain ⟨cond, s1, he, h⟩ := PResult.bind_ok h
        obtain ⟨u1, s2, hc1, h⟩ := PResult.bind_ok h
        obtain ⟨act, s3, ha, h⟩ := PResult.bind_ok h
        obtain ⟨u2, s4, hc2, h⟩ := PResult.bind_ok h
        obtain ⟨hr, hni, hcl, hnn⟩ := rule_loop_sound n _ rs s4 s5 h
        have hs := (parser_sound n).2.2.2.2.2.2.2.2.2.2.2.2 _ _ _ he
        refine ⟨RuleLoopReaches.next n s s1 s2 s3 s4 s5 cond act u1 u2 hif he hc1 ha hc2 hr,
          hni, ?_, fun hrules => hnn ?_⟩
        · refine CleanPath.trans (CleanPath.one s (by simp [hif])) ?_
          refine CleanPath.trans hs.1 ?_
          refine CleanPath.trans (consume_clean hc1 (by simp)) ?_
          refine CleanPath.trans (parse_action_clean ha) ?_
          exact CleanPath.trans (consume_clean hc2 (by simp)) hcl
        · intro r hr
          simp only [List.mem_append, List.mem_singleton] at hr
          rcases hr with hr | rfl
          · exact hrules r hr
          · exact hs.2
      · simp only [PResult.ok.injEq] at h
        obtain ⟨rfl, rfl⟩ := h
        exact ⟨RuleLoopReaches.start _, hif, CleanPath.refl _, fun hrules => hrules⟩

/-- What a successful `parse_program` guarantees. -/
theorem parse_program_sound {fuel : Nat} {source : List Char} {p : Program} {st : PState}
    (h : parse_program fuel source = .ok p st) :
    (start_parser_state source).current_token.type = .TOK_SYMBOL ∧
    (advance (start_parser_state source)).current_token.type = .TOK_STRING ∧
    RuleLoopReaches (rule_loop_entry source) st ∧ st.current_token.type = .TOK_EOF ∧
    CleanPath (start_parser_state source) st ∧
    (∀ r ∈ p.rules, no_negate r.condition = true) ∧
    p.symbol = (advance (start_parser_state source)).current_token.lexeme := by
  simp only [parse_program] at h
  obtain ⟨u, s1, hc, h⟩ := PResult.bind_ok h
  obtain ⟨hsym, rfl⟩ := consume_ok hc
  split_ifs at h with hstr
  obtain ⟨rules, s2, hl, h⟩ := PResult.bind_ok h
  split_ifs at h with heof
  simp only [PResult.ok.injEq] at h
  obtain ⟨rfl, rfl⟩ := h
  obtain ⟨hr, _, hcl, hnn⟩ := rule_loop_sound fuel [] rules _ _ hl
  have hstr2 : (advance (start_parser_state source)).current_token.type = .TOK_STRING := by
    simpa using hstr
  refine ⟨hsym, hstr2, hr, by simpa using heof, ?_, hnn (by simp), rfl⟩
  refine CleanPath.trans (CleanPath.one _ (by simp [hsym])) ?_
  exact CleanPath.trans (CleanPath.one _ (by simp [hstr2])) hcl

/-- The rule loop, entered in a state from which it reaches a state whose token is not
    `if`, returns in that state. -/
theorem rule_loop_ok_of_reaches {s s5 : PState} (hr : RuleLoopReaches s s5)
    (h5 : s5.current_token.type ≠ .TOK_IF) :
    ∃ n, ∀ rules, ∃ rs, parse_rule_list_loop n rules s = .ok rs s5 := by
  induction hr with
  | start s => exact ⟨1, fun rules => ⟨rules, by simp [parse_rule_list_loop, h5]⟩⟩
  | next fuel s s1 s2 s3 s4 s5 cond act u1 u2 hif he hc1 ha hc2 _ ih =>
      obtain ⟨n, hn⟩ := ih h5
      refine ⟨max fuel n + 1, fun rules => ?_⟩
      obtain ⟨rs, hrs⟩ := hn (rules ++ [{ condition := cond, action := act }])
      refine ⟨rs, ?_⟩
      simp only [parse_rule_list_loop, hif, if_true]
      rw [parse_expr_ge he (by simp) (Nat.le_max_left fuel n)]
      simp only [PResult.bind, hc1, ha, hc2]
      exact rule_loop_ge hrs (by simp) (Nat.le_max_right fuel n)

/-- A source with tokens left when the rule loop stops is rejected. -/
theorem rejected_of_trailing (source : List Char) (s : PState)
    (hsym : (start_parser_state source).current_token.type = .TOK_SYMBOL)
    (hstr : (advance (start_parser_state source)).current_token.type = .TOK_STRING)
    (hr : RuleLoopReaches (rule_loop_entry source) s)
    (hif : s.current_token.type ≠ .TOK_IF) (heof : s.current_token.type ≠ .TOK_EOF) :
    Rejected source (parse_error s "Expected end of input") := by
  obtain ⟨n, hn⟩ := rule_loop_ok_of_reaches hr hif
  obtain ⟨rs, hrs⟩ := hn []
  apply rejected_of_error (n := n)
  simp only [parse_program, consume, hsym, ne_eq, not_true_eq_false, if_false, PResult.bind,
    hstr, parse_rule_list, rule_loop_entry] at hrs ⊢
  rw [hrs]
  simp [heof]

/-- A parse error inside a rule the loop reaches rejects the source. -/
theorem rejected_of_rule_error (source : List Char) (s : PState) (msg : String)
    (hsym : (start_parser_state source).current_token.type = .TOK_SYMBOL)
    (hstr : (advance (start_parser_state source)).current_token.type = .TOK_STRING)
    (hr : RuleLoopReaches (rule_loop_entry source) s)
    (h : ∃ n, ∀ rules, parse_rule_list_loop n rules s = .error msg) :
    Rejected source msg :=
  parse_program_error_of_loop source msg hsym hstr (rule_loop_error_of_reaches hr msg h)

/-- C18: `parse_program` succeeds only on sources whose token stream is `symbol`, a
    string, whole rules, and end of stream.  A source whose first token is not `symbol`,
    whose second token is not a string, in which a rule the loop reaches lacks `then` or
    `end` or an action, in which `buy` / `sell` is not followed by a number, or in which
    the token where the rule loop stops is not end of stream, is rejected with the
    corresponding parse error. -/
theorem parse_program_rejects_grammar_mismatch (source : List Char) :
    (∀ fuel p st, parse_program fuel source = .ok p st →
      (start_parser_state source).current_token.type = .TOK_SYMBOL ∧
      (advance (start_parser_state source)).current_token.type = .TOK_STRING ∧
      RuleLoopReaches (rule_loop_entry source) st ∧ st.current_token.type = .TOK_EOF) ∧
    ((start_parser_state source).current_token.type ≠ .TOK_SYMBOL →
      Rejected source
        (parse_error (start_parser_state source) "Expected 'symbol' at beginning")) ∧
    ((start_parser_state source).current_token.type = .TOK_SYMBOL →
      (advance (start_parser_state source)).current_token.type ≠ .TOK_STRING →
      Rejected source (parse_error (advance (start_parser_state source))
        "Expected string literal after 'symbol'")) ∧
    ((start_parser_state source).current_token.type = .TOK_SYMBOL →
      (advance (start_parser_state source)).current_token.type = .TOK_STRING →
      ∀ s, RuleLoopReaches (rule_loop_entry source) s →
        (s.current_token.type ≠ .TOK_IF → s.current_token.type ≠ .TOK_EOF →
          Rejected source (parse_error s "Expected end of input")) ∧
        (s.current_token.type = .TOK_IF →
          ∀ f cond s1, parse_expr f (advance s) = .ok cond s1 →
            (s1.current_token.type ≠ .TOK_THEN →
              Rejected source (parse_error s1 "Expected 'then'")) ∧
            (s1.current_token.type = .TOK_THEN →
              ((advance s1).current_token.type = .TOK_BUY →
                (advance (advance s1)).current_token.type ≠ .TOK_NUMBER →
                Rejected source
                  (parse_error (advance (advance s1)) "Expected number after 'buy'")) ∧
              ((advance s1).current_token.type = .TOK_SELL →
                (advance (advance s1)).current_token.type ≠ .TOK_NUMBER →
                Rejected source
                  (parse_error (advance (advance s1)) "Expected number after 'sell'")) ∧
              ((advance s1).current_token.type ≠ .TOK_BUY →
                (advance s1).current_token.type ≠ .TOK_SELL →
                Rejected source (parse_error (advance s1) "Expected 'buy' or 'sell'")) ∧
              (∀ act s3, parse_action (advance s1) = .ok act s3 →
                s3.current_token.type ≠ .TOK_END →
                Rejected source (parse_error s3 "Expected 'end'"))))) := by
  refine ⟨fun fuel p st h => ?_, fun hsym => ?_, fun hsym hstr => ?_, fun hsym hstr s hr => ?_⟩
  · have := parse_program_sound h
    exact ⟨this.1, this.2.1, this.2.2.1, this.2.2.2.1⟩
  · apply rejected_of_error (n := 0)
    simp [parse_program, consume, hsym, PResult.bind]
  · apply rejected_of_error (n := 0)
    simp [parse_program, consume, hsym, hstr, PResult.bind]
  · refine ⟨fun hif heof => rejected_of_trailing source s hsym hstr hr hif heof,
      fun hif f cond s1 he => ⟨fun hthen => ?_, fun hthen => ⟨fun hbuy hnum => ?_,
        fun hsell hnum => ?_, fun hnb hns => ?_, fun act s3 ha hend => ?_⟩⟩⟩
    · refine rejected_of_rule_error source s _ hsym hstr hr ⟨f + 1, fun rules => ?_⟩
      simp [parse_rule_list_loop, hif, he, PResult.bind, consume, hthen]
    · refine rejected_of_rule_error source s _ hsym hstr hr ⟨f + 1, fun rules => ?_⟩
      simp [parse_rule_list_loop, hif, he, PResult.bind, consume, hthen, parse_action, hbuy,
        parse_quantity, hnum]
    · have hnb : (advance s1).current_token.type ≠ .TOK_BUY := by simp [hsell]
      refine rejected_of_rule_error source s _ hsym hstr hr ⟨f + 1, fun rules => ?_⟩
      simp [parse_rule_list_loop, hif, he, PResult.bind, consume, hthen, parse_action, hnb,
        hsell, parse_quantity, hnum]
    · refine rejected_of_rule_error source s _ hsym hstr hr ⟨f + 1, fun rules => ?_⟩
      simp [parse_rule_list_loop, hif, he, PResult.bind, consume, hthen, parse_action, hnb,
        hns]
    · refine rejected_of_rule_error source s _ hsym hstr hr ⟨f + 1, fun rules => ?_⟩
      simp [parse_rule_list_loop, hif, he, PResult.bind, consume, hthen, ha, hend]

/-- Six sources, one for each way of missing the grammar, with the diagnostic each is
    rejected with. -/
theorem parse_program_rejects_grammar_mismatch_witness :
    Rejected "if 1 then buy 1 end".toList
      "Parse error: Expected 'symbol' at beginning (token: if)" ∧
    Rejected "symbol X if 1 then buy 1 end".toList
      "Parse error: Expected string literal after 'symbol' (token: X)" ∧
    Rejected "symbol \"X\" if 1 buy 1 end".toList
      "Parse error: Expected 'then' (token: buy)" ∧
    Rejected "symbol \"X\" if 1 then buy x end".toList
      "Parse error: Expected number after 'buy' (token: x)" ∧
    Rejected "symbol \"X\" if 1 then buy 1".toList
      "Parse error: Expected 'end' (token: )" ∧
    Rejected "symbol \"X\" if 1 then buy 1 end end".toList
      "Parse error: Expected end of input (token: end)" :=
  ⟨(parse_program_rejects_grammar_mismatch "if 1 then buy 1 end".toList).2.1 (by decide),
   (parse_program_rejects_grammar_mismatch "symbol X if 1 then buy 1 end".toList).2.2.1
      rfl (by decide),
   (((parse_program_rejects_grammar_mismatch "symbol \"X\" if 1 buy 1 end".toList).2.2.2
      rfl rfl _ (RuleLoopReaches.start _)).2 rfl 9 (number (Double.ofInt 1))
      { current_token := make_token .TOK_BUY "buy".toList, current := " 1 end".toList }
      rfl).1 (by decide),
   ((((parse_program_rejects_grammar_mismatch "symbol \"X\" if 1 then buy x end".toList).2.2.2
      rfl rfl _ (RuleLoopReaches.start _)).2 rfl 9 (number (Double.ofInt 1))
      { current_token := make_token .TOK_THEN "then".toList, current := " buy x end".toList }
      rfl).2 rfl).1 rfl (by decide),
   ((((parse_program_rejects_grammar_mismatch "symbol \"X\" if 1 then buy 1".toList).2.2.2
      rfl rfl _ (RuleLoopReaches.start _)).2 rfl 9 (number (Double.ofInt 1))
      { current_token := make_token .TOK_THEN "then".toList, current := " buy 1".toList }
      rfl).2 rfl).2.2.2 { kind := .STMT_BUY, quantity := CInt.wrap 1 }
      { current_token := make_token .TOK_EOF [], current := [] } rfl (by decide),
   ((parse_program_rejects_grammar_mismatch
      "symbol \"X\" if 1 then buy 1 end end".toList).2.2.2 rfl rfl
      { current_token := make_token .TOK_END "end".toList, current := [] }
      (RuleLoopReaches.next 9 _
        { current_token := make_token .TOK_THEN "then".toList,
          current := " buy 1 end end".toList }
        { current_token := make_token .TOK_BUY "buy".toList, current := " 1 end end".toList }
        { current_token := make_token .TOK_END "end".toList, current := " end".toList }
        { current_token := make_token .TOK_END "end".toList, current := [] }
        _ (number (Double.ofInt 1)) { kind := .STMT_BUY, quantity := CInt.wrap 1 } () ()
        rfl rfl rfl rfl rfl (RuleLoopReaches.start _))).1 (by decide) (by decide)⟩

mutual
theorem no_negate_nodes : ∀ (e : Expr), no_negate e = true →
    ∀ x ∈ nodes e, ∀ op operand, x = .unary op operand → op = .OP_NOT_OP
  | .number _, _, x, hx, op, operand, he => by
      simp only [nodes, List.mem_singleton] at hx
      rw [hx] at he
      exact Expr.noConfusion he
  | .ident _, _, x, hx, op, operand, he => by
      simp only [nodes, List.mem_singleton] at hx
      rw [hx] at he
      exact Expr.noConfusion he
  | .string _, _, x, hx, op, operand, he => by
      simp only [nodes, List.mem_singleton] at hx
      rw [hx] at he
      exact Expr.noConfusion he
  | .call _ args, h, x, hx, op, operand, he => by
      simp only [no_negate] at h
      simp only [nodes, List.mem_cons] at hx
      rcases hx with hx | hx
      · rw [hx] at he
        exact Expr.noConfusion he
      · exact no_negate_nodes_args args h x hx op operand he
  | .binary _ left right, h, x, hx, op, operand, he => by
      simp only [no_negate, Bool.and_eq_true] at h
      simp only [nodes, List.mem_cons, List.mem_append] at hx
      rcases hx with hx | hx | hx
      · rw [hx] at he
        exact Expr.noConfusion he
      · exact no_negate_nodes left h.1 x hx op operand he
      · exact no_negate_nodes right h.2 x hx op operand he
  | .unary op1 left, h, x, hx, op, operand, he => by
      simp only [no_negate, Bool.and_eq_true, beq_iff_eq] at h
      simp only [nodes, List.mem_cons] at hx
      rcases hx with hx | hx
      · rw [hx] at he
        simp only [Expr.unary.injEq] at he
        rw [← he.1]
        exact h.1
      · exact no_negate_nodes left h.2 x hx op operand he
theorem no_negate_nodes_args : ∀ (es : List Expr), no_negate_args es = true →
    ∀ x ∈ nodes_args es, ∀ op operand, x = .unary op operand → op = .OP_NOT_OP
  | [], _, x, hx, _, _, _ => by simp [nodes_args] at hx
  | e :: es, h, x, hx, op, operand, he => by
      simp only [no_negate_args, Bool.and_eq_true] at h
      simp only [nodes_args, List.mem_append] at hx
      rcases hx with hx | hx
      · exact no_negate_nodes e h.1 x hx op operand he
      · exact no_negate_nodes_args es h.2 x hx op operand he
end

theorem parse_primary_minus (fuel : Nat) (s : PState)
    (h : s.current_token.type = .TOK_MINUS) :
    parse_primary (fuel + 1) s = .error (parse_error s "Expected expression") := by
  simp [parse_primary, h]

theorem parse_expr_minus (fuel : Nat) (s : PState) (h : s.current_token.type = .TOK_MINUS) :
    parse_expr (fuel + 8) s = .error (parse_error s "Expected expression") := by
  simp [parse_expr, parse_or, parse_and, parse_not, parse_cmp, parse_add, parse_mul,
    parse_primary, h, PResult.bind]

/-- C20: the front end never emits negation.  In every program `parse_program` returns,
    every unary node of every condition is a logical not; `parse_primary` called on a `-`
    token stops with the parse error `Expected expression`, and so does `parse_expr`; and
    a source in which a rule the loop reaches has a condition starting with `-` is
    rejected with that error. -/
theorem front_end_never_emits_negation (source : List Char) :
    (∀ fuel p st, parse_program fuel source = .ok p st →
      ∀ r ∈ p.rules, ∀ e ∈ nodes r.condition, ∀ op operand,
        e = .unary op operand → op = .OP_NOT_OP) ∧
    (∀ fuel s, s.current_token.type = .TOK_MINUS →
      parse_primary (fuel + 1) s = .error (parse_error s "Expected expression") ∧
      parse_expr (fuel + 8) s = .error (parse_error s "Expected expression")) ∧
    ((start_parser_state source).current_token.type = .TOK_SYMBOL →
      (advance (start_parser_state source)).current_token.type = .TOK_STRING →
      ∀ s, RuleLoopReaches (rule_loop_entry source) s → s.current_token.type = .TOK_IF →
        (advance s).current_token.type = .TOK_MINUS →
        Rejected source (parse_error (advance s) "Expected expression")) := by
  refine ⟨fun fuel p st h r hr e he op operand hu => ?_, fun fuel s h => ?_,
    fun hsym hstr s hr hif hminus => ?_⟩
  · exact no_negate_nodes r.condition ((parse_program_sound h).2.2.2.2.2.1 r hr) e he op
      operand hu
  · exact ⟨parse_primary_minus fuel s h, parse_expr_minus fuel s h⟩
  · refine rejected_of_rule_error source s _ hsym hstr hr ⟨9, fun rules => ?_⟩
    rw [parse_rule_list_loop]
    simp only [hif, if_true, parse_expr_minus 0 (advance s) hminus, PResult.bind]

/-- The source with the condition `-1 < close` is rejected at the `-`; the source with
    the condition `not close < 1` parses, and its only unary node is a logical not. -/
theorem front_end_never_emits_negation_witness :
    Rejected "symbol \"X\" if -1 < close then buy 1 end".toList
      "Parse error: Expected expression (token: -)" ∧
    ∃ p st, parse_program 12 "symbol \"X\" if not close < 1 then buy 1 end".toList = .ok p st ∧
      p.rules.map (fun r => r.condition) =
        [unary OP_NOT_OP (binary OP_LT_OP (ident "close") (number (Double.ofInt 1)))] ∧
      ∀ r ∈ p.rules, ∀ e ∈ nodes r.condition, ∀ op operand,
        e = .unary op operand → op = .OP_NOT_OP :=
  ⟨(front_end_never_emits_negation "symbol \"X\" if -1 < close then buy 1 end".toList).2.2
      rfl rfl _ (RuleLoopReaches.start _) rfl rfl,
   _, _, rfl, rfl,
   (front_end_never_emits_negation "symbol \"X\" if not close < 1 then buy 1 end".toList).1
      12 _ _ rfl⟩

theorem skip_whitespace_length : ∀ (l : List Char), (skip_whitespace l).length ≤ l.length
  | [] => by simp [skip_whitespace]
  | c :: rest => by
      simp only [skip_whitespace]
      split_ifs
      · have := skip_whitespace_length rest
        simp only [List.length_cons]
        omega
      · exact Nat.le_refl _

theorem skip_whitespace_idem : ∀ (l : List Char),
    skip_whitespace (skip_whitespace l) = skip_whitespace l
  | [] => by simp [skip_whitespace]
  | c :: rest => by
      by_cases h : c = ' ' ∨ c = '\t' ∨ c = '\r' ∨ c = '\n'
      · rw [skip_whitespace, if_pos h]
        exact skip_whitespace_idem rest
      · rw [skip_whitespace, if_neg h, skip_whitespace, if_neg h]

/-- Case analysis on the branch `next_token` takes at the first byte after the white
    space. -/
theorem next_token_cases (source : List Char) (c : Char) (rest : List Char)
    (hs : skip_whitespace source = c :: rest) (P : Token × List Char → Prop)
    (h_eof : c = Char.ofNat 0 → P (make_token .TOK_EOF [], c :: rest))
    (h_single : ∀ ty ∈ [TokenType.TOK_PLUS, .TOK_MINUS, .TOK_STAR, .TOK_SLASH, .TOK_LPAREN,
      .TOK_RPAREN, .TOK_COMMA, .TOK_GT, .TOK_LT], P (make_token ty [c], rest))
    (h_double : ∀ ty ∈ [TokenType.TOK_GE, .TOK_LE, .TOK_EQ, .TOK_NE],
      P (make_token ty [c, '='], rest.tail))
    (h_string : P (string_token rest))
    (h_number : is_digit c = true → P (number_token (c :: rest)))
    (h_ident : is_alpha c = true → P (identifier_token (c :: rest)))
    (h_error : P (error_token "Unexpected character", rest)) : P (next_token source) := by
  rw [next_token_cons source c rest hs]
  by_cases h0 : c = Char.ofNat 0
  · rw [if_pos h0]
    exact h_eof h0
  rw [if_neg h0]
  by_cases h1 : c = '+'
  · rw [if_pos h1]
    exact h_single _ (by simp)
  rw [if_neg h1]
  by_cases h2 : c = '-'
  · rw [if_pos h2]
    exact h_single _ (by simp)
  rw [if_neg h2]
  by_cases h3 : c = '*'
  · rw [if_pos h3]
    exact h_single _ (by simp)
  rw [if_neg h3]
  by_cases h4 : c = '/'
  · rw [if_pos h4]
    exact h_single _ (by simp)
  rw [if_neg h4]
  by_cases h5 : c = '('
  · rw [if_pos h5]
    exact h_single _ (by simp)
  rw [if_neg h5]
  by_cases h6 : c = ')'
  · rw [if_pos h6]
    exact h_single _ (by simp)
  rw [if_neg h6]
  by_cases h7 : c = ','
  · rw [if_pos h7]
    exact h_single _ (by simp)
  rw [if_neg h7]
  by_cases h8 : c = '>'
  · rw [if_pos h8]
    split_ifs
    · exact h_double _ (by simp)
    · exact h_single _ (by simp)
  rw [if_neg h8]
  by_cases h9 : c = '<'
  · rw [if_pos h9]
    split_ifs
    · exact h_double _ (by simp)
    · exact h_single _ (by simp)
  rw [if_neg h9]
  by_cases h10 : c = '=' ∧ cur_char rest = '='
  · rw [if_pos h10]
    exact h_double _ (by simp)
  rw [if_neg h10]
  by_cases h11 : c = '!' ∧ cur_char rest = '='
  · rw [if_pos h11]
    exact h_double _ (by simp)
  rw [if_neg h11]
  by_cases h12 : c = '"'
  · rw [if_pos h12]
    exact h_string
  rw [if_neg h12]
  by_cases h13 : is_digit c = true
  · rw [if_pos h13]
    exact h_number h13
  rw [if_neg h13]
  by_cases h14 : is_alpha c = true
  · rw [if_pos h14]
    exact h_ident h14
  rw [if_neg h14]
  exact h_error

theorem scan_while_length (p : Char → Bool) (l : List Char) :
    (scan_while p l).1.length + (scan_while p l).2.length = l.length := by
  have := congrArg List.length (scan_while_append p l)
  simpa using this

theorem scan_while_first (p : Char → Bool) (c : Char) (rest : List Char)
    (h : p c = true) (h0 : c ≠ Char.ofNat 0) :
    (scan_while p (c :: rest)).2.length ≤ rest.length := by
  simp only [scan_while]
  rw [if_pos (by simpa using ⟨h, h0⟩)]
  have := scan_while_length p rest
  simp only
  omega

theorem identifier_type_ne_eof (text : String) : identifier_type text ≠ .TOK_EOF := by
  unfold identifier_type
  split_ifs <;> simp

/-- The scanner never moves back, and moves forward whenever the token is not the end of
    the stream; an end-of-stream token leaves it just after the white space. -/
theorem next_token_progress (l : List Char) :
    (next_token l).2.length ≤ l.length ∧
    ((next_token l).1.type ≠ .TOK_EOF → (next_token l).2.length < l.length) ∧
    ((next_token l).1.type = .TOK_EOF →
      (next_token l).2 = skip_whitespace l ∧ (next_token l).1 = make_token .TOK_EOF []) := by
  have hl := skip_whitespace_length l
  cases hs : skip_whitespace l with
  | nil => simp [next_token, hs, make_token]
  | cons c rest =>
      rw [hs] at hl
      simp only [List.length_cons] at hl
      refine next_token_cases l c rest hs
        (fun r => r.2.length ≤ l.length ∧ (r.1.type ≠ .TOK_EOF → r.2.length < l.length) ∧
          (r.1.type = .TOK_EOF → r.2 = c :: rest ∧ r.1 = make_token .TOK_EOF []))
        ?_ ?_ ?_ ?_ ?_ ?_ ?_
      · intro _
        simp only [List.length_cons, make_token, ne_eq, not_true_eq_false, false_implies,
          true_and, implies_true, and_true]
        omega
      · intro ty hty
        refine ⟨by simp only; omega, fun _ => by simp only; omega, fun h => ?_⟩
        simp only [make_token] at h
        subst h
        simp at hty
      · intro ty hty
        have : rest.tail.length ≤ rest.length := by simp
        refine ⟨by simp only; omega, fun _ => by simp only; omega, fun h => ?_⟩
        simp only [make_token] at h
        subst h
        simp at hty
      · have h1 := scan_while_length (fun c => c ≠ '"') rest
        have h2 : (scan_while (fun c => c ≠ '"') rest).2.tail.length ≤
            (scan_while (fun c => c ≠ '"') rest).2.length := by simp
        simp only [string_token]
        split_ifs
        · refine ⟨by simp only; omega, fun _ => by simp only; omega, fun h => ?_⟩
          simp [error_token] at h
        · refine ⟨by simp only; omega, fun _ => by simp only; omega, fun h => ?_⟩
          simp [make_token] at h
      · intro hd
        have h1 := scan_while_first is_digit c rest hd (is_digit_ne_nul hd)
        have h2 := scan_while_length is_digit (scan_while is_digit (c :: rest)).2.tail
        have h3 : (scan_while is_digit (c :: rest)).2.tail.length ≤
            (scan_while is_digit (c :: rest)).2.length := by simp
        simp only [number_token]
        split_ifs
        · refine ⟨by simp only; omega, fun _ => by simp only; omega, fun h => ?_⟩
          simp at h
        · refine ⟨by omega, fun _ => by omega, fun h => ?_⟩
          simp at h
      · intro ha
        have h1 := scan_while_first (fun c => is_alpha c || is_digit c) c rest
          (by simp [ha]) (is_alpha_ne_nul ha)
        simp only [identifier_token]
        refine ⟨by omega, fun _ => by omega, fun h => ?_⟩
        exact absurd h (identifier_type_ne_eof _)
      · refine ⟨by simp only; omega, fun _ => by simp only; omega, fun h => ?_⟩
        simp [error_token] at h

theorem advance_remaining (s : PState) : remaining (advance s) ≤ s.current.length := by
  have h := next_token_progress s.current
  simp only [remaining, advance]
  split_ifs with he
  · omega
  · have := h.2.1 he
    omega

theorem advance_remaining_lt (s : PState) (h : s.current_token.type ≠ .TOK_EOF) :
    remaining (advance s) + 1 ≤ remaining s := by
  have h1 := advance_remaining s
  simp only [remaining, h, if_false] at h1 ⊢
  omega

theorem advance_remaining_le (s : PState) : remaining (advance s) ≤ remaining s := by
  have h1 := advance_remaining s
  simp only [remaining] at h1 ⊢
  omega

theorem clean_path_remaining {s s1 : PState} (h : CleanPath s s1) :
    remaining s1 ≤ remaining s := by
  induction h with
  | refl s => exact Nat.le_refl _
  | step s s1 _ _ ih => exact Nat.le_trans ih (advance_remaining_le s)

theorem bind_ne_nofuel {α β : Type} {r : PResult α} {k : α → PState → PResult β}
    (h1 : r ≠ .nofuel) (h2 : ∀ v s1, r = .ok v s1 → k v s1 ≠ .nofuel) :
    r.bind k ≠ .nofuel := by
  cases r with
  | ok v s1 => exact h2 v s1 rfl
  | error m => simp [PResult.bind]
  | undefined w => simp [PResult.bind]
  | nofuel => exact absurd rfl h1

theorem consume_ne_nofuel (s : PState) (t : TokenType) (msg : String) :
    consume s t msg ≠ .nofuel := by
  unfold consume
  split_ifs <;> simp

theorem consume_remaining {s s1 : PState} {t : TokenType} {msg : String} {u : Unit}
    (h : consume s t msg = .ok u s1) : remaining s1 ≤ remaining s := by
  obtain ⟨_, rfl⟩ := consume_ok h
  exact advance_remaining_le s

theorem advance_remaining_of_type {s : PState} {t : TokenType}
    (h : s.current_token.type = t) (ht : t ≠ .TOK_EOF) :
    remaining (advance s) + 1 ≤ remaining s :=
  advance_remaining_lt s (by rw [h]; exact ht)

/-- The expression parser is total: with ten units of fuel for each token left, plus the
    depth of the function, no function runs out of fuel. -/
theorem parser_total : ∀ n, ParserTotal n
  | 0 => by
      refine ⟨?_, ?_, ?_, ?_, ?_, ?_, ?_, ?_, ?_, ?_, ?_, ?_, ?_⟩ <;> intros <;> omega
  | n + 1 => by
      obtain ⟨tprim, targs, tmul, tmull, tadd, taddl, tcmp, tnot, tand, tandl, tor, torl,
        texpr⟩ := parser_total n
      obtain ⟨hprim, _, hmul, _, hadd, _, hcmp, hnot, hand, _, hor, _, hexpr⟩ :=
        parser_sound n
      refine ⟨?_, ?_, ?_, ?_, ?_, ?_, ?_, ?_, ?_, ?_, ?_, ?_, ?_⟩
      · intro s hf
        simp only [parse_primary]
        split_ifs with h1 h2 h3 h4 h5 h6
        · simp
        · have m1 := advance_remaining_of_type h2 (by decide)
          have m2 := advance_remaining_of_type h3 (by decide)
          refine bind_ne_nofuel (targs _ _ (by omega)) (fun args s3 _ => ?_)
          exact bind_ne_nofuel (consume_ne_nofuel _ _ _) (fun _ _ _ => by simp)
        · exact bind_ne_nofuel (consume_ne_nofuel _ _ _) (fun _ _ _ => by simp)
        · simp
        · simp
        · have m1 := advance_remaining_of_type h6 (by decide)
          refine bind_ne_nofuel (texpr _ (by omega)) (fun e s1 _ => ?_)
          exact bind_ne_nofuel (consume_ne_nofuel _ _ _) (fun _ _ _ => by simp)
        · simp
      · intro a s hf
        simp only [parse_args]
        refine bind_ne_nofuel (texpr _ (by omega)) (fun e s1 he => ?_)
        have m1 := clean_path_remaining (hexpr _ _ _ he).1
        split_ifs with h1
        · have m2 := advance_remaining_of_type h1 (by decide)
          exact targs _ _ (by omega)
        · simp
      · intro s hf
        simp only [parse_mul]
        refine bind_ne_nofuel (tprim _ (by omega)) (fun l s1 hl => ?_)
        have m1 := clean_path_remaining (hprim _ _ _ hl).1
        exact tmull _ _ (by omega)
      · intro l s hf
        simp only [parse_mul_loop]
        split_ifs with h1 h2
        · have m0 := advance_remaining_of_type h1 (by decide)
          refine bind_ne_nofuel (tprim _ (by omega)) (fun r s1 hr => ?_)
          have m1 := clean_path_remaining (hprim _ _ _ hr).1
          exact tmull _ _ (by omega)
        · have m0 := advance_remaining_of_type h2 (by decide)
          refine bind_ne_nofuel (tprim _ (by omega)) (fun r s1 hr => ?_)
          have m1 := clean_path_remaining (hprim _ _ _ hr).1
          exact tmull _ _ (by omega)
        · simp
      · intro s hf
        simp only [parse_add]
        refine bind_ne_nofuel (tmul _ (by omega)) (fun l s1 hl => ?_)
        have m1 := clean_path_remaining (hmul _ _ _ hl).1
        exact taddl _ _ (by omega)
      · intro l s hf
        simp only [parse_add_loop]
        split_ifs with h1 h2
        · have m0 := advance_remaining_of_type h1 (by decide)
          refine bind_ne_nofuel (tmul _ (by omega)) (fun r s1 hr => ?_)
          have m1 := clean_path_remaining (hmul _ _ _ hr).1
          exact taddl _ _ (by omega)
        · have m0 := advance_remaining_of_type h2 (by decide)
          refine bind_ne_nofuel (tmul _ (by omega)) (fun r s1 hr => ?_)
          have m1 := clean_path_remaining (hmul _ _ _ hr).1
          exact taddl _ _ (by omega)
        · simp
      · intro s hf
        simp only [parse_cmp]
        refine bind_ne_nofuel (tadd _ (by omega)) (fun l s1 hl => ?_)
        have m1 := clean_path_remaining (hadd _ _ _ hl).1
        split_ifs with h1
        · have m2 := advance_remaining_le s1
          exact bind_ne_nofuel (tadd _ (by omega)) (fun _ _ _ => by simp)
        · simp
      · intro s hf
        rw [parse_not]
        split_ifs with h1
        · have m0 := advance_remaining_of_type h1 (by decide)
          exact bind_ne_nofuel (tnot _ (by omega)) (fun _ _ _ => by simp)
        · exact tcmp _ (by omega)
      · intro s hf
        simp only [parse_and]
        refine bind_ne_nofuel (tnot _ (by omega)) (fun l s1 hl => ?_)
        have m1 := clean_path_remaining (hnot _ _ _ hl).1
        exact tandl _ _ (by omega)
      · intro l s hf
        simp only [parse_and_loop]
        split_ifs with h1
        · have m0 := advance_remaining_of_type h1 (by decide)
          refine bind_ne_nofuel (tnot _ (by omega)) (fun r s1 hr => ?_)
          have m1 := clean_path_remaining (hnot _ _ _ hr).1
          exact tandl _ _ (by omega)
        · simp
      · intro s hf
        simp only [parse_or]
        refine bind_ne_nofuel (tand _ (by omega)) (fun l s1 hl => ?_)
        have m1 := clean_path_remaining (hand _ _ _ hl).1
        exact torl _ _ (by omega)
      · intro l s hf
        simp only [parse_or_loop]
        split_ifs with h1
        · have m0 := advance_remaining_of_type h1 (by decide)
          refine bind_ne_nofuel (tand _ (by omega)) (fun r s1 hr => ?_)
          have m1 := clean_path_remaining (hand _ _ _ hr).1
          exact torl _ _ (by omega)
        · simp
      · intro s hf
        simp only [parse_expr]
        exact tor _ (by omega)

theorem parse_quantity_ne_nofuel (s : PState) (kind : StmtKind) (msg : String) :
    parse_quantity s kind msg ≠ .nofuel := by
  unfold parse_quantity
  split_ifs
  · simp
  · cases double_to_int s.current_token.number <;> simp

theorem parse_action_ne_nofuel (s : PState) : parse_action s ≠ .nofuel := by
  unfold parse_action
  split_ifs
  · exact parse_quantity_ne_nofuel _ _ _
  · exact parse_quantity_ne_nofuel _ _ _
  · simp

theorem rule_loop_total : ∀ (n : Nat) (rules : List Rule) (s : PState),
    10 * remaining s + 1 ≤ n → parse_rule_list_loop n rules s ≠ .nofuel
  | 0, _, _, h => by omega
  | n + 1, rules, s, hf => by
      simp only [parse_rule_list_loop]
      split_ifs with hif
      · have m0 := advance_remaining_of_type hif (by decide)
        refine bind_ne_nofuel ((parser_total n).2.2.2.2.2.2.2.2.2.2.2.2 _ (by omega))
          (fun cond s1 he => ?_)
        have m1 := clean_path_remaining
          ((parser_sound n).2.2.2.2.2.2.2.2.2.2.2.2 _ _ _ he).1
        refine bind_ne_nofuel (consume_ne_nofuel _ _ _) (fun u1 s2 hc1 => ?_)
        have m2 := consume_remaining hc1
        refine bind_ne_nofuel (parse_action_ne_nofuel _) (fun act s3 ha => ?_)
        have m3 := clean_path_remaining (parse_action_clean ha)
        refine bind_ne_nofuel (consume_ne_nofuel _ _ _) (fun u2 s4 hc2 => ?_)
        have m4 := consume_remaining hc2
        exact rule_loop_total n _ s4 (by omega)
      · simp

/-- The parser is total: with ten units of fuel for each byte of the source, and eleven
    more, `parse_program` does not run out of fuel. -/
theorem parse_program_total (source : List Char) (fuel : Nat)
    (hf : 10 * source.length + 11 ≤ fuel) : parse_program fuel source ≠ .nofuel := by
  have m0 : remaining (start_parser_state source) ≤ source.length :=
    advance_remaining { current_token := make_token .TOK_EOF [], current := source }
  simp only [parse_program]
  refine bind_ne_nofuel (consume_ne_nofuel _ _ _) (fun u s1 hc => ?_)
  have m1 := consume_remaining hc
  split_ifs with hstr
  · simp
  · have m2 := advance_remaining_le s1
    refine bind_ne_nofuel (rule_loop_total fuel [] (advance s1) (by omega))
      (fun rules s2 _ => ?_)
    split_ifs <;> simp

theorem advance_eof_absorbing (x : PState)
    (h : (advance x).current_token.type = .TOK_EOF) : advance (advance x) = advance x := by
  have hp := (next_token_progress x.current).2.2 h
  have e : next_token (skip_whitespace x.current) = next_token x.current := by
    simp only [next_token, skip_whitespace_idem]
  simp only [advance, hp.1, e]

theorem scan_state_is_advance : ∀ (i : Nat) (source : List Char),
    ∃ x, scan_state i source = advance x
  | 0, _ => ⟨_, rfl⟩
  | _ + 1, _ => ⟨_, rfl⟩

theorem scan_state_eof (source : List Char) (n : Nat)
    (h : (token_at source n).type = .TOK_EOF) :
    ∀ k, scan_state (n + k) source = scan_state n source
  | 0 => rfl
  | k + 1 => by
      obtain ⟨x, hx⟩ := scan_state_is_advance n source
      have ih := scan_state_eof source n h k
      rw [← Nat.add_assoc, scan_state, ih, hx]
      apply advance_eof_absorbing
      rw [← hx]
      exact h

theorem clean_path_index (source : List Char) {s st : PState} (h : CleanPath s st) :
    ∀ i, s = scan_state i source → ∃ k, st = scan_state (i + k) source ∧
      ∀ j, i ≤ j → j < i + k → (token_at source j).type ≠ .TOK_ERROR := by
  induction h with
  | refl s => exact fun i hi => ⟨0, hi, fun j h1 h2 => by omega⟩
  | step s s1 hne _ ih =>
      intro i hi
      obtain ⟨k, hk, hj⟩ := ih (i + 1) (by rw [hi]; rfl)
      refine ⟨k + 1, by rw [hk]; congr 1; omega, fun j h1 h2 => ?_⟩
      by_cases e : j = i
      · rw [e, token_at, ← hi]
        exact hne
      · exact hj j (by omega) (by omega)

/-- C19: lexical errors surface as parse errors.  For every source on which
    `parse_program` succeeds, the scanner's token stream reaches the end-of-stream token
    in the final state of the parser and no token of the stream is an error token.
    Conversely, if some token of the stream is an error token, `parse_program` returns no
    program, whatever the fuel, and with ten units of fuel for each byte of the source and
    eleven more it stops without one: with a parse error, or at a quantity whose conversion
    to `int` C leaves undefined. -/
theorem lexical_errors_surface_as_parse_errors (source : List Char) :
    (∀ fuel p st, parse_program fuel source = .ok p st →
      (∃ n, scan_state n source = st ∧ (token_at source n).type = .TOK_EOF) ∧
      ∀ i, (token_at source i).type ≠ .TOK_ERROR) ∧
    ((∃ k, (token_at source k).type = .TOK_ERROR) →
      (∀ fuel p st, parse_program fuel source ≠ .ok p st) ∧
      ∀ fuel, 10 * source.length + 11 ≤ fuel →
        (∃ msg, parse_program fuel source = .error msg) ∨
        (∃ what, parse_program fuel source = .undefined what)) := by
  have ha : ∀ fuel p st, parse_program fuel source = .ok p st →
      (∃ n, scan_state n source = st ∧ (token_at source n).type = .TOK_EOF) ∧
      ∀ i, (token_at source i).type ≠ .TOK_ERROR := by
    intro fuel p st h
    have hs := parse_program_sound h
    obtain ⟨k, hk, hj⟩ := clean_path_index source hs.2.2.2.2.1 0 rfl
    rw [Nat.zero_add] at hk
    have heof : (token_at source k).type = .TOK_EOF := by
      rw [token_at, ← hk]
      exact hs.2.2.2.1
    refine ⟨⟨k, hk.symm, heof⟩, fun i => ?_⟩
    by_cases hi : i < k
    · exact hj i (Nat.zero_le _) (by omega)
    · obtain ⟨d, rfl⟩ : ∃ d, i = k + d := ⟨i - k, by omega⟩
      rw [token_at, scan_state_eof source k heof d]
      rw [token_at] at heof
      rw [heof]
      decide
  refine ⟨ha, fun ⟨k, hk⟩ => ?_⟩
  have hno : ∀ fuel p st, parse_program fuel source ≠ .ok p st :=
    fun fuel p st h => (ha fuel p st h).2 k hk
  refine ⟨hno, fun fuel hf => ?_⟩
  have ht := parse_program_total source fuel hf
  cases hr : parse_program fuel source with
  | ok p st => exact absurd hr (hno fuel p st)
  | error msg => exact Or.inl ⟨msg, rfl⟩
  | undefined what => exact Or.inr ⟨what, rfl⟩
  | nofuel => exact absurd hr ht

/-- The source `symbol "X" if close > 1 then buy 1 end` parses, and no token of its stream
    is an error token; a stray `@` after the rule and an unterminated symbol string are
    error tokens, and both sources are rejected with a parse error naming the token. -/
theorem lexical_errors_surface_as_parse_errors_witness :
    (∃ p st, parse_program 12 "symbol \"X\" if close > 1 then buy 1 end".toList = .ok p st ∧
      ∀ i, (token_at "symbol \"X\" if close > 1 then buy 1 end".toList i).type ≠
        .TOK_ERROR) ∧
    (token_at "symbol \"X\" if 1 then buy 1 end @".toList 8).type = .TOK_ERROR ∧
    (∀ fuel p st,
      parse_program fuel "symbol \"X\" if 1 then buy 1 end @".toList ≠ .ok p st) ∧
    parse_program 12 "symbol \"X\" if 1 then buy 1 end @".toList =
      .error "Parse error: Expected end of input (token: Unexpected character)" ∧
    (token_at "symbol \"X".toList 1).type = .TOK_ERROR ∧
    (∀ fuel p st, parse_program fuel "symbol \"X".toList ≠ .ok p st) ∧
    parse_program 12 "symbol \"X".toList =
      .error "Parse error: Expected string literal after 'symbol' (token: Unterminated string)" :=
  ⟨⟨_, _, rfl,
      ((lexical_errors_surface_as_parse_errors
        "symbol \"X\" if close > 1 then buy 1 end".toList).1 12 _ _ rfl).2⟩,
   by decide,
   ((lexical_errors_surface_as_parse_errors
      "symbol \"X\" if 1 then buy 1 end @".toList).2 ⟨8, by decide⟩).1,
   rfl,
   by decide,
   ((lexical_errors_surface_as_parse_errors "symbol \"X".toList).2 ⟨1, by decide⟩).1,
   rfl⟩

theorem run_chunk_ge {n : Nat} {chunk : Chunk} {ctx : VMContext} {symbol : String}
    {r : Stop × List String} (h : run_chunk n chunk ctx symbol = some r) {m : Nat}
    (hm : n ≤ m) : run_chunk m chunk ctx symbol = some r := by
  obtain ⟨k, rfl⟩ : ∃ k, m = n + k := ⟨m - n, by omega⟩
  exact vm_loop_mono chunk ctx symbol n _ r h k

/-- C22: end to end, on the candle of `main`, the source
    `symbol "X" if close > 0 and hour == 9 then sell 5 end if weekday == 1 then buy 1 end`
    parses to the two-rule program, whose symbol is the lexeme `"X"` with its quotes,
    compiles to a chunk of 58 bytes, and runs to `Halt` after printing exactly the two lines
    `SYMBOL "X": SELL 5` and `SYMBOL "X": BUY 1`, in this order. -/
theorem two_rule_source_emits_sell_then_buy :
    (∃ st, ∀ fuel, 12 ≤ fuel → parse_program fuel two_rule_source = .ok two_rule_program st) ∧
    two_rule_program.symbol = "\"X\"" ∧
    compile_program two_rule_program = .ok two_rule_chunk ∧
    (∀ fuel, 20 ≤ fuel →
      run_chunk fuel two_rule_chunk example_context two_rule_program.symbol =
        some (.halt, ["SYMBOL \"X\": SELL 5", "SYMBOL \"X\": BUY 1"])) ∧
    ∀ fuel, 20 ≤ fuel →
      Tlc.main fuel two_rule_source =
        .finished .halt ["SYMBOL \"X\": SELL 5", "SYMBOL \"X\": BUY 1"] := by
  have hp : parse_program 12 two_rule_source =
      .ok two_rule_program { current_token := make_token .TOK_EOF [], current := [] } := rfl
  have hc : compile_program two_rule_program = .ok two_rule_chunk := rfl
  have hr : run_chunk 20 two_rule_chunk example_context two_rule_program.symbol =
      some (.halt, ["SYMBOL \"X\": SELL 5", "SYMBOL \"X\": BUY 1"]) := rfl
  refine ⟨⟨_, fun fuel hf => parse_program_ge hp (by simp) hf⟩, rfl, hc,
    fun fuel hf => run_chunk_ge hr hf, fun fuel hf => ?_⟩
  simp only [Tlc.main, parse_program_ge hp (by simp) (by omega : 12 ≤ fuel), hc,
    run_chunk_ge hr hf]

theorem step_jump (chunk : Chunk) (ctx : VMContext) (symbol : String)
    (pre post : List Nat) (offset : CInt) (stk : List Double) (out : List String)
    (hc : chunk.code = pre ++ (OpCode.BC_JUMP.toByte :: int32_bytes offset) ++ post) :
    vm_step chunk ctx symbol { stack := stk, ip := pre.length, out := out } =
      jump { stack := stk, ip := pre.length + 5, out := out } offset := by
  have h1 := fetch_at chunk { stack := stk, ip := pre.length, out := out } pre
    (int32_bytes offset ++ post) _ (by simpa using hc) rfl
  have h2 := fetch_int32_at chunk { stack := stk, ip := pre.length + 1, out := out }
    (pre ++ [OpCode.BC_JUMP.toByte]) post offset (by simpa using hc) (by simp)
  simp only [vm_step, h1, h2, OpCode.ofByte, OpCode.toByte]
  simp

theorem int32_bytes_value (v : CInt) :
    le_value 0 (int32_bytes v) = (v.toInt % 4294967296).toNat := by
  obtain ⟨x, lo, hi⟩ := v
  simp only [int32_bytes, le_value, int32_byte]
  norm_num
  omega

theorem int32_bytes_get (v : CInt) (i : Nat) (hi : i < 4) :
    (int32_bytes v).get? i = some ((v.toInt % 4294967296).toNat / 2 ^ (8 * i) % 256) := by
  obtain ⟨x, lo, hi2⟩ := v
  have h : i = 0 ∨ i = 1 ∨ i = 2 ∨ i = 3 := by omega
  rcases h with rfl | rfl | rfl | rfl <;>
    (simp only [int32_bytes, int32_byte, List.get?, Option.some.injEq]
     norm_num
     omega)

/-- C23: the 4-byte operand encoding round-trips for every 32-bit value `v`, negative
    ones included.  `write_int32` appends four bytes, which are the bytes of the
    two's-complement pattern `v mod 2^32`, least significant first; the decoding loop of
    the VM reads them back as `v`; and `Buy` / `Sell` print `v`, `JumpIfFalse` (on a zero
    condition) and `Jump` move the pointer by `v`.  Shifts are those of a two's-complement
    target: `>>` on a negative value is arithmetic, `<<` into the sign bit wraps. -/
theorem int32_operand_round_trips (v : CInt) :
    (∀ c : Chunk, (write_int32 c v).code = c.code ++ int32_bytes v ∧
      (write_int32 c v).count = c.count + 4) ∧
    (∀ b ∈ int32_bytes v, b < 256) ∧
    (∀ i, i < 4 →
      (int32_bytes v).get? i = some ((v.toInt % 4294967296).toNat / 2 ^ (8 * i) % 256)) ∧
    le_value 0 (int32_bytes v) = (v.toInt % 4294967296).toNat ∧
    (∀ (chunk : Chunk) (vm : VM) (pre post : List Nat),
      chunk.code = pre ++ int32_bytes v ++ post → vm.ip = pre.length →
      fetch_int32 chunk vm = .ok (v, { vm with ip := vm.ip + 4 })) ∧
    (∀ (chunk : Chunk) (ctx : VMContext) (symbol : String) (pre post : List Nat)
      (kind : StmtKind) (stk : List Double) (out : List String),
      chunk.code = pre ++ ((action_opcode kind).toByte :: int32_bytes v) ++ post →
      vm_step chunk ctx symbol { stack := stk, ip := pre.length, out := out } =
        .ok { stack := stk, ip := pre.length + 5,
              out := out ++ [trade_line symbol kind v] }) ∧
    (∀ (chunk : Chunk) (ctx : VMContext) (symbol : String) (pre post : List Nat)
      (cond : Double) (stk : List Double) (out : List String),
      chunk.code = pre ++ (OpCode.BC_JUMP_IF_FALSE.toByte :: int32_bytes v) ++ post →
      Double.truthy cond = false →
      vm_step chunk ctx symbol { stack := cond :: stk, ip := pre.length, out := out } =
        jump { stack := stk, ip := pre.length + 5, out := out } v) ∧
    (∀ (chunk : Chunk) (ctx : VMContext) (symbol : String) (pre post : List Nat)
      (stk : List Double) (out : List String),
      chunk.code = pre ++ (OpCode.BC_JUMP.toByte :: int32_bytes v) ++ post →
      vm_step chunk ctx symbol { stack := stk, ip := pre.length, out := out } =
        jump { stack := stk, ip := pre.length + 5, out := out } v) := by
  refine ⟨fun c => ⟨write_int32_code c v, ?_⟩, ?_, int32_bytes_get v, int32_bytes_value v,
    fun chunk vm pre post hc hip => fetch_int32_at chunk vm pre post v hc hip,
    fun chunk ctx symbol pre post kind stk out hc =>
      step_trade chunk ctx symbol pre post kind v stk out hc,
    fun chunk ctx symbol pre post cond stk out hc hz => ?_,
    fun chunk ctx symbol pre post stk out hc => step_jump chunk ctx symbol pre post v stk out hc⟩
  · simp only [Chunk.count, write_int32_code]
    simp [int32_bytes]
  · intro b hb
    simp only [int32_bytes, List.mem_cons, List.mem_singleton, List.not_mem_nil,
      or_false] at hb
    rcases hb with rfl | rfl | rfl | rfl <;> exact int32_byte_lt _ _
  · rw [step_jump_if_false chunk ctx symbol pre post v cond stk out hc, hz]
    simp

/-- The value -5: its four bytes are `FB FF FF FF`; read back they give -5, and `Buy`
    prints `BUY -5`. -/
theorem int32_operand_round_trips_witness :
    int32_bytes (CInt.wrap (-5)) = [251, 255, 255, 255] ∧
    (write_int32 init_chunk (CInt.wrap (-5))).code = [251, 255, 255, 255] ∧
    fetch_int32 { code := [20, 251, 255, 255, 255, 0], capacity := 64 }
        { stack := [], ip := 1, out := [] } =
      .ok (CInt.wrap (-5), { stack := [], ip := 5, out := [] }) ∧
    vm_step { code := [20, 251, 255, 255, 255, 0], capacity := 64 } example_context "X"
        { stack := [], ip := 0, out := [] } =
      .ok { stack := [], ip := 5, out := ["SYMBOL X: BUY -5"] } :=
  ⟨rfl, ((int32_operand_round_trips (CInt.wrap (-5))).1 init_chunk).1,
   (int32_operand_round_trips (CInt.wrap (-5))).2.2.2.2.1
     { code := [20, 251, 255, 255, 255, 0], capacity := 64 }
     { stack := [], ip := 1, out := [] } [20] [0] rfl rfl,
   by
     have h := (int32_operand_round_trips (CInt.wrap (-5))).2.2.2.2.2.1
       { code := [20, 251, 255, 255, 255, 0], capacity := 64 } example_context "X" [] [0]
       .STMT_BUY [] [] (by decide)
     exact h⟩

theorem write_byte_count (c : Chunk) (b : Nat) : (write_byte c b).count = c.count + 1 := by
  simp [Chunk.count, write_byte_code]

theorem write_byte_growth (c : Chunk) (b : Nat) (h : GrowthInvariant c) :
    GrowthInvariant (write_byte c b) := by
  have hcount := write_byte_count c b
  rcases h with ⟨h0, hc0⟩ | ⟨h1, k, hk, hle, hmin⟩
  · refine Or.inr ⟨by omega, 0, ?_, ?_, Or.inl rfl⟩
    · simp [write_byte, h0, hc0]
    · rw [hcount, h0]
      simp [write_byte, h0, hc0]
  · have hpos : 0 < 2 ^ k := by positivity
    by_cases hfull : c.count + 1 > c.capacity
    · have hcap : (write_byte c b).capacity = 64 * 2 ^ (k + 1) := by
        have hne : c.capacity ≠ 0 := by omega
        simp only [write_byte]
        rw [if_pos hfull, if_pos hne, hk, Nat.pow_succ]
        omega
      refine Or.inr ⟨by omega, k + 1, hcap, ?_, Or.inr ?_⟩
      · rw [hcap, hcount, Nat.pow_succ]
        omega
      · rw [hcount, Nat.add_sub_cancel]
        omega
    · have hcap : (write_byte c b).capacity = 64 * 2 ^ k := by
        simp only [write_byte]
        rw [if_neg hfull, hk]
      refine Or.inr ⟨by omega, k, hcap, ?_, ?_⟩
      · rw [hcap, hcount]
        omega
      · rcases hmin with hz | hlt
        · exact Or.inl hz
        · exact Or.inr (by omega)

theorem write_bytes_spec : ∀ (bytes : List Nat) (c : Chunk), GrowthInvariant c →
    GrowthInvariant (write_bytes c bytes) ∧
    (write_bytes c bytes).count = c.count + bytes.length ∧
    (write_bytes c bytes).code = c.code ++ bytes.map (fun b => b % 256)
  | [], c, h => by simp [write_bytes, h]
  | b :: bs, c, h => by
      have ih := write_bytes_spec bs (write_byte c b) (write_byte_growth c b h)
      simp only [write_bytes, List.foldl_cons] at ih ⊢
      refine ⟨ih.1, ?_, ?_⟩
      · rw [ih.2.1, write_byte_count, List.length_cons]
        omega
      · rw [ih.2.2, write_byte_code]
        simp

theorem growth_invariant_least (c : Chunk) (h : GrowthInvariant c) (h1 : 1 ≤ c.count) :
    ∃ k, c.capacity = 64 * 2 ^ k ∧ c.count ≤ 64 * 2 ^ k ∧
      ∀ j, c.count ≤ 64 * 2 ^ j → 64 * 2 ^ k ≤ 64 * 2 ^ j := by
  rcases h with ⟨h0, _⟩ | ⟨_, k, hk, hle, hmin⟩
  · omega
  · refine ⟨k, hk, by omega, fun j hj => ?_⟩
    apply Nat.mul_le_mul_left
    apply Nat.pow_le_pow_right (by norm_num)
    rcases hmin with hz | hlt
    · omega
    · by_contra hkj
      have hjk : j ≤ k - 1 := by omega
      have := Nat.pow_le_pow_right (by norm_num : 0 < 2) hjk
      omega

mutual
theorem short_circuit_eval_well_formed (ctx : VMContext) : ∀ (e : Expr),
    well_formed e = true →
    ∃ v, eval ctx e = some v ∧ short_circuit_eval ctx e = .ok v
  | .number value, _ => ⟨value, by simp [eval], by simp [short_circuit_eval]⟩
  | .ident name, hw => by
      simp only [well_formed] at hw
      cases hv : is_builtin_var name with
      | none => simp [hv] at hw
      | some id =>
          exact ⟨load_var ctx id.toByte, by simp [eval, hv], by simp [short_circuit_eval, hv]⟩
  | .string _, hw => by simp [well_formed] at hw
  | .call func_name args, hw => by
      simp only [well_formed, Bool.and_eq_true] at hw
      obtain ⟨vals, hvals, hsc⟩ := short_circuit_args_well_formed ctx args hw.2
      have hlen := eval_args_length ctx args vals hvals
      cases hf : is_builtin_func func_name with
      | none => simp [hf] at hw
      | some f =>
          have hcall : ∃ v, call_value f vals = some v := by
            cases f <;> simp only [hf, beq_iff_eq] at hw
            · match vals, hlen with
              | [a, b], _ => exact ⟨_, rfl⟩
              | [], h => simp [hw.1] at h
              | [_], h => simp [hw.1] at h
              | _ :: _ :: _ :: _, h => simp [hw.1] at h
            · match vals, hlen with
              | [a, b], _ => exact ⟨_, rfl⟩
              | [], h => simp [hw.1] at h
              | [_], h => simp [hw.1] at h
              | _ :: _ :: _ :: _, h => simp [hw.1] at h
            · match vals, hlen with
              | [a], _ => exact ⟨_, rfl⟩
              | [], h => simp [hw.1] at h
              | _ :: _ :: _, h => simp [hw.1] at h
          obtain ⟨v, hv⟩ := hcall
          exact ⟨v, by simp [eval, hf, hvals, hv], by simp [short_circuit_eval, hf, hsc, hv]⟩
  | .binary op left right, hw => by
      simp only [well_formed, Bool.and_eq_true, Option.isSome_iff_exists] at hw
      obtain ⟨⟨⟨f, hf⟩, hl⟩, hr⟩ := hw
      obtain ⟨a, ha, hsa⟩ := short_circuit_eval_well_formed ctx left hl
      obtain ⟨b, hb, hsb⟩ := short_circuit_eval_well_formed ctx right hr
      refine ⟨f a b, by simp [eval, hf, ha, hb], ?_⟩
      simp only [short_circuit_eval, hsa, hsb, hf]
      split_ifs with h1 h2
      · obtain ⟨rfl, hz⟩ := h1
        simp only [binary_fn, Option.some.injEq] at hf
        subst hf
        simp [hz]
      · obtain ⟨rfl, hz⟩ := h2
        simp only [binary_fn, Option.some.injEq] at hf
        subst hf
        simp [hz]
      · rfl
  | .unary op left, hw => by
      simp only [well_formed, Bool.and_eq_true, Option.isSome_iff_exists] at hw
      obtain ⟨⟨f, hf⟩, hl⟩ := hw
      obtain ⟨a, ha, hsa⟩ := short_circuit_eval_well_formed ctx left hl
      exact ⟨f a, by simp [eval, hf, ha], by simp [short_circuit_eval, hsa, hf]⟩
theorem short_circuit_args_well_formed (ctx : VMContext) : ∀ (es : List Expr),
    well_formed_args es = true →
    ∃ vs, eval_args ctx es = some vs ∧ short_circuit_args ctx es = .ok vs
  | [], _ => ⟨[], by simp [eval_args], by simp [short_circuit_args]⟩
  | e :: es, hw => by
      simp only [well_formed_args, Bool.and_eq_true] at hw
      obtain ⟨v, hv, hsv⟩ := short_circuit_eval_well_formed ctx e hw.1
      obtain ⟨vs, hvs, hsvs⟩ := short_circuit_args_well_formed ctx es hw.2
      exact ⟨v :: vs, by simp [eval_args, hv, hvs], by simp [short_circuit_args, hsv, hsvs]⟩
end

theorem short_circuit_run_well_formed (ctx : VMContext) (symbol : String) :
    ∀ (rs : List Rule), (∀ r ∈ rs, well_formed r.condition = true) → ∀ out,
      short_circuit_run ctx symbol rs out = (.halt, out ++ expected_output ctx symbol rs)
  | [], _, out => by simp [short_circuit_run, expected_output]
  | r :: rs, hw, out => by
      obtain ⟨v, hv, hsv⟩ := short_circuit_eval_well_formed ctx r.condition (hw r (by simp))
      simp only [short_circuit_run, hsv, expected_output, hv]
      rw [short_circuit_run_well_formed ctx symbol rs (fun r1 h1 => hw r1 (by simp [h1]))]
      simp

theorem guarded_deep_program_overflows :
    ∃ chunk, compile_program guarded_deep_program = .ok chunk ∧
      ∃ n, ∀ fuel, n ≤ fuel →
        run_chunk fuel chunk example_context guarded_deep_program.symbol =
          some (.undefined "push onto a full stack", []) := by
  have hwf : well_formed (binary OP_AND_OP (number (Double.ofInt 0)) (deep_sum 255)) = true := by
    simp [well_formed, binary_fn, deep_sum_well_formed]
  have hw : ∀ r ∈ guarded_deep_program.rules, well_formed r.condition = true := by
    intro r hr
    simp only [guarded_deep_program, List.mem_singleton] at hr
    subst hr
    exact hwf
  have hd := compile_program_diag guarded_deep_program
  rw [rules_no_diag guarded_deep_program.rules hw] at hd
  obtain ⟨chunk, hchunk⟩ := hd
  refine ⟨chunk, hchunk, ?_⟩
  have hcode := compile_program_code guarded_deep_program chunk hchunk
  have hov := overflow_expr chunk example_context guarded_deep_program.symbol
    (binary OP_AND_OP (number (Double.ofInt 0)) (deep_sum 255)) hwf []
    (OpCode.BC_JUMP_IF_FALSE.toByte :: int32_bytes (CInt.wrap 5) ++
      (action_opcode .STMT_BUY).toByte :: int32_bytes (CInt.wrap 1) ++
      [OpCode.BC_HALT.toByte]) [] []
    (by simpa [guarded_deep_program, rules_code, rule_code] using hcode)
    (by simp [STACK_MAX]) (by simp [stack_need, deep_sum_stack_need, STACK_MAX])
  obtain ⟨n, hn⟩ := hov
  refine ⟨n, fun fuel hf => ?_⟩
  obtain ⟨k, rfl⟩ : ∃ k, fuel = n + k := ⟨fuel - n, by omega⟩
  exact hn k

/-- C21 as stated fails on two programs the parser produces.  In
    `symbol "X" if close < 0 and sma(close) > 1 then buy 1 end if close > 0 then sell 2 end`
    the left operand of `and` is zero: short-circuit evaluation skips the call, goes on to
    the second rule and halts after `SELL 2`, while the compiled code evaluates the call and
    exits at the arity guard with `sma expects 2 args`, printing nothing.  In
    `0 and (1 + (1 + ...))` with 256 literals, short-circuit evaluation halts with no line,
    while the compiled code overflows the evaluation stack. -/
theorem eager_evaluation_reaches_arity_guard :
    (∃ st, parse_program 30
      ("symbol \"X\" if close < 0 and sma(close) > 1 then buy 1 end " ++
        "if close > 0 then sell 2 end").toList = .ok guarded_call_program st) ∧
    compile_program guarded_call_program = .ok guarded_call_chunk ∧
    (∀ fuel, 20 ≤ fuel →
      run_chunk fuel guarded_call_chunk example_context guarded_call_program.symbol =
        some (.exit "sma expects 2 args", [])) ∧
    short_circuit_run example_context guarded_call_program.symbol
      guarded_call_program.rules [] = (.halt, ["SYMBOL \"X\": SELL 2"]) ∧
    (∃ chunk, compile_program guarded_deep_program = .ok chunk ∧
      ∃ n, ∀ fuel, n ≤ fuel →
        run_chunk fuel chunk example_context guarded_deep_program.symbol =
          some (.undefined "push onto a full stack", [])) ∧
    short_circuit_run example_context guarded_deep_program.symbol
      guarded_deep_program.rules [] = (.halt, []) := by
  refine ⟨⟨_, rfl⟩, rfl, fun fuel hf => ?_, rfl, guarded_deep_program_overflows, ?_⟩
  · have h20 : run_chunk 20 guarded_call_chunk example_context guarded_call_program.symbol =
        some (.exit "sma expects 2 args", []) := rfl
    exact run_chunk_ge h20 hf
  · simp only [guarded_deep_program, short_circuit_run, short_circuit_eval]
    rfl

theorem compile_string_operand (c c0 : Chunk) (op : OpKind) (left : Expr) (s : String)
    (h : compile_expr c left = .ok c0) :
    compile_expr c (.binary op left (.string s)) =
      .error "Bare string literal in expression not supported in skeleton." := by
  simp [compile_expr, h]

theorem compile_string_operand_fails (c c1 : Chunk) (op : OpKind) (left : Expr) (s : String) :
    compile_expr c (.binary op left (.string s)) ≠ .ok c1 := by
  cases h : compile_expr c left with
  | error msg => simp [compile_expr, h]
  | ok c0 => simp [compile_expr, h]

theorem main_compile_error {fuel : Nat} {source : List Char} {p : Program} {st : PState}
    {msg : String} (hp : parse_program fuel source = .ok p st)
    (hc : compile_program p = .error msg) :
    ∀ f, fuel ≤ f → Tlc.main f source = .compile_error msg := by
  intro f hf
  simp only [Tlc.main, parse_program_ge hp (by simp) hf, hc]

/-- C25: the code does not compile string literals on the right of a comparison, against
    the comment above `compile_expr`.  Whatever the operator and the left operand,
    `compile_expr` never accepts a binary node whose right operand is a string, and stops
    with `Bare string literal ...` when the left operand compiles.  The sources comparing
    `date`, `time` and `weekday` with `"2025-11-17"`, `"09:40"` and `"Mon"` parse, and
    `main` stops at compilation with that diagnostic; the helpers `parse_date_string`,
    `parse_time_string` and `parse_weekday_string`, which nothing calls, give the codes
    20251117, 940 and 1 on these literals. -/
theorem string_comparison_is_rejected :
    (∀ (c c1 : Chunk) (op : OpKind) (left : Expr) (s : String),
      compile_expr c (.binary op left (.string s)) ≠ .ok c1) ∧
    (∀ (c c0 : Chunk) (op : OpKind) (left : Expr) (s : String),
      compile_expr c left = .ok c0 →
      compile_expr c (.binary op left (.string s)) =
        .error "Bare string literal in expression not supported in skeleton.") ∧
    (∃ st, parse_program 12 "symbol \"X\" if date == \"2025-11-17\" then buy 1 end".toList =
      .ok (string_comparison_program "date" "\"2025-11-17\"") st) ∧
    (∃ st, parse_program 12 "symbol \"X\" if time == \"09:40\" then buy 1 end".toList =
      .ok (string_comparison_program "time" "\"09:40\"") st) ∧
    (∃ st, parse_program 12 "symbol \"X\" if weekday == \"Mon\" then buy 1 end".toList =
      .ok (string_comparison_program "weekday" "\"Mon\"") st) ∧
    (∀ name literal, is_builtin_var name ≠ none →
      compile_program (string_comparison_program name literal) =
        .error "Bare string literal in expression not supported in skeleton.") ∧
    (∀ fuel, 12 ≤ fuel →
      Tlc.main fuel "symbol \"X\" if date == \"2025-11-17\" then buy 1 end".toList =
        .compile_error "Bare string literal in expression not supported in skeleton." ∧
      Tlc.main fuel "symbol \"X\" if time == \"09:40\" then buy 1 end".toList =
        .compile_error "Bare string literal in expression not supported in skeleton." ∧
      Tlc.main fuel "symbol \"X\" if weekday == \"Mon\" then buy 1 end".toList =
        .compile_error "Bare string literal in expression not supported in skeleton.") ∧
    parse_date_string "\"2025-11-17\"".toList = some (CInt.wrap 20251117) ∧
    parse_time_string "\"09:40\"".toList = some (CInt.wrap 940) ∧
    parse_weekday_string "\"Mon\"".toList = CInt.wrap 1 := by
  have hprog : ∀ name literal, is_builtin_var name ≠ none →
      compile_program (string_comparison_program name literal) =
        .error "Bare string literal in expression not supported in skeleton." := by
    intro name literal hn
    cases hv : is_builtin_var name with
    | none => exact absurd hv hn
    | some id =>
        simp [compile_program, compile_rules, compile_rule, string_comparison_program,
          compile_expr, hv]
  refine ⟨fun c c1 op left s => compile_string_operand_fails c c1 op left s,
    fun c c0 op left s h => compile_string_operand c c0 op left s h,
    ⟨_, rfl⟩, ⟨_, rfl⟩, ⟨_, rfl⟩, hprog, fun fuel hf => ⟨?_, ?_, ?_⟩,
    by decide, by decide, by decide⟩
  · have hp : parse_program 12 "symbol \"X\" if date == \"2025-11-17\" then buy 1 end".toList =
        .ok (string_comparison_program "date" "\"2025-11-17\"")
          { current_token := make_token .TOK_EOF [], current := [] } := rfl
    exact main_compile_error hp (hprog "date" _ (by decide)) fuel hf
  · have hp : parse_program 12 "symbol \"X\" if time == \"09:40\" then buy 1 end".toList =
        .ok (string_comparison_program "time" "\"09:40\"")
          { current_token := make_token .TOK_EOF [], current := [] } := rfl
    exact main_compile_error hp (hprog "time" _ (by decide)) fuel hf
  · have hp : parse_program 12 "symbol \"X\" if weekday == \"Mon\" then buy 1 end".toList =
        .ok (string_comparison_program "weekday" "\"Mon\"")
          { current_token := make_token .TOK_EOF [], current := [] } := rfl
    exact main_compile_error hp (hprog "weekday" _ (by decide)) fuel hf

theorem Double.roundMag_eq (num den : Nat) :
    roundMag num den = if num = 0 then 0 else roundAt (roundExp num den) num den := rfl

theorem Double.divRoundEven_le (n d : Nat) : divRoundEven n d ≤ n / d + 1 := by
  simp only [divRoundEven]
  split_ifs <;> omega

theorem Double.log2_width_spec : ∀ (fuel j n : Nat),
    ∃ j1, log2_width fuel (2 ^ j) n = 2 ^ j1 ∧ j1 ≤ j + fuel ∧
      (n < 2 ^ (2 ^ j1) ∨ j1 = j + fuel)
  | 0, j, n => ⟨j, rfl, by omega, Or.inr rfl⟩
  | fuel + 1, j, n => by
      simp only [log2_width]
      split_ifs with h
      · exact ⟨j, rfl, by omega, Or.inl h⟩
      · obtain ⟨j1, h1, h2, h3⟩ := log2_width_spec fuel (j + 1) n
        have e : 2 * 2 ^ j = 2 ^ (j + 1) := by rw [Nat.pow_succ]; omega
        rw [e]
        exact ⟨j1, h1, by omega, by omega⟩

theorem Double.log2_search_spec : ∀ (fuel j lo n : Nat), j ≤ fuel → 2 ^ lo ≤ n →
    2 ^ (log2_search fuel lo (2 ^ j / 2) n) ≤ n ∧
    log2_search fuel lo (2 ^ j / 2) n < lo + 2 ^ j ∧
    (n < 2 ^ (lo + 2 ^ j) → n < 2 ^ (log2_search fuel lo (2 ^ j / 2) n + 1)) ∧
    (2 ^ (lo + 2 ^ j) ≤ n → log2_search fuel lo (2 ^ j / 2) n + 1 = lo + 2 ^ j)
  | 0, j, lo, n, hj, hlo => by
      have : j = 0 := by omega
      subst this
      simp only [log2_search]
      exact ⟨hlo, by simp, fun h => by simpa using h, fun _ => by simp⟩
  | fuel + 1, 0, lo, n, _, hlo => by
      simp only [log2_search]
      have e : (if 2 ^ (lo + 2 ^ 0 / 2) ≤ n then lo + 2 ^ 0 / 2 else lo) = lo := by
        norm_num
      rw [e]
      have e2 : 2 ^ 0 / 2 / 2 = 2 ^ 0 / 2 := by norm_num
      rw [e2]
      exact log2_search_spec fuel 0 lo n (by omega) hlo
  | fuel + 1, j + 1, lo, n, hj, hlo => by
      simp only [log2_search]
      have e : 2 ^ (j + 1) / 2 = 2 ^ j := by
        rw [Nat.pow_succ]
        omega
      rw [e]
      have e3 : 2 ^ (j + 1) = 2 ^ j + 2 ^ j := by rw [Nat.pow_succ]; omega
      have hp : 0 < 2 ^ j := by positivity
      split_ifs with h
      · obtain ⟨h1, h2, h3, h4⟩ := log2_search_spec fuel j (lo + 2 ^ j) n (by omega) h
        refine ⟨h1, by omega, fun hn => h3 ?_, fun hn => ?_⟩
        · rw [Nat.add_assoc, ← e3]
          exact hn
        · have := h4 (by rw [Nat.add_assoc, ← e3]; exact hn)
          omega
      · obtain ⟨h1, h2, h3, h4⟩ := log2_search_spec fuel j lo n (by omega) hlo
        refine ⟨h1, by omega, fun _ => h3 (by omega), fun hn => ?_⟩
        exfalso
        have hmono : 2 ^ (lo + 2 ^ j) ≤ 2 ^ (lo + 2 ^ (j + 1)) :=
          Nat.pow_le_pow_right (by norm_num) (by omega)
        omega

/-- The function `ilog2` finds the position of the leading bit, up to the cap
    `2 ^ 64 - 1` of its search. -/
theorem Double.ilog2_spec (n : Nat) (hn : 1 ≤ n) :
    2 ^ ilog2 n ≤ n ∧ ilog2 n < 18446744073709551616 ∧
    (n < 2 ^ (ilog2 n + 1) ∨ ilog2 n + 1 = 18446744073709551616) := by
  obtain ⟨j1, h1, h2, h3⟩ := log2_width_spec 64 0 n
  have hw : log2_width 64 1 n = 2 ^ j1 := by
    have : (2 : Nat) ^ 0 = 1 := rfl
    rw [this] at h1
    exact h1
  have hs := log2_search_spec 64 j1 0 n (by omega) (by simpa using hn)
  simp only [ilog2, hw]
  simp only [Nat.zero_add] at hs
  obtain ⟨s1, s2, s3, s4⟩ := hs
  have hpow : 2 ^ j1 ≤ 2 ^ 64 := Nat.pow_le_pow_right (by norm_num) (by omega)
  have h64 : (2 : Nat) ^ 64 = 18446744073709551616 := by norm_num
  refine ⟨s1, by omega, ?_⟩
  rcases h3 with h3 | h3
  · exact Or.inl (s3 h3)
  · by_cases hlt : n < 2 ^ (2 ^ j1)
    · exact Or.inl (s3 hlt)
    · right
      have := s4 (by omega)
      have hj : j1 = 64 := by omega
      rw [this, hj]
      exact h64

theorem Double.roundExp_small (num den : Nat) (hnum : 1 ≤ num) (hden : 1 ≤ den)
    (he : roundExp num den < -1022) : num * 2 ^ 1074 < den * 2 ^ 52 := by
  obtain ⟨a1, a2, a3⟩ := ilog2_spec num hnum
  obtain ⟨b1, b2, _⟩ := ilog2_spec den hden
  simp only [roundExp] at he
  by_cases h0 : (0 : Int) ≤ (ilog2 num : Int) - (ilog2 den : Int)
  · rw [if_pos h0] at he
    split_ifs at he <;> omega
  · rw [if_neg h0] at he
    have hab : ilog2 num < ilog2 den := by omega
    have htn : (-((ilog2 num : Int) - (ilog2 den : Int))).toNat = ilog2 den - ilog2 num := by
      omega
    rw [htn] at he
    by_cases hc : den ≤ num * 2 ^ (ilog2 den - ilog2 num)
    · rw [if_pos hc] at he
      have hlt : num < 2 ^ (ilog2 num + 1) := by
        rcases a3 with h | h
        · exact h
        · omega
      have hexp : ilog2 num + 1 + 1074 ≤ ilog2 den + 52 := by omega
      calc num * 2 ^ 1074 < 2 ^ (ilog2 num + 1) * 2 ^ 1074 :=
            Nat.mul_lt_mul_of_pos_right hlt (by positivity)
        _ = 2 ^ (ilog2 num + 1 + 1074) := by rw [← Nat.pow_add]
        _ ≤ 2 ^ (ilog2 den + 52) := Nat.pow_le_pow_right Nat.two_pos hexp
        _ = 2 ^ ilog2 den * 2 ^ 52 := by rw [Nat.pow_add]
        _ ≤ den * 2 ^ 52 := Nat.mul_le_mul_right _ b1
    · rw [if_neg hc] at he
      have hc2 : num * 2 ^ (ilog2 den - ilog2 num) < den := by omega
      have hexp : 1022 ≤ ilog2 den - ilog2 num := by omega
      have hmono : ∀ a b : Nat, a ≤ b → 2 ^ a ≤ 2 ^ b :=
        fun a b h => Nat.pow_le_pow_right Nat.two_pos h
      have hpow := hmono 1022 _ hexp
      have hsplit : ∀ a b c : Nat, a + b = c → num * 2 ^ c = num * 2 ^ a * 2 ^ b :=
        fun a b c h => by rw [← h, Nat.pow_add, Nat.mul_assoc]
      calc num * 2 ^ 1074 = num * 2 ^ 1022 * 2 ^ 52 := hsplit 1022 52 1074 rfl
        _ ≤ num * 2 ^ (ilog2 den - ilog2 num) * 2 ^ 52 :=
            Nat.mul_le_mul_right _ (Nat.mul_le_mul_left _ hpow)
        _ < den * 2 ^ 52 := Nat.mul_lt_mul_of_pos_right hc2 (by positivity)

theorem Double.roundAt_le (e : Int) (num den : Nat)
    (h : e < -1022 → num * 2 ^ 1074 < den * 2 ^ 52) :
    roundAt e num den ≤ 9218868437227405312 := by
  simp only [roundAt]
  by_cases h1 : (1024 : Int) ≤ e
  · rw [if_pos h1]
  · rw [if_neg h1]
    by_cases h2 : e < -1022
    · have hlt := h h2
      have hq : num * 2 ^ 1074 / den < 2 ^ 52 := Nat.div_lt_of_lt_mul hlt
      have hm := divRoundEven_le (num * 2 ^ 1074) den
      simp only [h2, if_true]
      have hk : ¬ (0 : Int) ≤ -1074 := by decide
      have hk2 : (-(-1074 : Int)).toNat = 1074 := by decide
      simp only [hk, if_false, hk2]
      have h52 : (2 : Nat) ^ 52 = 4503599627370496 := by norm_num
      omega
    · simp only [h2, if_false]
      split_ifs <;> omega

theorem Double.roundMag_le (num den : Nat) (hden : 0 < den) :
    roundMag num den ≤ 9218868437227405312 := by
  rw [roundMag_eq]
  split_ifs with h0
  · omega
  · exact roundAt_le _ num den (roundExp_small num den (by omega) hden)

/-- A double built with a positive sign from a ratio is not negative. -/
theorem Double.ofSignMag_signBit (num den : Nat) (hden : 0 < den) :
    (ofSignMag false num den).signBit = false := by
  have h := roundMag_le num den hden
  simp only [ofSignMag, ofBits, signBit, Bool.false_eq_true, if_false, Nat.zero_add,
    decide_eq_false_iff_not]
  omega

theorem number_token_nonneg (source : List Char)
    (h : (next_token source).1.type = .TOK_NUMBER) :
    (next_token source).1.number.signBit = false := by
  obtain ⟨c, rest, hc, he⟩ := next_token_number_branch source h
  obtain ⟨ip, fp, _, _, _, _, hnum⟩ := number_token_form c rest hc
  rw [he, hnum]
  exact Double.ofSignMag_signBit _ _ (by positivity)

theorem ofInt_two_pow_31_bits :
    Double.ofInt 2147483648 = ⟨4746794007248502784, by decide⟩ := by decide

/-- The integer part of a double that is not negative, as `trunc?` computes it. -/
theorem trunc_nonneg (d : Double) (hs : d.signBit = false) (i : Int)
    (h : d.trunc? = some i) : 0 ≤ i := by
  simp only [Double.trunc?, hs, Bool.false_eq_true, if_false] at h
  split_ifs at h <;>
    (simp only [Option.some.injEq] at h
     rw [← h]
     exact Int.natCast_nonneg _)

/-- The conversion to `int` of a double that is not negative and is below `2 ^ 31` is
    defined, and gives the integer part: the quotient of the significand by the power of
    two of the (negative) exponent. -/
theorem double_to_int_small (d : Double) (hs : d.signBit = false)
    (hlt : Double.lt d (Double.ofInt 2147483648) = true) :
    ∃ q : CInt, double_to_int d = some q ∧ d.trunc? = some q.toInt ∧
      d.expo < 0 ∧ q.toInt = (d.mant / 2 ^ (-d.expo).toNat : Nat) := by
  obtain ⟨x, hx⟩ := d
  rw [ofInt_two_pow_31_bits] at hlt
  have hkey : (⟨4746794007248502784, by decide⟩ : Double).ordKey = 4746794007248502784 := rfl
  have hnan : (⟨4746794007248502784, by decide⟩ : Double).isNaN = false := rfl
  simp only [Double.signBit, decide_eq_false_iff_not, not_le] at hs
  simp only [Double.lt, hkey, hnan, Bool.or_false, Bool.and_eq_true, Bool.not_eq_true',
    decide_eq_true_eq, Double.ordKey, Double.signBit] at hlt
  have hbits : x < 4746794007248502784 := by
    have := hlt.2
    split_ifs at this <;> omega
  have hexp : x / 4503599627370496 % 2048 ≤ 1053 := by omega
  have hmant : (⟨x, hx⟩ : Double).mant < 9007199254740992 := by
    simp only [Double.mant, Double.expField, Double.fracField]
    split_ifs <;> omega
  have hexpo : (⟨x, hx⟩ : Double).expo ≤ -22 := by
    simp only [Double.expo, Double.expField]
    split_ifs <;> omega
  have hk : 22 ≤ (-(⟨x, hx⟩ : Double).expo).toNat := by omega
  have hpow : 2 ^ 22 ≤ 2 ^ (-(⟨x, hx⟩ : Double).expo).toNat :=
    Nat.pow_le_pow_right Nat.two_pos hk
  have hq : (⟨x, hx⟩ : Double).mant / 2 ^ (-(⟨x, hx⟩ : Double).expo).toNat < 2147483648 := by
    apply Nat.div_lt_of_lt_mul
    have h22 : (2 : Nat) ^ 22 = 4194304 := by norm_num
    calc (⟨x, hx⟩ : Double).mant < 4194304 * 2147483648 := by omega
      _ ≤ 2 ^ (-(⟨x, hx⟩ : Double).expo).toNat * 2147483648 := by
          rw [← h22]
          exact Nat.mul_le_mul_right _ hpow
  have hneg : ¬ (0 : Int) ≤ (⟨x, hx⟩ : Double).expo := by omega
  have htr : (⟨x, hx⟩ : Double).trunc? =
      some (Int.ofNat ((⟨x, hx⟩ : Double).mant / 2 ^ (-(⟨x, hx⟩ : Double).expo).toNat)) := by
    have hne : (⟨x, hx⟩ : Double).expField ≠ 2047 := by
      simp only [Double.expField]
      omega
    have hsb : (⟨x, hx⟩ : Double).signBit = false := by
      simp only [Double.signBit, decide_eq_false_iff_not, not_le]
      exact hs
    simp only [Double.trunc?, hne, if_false, hneg, hsb, Bool.false_eq_true]
    rfl
  have hrange : (-2147483648 : Int) ≤
        Int.ofNat ((⟨x, hx⟩ : Double).mant / 2 ^ (-(⟨x, hx⟩ : Double).expo).toNat) ∧
      Int.ofNat ((⟨x, hx⟩ : Double).mant / 2 ^ (-(⟨x, hx⟩ : Double).expo).toNat) <
        2147483648 := by
    constructor
    · exact le_trans (by decide) (Int.ofNat_nonneg _)
    · exact Int.ofNat_lt.mpr hq
  refine ⟨⟨_, hrange.1, hrange.2⟩, ?_, htr, by omega, rfl⟩
  simp only [double_to_int, htr]
  rw [dif_pos hrange]

theorem double_to_int_trunc (d : Double) (q : CInt) (h : double_to_int d = some q) :
    d.trunc? = some q.toInt := by
  simp only [double_to_int] at h
  cases ht : d.trunc? with
  | none => simp [ht] at h
  | some i =>
      simp only [ht] at h
      split_ifs at h with hr
      simp only [Option.some.injEq] at h
      rw [← h]

theorem advance_number_nonneg (s : PState)
    (h : (advance s).current_token.type = .TOK_NUMBER) :
    (advance s).current_token.number.signBit = false :=
  number_token_nonneg s.current h

/-- The quantity `parse_action` stores, for a number token below `2 ^ 31`. -/
theorem parse_action_quantity (s : PState) (kind : StmtKind)
    (hk : (s.current_token.type = .TOK_BUY ∧ kind = .STMT_BUY) ∨
      (s.current_token.type = .TOK_SELL ∧ kind = .STMT_SELL))
    (hn : (advance s).current_token.type = .TOK_NUMBER)
    (hlt : Double.lt (advance s).current_token.number (Double.ofInt 2147483648) = true) :
    ∃ q : CInt, parse_action s = .ok { kind := kind, quantity := q } (advance (advance s)) ∧
      (advance s).current_token.number.trunc? = some q.toInt ∧
      (advance s).current_token.number.expo < 0 ∧
      q.toInt = ((advance s).current_token.number.mant /
        2 ^ (-(advance s).current_token.number.expo).toNat : Nat) := by
  obtain ⟨q, hq, ht, he, hv⟩ := double_to_int_small _ (advance_number_nonneg s hn) hlt
  refine ⟨q, ?_, ht, he, hv⟩
  rcases hk with ⟨hb, rfl⟩ | ⟨hsell, rfl⟩
  · simp only [parse_action, hb, if_true, parse_quantity, hn, ne_eq, not_true_eq_false,
      if_false, hq]
  · have hnb : s.current_token.type ≠ .TOK_BUY := by rw [hsell]; decide
    simp only [parse_action]
    rw [if_neg hnb, if_pos hsell]
    simp only [parse_quantity, hn, ne_eq, not_true_eq_false, if_false, hq]

/-- What a successful `parse_action` stored: the integer part of the number token that
    follows `buy` / `sell`, which is not negative. -/
theorem parse_action_stores_trunc {s s3 : PState} {act : Stmt}
    (h : parse_action s = .ok act s3) :
    (advance s).current_token.type = .TOK_NUMBER ∧
    (advance s).current_token.number.trunc? = some act.quantity.toInt ∧
    0 ≤ act.quantity.toInt := by
  have hn := (parse_action_ok h).2.1
  have hq : double_to_int (advance s).current_token.number = some act.quantity := by
    unfold parse_action at h
    split_ifs at h with h1 h2 <;>
      (unfold parse_quantity at h
       split_ifs at h with hc
       cases hd : double_to_int (advance s).current_token.number with
       | none => simp [hd] at h
       | some q =>
           simp only [hd, PResult.ok.injEq] at h
           rw [← h.1])
  have ht := double_to_int_trunc _ _ hq
  exact ⟨hn, ht, trunc_nonneg _ (advance_number_nonneg s hn) _ ht⟩

/-- Every rule the loop returns has an action that `parse_action` produced. -/
theorem rule_loop_actions : ∀ (n : Nat) (rules rs : List Rule) (s s5 : PState),
    parse_rule_list_loop n rules s = .ok rs s5 →
    (∀ r ∈ rules, ∃ s2, parse_action s2 = .ok r.action (advance (advance s2))) →
    ∀ r ∈ rs, ∃ s2, parse_action s2 = .ok r.action (advance (advance s2))
  | 0, _, _, _, _, h => by simp [parse_rule_list_loop] at h
  | n + 1, rules, rs, s, s5, h => by
      simp only [parse_rule_list_loop] at h
      split_ifs at h with hif
      · obtain ⟨cond, s1, he, h⟩ := PResult.bind_ok h
        obtain ⟨u1, s2, hc1, h⟩ := PResult.bind_ok h
        obtain ⟨act, s3, ha, h⟩ := PResult.bind_ok h
        obtain ⟨u2, s4, hc2, h⟩ := PResult.bind_ok h
        intro hrules
        refine rule_loop_actions n _ rs s4 s5 h ?_
        intro r hr
        simp only [List.mem_append, List.mem_singleton] at hr
        rcases hr with hr | rfl
        · exact hrules r hr
        · have h3 := (parse_action_ok ha).2.2
          exact ⟨s2, by rw [← h3]; exact ha⟩
      · simp only [PResult.ok.injEq] at h
        obtain ⟨rfl, rfl⟩ := h
        exact fun hrules => hrules

theorem parse_program_actions {fuel : Nat} {source : List Char} {p : Program} {st : PState}
    (h : parse_program fuel source = .ok p st) :
    ∀ r ∈ p.rules, ∃ s2, parse_action s2 = .ok r.action (advance (advance s2)) := by
  simp only [parse_program] at h
  obtain ⟨u, s1, hc, h⟩ := PResult.bind_ok h
  split_ifs at h with hstr
  obtain ⟨rules, s2, hl, h⟩ := PResult.bind_ok h
  split_ifs at h with heof
  simp only [PResult.ok.injEq] at h
  obtain ⟨rfl, rfl⟩ := h
  exact rule_loop_actions fuel [] rules _ _ hl (by simp)

/-- The instruction `compile_rule` emits for the action prints the trade line with the
    quantity of the rule. -/
theorem rule_trade_step (c c1 : Chunk) (r : Rule) (h : compile_rule c r = .ok c1)
    (chunk : Chunk) (ctx : VMContext) (symbol : String) (post : List Nat)
    (stk : List Double) (out : List String) (hc : chunk.code = c1.code ++ post) :
    vm_step chunk ctx symbol
        { stack := stk, ip := c.code.length + (expr_code r.condition).length + 5, out := out } =
      .ok { stack := stk, ip := c1.code.length,
            out := out ++ [trade_line symbol r.action.kind r.action.quantity] } := by
  have hcode := compile_rule_code c c1 r h
  have ht := step_trade chunk ctx symbol (c.code ++ expr_code r.condition ++
    OpCode.BC_JUMP_IF_FALSE.toByte :: int32_bytes (CInt.wrap 5)) post r.action.kind
    r.action.quantity stk out (by rw [hc, hcode]; simp [rule_code])
  have hl5 : (int32_bytes (CInt.wrap 5)).length = 4 := rfl
  have hl4 : (int32_bytes r.action.quantity).length = 4 := rfl
  simp only [List.length_append, List.length_cons, hl5] at ht
  rw [hcode]
  simp only [List.length_append, rule_code, List.length_cons, hl5, hl4]
  have e : c.code.length + ((expr_code r.condition).length + (4 + 1 + (4 + 1))) =
      c.code.length + (expr_code r.condition).length + (4 + 1) + 5 := by omega
  rw [e]
  exact ht

theorem pop_stop {vm : VM} {s : Stop} (h : pop vm = .error s) : CompiledStop s := by
  unfold pop at h
  split at h
  · simp only [Except.error.injEq] at h
    exact Or.inr (Or.inr (Or.inr h.symm))
  · simp at h

theorem push_stop {vm : VM} {v : Double} {s : Stop} (h : push vm v = .error s) :
    CompiledStop s := by
  unfold push at h
  split_ifs at h
  simp only [Except.error.injEq] at h
  exact Or.inr (Or.inr (Or.inl h.symm))

theorem binary_case_stop {vm : VM} {f : Double → Double → Double} {s : Stop}
    (h : binary_case vm f = .error s) : CompiledStop s := by
  unfold binary_case at h
  cases h1 : pop vm with
  | error s1 =>
      simp only [h1, Except.error.injEq] at h
      subst h
      exact pop_stop h1
  | ok p =>
      obtain ⟨b, vm2⟩ := p
      simp only [h1] at h
      cases h2 : pop vm2 with
      | error s2 =>
          simp only [h2, Except.error.injEq] at h
          subst h
          exact pop_stop h2
      | ok q =>
          obtain ⟨a, vm3⟩ := q
          simp only [h2] at h
          exact push_stop h

theorem unary_case_stop {vm : VM} {f : Double → Double} {s : Stop}
    (h : unary_case vm f = .error s) : CompiledStop s := by
  unfold unary_case at h
  cases h1 : pop vm with
  | error s1 =>
      simp only [h1, Except.error.injEq] at h
      subst h
      exact pop_stop h1
  | ok p =>
      obtain ⟨b, vm2⟩ := p
      simp only [h1] at h
      exact push_stop h

theorem call_case_stop {vm : VM} {fid argc : Nat} {s : Stop}
    (h : call_case vm fid argc = .error s) : CompiledStop s := by
  unfold call_case at h
  split_ifs at h
  · simp only [Except.error.injEq] at h
    exact Or.inr (Or.inl ⟨.FUNC_SMA, h.symm⟩)
  · exact binary_case_stop h
  · simp only [Except.error.injEq] at h
    exact Or.inr (Or.inl ⟨.FUNC_EMA, h.symm⟩)
  · exact binary_case_stop h
  · simp only [Except.error.injEq] at h
    exact Or.inr (Or.inl ⟨.FUNC_RSI, h.symm⟩)
  · exact unary_case_stop h
  · exact push_stop h

/-- At an instruction boundary of well-shaped code, an instruction that does not complete
    stops the machine in one of the ways of `CompiledStop`: all its bytes are inside the
    chunk, its opcode is known and its jump goes forward. -/
theorem code_tail_step_stop (chunk : Chunk) (ctx : VMContext) (symbol : String) (vm : VM)
    (hb : Boundary chunk vm.ip) (s : Stop) (hs : vm_step chunk ctx symbol vm = .error s) :
    CompiledStop s := by
  obtain ⟨pre, t, hc, ht, hip⟩ := hb
  cases ht with
  | halt =>
      have h1 := fetch_at chunk vm pre [] _ hc hip
      have hstep : vm_step chunk ctx symbol vm = .error .halt := by
        simp only [vm_step, h1, OpCode.ofByte, OpCode.toByte]
        simp
      rw [hstep] at hs
      simp only [Except.error.injEq] at hs
      exact Or.inl hs.symm
  | push_const bs t hl ht =>
      have h1 := fetch_at chunk vm pre (bs ++ t) _ (by simpa using hc) hip
      have h2 := fetch_double_bytes chunk { vm with ip := vm.ip + 1 }
        (pre ++ [OpCode.BC_PUSH_CONST.toByte]) bs t (by simpa using hc) hl (by simp [hip])
      have hstep : vm_step chunk ctx symbol vm =
          push { vm with ip := vm.ip + 1 + 8 } (Double.ofBits (le_value 0 bs)) := by
        simp only [vm_step, h1, h2, OpCode.ofByte, OpCode.toByte]
        simp
      rw [hstep] at hs
      exact push_stop hs
  | load_var id t ht =>
      have h1 := fetch_at chunk vm pre (id :: t) _ hc hip
      have h2 := fetch_at chunk { vm with ip := vm.ip + 1 }
        (pre ++ [OpCode.BC_LOAD_VAR.toByte]) t id (by simpa using hc) (by simp [hip])
      have hstep : vm_step chunk ctx symbol vm =
          push { vm with ip := vm.ip + 1 + 1 } (load_var ctx id) := by
        simp only [vm_step, h1, h2, OpCode.ofByte, OpCode.toByte]
        simp
      rw [hstep] at hs
      exact push_stop hs
  | call_func fid argc t ht =>
      have h1 := fetch_at chunk vm pre (fid :: argc :: t) _ hc hip
      have h2 := fetch_at chunk { vm with ip := vm.ip + 1 }
        (pre ++ [OpCode.BC_CALL_FUNC.toByte]) (argc :: t) fid (by simpa using hc)
        (by simp [hip])
      have h3 := fetch_at chunk { vm with ip := vm.ip + 1 + 1 }
        (pre ++ [OpCode.BC_CALL_FUNC.toByte, fid]) t argc (by simpa using hc)
        (by simp [hip])
      have hstep : vm_step chunk ctx symbol vm =
          call_case { vm with ip := vm.ip + 1 + 1 + 1 } fid argc := by
        simp only [vm_step, h1, h2, h3, OpCode.ofByte, OpCode.toByte]
        simp
      rw [hstep] at hs
      exact call_case_stop hs
  | operator b t h4 h17 ht =>
      have h1 := fetch_at chunk vm pre t b hc hip
      have key : ∀ r : Except Stop VM, vm_step chunk ctx symbol vm = r →
          ((∃ f, r = binary_case { vm with ip := vm.ip + 1 } f) ∨
            ∃ f, r = unary_case { vm with ip := vm.ip + 1 } f) →
          r = .error s → CompiledStop s := by
        intro r _ hr he
        rcases hr with ⟨f, rfl⟩ | ⟨f, rfl⟩
        · exact binary_case_stop he
        · exact unary_case_stop he
      refine key _ rfl ?_ hs
      interval_cases b <;> simp only [vm_step, h1, OpCode.ofByte] <;>
        first
          | exact Or.inl ⟨_, rfl⟩
          | exact Or.inr ⟨_, rfl⟩
  | jump_if_false t1 t hl ht1 ht =>
      have h1 := fetch_at chunk vm pre (int32_bytes (CInt.wrap 5) ++ t1 ++ t) _
        (by simpa using hc) hip
      have h2 := fetch_int32_at chunk { vm with ip := vm.ip + 1 }
        (pre ++ [OpCode.BC_JUMP_IF_FALSE.toByte]) (t1 ++ t) (CInt.wrap 5)
        (by simpa using hc) (by simp [hip])
      cases hp : pop { vm with ip := vm.ip + 1 + 4 } with
      | error s1 =>
          have hstep : vm_step chunk ctx symbol vm = .error s1 := by
            simp only [vm_step, h1, h2, OpCode.ofByte, OpCode.toByte]
            simp [hp]
          rw [hstep] at hs
          simp only [Except.error.injEq] at hs
          subst hs
          exact pop_stop hp
      | ok p =>
          obtain ⟨cond, vm2⟩ := p
          have hstep : vm_step chunk ctx symbol vm =
              if Double.truthy cond then .ok vm2 else jump vm2 (CInt.wrap 5) := by
            simp only [vm_step, h1, h2, OpCode.ofByte, OpCode.toByte]
            simp [hp]
          rw [hstep] at hs
          split_ifs at hs with htr
          have h5 : (CInt.wrap 5).toInt = 5 := by decide
          simp only [jump, h5] at hs
          have hnn : (0 : Int) ≤ (vm2.ip : Int) + 5 := by omega
          simp only [hnn, if_true] at hs
          cases hs
  | trade a qs t ha hl ht =>
      have h1 := fetch_at chunk vm pre (qs ++ t) a (by simpa using hc) hip
      have h2 := fetch_int32_bytes chunk { vm with ip := vm.ip + 1 }
        (pre ++ [a]) qs t (by simpa using hc) hl (by simp [hip])
      have key : ∀ kind, vm_step chunk ctx symbol vm = trade_case chunk symbol kind
            { vm with ip := vm.ip + 1 } → CompiledStop s := by
        intro kind hk
        rw [hk] at hs
        simp only [trade_case, h2] at hs
        cases hs
      rcases ha with rfl | rfl
      · exact key .STMT_BUY (by simp only [vm_step, h1, OpCode.ofByte]; rfl)
      · exact key .STMT_SELL (by simp only [vm_step, h1, OpCode.ofByte]; rfl)

theorem boundary_stops (chunk : Chunk) (ctx : VMContext) (symbol : String) :
    ∀ (m : Nat) (vm : VM), Boundary chunk vm.ip → chunk.code.length - vm.ip ≤ m →
      ∃ r, vm_loop chunk ctx symbol m vm = some r ∧ CompiledStop r.1
  | 0, vm, hb, hm => by
      have := hb.lt
      omega
  | m + 1, vm, hb, hm => by
      simp only [vm_loop]
      cases hs : vm_step chunk ctx symbol vm with
      | error s =>
          exact ⟨(s, vm.out), rfl, code_tail_step_stop chunk ctx symbol vm hb s hs⟩
      | ok vm2 =>
          have h2 := (code_tail_step chunk ctx symbol vm hb).1 vm2 hs
          have := hb.lt
          exact boundary_stops chunk ctx symbol m vm2 h2.1 (by omega)

/-- C13 (amended): for every program that `compile_program` accepts, every context and
    every symbol: the jump of each rule carries a non-negative offset; at every state the
    run reaches, a jump opcode is followed by the offset 5 and an executed instruction
    strictly increases the instruction pointer; and the run stops within `count`
    iterations of the loop, at `Halt`, at a fatal error (the arity guard of a call), at a
    push onto the full evaluation stack or at a pop of the empty one, and in no other
    way: no opcode or operand is read outside the chunk, no opcode is unknown, no jump
    leaves the chunk. -/
theorem compiled_program_run_is_finite (program : Program) (chunk : Chunk)
    (h : compile_program program = .ok chunk) (ctx : VMContext) (symbol : String) :
    (∀ rs1 r rs2, program.rules = rs1 ++ r :: rs2 → ∃ offset post,
      chunk.code = rules_code rs1 ++ expr_code r.condition ++
        OpCode.BC_JUMP_IF_FALSE.toByte :: int32_bytes offset ++ post ∧ 0 ≤ offset.toInt) ∧
    (∀ n vm, vm_steps chunk ctx symbol n { stack := [], ip := 0, out := [] } = .ok vm →
      (∀ b vm0, fetch chunk vm = .ok (b, vm0) →
        b = OpCode.BC_JUMP_IF_FALSE.toByte ∨ b = OpCode.BC_JUMP.toByte →
        ∃ offset vm1, fetch_int32 chunk vm0 = .ok (offset, vm1) ∧ 0 ≤ offset.toInt) ∧
      ∀ vm1, vm_step chunk ctx symbol vm = .ok vm1 → vm.ip < vm1.ip) ∧
    ∃ r, run_chunk chunk.count chunk ctx symbol = some r ∧
      (r.1 = .halt ∨ (∃ f, r.1 = .exit (arity_message f)) ∨
        r.1 = .undefined "push onto a full stack" ∨
        r.1 = .undefined "pop from an empty stack") := by
  have hb := compiled_boundary program chunk h
  have hcode := compile_program_code program chunk h
  refine ⟨?_, ?_, ?_⟩
  · intro rs1 r rs2 hr
    refine ⟨CInt.wrap 5, (action_opcode r.action.kind).toByte ::
      int32_bytes r.action.quantity ++ rules_code rs2 ++ [OpCode.BC_HALT.toByte], ?_,
      by decide⟩
    rw [hcode, hr, rules_code_append]
    simp [rules_code, rule_code]
  · intro n vm hn
    have hv := boundary_steps chunk ctx symbol n _ vm hb hn
    refine ⟨fun b vm0 hf hj => ?_, fun vm1 hs => ?_⟩
    · obtain ⟨vm1, h1⟩ := boundary_jump_offset chunk vm vm0 b hv hf hj
      exact ⟨CInt.wrap 5, vm1, h1, by decide⟩
    · exact ((code_tail_step chunk ctx symbol vm hv).1 vm1 hs).2
  · exact boundary_stops chunk ctx symbol chunk.count { stack := [], ip := 0, out := [] }
      hb (by simp [Chunk.count])

/-- The two-rule program compiles to `two_rule_chunk`, and its run on the example candle
    stops within the 58 bytes of the chunk, at `Halt`. -/
theorem compiled_program_run_is_finite_witness :
    compile_program two_rule_program = .ok two_rule_chunk ∧
    ∃ r, run_chunk two_rule_chunk.count two_rule_chunk example_context "\"X\"" = some r ∧
      (r.1 = .halt ∨ (∃ f, r.1 = .exit (arity_message f)) ∨
        r.1 = .undefined "push onto a full stack" ∨
        r.1 = .undefined "pop from an empty stack") :=
  ⟨rfl, (compiled_program_run_is_finite two_rule_program two_rule_chunk rfl example_context
    "\"X\"").2.2⟩

theorem write_byte_int_eq (c c1 : Chunk) (b : Nat) (h : write_byte_int c b = some c1) :
    c1 = write_byte c b := by
  simp only [write_byte_int] at h
  simp only [write_byte]
  by_cases h1 : INT_MAX < c.count + 1
  · rw [if_pos h1] at h
    cases h
  · rw [if_neg h1] at h
    by_cases hfull : c.count + 1 > c.capacity
    · rw [if_pos hfull] at h
      rw [if_pos hfull]
      by_cases hz : c.capacity ≠ 0
      · rw [if_pos hz] at h
        rw [if_pos hz]
        by_cases h2 : INT_MAX < c.capacity * 2
        · rw [if_pos h2] at h
          cases h
        · rw [if_neg h2] at h
          exact (Option.some.inj h).symm
      · rw [if_neg hz] at h
        rw [if_neg hz]
        exact (Option.some.inj h).symm
    · rw [if_neg hfull] at h
      rw [if_neg hfull]
      exact (Option.some.inj h).symm

theorem write_byte_int_some (c : Chunk) (b : Nat) (h : GrowthInvariant c)
    (hn : c.count < 1073741824) : write_byte_int c b = some (write_byte c b) := by
  have hcap : c.count + 1 > c.capacity → c.capacity * 2 ≤ INT_MAX := by
    intro hfull
    rcases h with ⟨_, hc0⟩ | ⟨_, k, _, hle, _⟩
    · rw [hc0]
      decide
    · simp only [INT_MAX]
      omega
  simp only [write_byte_int, write_byte]
  have h1 : ¬ INT_MAX < c.count + 1 := by
    simp only [INT_MAX]
    omega
  rw [if_neg h1]
  by_cases hfull : c.count + 1 > c.capacity
  · have h2 : ¬ INT_MAX < c.capacity * 2 := Nat.not_lt.mpr (hcap hfull)
    rw [if_pos hfull, if_pos hfull]
    by_cases hz : c.capacity ≠ 0
    · rw [if_pos hz, if_pos hz, if_neg h2]
    · rw [if_neg hz, if_neg hz]
  · rw [if_neg hfull, if_neg hfull]

theorem growth_invariant_full (c : Chunk) (h : GrowthInvariant c)
    (hn : c.count = 1073741824) : c.capacity = 1073741824 := by
  rcases h with ⟨h0, _⟩ | ⟨_, k, hk, hle, hmin⟩
  · omega
  · have h24 : (64 : Nat) * 2 ^ 24 = 1073741824 := by norm_num
    have hk24 : k = 24 := by
      rcases Nat.lt_trichotomy k 24 with hlt | heq | hgt
      · have hp : 2 ^ k ≤ 2 ^ 23 := Nat.pow_le_pow_right Nat.two_pos (by omega)
        have h23 : (2 : Nat) ^ 23 = 8388608 := by norm_num
        omega
      · exact heq
      · have hp : 2 ^ 24 ≤ 2 ^ (k - 1) := Nat.pow_le_pow_right Nat.two_pos (by omega)
        have h24b : (2 : Nat) ^ 24 = 16777216 := by norm_num
        rcases hmin with hz | hlt
        · omega
        · omega
    rw [hk, hk24, h24]

theorem write_byte_int_none (c : Chunk) (b : Nat) (h : GrowthInvariant c)
    (hn : c.count = 1073741824) : write_byte_int c b = none := by
  have hcap := growth_invariant_full c h hn
  simp only [write_byte_int, hn, hcap, INT_MAX]
  rw [if_neg (by decide), if_pos (by decide), if_pos (by decide), if_pos (by decide)]

theorem write_bytes_int_some : ∀ (bytes : List Nat) (c : Chunk), GrowthInvariant c →
    c.count + bytes.length ≤ 1073741824 →
    write_bytes_int c bytes = some (write_bytes c bytes)
  | [], c, _, _ => rfl
  | b :: bs, c, h, hn => by
      simp only [List.length_cons] at hn
      simp only [write_bytes_int, write_byte_int_some c b h (by omega)]
      have ih := write_bytes_int_some bs (write_byte c b) (write_byte_growth c b h)
        (by rw [write_byte_count]; omega)
      rw [ih]
      rfl

theorem write_bytes_int_none : ∀ (bytes : List Nat) (c : Chunk), GrowthInvariant c →
    c.count ≤ 1073741824 → 1073741824 < c.count + bytes.length →
    write_bytes_int c bytes = none
  | [], c, _, h1, h2 => by
      simp only [List.length_nil] at h2
      omega
  | b :: bs, c, h, h1, h2 => by
      simp only [List.length_cons] at h2
      simp only [write_bytes_int]
      by_cases hfull : c.count = 1073741824
      · rw [write_byte_int_none c b h hfull]
      · rw [write_byte_int_some c b h (by omega)]
        exact write_bytes_int_none bs (write_byte c b) (write_byte_growth c b h)
          (by rw [write_byte_count]; omega) (by rw [write_byte_count]; omega)

/-- C24 (amended): chunk growth within the range of `int`.  Starting from `init_chunk`
    (count 0, capacity 0), after any sequence of `n` calls of `write_byte` with
    `1 ≤ n ≤ 2 ^ 30`, every call is defined, the count is `n`, the code holds the bytes
    written (each converted to `uint8_t`), in order, and the capacity is the least number
    of the form `64 * 2 ^ k` that is at least `n`: 64 after the first write, doubled
    each time the chunk is full.  The count never exceeds the capacity, and the capacity
    never exceeds `2 ^ 30`. -/
theorem chunk_capacity_is_least_doubling (bytes : List Nat) (h : bytes ≠ [])
    (hn : bytes.length ≤ 1073741824) :
    init_chunk.count = 0 ∧ init_chunk.capacity = 0 ∧
    ∃ c, write_bytes_int init_chunk bytes = some c ∧
      c = write_bytes init_chunk bytes ∧
      c.count = bytes.length ∧
      c.code = bytes.map (fun b => b % 256) ∧
      ((∀ b ∈ bytes, b < 256) → c.code = bytes) ∧
      (∃ k, c.capacity = 64 * 2 ^ k ∧ bytes.length ≤ 64 * 2 ^ k ∧
        ∀ j, bytes.length ≤ 64 * 2 ^ j → 64 * 2 ^ k ≤ 64 * 2 ^ j) ∧
      (∀ b, write_byte_int init_chunk b = some { code := [b % 256], capacity := 64 }) ∧
      (∀ (c0 c1 : Chunk) (b : Nat), c0.capacity ≠ 0 → write_byte_int c0 b = some c1 →
        c1.capacity = if c0.count + 1 > c0.capacity then 2 * c0.capacity else c0.capacity) ∧
      c.count ≤ c.capacity ∧ c.capacity ≤ 1073741824 := by
  have hinit : GrowthInvariant init_chunk := Or.inl ⟨rfl, rfl⟩
  obtain ⟨hinv, hcount, hcode⟩ := write_bytes_spec bytes init_chunk hinit
  have hc0 : init_chunk.count = 0 := rfl
  have hsome := write_bytes_int_some bytes init_chunk hinit (by rw [hc0]; omega)
  rw [hc0, Nat.zero_add] at hcount
  have hlen : 1 ≤ bytes.length := by
    cases bytes with
    | nil => exact absurd rfl h
    | cons b bs => simp
  obtain ⟨k, hk, hle, hmin⟩ := growth_invariant_least _ hinv (by omega)
  rw [hcount] at hle hmin
  refine ⟨rfl, rfl, _, hsome, rfl, hcount, by simpa [init_chunk] using hcode, fun hb => ?_,
    ⟨k, hk, hle, hmin⟩, fun b => rfl, fun c0 c1 b hne h1 => ?_, by omega, ?_⟩
  · rw [hcode]
    simp only [init_chunk, List.nil_append]
    conv_rhs => rw [← List.map_id bytes]
    exact List.map_congr_left (fun b hb1 => Nat.mod_eq_of_lt (hb b hb1))
  · rw [write_byte_int_eq c0 c1 b h1]
    simp only [write_byte, hne, ne_eq, not_false_eq_true, if_true, Nat.mul_comm]
  · have := hmin 24 (by norm_num; omega)
    rw [hk]
    norm_num at this ⊢
    omega

/-- Sixty-five writes: the capacity is 64 after the first and the 64th, and 128 after the
    65th. -/
theorem chunk_capacity_is_least_doubling_witness :
    List.replicate 65 7 ≠ [] ∧ (List.replicate 65 7).length ≤ 1073741824 ∧
    (write_bytes_int init_chunk [7]).map Chunk.capacity = some 64 ∧
    (write_bytes_int init_chunk (List.replicate 64 7)).map Chunk.capacity = some 64 ∧
    ∃ c, write_bytes_int init_chunk (List.replicate 65 7) = some c ∧
      c.capacity = 128 ∧ c.count = 65 ∧ c.count ≤ c.capacity := by
  obtain ⟨c, h1, h2, h3, _, _, _, _, _, h4, _⟩ :=
    (chunk_capacity_is_least_doubling (List.replicate 65 7) (by decide) (by decide)).2.2
  refine ⟨by decide, by decide, by decide, by decide, c, h1, ?_, h3, h4⟩
  rw [h2]
  decide

/-- C24 as stated fails beyond `2 ^ 30` writes.  The fields `count` and `capacity` are
    `int`: after `2 ^ 30` writes the chunk is full with capacity `2 ^ 30`, and the next
    call of `write_byte` computes `old_cap * 2 = 2 ^ 31`, which no `int` holds (the
    multiplication overflows, undefined in C).  The least `64 * 2 ^ k` that is at least
    `2 ^ 30 + 1` is above `INT_MAX`, so no value of the field can be the capacity the
    statement asks for. -/
theorem capacity_doubling_overflows_int :
    (∃ c, write_bytes_int init_chunk (List.replicate 1073741824 0) = some c ∧
      c.count = 1073741824 ∧ c.capacity = 1073741824 ∧
      ∀ b, write_byte_int c b = none) ∧
    write_bytes_int init_chunk (List.replicate 1073741825 0) = none ∧
    (∀ bytes, 1073741824 < bytes.length → write_bytes_int init_chunk bytes = none) ∧
    (∀ k, 1073741825 ≤ 64 * 2 ^ k → INT_MAX < 64 * 2 ^ k) := by
  have hinit : GrowthInvariant init_chunk := Or.inl ⟨rfl, rfl⟩
  have hc0 : init_chunk.count = 0 := rfl
  have hgen : ∀ bytes, 1073741824 < bytes.length → write_bytes_int init_chunk bytes = none :=
    fun bytes hb => write_bytes_int_none bytes init_chunk hinit (by rw [hc0]; omega)
      (by rw [hc0]; omega)
  refine ⟨?_, hgen _ ?_, hgen, fun k hk => ?_⟩
  · have hl : (List.replicate 1073741824 0).length = 1073741824 := List.length_replicate _ _
    obtain ⟨hinv, hcount, _⟩ := write_bytes_spec (List.replicate 1073741824 0) init_chunk hinit
    rw [hc0, Nat.zero_add, hl] at hcount
    refine ⟨_, write_bytes_int_some _ init_chunk hinit (by rw [hc0, hl]), hcount,
      growth_invariant_full _ hinv hcount, fun b => write_byte_int_none _ b hinv hcount⟩
  · rw [List.length_replicate]
    omega
  · simp only [INT_MAX]
    rcases Nat.lt_or_ge k 25 with hlt | hge
    · have hp : 2 ^ k ≤ 2 ^ 24 := Nat.pow_le_pow_right Nat.two_pos (by omega)
      have h24 : (2 : Nat) ^ 24 = 16777216 := by norm_num
      omega
    · have hp : 2 ^ 25 ≤ 2 ^ k := Nat.pow_le_pow_right Nat.two_pos hge
      have h25 : (2 : Nat) ^ 25 = 33554432 := by norm_num
      omega

theorem advance_number_literal (s : PState)
    (h : (advance s).current_token.type = .TOK_NUMBER) :
    ∃ ip fp : List Char, ip ≠ [] ∧ (∀ d ∈ ip, is_digit d = true) ∧
      (∀ d ∈ fp, is_digit d = true) ∧
      (((advance s).current_token.lexeme = String.mk ip ∧ fp = []) ∨
        (advance s).current_token.lexeme = String.mk (ip ++ '.' :: fp)) ∧
      (advance s).current_token.number =
        Double.ofSignMag false (decimal_value (ip ++ fp)) (10 ^ fp.length) := by
  obtain ⟨c, rest, hc, he⟩ := next_token_number_branch s.current h
  have hf := number_token_form c rest hc
  rw [← he] at hf
  exact hf

/-- A double that is not negative and whose conversion to `int` is defined is below
    `2 ^ 31`. -/
theorem double_to_int_below (d : Double) (q : CInt) (hs : d.signBit = false)
    (h : double_to_int d = some q) : Double.lt d (Double.ofInt 2147483648) = true := by
  have ht := double_to_int_trunc d q h
  obtain ⟨x, hx⟩ := d
  have hq := q.hi
  rw [ofInt_two_pow_31_bits]
  have hkey : (⟨4746794007248502784, by decide⟩ : Double).ordKey = 4746794007248502784 := rfl
  have hnan : (⟨4746794007248502784, by decide⟩ : Double).isNaN = false := rfl
  have hsb : x < 9223372036854775808 := by
    simpa [Double.signBit] using hs
  have hne : (⟨x, hx⟩ : Double).expField ≠ 2047 := by
    intro he
    simp [Double.trunc?, he] at ht
  have hnan2 : (⟨x, hx⟩ : Double).isNaN = false := by
    simp [Double.isNaN, hne]
  simp only [Double.lt, hkey, hnan, hnan2, Bool.or_false, Bool.not_false, Bool.true_and,
    decide_eq_true_eq, Double.ordKey, hs, Bool.false_eq_true, if_false]
  by_contra hge
  have hbits : 4746794007248502784 ≤ x := by
    have : ¬ ((x : Int) < 4746794007248502784) := hge
    omega
  simp only [Double.expField] at hne
  have hexp : 1054 ≤ x / 4503599627370496 % 2048 := by omega
  have hmant : 4503599627370496 ≤ (⟨x, hx⟩ : Double).mant := by
    simp only [Double.mant, Double.expField, Double.fracField]
    split_ifs <;> omega
  have hexpo : -21 ≤ (⟨x, hx⟩ : Double).expo := by
    simp only [Double.expo, Double.expField]
    split_ifs <;> omega
  simp only [Double.trunc?, Double.expField, hne, if_false, hs, Bool.false_eq_true,
    Option.some.injEq] at ht
  by_cases hpos : (0 : Int) ≤ (⟨x, hx⟩ : Double).expo
  · rw [if_pos hpos] at ht
    have h1 : 1 ≤ 2 ^ (⟨x, hx⟩ : Double).expo.toNat := Nat.one_le_two_pow
    have h2 : (⟨x, hx⟩ : Double).mant * 1 ≤
        (⟨x, hx⟩ : Double).mant * 2 ^ (⟨x, hx⟩ : Double).expo.toNat :=
      Nat.mul_le_mul_left _ h1
    have h3 : ((⟨x, hx⟩ : Double).mant * 2 ^ (⟨x, hx⟩ : Double).expo.toNat : Nat) =
        q.toInt := ht
    omega
  · rw [if_neg hpos] at ht
    have hk : (-(⟨x, hx⟩ : Double).expo).toNat ≤ 21 := by omega
    have hp : 2 ^ (-(⟨x, hx⟩ : Double).expo).toNat ≤ 2 ^ 21 :=
      Nat.pow_le_pow_right Nat.two_pos hk
    have h21 : (2 : Nat) ^ 21 = 2097152 := by norm_num
    have hdiv : 2147483648 ≤
        (⟨x, hx⟩ : Double).mant / 2 ^ (-(⟨x, hx⟩ : Double).expo).toNat := by
      rw [Nat.le_div_iff_mul_le (by positivity)]
      calc 2147483648 * 2 ^ (-(⟨x, hx⟩ : Double).expo).toNat
          ≤ 2147483648 * 2 ^ 21 := Nat.mul_le_mul_left _ hp
        _ ≤ (⟨x, hx⟩ : Double).mant := by rw [h21]; omega
    have h3 : ((⟨x, hx⟩ : Double).mant / 2 ^ (-(⟨x, hx⟩ : Double).expo).toNat : Nat) =
        q.toInt := ht
    omega

theorem parse_action_literal_below {s s3 : PState} {act : Stmt}
    (h : parse_action s = .ok act s3) :
    Double.lt (advance s).current_token.number (Double.ofInt 2147483648) = true := by
  have hn := (parse_action_ok h).2.1
  have hq : double_to_int (advance s).current_token.number = some act.quantity := by
    unfold parse_action at h
    split_ifs at h with h1 h2 <;>
      (unfold parse_quantity at h
       split_ifs at h with hc
       cases hd : double_to_int (advance s).current_token.number with
       | none => simp [hd] at h
       | some q =>
           simp only [hd, PResult.ok.injEq] at h
           rw [← h.1])
  exact double_to_int_below _ _ (advance_number_nonneg s hn) hq

/-- C27 (amended): the quantity of an action is the double of the number literal,
    truncated toward zero.  When `parse_action` stands at `buy` or `sell` and the next
    token is a number, the token carries the double nearest to the decimal value of its
    lexeme `ip` or `ip.fp`; when that double is below `2 ^ 31`, `parse_action` returns the
    statement of that kind with a quantity `q` that is the integer part of the double:
    with the double written `mant * 2 ^ expo`, the exponent is negative and
    `q * 2 ^ (-expo) ≤ mant < (q + 1) * 2 ^ (-expo)`, and `q` is not negative.  In every
    program `parse_program` returns, every rule has an action that `parse_action`
    produced from a number token whose double is below `2 ^ 31`; its quantity is the
    integer part of that double and is not negative.  The instruction `compile_rule` emits
    for the action of a rule prints `SYMBOL <symbol>: BUY <q>` or
    `SYMBOL <symbol>: SELL <q>` with that same quantity.  The quantities `2.9`, `0.5` and
    `2147483647.9` are printed as `2`, `0` and `2147483647`; at `2147483648` the
    conversion to `int` has no defined result. -/
theorem quantity_is_truncated_literal :
    (∀ (s : PState) (kind : StmtKind),
      ((s.current_token.type = .TOK_BUY ∧ kind = .STMT_BUY) ∨
        (s.current_token.type = .TOK_SELL ∧ kind = .STMT_SELL)) →
      (advance s).current_token.type = .TOK_NUMBER →
      (∃ ip fp : List Char, ip ≠ [] ∧ (∀ d ∈ ip, is_digit d = true) ∧
        (∀ d ∈ fp, is_digit d = true) ∧
        (((advance s).current_token.lexeme = String.mk ip ∧ fp = []) ∨
          (advance s).current_token.lexeme = String.mk (ip ++ '.' :: fp)) ∧
        (advance s).current_token.number =
          Double.ofSignMag false (decimal_value (ip ++ fp)) (10 ^ fp.length)) ∧
      (Double.lt (advance s).current_token.number (Double.ofInt 2147483648) = true →
        ∃ q : CInt,
          parse_action s = .ok { kind := kind, quantity := q } (advance (advance s)) ∧
          (advance s).current_token.number.trunc? = some q.toInt ∧
          0 ≤ q.toInt ∧
          (advance s).current_token.number.expo < 0 ∧
          q.toInt.toNat * 2 ^ (-(advance s).current_token.number.expo).toNat ≤
            (advance s).current_token.number.mant ∧
          (advance s).current_token.number.mant <
            (q.toInt.toNat + 1) * 2 ^ (-(advance s).current_token.number.expo).toNat)) ∧
    (∀ fuel source p st, parse_program fuel source = .ok p st →
      ∀ r ∈ p.rules, 0 ≤ r.action.quantity.toInt ∧
        ∃ s, parse_action s = .ok r.action (advance (advance s)) ∧
          (advance s).current_token.type = .TOK_NUMBER ∧
          Double.lt (advance s).current_token.number (Double.ofInt 2147483648) = true ∧
          (advance s).current_token.number.trunc? = some r.action.quantity.toInt) ∧
    (∀ (c c1 : Chunk) (r : Rule), compile_rule c r = .ok c1 →
      ∀ (chunk : Chunk) (ctx : VMContext) (symbol : String) (post : List Nat)
        (stk : List Double) (out : List String), chunk.code = c1.code ++ post →
        vm_step chunk ctx symbol
            { stack := stk, ip := c.code.length + (expr_code r.condition).length + 5,
              out := out } =
          .ok { stack := stk, ip := c1.code.length,
                out := out ++ [trade_line symbol r.action.kind r.action.quantity] }) ∧
    (∀ (symbol : String) (q : CInt),
      trade_line symbol .STMT_BUY q = "SYMBOL " ++ symbol ++ ": BUY " ++ toString q.toInt ∧
      trade_line symbol .STMT_SELL q = "SYMBOL " ++ symbol ++ ": SELL " ++ toString q.toInt) ∧
    Tlc.main 30 fractional_quantity_source =
      .finished .halt ["SYMBOL \"X\": BUY 2", "SYMBOL \"X\": SELL 0"] ∧
    Tlc.main 30 largest_quantity_source =
      .finished .halt ["SYMBOL \"X\": BUY 2147483647"] ∧
    Tlc.main 30 out_of_range_quantity_source =
      .parse_undefined "conversion of an out-of-range double to int" := by
  refine ⟨fun s kind hk hn => ⟨advance_number_literal s hn, fun hlt => ?_⟩,
    fun fuel source p st h r hr => ?_,
    fun c c1 r h chunk ctx symbol post stk out hc => ?_, fun symbol q => ⟨rfl, rfl⟩,
    rfl, rfl, rfl⟩
  · obtain ⟨q, hq, ht, he, hv⟩ := parse_action_quantity s kind hk hn hlt
    have hnat : q.toInt.toNat = (advance s).current_token.number.mant /
        2 ^ (-(advance s).current_token.number.expo).toNat := by
      rw [hv]
      exact Int.toNat_ofNat _
    refine ⟨q, hq, ht, by rw [hv]; exact Int.ofNat_nonneg _, he, ?_, ?_⟩
    · rw [hnat]
      exact Nat.div_mul_le_self _ _
    · rw [hnat, Nat.mul_comm]
      exact Nat.lt_mul_div_succ _ (by positivity)
  · obtain ⟨s, hs⟩ := parse_program_actions h r hr
    have hst := parse_action_stores_trunc hs
    exact ⟨hst.2.2, s, hs, hst.1, parse_action_literal_below hs, hst.2.1⟩
  · exact rule_trade_step c c1 r h chunk ctx symbol post stk out hc

/-- At `buy 2.9` the action parsed has quantity 2, and at `sell 0.5` quantity 0. -/
theorem quantity_is_truncated_literal_witness :
    ((start_parser_state "buy 2.9".toList).current_token.type = .TOK_BUY ∧
      (advance (start_parser_state "buy 2.9".toList)).current_token.type = .TOK_NUMBER ∧
      Double.lt (advance (start_parser_state "buy 2.9".toList)).current_token.number
        (Double.ofInt 2147483648) = true ∧
      ∃ q : CInt, parse_action (start_parser_state "buy 2.9".toList) =
          .ok { kind := .STMT_BUY, quantity := q }
            (advance (advance (start_parser_state "buy 2.9".toList))) ∧
        q.toInt = 2) ∧
    ((start_parser_state "sell 0.5".toList).current_token.type = .TOK_SELL ∧
      (advance (start_parser_state "sell 0.5".toList)).current_token.type = .TOK_NUMBER ∧
      Double.lt (advance (start_parser_state "sell 0.5".toList)).current_token.number
        (Double.ofInt 2147483648) = true ∧
      ∃ q : CInt, parse_action (start_parser_state "sell 0.5".toList) =
          .ok { kind := .STMT_SELL, quantity := q }
            (advance (advance (start_parser_state "sell 0.5".toList))) ∧
        q.toInt = 0) := by
  constructor
  · obtain ⟨q, h1, h2, _⟩ := (quantity_is_truncated_literal.1
      (start_parser_state "buy 2.9".toList) .STMT_BUY (Or.inl ⟨by decide, rfl⟩)
      (by decide)).2 (by decide)
    have ht : (advance (start_parser_state "buy 2.9".toList)).current_token.number.trunc? =
        some 2 := by decide
    rw [ht] at h2
    exact ⟨by decide, by decide, by decide, q, h1, (Option.some.inj h2).symm⟩
  · obtain ⟨q, h1, h2, _⟩ := (quantity_is_truncated_literal.1
      (start_parser_state "sell 0.5".toList) .STMT_SELL (Or.inr ⟨by decide, rfl⟩)
      (by decide)).2 (by decide)
    have ht : (advance (start_parser_state "sell 0.5".toList)).current_token.number.trunc? =
        some 0 := by decide
    rw [ht] at h2
    exact ⟨by decide, by decide, by decide, q, h1, (Option.some.inj h2).symm⟩

/-- C27 as stated fails on two literals, because the quantity is computed from the double
    nearest to the literal and not from the literal.  The literal
    `0.99999999999999999999` is below 1, so truncated toward zero it is 0; its token
    carries the double 1, and the program prints `BUY 1`.  The literal
    `2147483647.99999999999` is below `2 ^ 31`; its token carries the double `2 ^ 31`,
    whose conversion to `int` has no defined result, so that the parser stores no
    quantity C defines (and none that must be non-negative). -/
theorem literal_is_rounded_before_truncation :
    ((next_token "0.99999999999999999999 end".toList).1.type = .TOK_NUMBER ∧
      (next_token "0.99999999999999999999 end".toList).1.lexeme = "0.99999999999999999999" ∧
      decimal_value ("0".toList ++ "99999999999999999999".toList) / 10 ^ 20 = 0 ∧
      (next_token "0.99999999999999999999 end".toList).1.number = Double.ofInt 1 ∧
      double_to_int (next_token "0.99999999999999999999 end".toList).1.number =
        some (CInt.wrap 1) ∧
      Tlc.main 30 rounded_up_quantity_source =
        .finished .halt ["SYMBOL \"X\": BUY 1"]) ∧
    ((next_token "2147483647.99999999999 end".toList).1.type = .TOK_NUMBER ∧
      (next_token "2147483647.99999999999 end".toList).1.lexeme = "2147483647.99999999999" ∧
      decimal_value ("2147483647".toList ++ "99999999999".toList) < 2147483648 * 10 ^ 11 ∧
      (next_token "2147483647.99999999999 end".toList).1.number = Double.ofInt 2147483648 ∧
      double_to_int (next_token "2147483647.99999999999 end".toList).1.number = none ∧
      Tlc.main 30 rounded_to_limit_quantity_source =
        .parse_undefined "conversion of an out-of-range double to int") :=
  ⟨⟨by decide, by decide, by decide, by decide, by decide, rfl⟩,
    ⟨by decide, by decide, by decide, by decide, by decide, rfl⟩⟩

theorem vm_steps_error_add (chunk : Chunk) (ctx : VMContext) (symbol : String) :
    ∀ (n m : Nat) (vm : VM) (s : Stop), vm_steps chunk ctx symbol n vm = .error s →
      vm_steps chunk ctx symbol (n + m) vm = .error s
  | 0, m, vm, s, h => by simp [vm_steps] at h
  | n + 1, m, vm, s, h => by
      have e : n + 1 + m = (n + m) + 1 := by omega
      rw [e]
      simp only [vm_steps] at h ⊢
      cases hs : vm_step chunk ctx symbol vm with
      | error s1 => simpa [hs] using h
      | ok vm2 =>
          simp only [hs] at h ⊢
          exact vm_steps_error_add chunk ctx symbol n m vm2 s h

theorem Runs.single {chunk : Chunk} {ctx : VMContext} {symbol : String} {vm : VM} {limit : Nat}
    (r : Except Stop VM) (h : vm_step chunk ctx symbol vm = r) (hl : vm.ip < limit) :
    Runs chunk ctx symbol vm 1 limit r := by
  refine ⟨by rw [vm_steps_one, h], fun k hk vmk hvk => ?_⟩
  have : k = 0 := by omega
  subst this
  simp only [vm_steps, Except.ok.injEq] at hvk
  subst hvk
  exact ⟨hl, rfl⟩

theorem Runs.mono {chunk : Chunk} {ctx : VMContext} {symbol : String} {vm : VM}
    {n l1 : Nat} {r : Except Stop VM} (h : Runs chunk ctx symbol vm n l1 r) (l2 : Nat)
    (hl : l1 ≤ l2) : Runs chunk ctx symbol vm n l2 r :=
  ⟨h.1, fun k hk vmk hvk => ⟨Nat.lt_of_lt_of_le (h.2 k hk vmk hvk).1 hl, (h.2 k hk vmk hvk).2⟩⟩

theorem Runs.error {chunk : Chunk} {ctx : VMContext} {symbol : String} {vm : VM}
    {n limit : Nat} {s : Stop} (h : Runs chunk ctx symbol vm n limit (.error s)) (m : Nat) :
    Runs chunk ctx symbol vm (n + m) limit (.error s) := by
  refine ⟨vm_steps_error_add chunk ctx symbol n m vm s h.1, fun k hk vmk hvk => ?_⟩
  by_cases hkn : k < n
  · exact h.2 k hkn vmk hvk
  · obtain ⟨j, rfl⟩ : ∃ j, k = n + j := ⟨k - n, by omega⟩
    rw [vm_steps_error_add chunk ctx symbol n j vm s h.1] at hvk
    cases hvk

theorem Runs.bind {chunk : Chunk} {ctx : VMContext} {symbol : String} {vm vm1 : VM}
    {n m limit : Nat} {r : Except Stop VM} (h1 : Runs chunk ctx symbol vm n limit (.ok vm1))
    (ho : vm1.out = vm.out) (h2 : Runs chunk ctx symbol vm1 m limit r) :
    Runs chunk ctx symbol vm (n + m) limit r := by
  refine ⟨by rw [vm_steps_add chunk ctx symbol n m vm vm1 h1.1]; exact h2.1,
    fun k hk vmk hvk => ?_⟩
  by_cases hkn : k < n
  · exact h1.2 k hkn vmk hvk
  · obtain ⟨j, rfl⟩ : ∃ j, k = n + j := ⟨k - n, by omega⟩
    rw [vm_steps_add chunk ctx symbol n j vm vm1 h1.1] at hvk
    have := h2.2 j (by omega) vmk hvk
    exact ⟨this.1, by rw [this.2, ho]⟩

theorem Runs.zero (chunk : Chunk) (ctx : VMContext) (symbol : String) (vm : VM) (limit : Nat) :
    Runs chunk ctx symbol vm 0 limit (.ok vm) :=
  ⟨rfl, fun k hk => by omega⟩

theorem args_length_le_stack_need : ∀ (es : List Expr), es.length ≤ stack_need_args es
  | [] => by simp
  | e :: es => by
      have h1 := args_length_le_stack_need es
      simp only [stack_need_args, List.length_cons]
      omega

theorem resolved_stack_need_pos : ∀ (e : Expr), names_resolve e = true → 1 ≤ stack_need e
  | .number _, _ => by simp [stack_need]
  | .ident _, _ => by simp [stack_need]
  | .string _, h => by simp [names_resolve] at h
  | .call _ _, _ => by simp [stack_need]
  | .binary _ _ _, _ => by simp only [stack_need]; omega
  | .unary _ left, h => by
      simp only [names_resolve] at h
      simpa [stack_need] using resolved_stack_need_pos left h

theorem eager_args_length (ctx : VMContext) : ∀ (es : List Expr) (vs : List Double),
    eager_args ctx es = .ok vs → vs.length = es.length
  | [], vs, h => by
      simp only [eager_args, Except.ok.injEq] at h
      subst h
      rfl
  | e :: es, vs, h => by
      simp only [eager_args] at h
      cases he : eager_eval ctx e with
      | error s => simp [he] at h
      | ok v =>
          cases hes : eager_args ctx es with
          | error s => simp [he, hes] at h
          | ok vs1 =>
              simp only [he, hes, Except.ok.injEq] at h
              subst h
              simp [eager_args_length ctx es vs1 hes]

theorem call_value_none (f : FuncId) (vals : List Double) :
    call_value f vals = none ↔ vals.length ≠ arity f := by
  cases f <;>
    (match vals with
     | [] => simp [call_value, arity]
     | [x] => simp [call_value, arity]
     | [x, y] => simp [call_value, arity]
     | x :: y :: z :: rest => simp [call_value, arity])

/-- The call instruction on evaluated arguments: the value of the call when the number of
    arguments is right, the exit of the arity guard otherwise. -/
theorem call_case_eval (f : FuncId) (vals : List Double) (stk : List Double) (ip : Nat)
    (out : List String) (hs : stk.length < STACK_MAX) (hl : vals.length ≤ 256) :
    call_case { stack := vals.reverse ++ stk, ip := ip, out := out } f.toByte
        (vals.length % 256) =
      match call_value f vals with
      | some v => .ok { stack := v :: stk, ip := ip, out := out }
      | none => .error (.exit (arity_message f)) := by
  cases hv : call_value f vals with
  | some v =>
      have hne : ¬ (vals.length ≠ arity f) := by
        rw [← call_value_none, hv]
        simp
      have hlen : vals.length = arity f := by omega
      have harity : arity f ≤ 2 := by cases f <;> simp [arity]
      have hmod : vals.length % 256 = vals.length := Nat.mod_eq_of_lt (by omega)
      rw [hmod]
      exact call_value_step f vals v hv stk ip out hs
  | none =>
      have hne := (call_value_none f vals).mp hv
      have harity : 1 ≤ arity f ∧ arity f ≤ 2 := by cases f <;> simp [arity]
      have hmod : vals.length % 256 ≠ arity f := by
        rcases Nat.lt_or_ge vals.length 256 with hlt | hge
        · rw [Nat.mod_eq_of_lt hlt]
          exact hne
        · have : vals.length = 256 := by omega
          rw [this]
          omega
      exact call_case_arity_mismatch _ f _ hmod

theorem binary_op_code_length (op : OpKind) (f : Double → Double → Double)
    (h : binary_fn op = some f) : (binary_op_code op).length = 1 := by
  cases op <;> simp [binary_fn] at h <;> rfl

theorem unary_op_code_length (op : OpKind) (f : Double → Double)
    (h : unary_fn op = some f) : (unary_op_code op).length = 1 := by
  cases op <;> simp [unary_fn] at h <;> rfl

mutual
/-- Execution of the code of a condition the compiler accepts, with every operator in its
    place, on a stack with room for it: the run of `instr_count e` instructions pushes the
    value of the condition under eager evaluation, or stops with the failure of that
    evaluation; until then the instruction pointer stays inside the code of the condition
    and nothing is printed. -/
theorem run_expr (chunk : Chunk) (ctx : VMContext) (symbol : String) :
    ∀ (e : Expr), names_resolve e = true → operators_placed e = true →
    ∀ (pre post : List Nat) (stk : List Double) (out : List String),
      chunk.code = pre ++ expr_code e ++ post →
      stk.length + stack_need e ≤ STACK_MAX →
      Runs chunk ctx symbol { stack := stk, ip := pre.length, out := out } (instr_count e)
        (pre.length + (expr_code e).length)
        (match eager_eval ctx e with
         | .ok v => .ok { stack := v :: stk, ip := pre.length + (expr_code e).length,
                          out := out }
         | .error s => .error s)
  | .number value, _, _, pre, post, stk, out, hc, hs => by
      simp only [stack_need] at hs
      simp only [expr_code] at hc
      have hstep := step_push_const chunk ctx symbol pre post value stk out hc (by omega)
      have hl : (expr_code (.number value)).length = 9 := by simp [expr_code, double_bytes]
      simp only [instr_count, eager_eval, hl]
      exact Runs.single _ hstep (by simp only; omega)
  | .ident name, hn, _, pre, post, stk, out, hc, hs => by
      simp only [stack_need] at hs
      simp only [names_resolve] at hn
      cases hv : is_builtin_var name with
      | none => simp [hv] at hn
      | some id =>
          simp only [expr_code, hv] at hc
          have hstep := step_load_var chunk ctx symbol pre post id.toByte stk out hc (by omega)
          have hl : (expr_code (.ident name)).length = 2 := by simp [expr_code, hv]
          simp only [instr_count, eager_eval, hv, hl]
          exact Runs.single _ hstep (by simp only; omega)
  | .string _, hn, _, _, _, _, _, _, _ => by simp [names_resolve] at hn
  | .call func_name args, hn, hp, pre, post, stk, out, hc, hs => by
      simp only [names_resolve, Bool.and_eq_true] at hn
      simp only [operators_placed] at hp
      simp only [stack_need] at hs
      cases hf : is_builtin_func func_name with
      | none => simp [hf] at hn
      | some f =>
          simp only [expr_code, hf] at hc
          have hl : (expr_code (.call func_name args)).length = (args_code args).length + 3 := by
            simp [expr_code, hf]
          have hargs := run_args chunk ctx symbol args hn.2 hp pre
            ([OpCode.BC_CALL_FUNC.toByte, f.toByte, args.length % 256] ++ post) stk out
            (by simpa using hc) (by omega)
          simp only [instr_count, eager_eval, hf, hl]
          cases hv : eager_args ctx args with
          | error s =>
              simp only [hv] at hargs ⊢
              exact (hargs.mono _ (by omega)).error 1
          | ok vals =>
              simp only [hv] at hargs ⊢
              have hlen := eager_args_length ctx args vals hv
              have hle := args_length_le_stack_need args
              have hstep := step_call chunk ctx symbol (pre ++ args_code args) post f.toByte
                (args.length % 256) (vals.reverse ++ stk) out (by simpa using hc)
              simp only [List.length_append] at hstep
              rw [← hlen, call_case_eval f vals stk _ out (by omega)
                (by simp only [STACK_MAX] at hs; omega)] at hstep
              refine (hargs.mono _ (by omega)).bind rfl (Runs.single _ ?_ (by simp only; omega))
              rw [hstep]
              cases call_value f vals with
              | none => rfl
              | some v => simp [Nat.add_assoc]
  | .binary op left right, hn, hp, pre, post, stk, out, hc, hs => by
      simp only [names_resolve, Bool.and_eq_true] at hn
      simp only [operators_placed, Bool.and_eq_true] at hp
      simp only [stack_need] at hs
      simp only [expr_code] at hc
      cases hf : binary_fn op with
      | none => simp [hf] at hp
      | some f =>
          have hopl := binary_op_code_length op f hf
          have hl : (expr_code (.binary op left right)).length =
              (expr_code left).length + (expr_code right).length + 1 := by
            simp only [expr_code, List.length_append, hopl]
          have hleft := run_expr chunk ctx symbol left hn.1 hp.1.2 pre
            (expr_code right ++ binary_op_code op ++ post) stk out (by simpa using hc)
            (by omega)
          simp only [instr_count, eager_eval, hf, hl]
          cases ha : eager_eval ctx left with
          | error s =>
              simp only [ha] at hleft ⊢
              rw [Nat.add_assoc]
              exact (hleft.mono _ (by omega)).error (instr_count right + 1)
          | ok a =>
              simp only [ha] at hleft ⊢
              have hright := run_expr chunk ctx symbol right hn.2 hp.2 (pre ++ expr_code left)
                (binary_op_code op ++ post) (a :: stk) out (by simpa using hc)
                (by simp only [List.length_cons]; omega)
              simp only [List.length_append] at hright
              rw [Nat.add_assoc]
              refine (hleft.mono _ (by omega)).bind rfl ?_
              cases hb : eager_eval ctx right with
              | error s =>
                  simp only [hb] at hright ⊢
                  exact (hright.mono _ (by omega)).error 1
              | ok b =>
                  simp only [hb] at hright ⊢
                  have hstep := step_binary chunk ctx symbol
                    (pre ++ expr_code left ++ expr_code right) post op f hf a b stk out
                    (by simpa using hc) (by omega)
                  simp only [List.length_append, hopl] at hstep
                  refine (hright.mono _ (by omega)).bind rfl (Runs.single _ ?_ (by simp only; omega))
                  rw [hstep]
                  simp only [Nat.add_assoc]
  | .unary op left, hn, hp, pre, post, stk, out, hc, hs => by
      simp only [names_resolve] at hn
      simp only [operators_placed, Bool.and_eq_true] at hp
      simp only [stack_need] at hs
      simp only [expr_code] at hc
      cases hf : unary_fn op with
      | none => simp [hf] at hp
      | some f =>
          have hopl := unary_op_code_length op f hf
          have hl : (expr_code (.unary op left)).length = (expr_code left).length + 1 := by
            simp only [expr_code, List.length_append, hopl]
          have hleft := run_expr chunk ctx symbol left hn hp.2 pre
            (unary_op_code op ++ post) stk out (by simpa using hc) (by omega)
          simp only [instr_count, eager_eval, hf, hl]
          cases ha : eager_eval ctx left with
          | error s =>
              simp only [ha] at hleft ⊢
              exact (hleft.mono _ (by omega)).error 1
          | ok a =>
              simp only [ha] at hleft ⊢
              have hpos := resolved_stack_need_pos left hn
              have hstep := step_unary chunk ctx symbol (pre ++ expr_code left) post op f hf a
                stk out (by simpa using hc) (by omega)
              simp only [List.length_append, hopl] at hstep
              refine (hleft.mono _ (by omega)).bind rfl (Runs.single _ ?_ (by simp only; omega))
              rw [hstep]
              simp only [Nat.add_assoc]
theorem run_args (chunk : Chunk) (ctx : VMContext) (symbol : String) :
    ∀ (es : List Expr), names_resolve_args es = true → operators_placed_args es = true →
    ∀ (pre post : List Nat) (stk : List Double) (out : List String),
      chunk.code = pre ++ args_code es ++ post →
      stk.length + stack_need_args es ≤ STACK_MAX →
      Runs chunk ctx symbol { stack := stk, ip := pre.length, out := out }
        (instr_count_args es) (pre.length + (args_code es).length)
        (match eager_args ctx es with
         | .ok vs => .ok { stack := vs.reverse ++ stk,
                           ip := pre.length + (args_code es).length, out := out }
         | .error s => .error s)
  | [], _, _, pre, post, stk, out, _, _ => by
      simp only [instr_count_args, args_code, eager_args, List.length_nil, Nat.add_zero,
        List.reverse_nil, List.nil_append]
      exact Runs.zero chunk ctx symbol _ _
  | e :: es, hn, hp, pre, post, stk, out, hc, hs => by
      simp only [names_resolve_args, Bool.and_eq_true] at hn
      simp only [operators_placed_args, Bool.and_eq_true] at hp
      simp only [stack_need_args] at hs
      simp only [args_code] at hc
      have hl : (args_code (e :: es)).length = (expr_code e).length + (args_code es).length := by
        simp [args_code]
      have hfirst := run_expr chunk ctx symbol e hn.1 hp.1 pre (args_code es ++ post) stk out
        (by simpa using hc) (by omega)
      simp only [instr_count_args, eager_args, hl]
      cases hv : eager_eval ctx e with
      | error s =>
          simp only [hv] at hfirst ⊢
          exact (hfirst.mono _ (by omega)).error _
      | ok v =>
          simp only [hv] at hfirst ⊢
          have hrest := run_args chunk ctx symbol es hn.2 hp.2 (pre ++ expr_code e) post
            (v :: stk) out (by simpa using hc) (by simp only [List.length_cons]; omega)
          simp only [List.length_append] at hrest
          refine (hfirst.mono _ (by omega)).bind rfl ?_
          cases hvs : eager_args ctx es with
          | error s =>
              simp only [hvs] at hrest ⊢
              exact hrest.mono _ (by omega)
          | ok vs =>
              simp only [hvs] at hrest ⊢
              have e1 : (v :: vs).reverse ++ stk = vs.reverse ++ v :: stk := by simp
              rw [e1, ← Nat.add_assoc]
              exact hrest.mono _ (by omega)
end

mutual
theorem compile_expr_resolves : ∀ (e : Expr) (c c1 : Chunk),
    compile_expr c e = .ok c1 → names_resolve e = true
  | .number _, _, _, _ => rfl
  | .ident name, c, c1, h => by
      simp only [compile_expr] at h
      simp only [names_resolve]
      cases hv : is_builtin_var name with
      | none => simp [hv] at h
      | some id => rfl
  | .string _, c, c1, h => by simp [compile_expr] at h
  | .call func_name args, c, c1, h => by
      simp only [compile_expr] at h
      simp only [names_resolve, Bool.and_eq_true]
      cases hf : is_builtin_func func_name with
      | none => simp [hf] at h
      | some f =>
          simp only [hf] at h
          cases ha : compile_args c args with
          | error m => simp [ha] at h
          | ok c2 => exact ⟨rfl, compile_args_resolves args c c2 ha⟩
  | .binary op left right, c, c1, h => by
      simp only [compile_expr] at h
      simp only [names_resolve, Bool.and_eq_true]
      cases hl : compile_expr c left with
      | error m => simp [hl] at h
      | ok c2 =>
          simp only [hl] at h
          cases hr : compile_expr c2 right with
          | error m => simp [hr] at h
          | ok c3 =>
              exact ⟨compile_expr_resolves left c c2 hl, compile_expr_resolves right c2 c3 hr⟩
  | .unary op left, c, c1, h => by
      simp only [compile_expr] at h
      simp only [names_resolve]
      cases hl : compile_expr c left with
      | error m => simp [hl] at h
      | ok c2 => exact compile_expr_resolves left c c2 hl
theorem compile_args_resolves : ∀ (es : List Expr) (c c1 : Chunk),
    compile_args c es = .ok c1 → names_resolve_args es = true
  | [], _, _, _ => rfl
  | e :: es, c, c1, h => by
      simp only [compile_args] at h
      simp only [names_resolve_args, Bool.and_eq_true]
      cases he : compile_expr c e with
      | error m => simp [he] at h
      | ok c2 =>
          simp only [he] at h
          exact ⟨compile_expr_resolves e c c2 he, compile_args_resolves es c2 c1 h⟩
end

theorem compile_rule_resolves (c c1 : Chunk) (r : Rule) (h : compile_rule c r = .ok c1) :
    names_resolve r.condition = true := by
  simp only [compile_rule] at h
  cases he : compile_expr c r.condition with
  | error m => simp [he] at h
  | ok c2 => exact compile_expr_resolves r.condition c c2 he

theorem compile_rules_resolve : ∀ (rs : List Rule) (c c1 : Chunk),
    compile_rules c rs = .ok c1 → ∀ r ∈ rs, names_resolve r.condition = true
  | [], _, _, _ => by simp
  | r :: rs, c, c1, h => by
      simp only [compile_rules] at h
      cases hr : compile_rule c r with
      | error m => simp [hr] at h
      | ok c2 =>
          simp only [hr] at h
          intro r1 h1
          simp only [List.mem_cons] at h1
          rcases h1 with rfl | h1
          · exact compile_rule_resolves c c2 r1 hr
          · exact compile_rules_resolve rs c2 c1 h r1 h1

theorem compile_program_resolves (p : Program) (chunk : Chunk)
    (h : compile_program p = .ok chunk) : ∀ r ∈ p.rules, names_resolve r.condition = true := by
  simp only [compile_program] at h
  cases hr : compile_rules init_chunk p.rules with
  | error m => simp [hr] at h
  | ok c2 => exact compile_rules_resolve p.rules init_chunk c2 hr

mutual
/-- Eager evaluation against the value of a condition: it yields the value where there is
    one, and fails at the arity guard of a call where there is none. -/
theorem eager_eval_spec (ctx : VMContext) : ∀ (e : Expr), names_resolve e = true →
    operators_placed e = true →
    match eager_eval ctx e with
    | .ok v => eval ctx e = some v
    | .error s => eval ctx e = none ∧ ∃ f, s = .exit (arity_message f)
  | .number value, _, _ => by simp [eager_eval, eval]
  | .ident name, hn, _ => by
      simp only [names_resolve] at hn
      cases hv : is_builtin_var name with
      | none => simp [hv] at hn
      | some id => simp [eager_eval, eval, hv]
  | .string _, hn, _ => by simp [names_resolve] at hn
  | .call func_name args, hn, hp => by
      simp only [names_resolve, Bool.and_eq_true] at hn
      simp only [operators_placed] at hp
      cases hf : is_builtin_func func_name with
      | none => simp [hf] at hn
      | some f =>
          have ih := eager_args_spec ctx args hn.2 hp
          simp only [eager_eval, eval, hf]
          cases hv : eager_args ctx args with
          | error s =>
              simp only [hv] at ih ⊢
              simp [ih.1, ih.2]
          | ok vals =>
              simp only [hv] at ih ⊢
              simp only [ih]
              cases hc : call_value f vals with
              | none => exact ⟨rfl, f, rfl⟩
              | some v => rfl
  | .binary op left right, hn, hp => by
      simp only [names_resolve, Bool.and_eq_true] at hn
      simp only [operators_placed, Bool.and_eq_true] at hp
      cases hf : binary_fn op with
      | none => simp [hf] at hp
      | some f =>
          have ihl := eager_eval_spec ctx left hn.1 hp.1.2
          have ihr := eager_eval_spec ctx right hn.2 hp.2
          simp only [eager_eval, eval, hf]
          cases ha : eager_eval ctx left with
          | error s =>
              simp only [ha] at ihl ⊢
              refine ⟨?_, ihl.2⟩
              simp [ihl.1]
          | ok a =>
              simp only [ha] at ihl ⊢
              cases hb : eager_eval ctx right with
              | error s =>
                  simp only [hb] at ihr ⊢
                  refine ⟨?_, ihr.2⟩
                  simp [ihl, ihr.1]
              | ok b =>
                  simp only [hb] at ihr ⊢
                  simp [ihl, ihr]
  | .unary op left, hn, hp => by
      simp only [names_resolve] at hn
      simp only [operators_placed, Bool.and_eq_true] at hp
      cases hf : unary_fn op with
      | none => simp [hf] at hp
      | some f =>
          have ihl := eager_eval_spec ctx left hn hp.2
          simp only [eager_eval, eval, hf]
          cases ha : eager_eval ctx left with
          | error s =>
              simp only [ha] at ihl ⊢
              refine ⟨?_, ihl.2⟩
              simp [ihl.1]
          | ok a =>
              simp only [ha] at ihl ⊢
              simp [ihl]
theorem eager_args_spec (ctx : VMContext) : ∀ (es : List Expr), names_resolve_args es = true →
    operators_placed_args es = true →
    match eager_args ctx es with
    | .ok vs => eval_args ctx es = some vs
    | .error s => eval_args ctx es = none ∧ ∃ f, s = .exit (arity_message f)
  | [], _, _ => by simp [eager_args, eval_args]
  | e :: es, hn, hp => by
      simp only [names_resolve_args, Bool.and_eq_true] at hn
      simp only [operators_placed_args, Bool.and_eq_true] at hp
      have ih1 := eager_eval_spec ctx e hn.1 hp.1
      have ih2 := eager_args_spec ctx es hn.2 hp.2
      simp only [eager_args, eval_args]
      cases hv : eager_eval ctx e with
      | error s =>
          simp only [hv] at ih1 ⊢
          refine ⟨?_, ih1.2⟩
          simp [ih1.1]
      | ok v =>
          simp only [hv] at ih1 ⊢
          cases hvs : eager_args ctx es with
          | error s =>
              simp only [hvs] at ih2 ⊢
              refine ⟨?_, ih2.2⟩
              simp [ih1, ih2.1]
          | ok vs =>
              simp only [hvs] at ih2 ⊢
              simp [ih1, ih2]
end

/-- Execution of the code of a rule from the start of its condition: when the condition
    has a value under eager evaluation, the run of `rule_steps r v` instructions reaches
    the byte after the rule with the stack as it was, having printed the line of the
    action exactly when the value is non-zero, and the instruction pointer is before that
    byte at every earlier step; otherwise the run stops inside the condition. -/
theorem run_rule (chunk : Chunk) (ctx : VMContext) (symbol : String) (r : Rule)
    (hn : names_resolve r.condition = true) (hp : operators_placed r.condition = true)
    (pre post : List Nat) (stk : List Double) (out : List String)
    (hc : chunk.code = pre ++ rule_code r ++ post)
    (hs : stk.length + stack_need r.condition ≤ STACK_MAX) :
    match eager_eval ctx r.condition with
    | .ok v =>
        vm_steps chunk ctx symbol (rule_steps r v)
            { stack := stk, ip := pre.length, out := out } =
          .ok { stack := stk, ip := pre.length + (rule_code r).length,
                out := out ++ rule_output symbol r v } ∧
        ∀ k, k < rule_steps r v → ∀ vmk,
          vm_steps chunk ctx symbol k { stack := stk, ip := pre.length, out := out } =
            .ok vmk → vmk.ip < pre.length + (rule_code r).length
    | .error s =>
        Runs chunk ctx symbol { stack := stk, ip := pre.length, out := out }
          (instr_count r.condition) (pre.length + (expr_code r.condition).length)
          (.error s) := by
  simp only [rule_code] at hc
  have hcond := run_expr chunk ctx symbol r.condition hn hp pre
    (OpCode.BC_JUMP_IF_FALSE.toByte :: int32_bytes (CInt.wrap 5) ++
      (action_opcode r.action.kind).toByte :: int32_bytes r.action.quantity ++ post) stk out
    (by simpa using hc) hs
  cases hv : eager_eval ctx r.condition with
  | error s =>
      simp only [hv] at hcond ⊢
      exact hcond
  | ok v =>
      simp only [hv] at hcond ⊢
      have hj := step_jump_if_false chunk ctx symbol (pre ++ expr_code r.condition)
        ((action_opcode r.action.kind).toByte :: int32_bytes r.action.quantity ++ post)
        (CInt.wrap 5) v stk out (by simpa using hc)
      have ht := step_trade chunk ctx symbol (pre ++ expr_code r.condition ++
        OpCode.BC_JUMP_IF_FALSE.toByte :: int32_bytes (CInt.wrap 5)) post r.action.kind
        r.action.quantity stk out (by simpa using hc)
      have hl5 : (int32_bytes (CInt.wrap 5)).length = 4 := rfl
      simp only [List.length_append, List.length_cons, hl5] at hj ht
      have hlen : (rule_code r).length = (expr_code r.condition).length + 10 := by
        simp [rule_code, int32_bytes]
      have h5 : (CInt.wrap 5).toInt = 5 := by decide
      rw [hlen]
      by_cases htr : Double.truthy v = true
      · have hsteps : rule_steps r v = instr_count r.condition + 2 := by
          simp [rule_steps, htr]
        rw [if_pos htr] at hj
        have h1 : vm_steps chunk ctx symbol (instr_count r.condition + 1)
            { stack := stk, ip := pre.length, out := out } =
            .ok { stack := stk, ip := pre.length + (expr_code r.condition).length + 5,
                  out := out } := by
          rw [vm_steps_add chunk ctx symbol _ 1 _ _ hcond.1, vm_steps_one, hj]
        rw [hsteps]
        refine ⟨?_, fun k hk vmk hvk => ?_⟩
        · have e : instr_count r.condition + 2 = instr_count r.condition + 1 + 1 := rfl
          rw [e, vm_steps_add chunk ctx symbol _ 1 _ _ h1, vm_steps_one, ht]
          simp [rule_output, htr, Nat.add_assoc]
        · rcases Nat.lt_or_ge k (instr_count r.condition) with hlt | hge
          · have := (hcond.2 k hlt vmk hvk).1
            omega
          · rcases Nat.eq_or_lt_of_le hge with heq | hgt
            · rw [← heq, hcond.1] at hvk
              cases hvk
              simp only
              omega
            · have hk1 : k = instr_count r.condition + 1 := by omega
              rw [hk1, h1] at hvk
              cases hvk
              simp only
              omega
      · have hsteps : rule_steps r v = instr_count r.condition + 1 := by
          simp [rule_steps, htr]
        rw [if_neg htr] at hj
        simp only [jump, h5] at hj
        have hnn : (0 : Int) ≤ ((pre.length + (expr_code r.condition).length + 5 : Nat) : Int)
            + 5 := by omega
        rw [if_pos hnn] at hj
        have e : (((pre.length + (expr_code r.condition).length + 5 : Nat) : Int) + 5).toNat =
            pre.length + ((expr_code r.condition).length + 10) := by omega
        rw [e] at hj
        rw [hsteps]
        refine ⟨?_, fun k hk vmk hvk => ?_⟩
        · rw [vm_steps_add chunk ctx symbol _ 1 _ _ hcond.1, vm_steps_one, hj]
          simp [rule_output, htr]
        · rcases Nat.lt_or_ge k (instr_count r.condition) with hlt | hge
          · have := (hcond.2 k hlt vmk hvk).1
            omega
          · have heq : k = instr_count r.condition := by omega
            rw [heq, hcond.1] at hvk
            cases hvk
            simp only
            omega

/-- C2 (amended): for every rule that `compile_rule` accepts whose condition has every
    operator in a node of its own arity and needs at most `STACK_MAX` stack slots, and
    every context, the execution of the bytes of the rule from an empty stack, wherever
    they stand in a chunk, goes one of two ways.  Either the condition has a value: then
    control reaches the byte after the rule, for the first time, after `rule_steps`
    instructions, with an empty stack, having printed exactly one trade line when the
    value is non-zero and none when it is zero.  Or the condition has no value, one of its
    calls having the wrong number of arguments: then the run exits at the arity guard
    inside the condition, control never reaches the byte after the rule and nothing is
    printed. -/
theorem rule_execution_leaves_stack_empty (r : Rule) (ctx : VMContext) (symbol : String)
    (c c1 : Chunk) (hc : compile_rule c r = .ok c1)
    (hp : operators_placed r.condition = true) (hs : stack_need r.condition ≤ STACK_MAX)
    (full : Chunk) (post : List Nat) (out : List String)
    (hfull : full.code = c1.code ++ post) :
    (∃ v, eval ctx r.condition = some v ∧
      vm_steps full ctx symbol (rule_steps r v) { stack := [], ip := c.count, out := out } =
        .ok { stack := [], ip := c1.count,
              out := out ++ (if Double.truthy v then
                [trade_line symbol r.action.kind r.action.quantity] else []) } ∧
      ∀ k, k < rule_steps r v → ∀ vm,
        vm_steps full ctx symbol k { stack := [], ip := c.count, out := out } = .ok vm →
          vm.ip < c1.count) ∨
    (eval ctx r.condition = none ∧
      ∃ f, vm_steps full ctx symbol (instr_count r.condition)
          { stack := [], ip := c.count, out := out } = .error (.exit (arity_message f)) ∧
        ∀ k vm, vm_steps full ctx symbol k { stack := [], ip := c.count, out := out } =
          .ok vm → vm.ip < c1.count ∧ vm.out = out) := by
  have hn := compile_rule_resolves c c1 r hc
  have hcode := compile_rule_code c c1 r hc
  have hrun := run_rule full ctx symbol r hn hp c.code post [] out (by rw [hfull, hcode])
    (by simpa using hs)
  have hspec := eager_eval_spec ctx r.condition hn hp
  have hcount : c1.count = c.code.length + (rule_code r).length := by
    simp [Chunk.count, hcode]
  have hlen : (rule_code r).length = (expr_code r.condition).length + 10 := by
    simp [rule_code, int32_bytes]
  cases hv : eager_eval ctx r.condition with
  | ok v =>
      simp only [hv] at hrun hspec
      left
      refine ⟨v, hspec, ?_, ?_⟩
      · rw [hcount]
        exact hrun.1
      · rw [hcount]
        exact hrun.2
  | error s =>
      simp only [hv] at hrun hspec
      obtain ⟨hnone, f, rfl⟩ := hspec
      right
      refine ⟨hnone, f, hrun.1, fun k vm hk => ?_⟩
      rcases Nat.lt_or_ge k (instr_count r.condition) with hlt | hge
      · have := hrun.2 k hlt vm hk
        simp only at this
        refine ⟨?_, this.2⟩
        rw [hcount, hlen]
        omega
      · obtain ⟨j, rfl⟩ : ∃ j, k = instr_count r.condition + j :=
          ⟨k - instr_count r.condition, by omega⟩
        have hk2 : vm_steps full ctx symbol (instr_count r.condition + j)
            { stack := [], ip := c.code.length, out := out } = .ok vm := hk
        rw [vm_steps_error_add full ctx symbol _ j _ _ hrun.1] at hk2
        cases hk2

/-- The rule `if close > 100 then buy 10 end`, whose condition has the value 1 on the
    example candle, and the rule `if rsi() then buy 1 end`, whose condition has none. -/
theorem rule_execution_leaves_stack_empty_witness :
    (∃ c1, compile_rule init_chunk close_above_100_rule = .ok c1 ∧
      operators_placed close_above_100_rule.condition = true ∧
      stack_need close_above_100_rule.condition ≤ STACK_MAX ∧
      eval example_context close_above_100_rule.condition = some (Double.ofInt 1) ∧
      ∃ v, eval example_context close_above_100_rule.condition = some v ∧
        vm_steps c1 example_context "X" (rule_steps close_above_100_rule v)
            { stack := [], ip := init_chunk.count, out := [] } =
          .ok { stack := [], ip := c1.count,
                out := [] ++ (if Double.truthy v then
                  [trade_line "X" close_above_100_rule.action.kind
                    close_above_100_rule.action.quantity] else []) }) ∧
    (∃ c1, compile_rule init_chunk rsi_without_argument_rule = .ok c1 ∧
      operators_placed rsi_without_argument_rule.condition = true ∧
      stack_need rsi_without_argument_rule.condition ≤ STACK_MAX ∧
      eval example_context rsi_without_argument_rule.condition = none ∧
      ∃ f, vm_steps c1 example_context "X" (instr_count rsi_without_argument_rule.condition)
          { stack := [], ip := init_chunk.count, out := [] } =
            .error (.exit (arity_message f)) ∧
        ∀ k vm, vm_steps c1 example_context "X" k
            { stack := [], ip := init_chunk.count, out := [] } = .ok vm →
          vm.ip < c1.count ∧ vm.out = []) := by
  constructor
  · obtain ⟨c1, hc1⟩ : ∃ c1, compile_rule init_chunk close_above_100_rule = .ok c1 :=
      ⟨_, rfl⟩
    have hv1 : eval example_context close_above_100_rule.condition =
        some (Double.ofInt 1) := by decide
    refine ⟨c1, hc1, by decide, by decide, hv1, ?_⟩
    have h := rule_execution_leaves_stack_empty close_above_100_rule example_context "X"
      init_chunk c1 hc1 (by decide) (by decide) c1 [] [] (List.append_nil _).symm
    rcases h with ⟨v, hv, hrun, _⟩ | ⟨hnone, _⟩
    · exact ⟨v, hv, hrun⟩
    · rw [hv1] at hnone
      cases hnone
  · obtain ⟨c1, hc1⟩ : ∃ c1, compile_rule init_chunk rsi_without_argument_rule = .ok c1 :=
      ⟨_, rfl⟩
    have hv1 : eval example_context rsi_without_argument_rule.condition = none := by decide
    refine ⟨c1, hc1, by decide, by decide, hv1, ?_⟩
    have h := rule_execution_leaves_stack_empty rsi_without_argument_rule example_context "X"
      init_chunk c1 hc1 (by decide) (by decide) c1 [] [] (List.append_nil _).symm
    rcases h with ⟨v, hv, _⟩ | ⟨_, h2⟩
    · rw [hv1] at hv
      cases hv
    · exact h2

/-- C2 as stated fails on two rules `compile_rule` accepts.  The rule
    `misplaced_operator_rule` has a binary node carrying `not`, for which `compile_binary`
    emits no opcode: both operands are pushed, the jump pops one, the action is printed,
    and control reaches the byte after the rule with a value left on the stack.  The rule
    `deep_rule` has a condition that needs 257 stack slots: its run stops at a push onto
    the full stack, whose effect C leaves undefined, before the byte after the rule. -/
theorem rule_may_leave_a_value_or_overflow :
    (∃ c1, compile_rule init_chunk misplaced_operator_rule = .ok c1 ∧ c1.count = 28 ∧
      vm_steps c1 example_context "S" 4 { stack := [], ip := 0, out := [] } =
        .ok { stack := [Double.ofInt 1], ip := 28, out := ["SYMBOL S: BUY 1"] } ∧
      ∀ k, k < 4 → ∀ vm,
        vm_steps c1 example_context "S" k { stack := [], ip := 0, out := [] } = .ok vm →
          vm.ip < 28) ∧
    ∃ c1, compile_rule init_chunk deep_rule = .ok c1 ∧
      stack_need deep_rule.condition = 257 ∧
      ∃ n, ∀ fuel, n ≤ fuel →
        vm_loop c1 example_context "S" fuel { stack := [], ip := 0, out := [] } =
          some (.undefined "push onto a full stack", []) := by
  constructor
  · refine ⟨_, rfl, rfl, rfl, fun k hk vm hvm => ?_⟩
    interval_cases k <;> (cases hvm; decide)
  · have hw := deep_sum_well_formed 256
    obtain ⟨c0, hc0⟩ := compile_expr_well_formed (deep_sum 256) hw init_chunk
    have hok : ∃ c1, compile_rule init_chunk deep_rule = .ok c1 := by
      simp [compile_rule, deep_rule, hc0]
    obtain ⟨c1, hc1⟩ := hok
    refine ⟨c1, hc1, deep_sum_stack_need 256, ?_⟩
    have hcode := compile_rule_code init_chunk c1 deep_rule hc1
    have hov := overflow_expr c1 example_context "S" (deep_sum 256) hw []
      (OpCode.BC_JUMP_IF_FALSE.toByte :: int32_bytes (CInt.wrap 5) ++
        (action_opcode .STMT_BUY).toByte :: int32_bytes (CInt.wrap 1)) [] []
      (by simpa [deep_rule, rule_code, init_chunk] using hcode)
      (by simp [STACK_MAX]) (by simp [deep_sum_stack_need, STACK_MAX])
    obtain ⟨n, hn⟩ := hov
    refine ⟨n, fun fuel hf => ?_⟩
    obtain ⟨k, rfl⟩ : ∃ k, fuel = n + k := ⟨fuel - n, by omega⟩
    exact hn k

theorem vm_loop_of_error (chunk : Chunk) (ctx : VMContext) (symbol : String) :
    ∀ (n : Nat) (vm : VM) (limit : Nat) (s : Stop),
      Runs chunk ctx symbol vm n limit (.error s) →
      ∀ k, vm_loop chunk ctx symbol (n + k) vm = some (s, vm.out)
  | 0, vm, limit, s, h => by
      have := h.1
      simp [vm_steps] at this
  | n + 1, vm, limit, s, h => by
      intro k
      have e : n + 1 + k = (n + k) + 1 := by omega
      rw [e]
      have h1 := h.1
      simp only [vm_steps] at h1
      simp only [vm_loop]
      cases hs : vm_step chunk ctx symbol vm with
      | error s1 =>
          simp only [hs, Except.error.injEq] at h1
          rw [h1]
      | ok vm2 =>
          simp only [hs] at h1 ⊢
          have hn : 0 < n := by
            cases n with
            | zero => simp [vm_steps] at h1
            | succ m => omega
          have hout : vm2.out = vm.out := by
            have := h.2 1 (by omega) vm2 (by rw [vm_steps_one, hs])
            exact this.2
          have hruns : Runs chunk ctx symbol vm2 n limit (.error s) := by
            refine ⟨h1, fun j hj vmj hvj => ?_⟩
            have := h.2 (j + 1) (by omega) vmj (by simp only [vm_steps, hs]; exact hvj)
            exact ⟨this.1, by rw [this.2, hout]⟩
          rw [vm_loop_of_error chunk ctx symbol n vm2 limit s hruns k, hout]

/-- The run of the code of a rule list followed by `Halt`, from the start of the first
    rule with an empty stack, ends as the eager evaluation of the rules does. -/
theorem run_rules (chunk : Chunk) (ctx : VMContext) (symbol : String) :
    ∀ (rs : List Rule), (∀ r ∈ rs, names_resolve r.condition = true) →
      (∀ r ∈ rs, operators_placed r.condition = true) →
      (∀ r ∈ rs, stack_need r.condition ≤ STACK_MAX) →
      ∀ (pre post : List Nat) (out : List String),
        chunk.code = pre ++ rules_code rs ++ OpCode.BC_HALT.toByte :: post →
        ∃ n, ∀ k, vm_loop chunk ctx symbol (n + k)
            { stack := [], ip := pre.length, out := out } =
          some (eager_run ctx symbol rs out)
  | [], _, _, _, pre, post, out, hc => by
      refine ⟨1, fun k => ?_⟩
      have hh := step_halt chunk ctx symbol pre post [] out (by simpa [rules_code] using hc)
      rw [vm_loop_stop chunk ctx symbol _ _ hh k]
      rfl
  | r :: rs, hn, hp, hs, pre, post, out, hc => by
      simp only [rules_code] at hc
      have hr := run_rule chunk ctx symbol r (hn r (by simp)) (hp r (by simp)) pre
        (rules_code rs ++ OpCode.BC_HALT.toByte :: post) [] out (by simpa using hc)
        (by simpa using hs r (by simp))
      simp only [eager_run]
      cases hv : eager_eval ctx r.condition with
      | error s =>
          simp only [hv] at hr ⊢
          exact ⟨instr_count r.condition, vm_loop_of_error chunk ctx symbol _ _ _ s hr⟩
      | ok v =>
          simp only [hv] at hr ⊢
          obtain ⟨n, hrest⟩ := run_rules chunk ctx symbol rs
            (fun r1 h1 => hn r1 (by simp [h1])) (fun r1 h1 => hp r1 (by simp [h1]))
            (fun r1 h1 => hs r1 (by simp [h1])) (pre ++ rule_code r) post
            (out ++ rule_output symbol r v) (by simpa using hc)
          refine ⟨rule_steps r v + n, fun k => ?_⟩
          rw [Nat.add_assoc, vm_loop_steps chunk ctx symbol _ _ _ _ hr.1]
          simp only [List.length_append] at hrest
          rw [hrest k]
          rfl

mutual
/-- Where no skipped operand fails, eager and short-circuit evaluation agree, on values
    and on failures. -/
theorem eager_eq_short_circuit (ctx : VMContext) : ∀ (e : Expr),
    skipped_operands_succeed ctx e = true → eager_eval ctx e = short_circuit_eval ctx e
  | .number _, _ => by simp [eager_eval, short_circuit_eval]
  | .ident name, _ => by
      simp only [eager_eval, short_circuit_eval]
  | .string _, _ => by simp [eager_eval, short_circuit_eval]
  | .call func_name args, h => by
      simp only [skipped_operands_succeed] at h
      simp only [eager_eval, short_circuit_eval, eager_args_eq_short_circuit ctx args h]
  | .binary op left right, h => by
      simp only [skipped_operands_succeed, Bool.and_eq_true] at h
      have ihl := eager_eq_short_circuit ctx left h.1
      simp only [eager_eval, short_circuit_eval, ihl]
      cases ha : short_circuit_eval ctx left with
      | error s => rfl
      | ok a =>
          have h2 := h.2
          simp only [ha] at h2 ⊢
          by_cases hand : op = .OP_AND_OP ∧ Double.truthy a = false
          · rw [if_pos (Or.inl hand)] at h2
            rw [if_pos hand]
            cases hb : eager_eval ctx right with
            | error s => simp [hb] at h2
            | ok b =>
                simp only [hand.1, binary_fn, hand.2, Bool.false_and]
          · rw [if_neg hand]
            by_cases hor : op = .OP_OR_OP ∧ Double.truthy a = true
            · rw [if_pos (Or.inr hor)] at h2
              rw [if_pos hor]
              cases hb : eager_eval ctx right with
              | error s => simp [hb] at h2
              | ok b =>
                  simp only [hor.1, binary_fn, hor.2, Bool.true_or]
            · rw [if_neg hor]
              rw [if_neg (by tauto)] at h2
              rw [eager_eq_short_circuit ctx right h2]
  | .unary op left, h => by
      simp only [skipped_operands_succeed] at h
      simp only [eager_eval, short_circuit_eval, eager_eq_short_circuit ctx left h]
theorem eager_args_eq_short_circuit (ctx : VMContext) : ∀ (es : List Expr),
    skipped_arguments_succeed ctx es = true → eager_args ctx es = short_circuit_args ctx es
  | [], _ => by simp [eager_args, short_circuit_args]
  | e :: es, h => by
      simp only [skipped_arguments_succeed, Bool.and_eq_true] at h
      have ih := eager_eq_short_circuit ctx e h.1
      simp only [eager_args, short_circuit_args, ih]
      cases hv : short_circuit_eval ctx e with
      | error s => rfl
      | ok v =>
          have h2 := h.2
          simp only [hv] at h2 ⊢
          rw [eager_args_eq_short_circuit ctx es h2]
end

theorem eager_run_eq_short_circuit (ctx : VMContext) (symbol : String) :
    ∀ (rs : List Rule) (out : List String), skipped_operands_succeed_in ctx rs = true →
      eager_run ctx symbol rs out = short_circuit_run ctx symbol rs out
  | [], out, _ => rfl
  | r :: rs, out, h => by
      simp only [skipped_operands_succeed_in, Bool.and_eq_true] at h
      simp only [eager_run, short_circuit_run, eager_eq_short_circuit ctx r.condition h.1]
      cases hv : short_circuit_eval ctx r.condition with
      | error s => rfl
      | ok v =>
          have h2 := h.2
          simp only [hv] at h2 ⊢
          exact eager_run_eq_short_circuit ctx symbol rs _ h2

theorem eager_run_stop (ctx : VMContext) (symbol : String) :
    ∀ (rs : List Rule) (out : List String),
      (∀ r ∈ rs, names_resolve r.condition = true) →
      (∀ r ∈ rs, operators_placed r.condition = true) →
      (eager_run ctx symbol rs out).1 = .halt ∨
        ∃ f, (eager_run ctx symbol rs out).1 = .exit (arity_message f)
  | [], out, _, _ => Or.inl rfl
  | r :: rs, out, hn, hp => by
      have hspec := eager_eval_spec ctx r.condition (hn r (by simp)) (hp r (by simp))
      simp only [eager_run]
      cases hv : eager_eval ctx r.condition with
      | error s =>
          simp only [hv] at hspec ⊢
          obtain ⟨_, f, rfl⟩ := hspec
          exact Or.inr ⟨f, rfl⟩
      | ok v =>
          simp only
          exact eager_run_stop ctx symbol rs _ (fun r1 h1 => hn r1 (by simp [h1]))
            (fun r1 h1 => hp r1 (by simp [h1]))

/-- C21 (amended): for every program that `compile_program` accepts, in which every
    operator stands in a node of its own arity and every condition needs at most
    `STACK_MAX` stack slots, and for every context in which no operand that
    short-circuit evaluation skips fails when it is evaluated, running the chunk, which
    computes both operands of every `and` and `or`, ends as short-circuit evaluation of
    the same rules does: with the same trade lines in the same order, and with the same
    success (`Halt`) or failure (the exit of an arity guard).  With the same hypotheses
    but for the skipped operands, the run ends as the eager evaluation of the rules
    does. -/
theorem eager_run_matches_short_circuit (program : Program) (chunk : Chunk)
    (ctx : VMContext) (hc : compile_program program = .ok chunk)
    (hp : ∀ r ∈ program.rules, operators_placed r.condition = true)
    (hs : ∀ r ∈ program.rules, stack_need r.condition ≤ STACK_MAX) :
    (∃ n, ∀ fuel, n ≤ fuel → run_chunk fuel chunk ctx program.symbol =
      some (eager_run ctx program.symbol program.rules [])) ∧
    (skipped_operands_succeed_in ctx program.rules = true →
      (∃ n, ∀ fuel, n ≤ fuel → run_chunk fuel chunk ctx program.symbol =
        some (short_circuit_run ctx program.symbol program.rules [])) ∧
      ((short_circuit_run ctx program.symbol program.rules []).1 = .halt ∨
        ∃ f, (short_circuit_run ctx program.symbol program.rules []).1 =
          .exit (arity_message f))) ∧
    (∀ (op : OpKind) (left right : Expr) (c c1 : Chunk), op = .OP_AND_OP ∨ op = .OP_OR_OP →
      compile_expr c (.binary op left right) = .ok c1 →
      c1.code = c.code ++ expr_code left ++ expr_code right ++ binary_op_code op ∧
      (binary_op_code op).length = 1) := by
  have hcode := compile_program_code program chunk hc
  have hn := compile_program_resolves program chunk hc
  obtain ⟨n, hrun⟩ := run_rules chunk ctx program.symbol program.rules hn hp hs [] [] []
    (by simpa using hcode)
  have heager : ∀ fuel, n ≤ fuel → run_chunk fuel chunk ctx program.symbol =
      some (eager_run ctx program.symbol program.rules []) := by
    intro fuel hf
    obtain ⟨k, rfl⟩ : ∃ k, fuel = n + k := ⟨fuel - n, by omega⟩
    exact hrun k
  refine ⟨⟨n, heager⟩, fun hk => ?_, fun op left right c c1 hop h => ?_⟩
  · have e := eager_run_eq_short_circuit ctx program.symbol program.rules [] hk
    rw [← e]
    exact ⟨⟨n, heager⟩, eager_run_stop ctx program.symbol program.rules [] hn hp⟩
  · have := compile_expr_code _ c c1 h
    refine ⟨by simpa [expr_code] using this, ?_⟩
    rcases hop with rfl | rfl <;> rfl

/-- The program `late_arity_error_program` on the example candle: no operand is skipped,
    and the compiled run prints `SELL 2` and then exits at the arity guard of `sma`, as
    short-circuit evaluation does. -/
theorem eager_run_matches_short_circuit_witness :
    short_circuit_run example_context late_arity_error_program.symbol
        late_arity_error_program.rules [] =
      (.exit "sma expects 2 args", ["SYMBOL \"X\": SELL 2"]) ∧
    (∀ r ∈ late_arity_error_program.rules, operators_placed r.condition = true) ∧
    (∀ r ∈ late_arity_error_program.rules, stack_need r.condition ≤ STACK_MAX) ∧
    skipped_operands_succeed_in example_context late_arity_error_program.rules = true ∧
    ∃ chunk, compile_program late_arity_error_program = .ok chunk ∧
      ∃ n, ∀ fuel, n ≤ fuel →
        run_chunk fuel chunk example_context late_arity_error_program.symbol =
          some (short_circuit_run example_context late_arity_error_program.symbol
            late_arity_error_program.rules []) := by
  obtain ⟨chunk, hc⟩ : ∃ chunk, compile_program late_arity_error_program = .ok chunk :=
    ⟨_, rfl⟩
  have hp : ∀ r ∈ late_arity_error_program.rules, operators_placed r.condition = true := by
    decide
  have hs : ∀ r ∈ late_arity_error_program.rules, stack_need r.condition ≤ STACK_MAX := by
    decide
  have hk : skipped_operands_succeed_in example_context late_arity_error_program.rules =
      true := by decide
  exact ⟨by decide, hp, hs, hk, chunk, hc,
    ((eager_run_matches_short_circuit late_arity_error_program chunk example_context hc hp
      hs).2.1 hk).1⟩
